import Mathlib

/-!
# Connect-four board, heuristic evaluator and minimax solver

A shallow embedding of `src/connectFourAssets/board.cpp`,
`src/sequentialSolver/sequentialSolver.cpp` and `src/mpSolver/boardMp.cpp`, followed by
the properties proved about it.

Conventions of the embedding.

* `uint_fast8_t` is taken to be 8 bits wide (as on glibc); the fields `width`,
  `height`, `winningStreakSize` and the entries of `next_row` are natural
  numbers, and `Board.WF` records that they fit in 8 bits.  Where the source
  narrows a wider value to `uint_fast8_t` the embedding writes `% 256`.
* `int` is 32 bits wide: `INT_MAX = 2^31 - 1`, `INT_MIN = -2^31`.  `uint32_t`
  arithmetic that can wrap is written with an explicit `% 2^32`.
* The cell array `board` is a list in row-major order; `Board.cell` reads it.
  Reads outside the list do not occur on well-formed boards (they would be
  undefined behaviour in the source); the accessor returns `Empty` there.
* Mutating member functions return the new object next to their result.
-/

namespace Connect4

/-! ## Data model (`slotStatus.hpp`, `player.hpp`, `board.hpp`) -/

/-- Occupancy of one grid cell: `enum class SlotStatus`. -/
inductive SlotStatus where
  | Empty
  | Red
  | Yellow
deriving DecidableEq, Repr

/-- The players: `enum class Player`. -/
inductive Player where
  | None
  | Red
  | Yellow
deriving DecidableEq, Repr

/-- The data members of `class Board`. -/
structure Board where
  board : List SlotStatus
  next_row : List Nat
  width : Nat
  height : Nat
  winningStreakSize : Nat
  isGameOver : Bool
  winner : Player
deriving DecidableEq, Repr

namespace Board

/-- Read of `this->board[i]`. -/
def cell (b : Board) (i : Nat) : SlotStatus :=
  b.board.getD i SlotStatus.Empty

/-- Read of `this->next_row[c]`. -/
def nextRow (b : Board) (c : Nat) : Nat :=
  b.next_row.getD c 0

/-- What every `Board` object satisfies: the dimensions fit in `uint_fast8_t`,
the constructor's loop over `width*height` cells (counted in a `uint_fast8_t`)
has terminated, the two arrays have the allocated sizes, and the private
`next_row` entries never exceed `height`. -/
def WF (b : Board) : Prop :=
  b.width < 256 ∧ b.height < 256 ∧ b.winningStreakSize < 256 ∧
  b.width * b.height ≤ 255 ∧
  b.board.length = b.width * b.height ∧
  b.next_row.length = b.width ∧
  ∀ x ∈ b.next_row, x ≤ b.height

instance (b : Board) : Decidable b.WF := by
  unfold WF; infer_instance

/-- The constructor `Board::Board(width, height, winningStreakSize)`.  Its first loop
counts the `width*height` cells in a `uint_fast8_t` and so returns only when
`width*height ≤ 255`. -/
def create (width height winningStreakSize : Nat) : Board :=
  { board := List.replicate (width * height) SlotStatus.Empty
    next_row := List.replicate width 0
    width := width
    height := height
    winningStreakSize := winningStreakSize
    isGameOver := false
    winner := Player.None }

/-- Model of `Board::getPlayerColor`. -/
def getPlayerColor (player : Player) : SlotStatus :=
  if player = Player.Red then SlotStatus.Red
  else if player = Player.Yellow then SlotStatus.Yellow
  else SlotStatus.Empty

/-- Model of `Board::oppPlayer`. -/
def oppPlayer (player : Player) : Player :=
  if player = Player.Red then Player.Yellow else Player.Red

/-- One of the four inner loops `for (i = 1; i < winningStreakSize; i++)` of
`determineIfPlayerIsWinner`; `idx i` is the index read at step `i`, the list
holds the remaining values of `i`, and the loop stops at the first mismatch. -/
def streakLoop (b : Board) (slotToCheck : SlotStatus) (idx : Nat → Nat) :
    List Nat → Bool → Bool
  | [], return_val => return_val
  | i :: rest, return_val =>
    let nextInStreak := b.cell (idx i)
    let return_val1 :=
      if (i : Int) = (b.winningStreakSize : Int) - 1 ∧ nextInStreak = slotToCheck
      then true else return_val
    if nextInStreak ≠ slotToCheck then return_val1
    else streakLoop b slotToCheck idx rest return_val1

/-- Body of the double loop of `determineIfPlayerIsWinner` for the cell at
row `r`, column `c`.  The comparisons on `width - winningStreakSize` are made
in `int`, as the integer promotions of the source do. -/
def winnerCell (b : Board) (slotStatusToCheck : SlotStatus) (r c : Nat)
    (return_val : Bool) : Bool :=
  let slotToCheck := b.cell (b.width * r + c)
  let steps := List.range' 1 (b.winningStreakSize - 1)
  if slotToCheck = slotStatusToCheck then
    let rv1 :=
      if (c : Int) ≤ (b.width : Int) - (b.winningStreakSize : Int) then
        streakLoop b slotToCheck (fun i => b.width * r + c + i) steps return_val
      else return_val
    if (r : Int) ≤ (b.height : Int) - (b.winningStreakSize : Int) then
      let rv2 := streakLoop b slotToCheck (fun i => b.width * (r + i) + c) steps rv1
      let rv3 :=
        if (c : Int) ≤ (b.width : Int) - (b.winningStreakSize : Int) then
          streakLoop b slotToCheck (fun i => b.width * (r + i) + (c + i)) steps rv2
        else rv2
      if (c : Int) ≥ (b.winningStreakSize : Int) - 1 then
        streakLoop b slotToCheck (fun i => b.width * (r + i) + (c - i)) steps rv3
      else rv3
    else rv1
  else return_val

/-- Model of `Board::determineIfPlayerIsWinner`. -/
def determineIfPlayerIsWinner (b : Board) (player : Player) : Bool :=
  if player = Player.None then false
  else
    let slotStatusToCheck :=
      if player = Player.Red then SlotStatus.Red else SlotStatus.Yellow
    (List.range b.height).foldl
      (fun return_val r =>
        (List.range b.width).foldl
          (fun return_val c => winnerCell b slotStatusToCheck r c return_val)
          return_val)
      false

/-- Model of `Board::DetermineWinner`. -/
def DetermineWinner (b : Board) : Player :=
  let redIsWinner := b.determineIfPlayerIsWinner Player.Red
  let yellowIsWinner := b.determineIfPlayerIsWinner Player.Yellow
  if redIsWinner && yellowIsWinner then Player.None
  else if redIsWinner then Player.Red
  else if yellowIsWinner then Player.Yellow
  else Player.None

/-- Model of `Board::IsFull`; `totalSlots` is a `uint_fast8_t`. -/
def IsFull (b : Board) : Bool :=
  let totalSlots := (b.width * b.height) % 256
  (List.range totalSlots).all (fun i => b.cell i != SlotStatus.Empty)

/-! ### Heuristic evaluation (`EvaluateBoard`, `checkStreak` and its scanners)

The scanners keep `current_streak` and `count` in `uint32_t`.  Both only count loop
iterations, of which there are fewer than `2^32` because the dimensions are below 256,
so they cannot wrap and are natural numbers here.  The `int streak` argument is
converted to `uint32_t` by the comparison `current_streak == streak`. -/

/-- Conversion of an `int` to `uint32_t`. -/
def toUInt32 (x : Int) : Nat := (x % 4294967296).toNat

/-- Conversion of a `uint32_t` value to `int`. -/
def toInt32 (x : Int) : Int :=
  if x % 4294967296 < 2147483648 then x % 4294967296 else x % 4294967296 - 4294967296

/-- The constant `INT_MAX` of `<climits>`. -/
def INT_MAX : Int := 2147483647

/-- The constant `INT_MIN` of `<climits>`. -/
def INT_MIN : Int := -2147483648

/-- The statement shared by all scanners, on the pair `(current_streak, count)`:
`if (cell == color) current_streak++; else { if (current_streak == streak) count++;
current_streak = 0; }`, where `isColor` is the outcome of `cell == color`. -/
def streakStep (streak : Nat) (st : Nat × Nat) (isColor : Bool) : Nat × Nat :=
  if isColor then (st.1 + 1, st.2)
  else (0, if st.1 = streak then st.2 + 1 else st.2)

/-- The two statements after an inner loop:
`if (current_streak == streak) count++; current_streak = 0;`. -/
def streakClose (streak : Nat) (st : Nat × Nat) : Nat × Nat :=
  (0, if st.1 = streak then st.2 + 1 else st.2)

/-- Model of `Board::checkHorzStreak`. -/
def checkHorzStreak (b : Board) (color : SlotStatus) (streak : Int) : Nat :=
  ((List.range b.height).foldl
    (fun st i =>
      streakClose (toUInt32 streak)
        ((List.range b.width).foldl
          (fun st j => streakStep (toUInt32 streak) st (b.cell (b.width * i + j) == color))
          st))
    (0, 0)).2

/-- Model of `Board::checkVertStreak`. -/
def checkVertStreak (b : Board) (color : SlotStatus) (streak : Int) : Nat :=
  ((List.range b.width).foldl
    (fun st j =>
      streakClose (toUInt32 streak)
        ((List.range b.height).foldl
          (fun st i => streakStep (toUInt32 streak) st (b.cell (b.width * i + j) == color))
          st))
    (0, 0)).2

/-- The first inner loop of `checkDiagStreak` from the cell at row `i`, column `j`:
`k = 1 .. width-1`, cells `(i+k, j+k)` when inside the grid. -/
def diagWalkUp (b : Board) (color : SlotStatus) (streak : Nat) (i j : Nat)
    (st : Nat × Nat) : Nat × Nat :=
  (List.range' 1 (b.width - 1)).foldl
    (fun st (k : Nat) =>
      if i + k < b.height ∧ j + k < b.width then
        streakStep streak st (b.cell (b.width * (i + k) + (j + k)) == color)
      else st)
    st

/-- The second inner loop of `checkDiagStreak` from the cell at row `i`, column `j`:
`k = 1 .. width-1`, cells `(i-k, j-k)` when `i - k >= 0` and `j - k >= 0` (in `int`). -/
def diagWalkDown (b : Board) (color : SlotStatus) (streak : Nat) (i j : Nat)
    (st : Nat × Nat) : Nat × Nat :=
  (List.range' 1 (b.width - 1)).foldl
    (fun st (k : Nat) =>
      if (i : Int) - (k : Int) ≥ 0 ∧ (j : Int) - (k : Int) ≥ 0 then
        streakStep streak st (b.cell (b.width * (i - k) + (j - k)) == color)
      else st)
    st

/-- Model of `Board::checkDiagStreak`. -/
def checkDiagStreak (b : Board) (color : SlotStatus) (streak : Int) : Nat :=
  ((List.range b.height).foldl
    (fun st i =>
      (List.range b.width).foldl
        (fun st j =>
          if b.cell (b.width * i + j) = color then
            streakClose (toUInt32 streak)
              (diagWalkDown b color (toUInt32 streak) i j
                (streakClose (toUInt32 streak)
                  (diagWalkUp b color (toUInt32 streak) i j st)))
          else st)
        st)
    (0, 0)).2

/-- Model of `Board::checkStreak`. -/
def checkStreak (b : Board) (color : SlotStatus) (streak : Int) : Nat :=
  b.checkHorzStreak color streak + b.checkVertStreak color streak
    + b.checkDiagStreak color streak

/-- The values taken by `streak` in the loop
`for (int streak = winningStreakSize; streak >= 2; streak--)` of `EvaluateBoard`. -/
def streakValues (b : Board) : List Int :=
  ((List.range' 2 (b.winningStreakSize - 1)).reverse).map (fun (k : Nat) => (k : Int))

/-- The colour `EvaluateBoard` counts against the player.  For `Player::None` the
source leaves the variable uninitialised; `Empty` stands for it here. -/
def colorAgainst (player : Player) : SlotStatus :=
  if player = Player.Red then SlotStatus.Yellow
  else if player = Player.Yellow then SlotStatus.Red
  else SlotStatus.Empty

/-- The accumulation loop of `EvaluateBoard`, in `uint32_t` arithmetic:
`score += (score_for - score_against) * streak * streak * streak`. -/
def scoreLoop (b : Board) (color_for color_against : SlotStatus) : List Int → Int → Int
  | [], score => score
  | streak :: rest, score =>
    let score_for : Int := b.checkStreak color_for streak
    let score_against : Int := b.checkStreak color_against streak
    let diff := (score_for - score_against) % 4294967296
    let term := diff * (toUInt32 streak) % 4294967296 * (toUInt32 streak) % 4294967296
      * (toUInt32 streak) % 4294967296
    scoreLoop b color_for color_against rest ((score + term) % 4294967296)

/-- Model of `Board::EvaluateBoard`. -/
def EvaluateBoard (b : Board) (player : Player) : Int :=
  let color_for := getPlayerColor player
  let color_against := colorAgainst player
  let winner := b.DetermineWinner
  if winner = player then INT_MAX
  else if winner = oppPlayer player then INT_MIN
  else toInt32 (scoreLoop b color_for color_against b.streakValues 0)

/-- Model of `Board::isLegalMove`; called with `0 <= index < width*height` only. -/
def isLegalMove (b : Board) (index : Nat) : Bool :=
  if b.cell index ≠ SlotStatus.Empty then false
  else
    let row := index / b.width
    if (row : Int) = (b.height : Int) - 1 then true
    else if b.cell (index + b.width) = SlotStatus.Empty then false
    else true

/-- The two writes of `AddPiece` (the cell store and `next_row[column] += 1`, the
latter in `uint_fast8_t`). -/
def dropPiece (b : Board) (player : Player) (column : Nat) : Board :=
  { b with
    board := b.board.set (b.width * b.nextRow column + column)
      (if player = Player.Red then SlotStatus.Red else SlotStatus.Yellow)
    next_row := b.next_row.set column ((b.nextRow column + 1) % 256) }

/-- Model of `Board::AddPiece`, returning the result code and the board afterwards. -/
def AddPiece (b : Board) (player : Player) (column : Nat) : Int × Board :=
  if b.isGameOver then (1, b)
  else if column ≥ b.width then (1, b)
  else if b.nextRow column ≥ b.height then (1, b)
  else
    let b2 := b.dropPiece player column
    let isFull := b2.IsFull
    let isWinner := b2.determineIfPlayerIsWinner player
    (0, { b2 with
          winner := if isWinner then player else b2.winner
          isGameOver := isFull || isWinner })

/-- Model of `Board::Reset`; the loop counter and `totalSlots` are `uint_fast8_t`. -/
def Reset (b : Board) : Board :=
  { b with
    board := (List.range ((b.width * b.height) % 256)).foldl
      (fun cells i => cells.set i SlotStatus.Empty) b.board
    next_row := (List.range b.width).foldl (fun rows i => rows.set i 0) b.next_row
    winner := Player.None
    isGameOver := false }

/-- Model of `Board::playMove(int index, SlotStatus color)`: the raw cell write. -/
def playMoveIndex (b : Board) (index : Nat) (color : SlotStatus) : Board :=
  { b with board := b.board.set index color }

/-- A run of `winningStreakSize` cells holding `slot` starts at row `r`, column
`c` and extends in one of the four scanned directions without leaving the grid. -/
def runFrom (b : Board) (slot : SlotStatus) (r c : Nat) : Prop :=
  b.cell (b.width * r + c) = slot ∧
  ((c + b.winningStreakSize ≤ b.width ∧
      ∀ i, 1 ≤ i → i < b.winningStreakSize → b.cell (b.width * r + c + i) = slot) ∨
   (r + b.winningStreakSize ≤ b.height ∧
      ∀ i, 1 ≤ i → i < b.winningStreakSize → b.cell (b.width * (r + i) + c) = slot) ∨
   (r + b.winningStreakSize ≤ b.height ∧ c + b.winningStreakSize ≤ b.width ∧
      ∀ i, 1 ≤ i → i < b.winningStreakSize → b.cell (b.width * (r + i) + (c + i)) = slot) ∨
   (r + b.winningStreakSize ≤ b.height ∧ b.winningStreakSize ≤ c + 1 ∧
      ∀ i, 1 ≤ i → i < b.winningStreakSize → b.cell (b.width * (r + i) + (c - i)) = slot))

/-- The `winningStreakSize` cells `(r + i*dr, c + i*dc)`, `i = 0 .. winningStreakSize-1`,
all lie inside the grid and all hold `color`. -/
def lineOf (b : Board) (color : SlotStatus) (r c : Nat) (dr dc : Int) : Prop :=
  ∀ i : Nat, i < b.winningStreakSize →
    0 ≤ (r : Int) + i * dr ∧ (r : Int) + i * dr < b.height ∧
    0 ≤ (c : Int) + i * dc ∧ (c : Int) + i * dc < b.width ∧
    b.cell (((b.width : Int) * ((r : Int) + i * dr) + ((c : Int) + i * dc)).toNat) = color

/-- Boards reached from a freshly constructed board by calls of `AddPiece` alone. -/
inductive AddPieceReachable : Board → Prop
  | fresh (width height winningStreakSize : Nat)
      (h : (create width height winningStreakSize).WF) :
      AddPieceReachable (create width height winningStreakSize)
  | step (b : Board) (player : Player) (column : Nat) (h : AddPieceReachable b) :
      AddPieceReachable (b.AddPiece player column).2

/-- Every cell of a column at or above its `next_row` entry is `Empty`. -/
def Stacked (b : Board) : Prop :=
  ∀ c r, c < b.width → b.nextRow c ≤ r → r < b.height →
    b.cell (b.width * r + c) = SlotStatus.Empty

/-- A 7x6 board on which `playMove(0, SlotStatus::Red)` wrote the cell of index 0. -/
def boardWithRawWrite : Board :=
  (create 7 6 4).playMoveIndex 0 SlotStatus.Red

/-- A 7x6 board whose game is over. -/
def finishedBoard : Board :=
  { create 7 6 4 with isGameOver := true }

/-- The board after dropping pieces of `player` with `AddPiece` into the columns
`s, s+1, ..., s+k-1`, in this order, starting from `b`. -/
def dropRun (b : Board) (player : Player) (s : Nat) : Nat → Board
  | 0 => b
  | k + 1 => ((dropRun b player s k).AddPiece player (s + k)).2

/-- Description of a `w`x`h` board with streak `n` whose only pieces are `k` cells of
`color` in row 0, columns `s .. s+k-1`, each dropped by `AddPiece`, game still open. -/
def RowState (b : Board) (w h n s k : Nat) (color : SlotStatus) : Prop :=
  b.width = w ∧ b.height = h ∧ b.winningStreakSize = n ∧
  b.isGameOver = false ∧ b.winner = Player.None ∧
  b.board.length = w * h ∧ b.next_row.length = w ∧
  (∀ i, b.cell i = if s ≤ i ∧ i < s + k then color else SlotStatus.Empty) ∧
  (∀ c, b.nextRow c = if s ≤ c ∧ c < s + k then 1 else 0)

end Board

/-! ## The sequential solver (`sequentialSolver.cpp`)

`double` times are idealised as rationals.  `std::chrono::high_resolution_clock::now()`
is an oracle: `clock n` is the `n`-th reading taken (in milliseconds) and `ticks` counts
the readings taken so far.  The `board` pointer handed to `findBestMove` and `minimax`
is always `_boardSeq->getBoard()`, so writes through it are writes to the cells of
`_boardSeq`.  `minimax` carries a fuel argument bounding the nesting of its recursion;
`none` means the fuel ran out. -/

/-- The data members of `class SequentialSolver` together with the clock oracle. -/
structure SequentialSolver where
  _boardSeq : Board
  _nodesTraversed : Nat
  _totalNodesTraversed : Nat
  _start : Rat
  clock : Nat → Rat
  ticks : Nat

namespace SequentialSolver

/-- Model of `SequentialSolver::isTimeLeft`. -/
def isTimeLeft (s : SequentialSolver) (seconds : Rat) : Bool × SequentialSolver :=
  if seconds = -1 then (true, s)
  else
    let _end := s.clock s.ticks
    let s1 := { s with ticks := s.ticks + 1 }
    let _duration_millsec := _end - s._start
    if seconds * 1000 < _duration_millsec then (false, s1) else (true, s1)

/-- The store `board[i] = color`. -/
def writeCell (s : SequentialSolver) (i : Nat) (color : SlotStatus) : SequentialSolver :=
  { s with _boardSeq := s._boardSeq.playMoveIndex i color }

/-- The increment `++_nodesTraversed` of a `uint64_t`. -/
def countNode (s : SequentialSolver) : SequentialSolver :=
  { s with _nodesTraversed := (s._nodesTraversed + 1) % 18446744073709551616 }

/-- The values of `i` in `for (int i = width*height - 1; i >= 0; i--)`. -/
def cellsDescending (b : Board) : List Nat :=
  (List.range (b.width * b.height)).reverse

/-- The `for` loop of either branch of `minimax`; `child` is the recursive call, the
list holds the remaining values of `i`, and `bestScore` is the running best. -/
def minimaxLoop (child : SequentialSolver → Option (Int × SequentialSolver))
    (color : SlotStatus) (maximizer : Bool) :
    List Nat → SequentialSolver → Int → Option (Int × SequentialSolver)
  | [], s, bestScore => some (bestScore, s)
  | i :: rest, s, bestScore =>
    if s._boardSeq.cell i = SlotStatus.Empty then
      if s._boardSeq.isLegalMove i then
        match child (s.writeCell i color) with
        | none => none
        | some (score, s1) =>
          let bestScore1 := if maximizer then max score bestScore else min bestScore score
          minimaxLoop child color maximizer rest
            (s1.writeCell i SlotStatus.Empty).countNode bestScore1
      else minimaxLoop child color maximizer rest s bestScore
    else minimaxLoop child color maximizer rest s bestScore

/-- Model of `SequentialSolver::minimax`, with fuel for the nesting of the recursion. -/
def minimax : Nat → SequentialSolver → Int → Player → Bool →
    Option (Int × SequentialSolver)
  | 0, _, _, _, _ => none
  | fuel + 1, s, depth, player, maximizer =>
    let score := s._boardSeq.EvaluateBoard player
    if score = Board.INT_MAX ∨ score = Board.INT_MIN then some (score, s)
    else if s._boardSeq.IsFull then some (score, s)
    else if depth = 0 then some (score, s)
    else
      let color :=
        if maximizer then
          (if player = Player.Red then SlotStatus.Red else SlotStatus.Yellow)
        else
          (if player = Player.Red then SlotStatus.Yellow else SlotStatus.Red)
      if maximizer then
        minimaxLoop (fun s1 => minimax fuel s1 (depth - 1) player (!maximizer))
          color true (cellsDescending s._boardSeq) s Board.INT_MIN
      else
        minimaxLoop (fun s1 => minimax fuel s1 (depth - 1) player (!maximizer))
          color false (cellsDescending s._boardSeq) s Board.INT_MAX

/-- The local variables `move`, `bestScore`, `empty_slot_avl` of `findBestMove`. -/
structure SearchVars where
  move : Int
  bestScore : Int
  empty_slot_avl : Bool
deriving DecidableEq, Repr

/-- The first `for` loop of `findBestMove`; the clock is asked before every iteration. -/
def findBestMoveLoop (fuel : Nat) (color : SlotStatus) (player : Player) (maxDepth : Int)
    (time_limit : Rat) :
    List Nat → SequentialSolver → SearchVars → Option (SearchVars × SequentialSolver)
  | [], s, v => some (v, s)
  | i :: rest, s, v =>
    if (s.isTimeLeft time_limit).1 = false then some (v, (s.isTimeLeft time_limit).2)
    else
      let s0 := (s.isTimeLeft time_limit).2
      if s0._boardSeq.cell i = SlotStatus.Empty then
        if s0._boardSeq.isLegalMove i = false then
          findBestMoveLoop fuel color player maxDepth time_limit rest s0 v
        else
          match minimax fuel (s0.writeCell i color) maxDepth player false with
          | none => none
          | some (score, s1) =>
            let s2 := (s1.writeCell i SlotStatus.Empty).countNode
            if score > v.bestScore then
              findBestMoveLoop fuel color player maxDepth time_limit rest s2
                { move := i, bestScore := score, empty_slot_avl := true }
            else
              findBestMoveLoop fuel color player maxDepth time_limit rest s2
                { v with empty_slot_avl := true }
      else findBestMoveLoop fuel color player maxDepth time_limit rest s0 v

/-- The second `for` loop of `findBestMove`: the first legal cell from the top index. -/
def firstLegalLoop (b : Board) : List Nat → Int → Int
  | [], move => move
  | i :: rest, move =>
    if b.cell i = SlotStatus.Empty then
      if b.isLegalMove i = false then firstLegalLoop b rest move
      else (i : Int)
    else firstLegalLoop b rest move

/-- Model of `SequentialSolver::findBestMove`, returning the move and the solver afterwards. -/
def findBestMove (fuel : Nat) (s : SequentialSolver) (player : Player) (maxDepth : Int)
    (time_limit : Rat) : Option (Int × SequentialSolver) :=
  if s._boardSeq.IsFull then some (-1, s)
  else
    let color := if player = Player.Red then SlotStatus.Red else SlotStatus.Yellow
    match findBestMoveLoop fuel color player maxDepth time_limit
        (cellsDescending s._boardSeq) s
        { move := -1, bestScore := Board.INT_MIN, empty_slot_avl := false } with
    | none => none
    | some (v, s1) =>
      if v.move = -1 ∧ v.empty_slot_avl = true then
        some (firstLegalLoop s1._boardSeq (cellsDescending s1._boardSeq) v.move, s1)
      else some (v.move, s1)

/-- A solver object right after construction over the board `b`, with a clock. -/
def start (b : Board) (clock : Nat → Rat) : SequentialSolver :=
  { _boardSeq := b, _nodesTraversed := 0, _totalNodesTraversed := 0,
    _start := 0, clock := clock, ticks := 0 }

end SequentialSolver

/-! ## Reference notions used in the statements -/

namespace Board

/-- Number of `Empty` cells of the cell array. -/
def emptyCount (b : Board) : Nat := b.board.count SlotStatus.Empty

/-- The cells a search may fill: the indices `i` below `width*height` whose cell is
`Empty` and for which `isLegalMove(i)` holds. -/
def legalCells (b : Board) : List Nat :=
  (List.range (b.width * b.height)).filter
    (fun i => decide (b.cell i = SlotStatus.Empty) && b.isLegalMove i)

/-- Maximum of a non-empty list of integers. -/
def maximumOf : List Int → Int
  | [] => 0
  | x :: xs => xs.foldl max x

/-- Minimum of a non-empty list of integers. -/
def minimumOf : List Int → Int
  | [] => 0
  | x :: xs => xs.foldl min x

/-- The reference recursion for `minimax`, written from its description: the static
evaluation at a cutoff (sentinel score, full board, depth 0), otherwise the maximum
(maximizer) or minimum (minimizer) over the legal cells of the value of the board with
that cell filled by the mover, at depth one less and with the flag flipped. -/
def minimaxRef : Nat → Board → Player → Bool → Int
  | 0, b, player, _ => b.EvaluateBoard player
  | depth + 1, b, player, maximizer =>
    if b.EvaluateBoard player = INT_MAX ∨ b.EvaluateBoard player = INT_MIN
        ∨ b.IsFull = true then
      b.EvaluateBoard player
    else if maximizer then
      maximumOf (b.legalCells.map
        (fun i => minimaxRef depth (b.playMoveIndex i (getPlayerColor player)) player false))
    else
      minimumOf (b.legalCells.map
        (fun i => minimaxRef depth (b.playMoveIndex i (getPlayerColor (oppPlayer player)))
          player true))

/-! ### Runs seen by the scanners

A scanner visits a sequence of events: `true` for a cell of the colour, `false` for any
other cell and for the end of a row, column or diagonal walk. -/

/-- Lengths of the runs closed while the events are scanned, `cs` being the length of
the run in progress at the start. -/
def closedRuns : List Bool → Nat → List Nat
  | [], _ => []
  | true :: ev, cs => closedRuns ev (cs + 1)
  | false :: ev, cs => cs :: closedRuns ev 0

/-- Length of the run still in progress after the events. -/
def openRun : List Bool → Nat → Nat
  | [], cs => cs
  | true :: ev, cs => openRun ev (cs + 1)
  | false :: ev, _ => openRun ev 0

/-- Concatenation of the event lists `ev a` for `a` running through a list. -/
def allEvents {α : Type} (ev : α → List Bool) : List α → List Bool
  | [] => []
  | a :: l => ev a ++ allEvents ev l

/-- Events of row `i` for `checkHorzStreak`. -/
def rowEvents (b : Board) (color : SlotStatus) (i : Nat) : List Bool :=
  (List.range b.width).map (fun j => b.cell (b.width * i + j) == color) ++ [false]

/-- Events of column `j` for `checkVertStreak`. -/
def colEvents (b : Board) (color : SlotStatus) (j : Nat) : List Bool :=
  (List.range b.height).map (fun i => b.cell (b.width * i + j) == color) ++ [false]

/-- Events of the first walk of `checkDiagStreak` from `(i, j)`. -/
def upEvents (b : Board) (color : SlotStatus) (i j : Nat) : List Bool :=
  ((List.range' 1 (b.width - 1)).filter
      (fun k => decide (i + k < b.height ∧ j + k < b.width))).map
    (fun k => b.cell (b.width * (i + k) + (j + k)) == color)

/-- Events of the second walk of `checkDiagStreak` from `(i, j)`. -/
def downEvents (b : Board) (color : SlotStatus) (i j : Nat) : List Bool :=
  ((List.range' 1 (b.width - 1)).filter
      (fun (k : Nat) => decide ((i : Int) - (k : Int) ≥ 0 ∧ (j : Int) - (k : Int) ≥ 0))).map
    (fun k => b.cell (b.width * (i - k) + (j - k)) == color)

/-- Events of `checkDiagStreak` for the origin cell `(i, j)`. -/
def originEvents (b : Board) (color : SlotStatus) (i j : Nat) : List Bool :=
  if b.cell (b.width * i + j) = color then
    (upEvents b color i j ++ [false]) ++ (downEvents b color i j ++ [false])
  else []

/-- Sum of the cubes of a list of run lengths. -/
def cubeSum (runs : List Nat) : Nat := (runs.map (fun v => v ^ 3)).sum

/-- All runs closed by the three scanners of `checkStreak` for one colour. -/
def allRuns (b : Board) (color : SlotStatus) : List Nat :=
  closedRuns (allEvents (rowEvents b color) (List.range b.height)) 0
  ++ closedRuns (allEvents (colEvents b color) (List.range b.width)) 0
  ++ closedRuns
      (allEvents (fun i => allEvents (originEvents b color i) (List.range b.width))
        (List.range b.height)) 0

/-- A 7x6 board holding two Yellow pieces side by side in the row of largest index. -/
def twoYellowBoard : Board :=
  ((create 7 6 4).playMoveIndex 35 SlotStatus.Yellow).playMoveIndex 36 SlotStatus.Yellow

/-- Whether a search may fill cell `i`: the two tests made by the search loops. -/
def legalEmpty (b : Board) (i : Nat) : Bool :=
  decide (b.cell i = SlotStatus.Empty) && b.isLegalMove i

/-- The running best of a `minimax` loop over the cells `i` of a list, `val i` being the
value returned for cell `i`. -/
def loopValue (legal : Nat → Bool) (val : Nat → Int) (maximizer : Bool) :
    List Nat → Int → Int
  | [], best => best
  | i :: rest, best =>
    if legal i = true then
      loopValue legal val maximizer rest
        (if maximizer = true then max (val i) best else min best (val i))
    else loopValue legal val maximizer rest best

end Board

namespace SequentialSolver

/-- The solver `s` with its node counter replaced. -/
def withNodes (s : SequentialSolver) (n : Nat) : SequentialSolver :=
  { s with _nodesTraversed := n }

/-- The score `minimax` returns for the board of `s` with cell `i` set to `color`. -/
def childValue (fuel : Nat) (s : SequentialSolver) (color : SlotStatus) (depth : Int)
    (player : Player) (maximizer : Bool) (i : Nat) : Int :=
  match minimax fuel (s.writeCell i color) depth player maximizer with
  | some (v, _) => v
  | none => 0

/-- The local variables of `findBestMove` after its first loop over a list of cells,
`val i` being the score returned for cell `i`, when the clock never stops the loop. -/
def searchFold (legal : Nat → Bool) (val : Nat → Int) :
    List Nat → SearchVars → SearchVars
  | [], v => v
  | i :: rest, v =>
    if legal i = true then
      if val i > v.bestScore then
        searchFold legal val rest { move := i, bestScore := val i, empty_slot_avl := true }
      else searchFold legal val rest { v with empty_slot_avl := true }
    else searchFold legal val rest v

/-- What the local variables of `findBestMove` record once the cells satisfying
`processed` have been visited: whether a legal cell was seen, and the first legal cell
of strictly greatest score so far, if any score exceeded `INT_MIN`. -/
def SearchInv (legal : Nat → Bool) (val : Nat → Int) (processed : Nat → Prop)
    (v : SearchVars) : Prop :=
  (v.empty_slot_avl = true ↔ ∃ i, processed i ∧ legal i = true) ∧
  (v.move = -1 → v.bestScore = Board.INT_MIN ∧
    ∀ i, processed i → legal i = true → val i ≤ Board.INT_MIN) ∧
  (v.move ≠ -1 → ∃ m : Nat, v.move = (m : Int) ∧ processed m ∧ legal m = true ∧
    v.bestScore = val m ∧
    ∀ j, processed j → legal j = true → val j ≤ val m ∧ (val j = val m → j ≤ m))

/-- A freshly constructed solver over the default 7x6 board, with a clock that stands
still. -/
def freshSolver : SequentialSolver :=
  start (Board.create 7 6 4) (fun _ => 0)

end SequentialSolver

/-! ## The column interface `playMove` and `solve`

`playMove(int column, Player player)` takes a 1-based column.  With a column outside
`1 .. width` its scan reads indices outside the cell array; `oob` stands for whatever
those reads yield.  `int` arithmetic on the column is not wrapped. -/

namespace Board

/-- Read of `this->board[i]` for an `int` index; `oob` gives the value read outside the
array. -/
def cellAt (oob : Int → SlotStatus) (b : Board) (i : Int) : SlotStatus :=
  if 0 ≤ i ∧ i < (b.board.length : Int) then b.cell i.toNat else oob i

/-- The scan of `playMove(column, player)`:
`for (int i = height - 1; i >= 0; i--) if (board[i*width + column - 1] == Empty)
{ row = i + 1; break; }`, with `row` starting at `-1`; the list holds the remaining
values of `i`. -/
def playMoveScan (oob : Int → SlotStatus) (b : Board) (column : Int) : List Nat → Int
  | [] => -1
  | i :: rest =>
    if b.cellAt oob ((i : Int) * (b.width : Int) + column - 1) = SlotStatus.Empty then
      (i : Int) + 1
    else playMoveScan oob b column rest

/-- Model of `Board::conv2DTo1D`. -/
def conv2DTo1D (b : Board) (row column : Int) : Int :=
  if row < 1 ∨ column < 1 then -1
  else if row > (b.height : Int) ∨ column > (b.width : Int) then -1
  else (row - 1) * (b.width : Int) + (column - 1)

/-- Model of `Board::playMove(int column, Player player)`, returning the result code
and the board afterwards. -/
def playMove (oob : Int → SlotStatus) (b : Board) (column : Int) (player : Player) :
    Int × Board :=
  let row := playMoveScan oob b column (List.range b.height).reverse
  if row = -1 then (-1, b)
  else
    let index := b.conv2DTo1D row column
    if index = -1 then (index, b)
    else (0, b.playMoveIndex index.toNat (getPlayerColor player))

end Board

/-- How a call of `solve` ends: it returns, the process exits (`exit(911)` in
`getPlayerColor`), or the fuel of the model ran out. -/
inductive Outcome (α : Type) where
  | returned (a : α)
  | exited (code : Nat)
  | outOfFuel

namespace SequentialSolver

/-- Model of `SequentialSolver::getPlayerColor`; `none` stands for `exit(911)`. -/
protected def getPlayerColor (player : Player) : Option SlotStatus :=
  if player = Player.Red then some SlotStatus.Red
  else if player = Player.Yellow then some SlotStatus.Yellow
  else none

/-- Model of `SequentialSolver::startTimer`. -/
def startTimer (s : SequentialSolver) : SequentialSolver :=
  { s with _start := s.clock s.ticks, ticks := s.ticks + 1 }

/-- Model of `SequentialSolver::playMove`. -/
protected def playMove (oob : Int → SlotStatus) (s : SequentialSolver) (column : Int)
    (player : Player) : Int × SequentialSolver :=
  ((s._boardSeq.playMove oob column player).1,
    { s with _boardSeq := (s._boardSeq.playMove oob column player).2 })

/-- The local variables `bestMove` and `nodesTraversed` of `solve`. -/
structure DeepenVars where
  bestMove : Int
  nodesTraversed : Nat
deriving DecidableEq, Repr

/-- The iterative-deepening loop of `solve`:
`for (int depth = 2; isTimeLeft(time_limit); depth += 2) { move = findBestMove(..., depth,
time_limit); if (isTimeLeft(time_limit)) { bestMove = move; nodesTraversed =
_nodesTraversed; _nodesTraversed = 0; } }`.  The first argument bounds the number of
iterations; `none` means that bound or the fuel of `minimax` ran out. -/
def deepenLoop (fuel : Nat) (player : Player) (time_limit : Rat) :
    Nat → SequentialSolver → Int → DeepenVars → Option (DeepenVars × SequentialSolver)
  | 0, _, _, _ => none
  | iters + 1, s, depth, v =>
    if (s.isTimeLeft time_limit).1 = false then some (v, (s.isTimeLeft time_limit).2)
    else
      match findBestMove fuel (s.isTimeLeft time_limit).2 player depth time_limit with
      | none => none
      | some (move, s1) =>
        if (s1.isTimeLeft time_limit).1 = true then
          deepenLoop fuel player time_limit iters
            ((s1.isTimeLeft time_limit).2.withNodes 0) (depth + 2)
            { bestMove := move,
              nodesTraversed := (s1.isTimeLeft time_limit).2._nodesTraversed }
        else
          deepenLoop fuel player time_limit iters (s1.isTimeLeft time_limit).2 (depth + 2) v

/-- The part of `solve` before the board is touched: the search, giving `bestMove` and
the solver with `_nodesTraversed` set. -/
def solveSearch (fuel iters : Nat) (s : SequentialSolver) (player : Player) (maxDepth : Int)
    (time_limit : Rat) : Option (Int × SequentialSolver) :=
  if time_limit > 0 then
    match deepenLoop fuel player time_limit iters (s.withNodes 0).startTimer 2
        { bestMove := -1, nodesTraversed := 0 } with
    | none => none
    | some (v, s1) => some (v.bestMove, s1.withNodes v.nodesTraversed)
  else findBestMove fuel (s.withNodes 0) player maxDepth time_limit

/-- The part of `solve` after the search: the full-board test, the move, the winner
test and the update of `_totalNodesTraversed` (a `uint64_t`). -/
def solveFinish (s1 : SequentialSolver) (player : Player) (bestMove : Int) :
    Outcome (Int × SequentialSolver) :=
  if s1._boardSeq.IsFull = true then Outcome.returned (-1, s1)
  else if bestMove > -1 then
    match SequentialSolver.getPlayerColor player with
    | none => Outcome.exited 911
    | some color =>
      if (s1.writeCell bestMove.toNat color)._boardSeq.DetermineWinner ≠ Player.None then
        Outcome.returned (-1, s1.writeCell bestMove.toNat color)
      else
        Outcome.returned (bestMove % (s1._boardSeq.width : Int),
          { s1.writeCell bestMove.toNat color with
            _totalNodesTraversed :=
              (s1._totalNodesTraversed + s1._nodesTraversed) % 18446744073709551616 })
  else
    if s1._boardSeq.DetermineWinner ≠ Player.None then Outcome.returned (-1, s1)
    else
      Outcome.returned (-1,
        { s1 with
          _totalNodesTraversed :=
            (s1._totalNodesTraversed + s1._nodesTraversed) % 18446744073709551616 })

/-- Model of `SequentialSolver::solve`, with fuel for `minimax` and a bound on the
number of deepening iterations. -/
def solve (fuel iters : Nat) (s : SequentialSolver) (player : Player) (maxDepth : Int)
    (time_limit : Rat) : Outcome (Int × SequentialSolver) :=
  if s._boardSeq.DetermineWinner ≠ Player.None then Outcome.returned (-1, s)
  else
    match solveSearch fuel iters s player maxDepth time_limit with
    | none => Outcome.outOfFuel
    | some (bestMove, s1) => solveFinish s1 player bestMove

/-- Model of `SequentialSolver::getTotalNodesTraversed`. -/
def getTotalNodesTraversed (s : SequentialSolver) : Nat := s._totalNodesTraversed

end SequentialSolver

/-! ## Boards and solvers used as examples, and notions used in the statements -/

namespace Board

/-- A board is settled when no `Empty` cell lies at a larger row index than a
non-`Empty` cell of its column: the pieces of every column occupy its rows of largest
index. -/
def Settled (b : Board) : Prop :=
  ∀ c r r2, c < b.width → r < r2 → r2 < b.height →
    b.cell (b.width * r + c) ≠ SlotStatus.Empty →
    b.cell (b.width * r2 + c) ≠ SlotStatus.Empty

/-- A 7x6 board where Red holds cells 35, 36, 37 of row 5 and Yellow the cells 28, 29, 30
above them; Red is to move and cell 38 completes a run of four. -/
def redThreatBoard : Board :=
  ((((((create 7 6 4).playMoveIndex 35 SlotStatus.Red).playMoveIndex 28
    SlotStatus.Yellow).playMoveIndex 36 SlotStatus.Red).playMoveIndex 29
    SlotStatus.Yellow).playMoveIndex 37 SlotStatus.Red).playMoveIndex 30 SlotStatus.Yellow

/-- The board `redThreatBoard` with cell 38 also Red: Red has won. -/
def redWonBoard : Board :=
  redThreatBoard.playMoveIndex 38 SlotStatus.Red

end Board

namespace SequentialSolver

/-- Solvers reached from a freshly constructed one by `playMove` and `solve` calls that
return. -/
inductive SolverReachable : SequentialSolver → Prop
  | fresh (width height winningStreakSize : Nat) (clock : Nat → Rat)
      (h : (Board.create width height winningStreakSize).WF) :
      SolverReachable (start (Board.create width height winningStreakSize) clock)
  | afterPlayMove (oob : Int → SlotStatus) (s : SequentialSolver) (column : Int)
      (player : Player) (h : SolverReachable s) :
      SolverReachable (s.playMove oob column player).2
  | afterSolve (fuel iters : Nat) (s : SequentialSolver) (player : Player) (maxDepth : Int)
      (time_limit : Rat) (c : Int) (s1 : SequentialSolver) (h : SolverReachable s)
      (hfuel : s._boardSeq.emptyCount ≤ fuel)
      (hret : solve fuel iters s player maxDepth time_limit = Outcome.returned (c, s1)) :
      SolverReachable s1

/-- The solver `s` with the number of clock readings taken set to `t`. -/
def withTicks (s : SequentialSolver) (t : Nat) : SequentialSolver :=
  { s with ticks := t }

/-- Whether the reading number `n` of the clock of `s` lies past the time limit, as
tested by `isTimeLeft`: `seconds * 1000 < now - _start`. -/
def expiredAt (s : SequentialSolver) (seconds : Rat) (n : Nat) : Prop :=
  seconds * 1000 < s.clock n - s._start

/-- A solver over the default 7x6 board whose clock reads 0, 1, 2, ... milliseconds. -/
def tickingSolver : SequentialSolver :=
  start (Board.create 7 6 4) (fun n => (n : Rat))

/-- A solver over the default 7x6 board whose clock advances by 0.00001 milliseconds per
reading. -/
def slowSolver : SequentialSolver :=
  start (Board.create 7 6 4) (fun n => (n : Rat) / 100000)

/-- The solver `freshSolver` after `solve(Red, 0, -1)`: Red at cell 41, seven nodes. -/
def freshSolved : SequentialSolver :=
  { freshSolver.writeCell 41 SlotStatus.Red with
    _nodesTraversed := 7, _totalNodesTraversed := 7 }

end SequentialSolver

/-! ## `resetSolver`, and the OpenMP board `BoardMp` (`mpSolver/boardMp.hpp`, `boardMp.cpp`)

`class BoardMp : public Board` declares private members `next_row`, `width`, `height`,
`winningStreakSize`, `isGameOver` and `winner` of its own; the members of `Board` with
these names are private to `Board`, so inside the member functions of `BoardMp` the
names denote the members of `BoardMp`.  The constructor of `BoardMp` passes its
arguments to the constructor of `Board`, replaces `board` and allocates its own
`next_row`; it does not write its own `width`, `height` and `winningStreakSize`, whose
contents are therefore whatever the storage held.  The `omp parallel for` loops write
distinct array elements and are modelled as the sequential loops. -/

namespace SequentialSolver

/-- Model of `SequentialSolver::resetSolver`. -/
def resetSolver (s : SequentialSolver) : SequentialSolver :=
  { s with
    _nodesTraversed := 0
    _totalNodesTraversed := 0
    _boardSeq := s._boardSeq.Reset }

end SequentialSolver

/-- The data members of a `BoardMp` object: those of the base class `Board` (`base`,
which holds the cell array `board`), and the private members declared by `BoardMp`. -/
structure BoardMp where
  base : Board
  next_row : List Nat
  width : Nat
  height : Nat
  winningStreakSize : Nat
  isGameOver : Bool
  winner : Player
deriving DecidableEq, Repr

namespace BoardMp

/-- The constructor `BoardMp::BoardMp(width, height, winningStreakSize)`.  The last three
arguments are the contents of the members `width`, `height`, `winningStreakSize` of
`BoardMp`, which the constructor leaves as the storage held them (`uint_fast8_t`
values). -/
def create (width height winningStreakSize : Nat) (width0 height0 winningStreakSize0 : Nat) :
    BoardMp :=
  { base :=
      { Board.create width height winningStreakSize with
        board := List.replicate (width * height) SlotStatus.Empty }
    next_row := List.replicate width 0
    width := width0
    height := height0
    winningStreakSize := winningStreakSize0
    isGameOver := false
    winner := Player.None }

/-- Model of `BoardMp::Reset`; `totalSlots` and the loop counters are `uint_fast8_t`, and
`width`, `height`, `next_row`, `winner`, `isGameOver` are the members of `BoardMp`.  A
store past the end of an array is dropped here. -/
def Reset (m : BoardMp) : BoardMp :=
  { m with
    base :=
      { m.base with
        board := (List.range ((m.width * m.height) % 256)).foldl
          (fun cells i => cells.set i SlotStatus.Empty) m.base.board }
    next_row := (List.range m.width).foldl (fun rows i => rows.set i 0) m.next_row
    winner := Player.None
    isGameOver := false }

/-- The values taken by `streak` in the loop
`for (int streak = this->winningStreakSize; streak >= 2; streak--)` of
`BoardMp::EvaluateBoard`, where `winningStreakSize` is the member of `BoardMp`. -/
def streakValues (m : BoardMp) : List Int :=
  ((List.range' 2 (m.winningStreakSize - 1)).reverse).map (fun (k : Nat) => (k : Int))

/-- Model of `BoardMp::EvaluateBoard`; `getPlayerColor`, `DetermineWinner`, `oppPlayer`
and `checkStreak` are the member functions of `Board`. -/
def EvaluateBoard (m : BoardMp) (player : Player) : Int :=
  let color_for := Board.getPlayerColor player
  let color_against := Board.colorAgainst player
  let winner := m.base.DetermineWinner
  if winner = player then Board.INT_MAX
  else if winner = Board.oppPlayer player then Board.INT_MIN
  else Board.toInt32 (Board.scoreLoop m.base color_for color_against m.streakValues 0)

/-- The value added to `count` by section number `n` of `checkStreakMp`. -/
def sectionCount (m : BoardMp) (color : SlotStatus) (streak : Int) (n : Nat) : Nat :=
  if n = 0 then m.base.checkHorzStreak color streak
  else if n = 1 then m.base.checkVertStreak color streak
  else m.base.checkDiagStreak color streak

/-- Accumulation with `+=` into a `uint32_t` that starts at 0. -/
def reduceAdd (l : List Nat) : Nat :=
  l.foldl (fun acc x => (acc + x) % 4294967296) 0

/-- Model of `BoardMp::checkStreakMp`.  The three sections run under
`reduction(+:count)`: every thread adds the results of the sections it executes to a
private `uint32_t` that starts at 0, and the private copies are then added to `count`
in an unspecified order.  `schedule` lists, thread by thread in the order of the final
combination, the numbers of the sections each thread executes. -/
def checkStreakMp (m : BoardMp) (schedule : List (List Nat)) (color : SlotStatus)
    (streak : Int) : Nat :=
  reduceAdd (schedule.map (fun sections => reduceAdd (sections.map (m.sectionCount color streak))))

end BoardMp

/-- The data members of `class MpSolver` used by `playMove` and `resetSolver`. -/
structure MpSolver where
  _boardMp : BoardMp
  _nodesTraversed : Nat
  _totalNodesTraversed : Nat
deriving DecidableEq, Repr

namespace MpSolver

/-- The constructor `MpSolver::MpSolver(width, height, winningStreakSize)`; the last three
arguments are passed on to `BoardMp.create`. -/
def create (width height winningStreakSize : Nat) (width0 height0 winningStreakSize0 : Nat) :
    MpSolver :=
  { _boardMp := BoardMp.create width height winningStreakSize width0 height0 winningStreakSize0
    _nodesTraversed := 0
    _totalNodesTraversed := 0 }

/-- Model of `MpSolver::playMove`, which calls `Board::playMove` on the board. -/
protected def playMove (oob : Int → SlotStatus) (s : MpSolver) (column : Int)
    (player : Player) : Int × MpSolver :=
  ((s._boardMp.base.playMove oob column player).1,
    { s with
      _boardMp := { s._boardMp with base := (s._boardMp.base.playMove oob column player).2 } })

/-- Model of `MpSolver::resetSolver`. -/
def resetSolver (s : MpSolver) : MpSolver :=
  { s with
    _nodesTraversed := 0
    _totalNodesTraversed := 0
    _boardMp := s._boardMp.Reset }

end MpSolver

/-! ## Runs along rows and columns, and further example boards -/

namespace Board

/-- A maximal run of exactly `k` cells starts at position `p` of a line: the `k` cells
from `p` on belong to the run, the cell after them does not, and `p` is the first
position or the cell before it does not.  Positions past the end of the line hold
`false`. -/
def isMaximalRun (line : Nat → Bool) (p k : Nat) : Prop :=
  (∀ q, q < k → line (p + q) = true) ∧ line (p + k) = false ∧
    (p = 0 ∨ line (p - 1) = false)

instance (line : Nat → Bool) (p k : Nat) : Decidable (isMaximalRun line p k) := by
  unfold isMaximalRun; infer_instance

/-- Number of maximal runs of exactly `k` cells in a line of `n` cells. -/
def maximalRuns (line : Nat → Bool) (n k : Nat) : Nat :=
  ((List.range n).filter (fun p => decide (isMaximalRun line p k))).length

/-- Row `i` of the board as a line: position `j` holds whether cell `(i, j)` has the
colour. -/
def rowLine (b : Board) (color : SlotStatus) (i : Nat) (j : Nat) : Bool :=
  decide (j < b.width) && (b.cell (b.width * i + j) == color)

/-- Column `j` of the board as a line: position `i` holds whether cell `(i, j)` has the
colour. -/
def colLine (b : Board) (color : SlotStatus) (j : Nat) (i : Nat) : Bool :=
  decide (i < b.height) && (b.cell (b.width * i + j) == color)

/-- Number of maximal runs of exactly `k` cells of the colour in the rows. -/
def rowRunsOfLength (b : Board) (color : SlotStatus) (k : Nat) : Nat :=
  ((List.range b.height).map (fun i => maximalRuns (b.rowLine color i) b.width k)).sum

/-- Number of maximal runs of exactly `k` cells of the colour in the columns. -/
def colRunsOfLength (b : Board) (color : SlotStatus) (k : Nat) : Nat :=
  ((List.range b.width).map (fun j => maximalRuns (b.colLine color j) b.height k)).sum

/-- A 7x6 board whose only pieces are Red at cells 0 and 8: a diagonal run of two with
steps of row+1, column+1. -/
def diagPairBoard : Board :=
  ((create 7 6 4).playMoveIndex 0 SlotStatus.Red).playMoveIndex 8 SlotStatus.Red

/-- A 7x6 board whose only pieces are Red at cells 1 and 7: a diagonal run of two with
steps of row+1, column-1. -/
def antiDiagPairBoard : Board :=
  ((create 7 6 4).playMoveIndex 1 SlotStatus.Red).playMoveIndex 7 SlotStatus.Red

/-- A 7x6 board whose only pieces are Red at cells 0 and 1: a run of two in row 0. -/
def rowPairBoard : Board :=
  ((create 7 6 4).playMoveIndex 0 SlotStatus.Red).playMoveIndex 1 SlotStatus.Red

/-- A 7x6 board whose only pieces are Red at cells 35 to 39: a run of five in row 5. -/
def rowFiveBoard : Board :=
  (((((create 7 6 4).playMoveIndex 35 SlotStatus.Red).playMoveIndex 36
    SlotStatus.Red).playMoveIndex 37 SlotStatus.Red).playMoveIndex 38
    SlotStatus.Red).playMoveIndex 39 SlotStatus.Red

end Board

/-! ### Contributions of the walks of `checkDiagStreak` -/

namespace Board

/-- What the first walk of `checkDiagStreak` from the origin `(i, j)`, together with the
statement `if (current_streak == streak) count++` after it, adds to `count`;
`current_streak` is 0 when the walk starts. -/
def walkUpCount (b : Board) (color : SlotStatus) (streak : Nat) (i j : Nat) : Nat :=
  (streakClose streak (diagWalkUp b color streak i j (0, 0))).2

/-- What the second walk of `checkDiagStreak` from the origin `(i, j)`, together with the
statement `if (current_streak == streak) count++` after it, adds to `count`. -/
def walkDownCount (b : Board) (color : SlotStatus) (streak : Nat) (i j : Nat) : Nat :=
  (streakClose streak (diagWalkDown b color streak i j (0, 0))).2

/-- A 7x7 board whose only pieces are Red at cells 0, 16, 32 and 48: every second cell
of the diagonal from `(0, 0)` to `(6, 6)`. -/
def diagStepsBoard : Board :=
  ((((create 7 7 4).playMoveIndex 0 SlotStatus.Red).playMoveIndex 16
    SlotStatus.Red).playMoveIndex 32 SlotStatus.Red).playMoveIndex 48 SlotStatus.Red

end Board

/-! ### States reached by `AddPiece` and `Reset` -/

namespace Board

/-- Boards reached from a freshly constructed board by calls of `AddPiece` and `Reset`. -/
inductive DropReachable : Board → Prop
  | fresh (width height winningStreakSize : Nat)
      (h : (create width height winningStreakSize).WF) :
      DropReachable (create width height winningStreakSize)
  | afterAddPiece (b : Board) (player : Player) (column : Nat) (h : DropReachable b) :
      DropReachable (b.AddPiece player column).2
  | afterReset (b : Board) (h : DropReachable b) : DropReachable b.Reset

/-- Boards reached from a freshly constructed board by calls of `AddPiece` with player
Red or Yellow and calls of `Reset`. -/
inductive GameReachable : Board → Prop
  | fresh (width height winningStreakSize : Nat)
      (h : (create width height winningStreakSize).WF) :
      GameReachable (create width height winningStreakSize)
  | afterAddPiece (b : Board) (player : Player) (column : Nat) (h : GameReachable b)
      (hp : player = Player.Red ∨ player = Player.Yellow) :
      GameReachable (b.AddPiece player column).2
  | afterReset (b : Board) (h : GameReachable b) : GameReachable b.Reset

/-- Number of non-`Empty` cells in column `c`. -/
def columnCount (b : Board) (c : Nat) : Nat :=
  ((List.range b.height).filter
    (fun r => b.cell (b.width * r + c) != SlotStatus.Empty)).length

/-- Every cell of a column below its `next_row` entry is not `Empty`. -/
def Filled (b : Board) : Prop :=
  ∀ c r, c < b.width → r < b.nextRow c → b.cell (b.width * r + c) ≠ SlotStatus.Empty

/-- Number of non-`Empty` cells of the cell array. -/
def pieceCount (b : Board) : Nat :=
  (b.board.filter (fun x => x != SlotStatus.Empty)).length

/-- The board after a list of calls `AddPiece(player, column)`, made in order. -/
def addPieces (b : Board) : List (Player × Nat) → Board
  | [] => b
  | m :: rest => addPieces (b.AddPiece m.1 m.2).2 rest

/-- How many calls of a list of `AddPiece` calls return 0. -/
def successCount (b : Board) : List (Player × Nat) → Nat
  | [] => 0
  | m :: rest =>
    (if (b.AddPiece m.1 m.2).1 = 0 then 1 else 0)
      + successCount (b.AddPiece m.1 m.2).2 rest

/-- The player owning the colour that `AddPiece(player, column)` stores
(`player == Player::Red ? SlotStatus::Red : SlotStatus::Yellow`). -/
def placedBy (player : Player) : Player :=
  if player = Player.Red then Player.Red else Player.Yellow

/-- No call of the list that returned 0 left a winning run of the colour it placed. -/
def noRunCompleted (b : Board) : List (Player × Nat) → Bool
  | [] => true
  | m :: rest =>
    (decide ((b.AddPiece m.1 m.2).1 ≠ 0)
        || !(b.AddPiece m.1 m.2).2.determineIfPlayerIsWinner (placedBy m.1))
      && noRunCompleted (b.AddPiece m.1 m.2).2 rest

/-- Forty-two drops on the 7x6 board, Red and Yellow alternating, that fill the board
without a run of four. -/
def drawMoves : List (Player × Nat) :=
  [(Player.Red, 0), (Player.Yellow, 0), (Player.Red, 4), (Player.Yellow, 0),
   (Player.Red, 0), (Player.Yellow, 1), (Player.Red, 0), (Player.Yellow, 2),
   (Player.Red, 0), (Player.Yellow, 3), (Player.Red, 1), (Player.Yellow, 3),
   (Player.Red, 1), (Player.Yellow, 3), (Player.Red, 1), (Player.Yellow, 1),
   (Player.Red, 2), (Player.Yellow, 1), (Player.Red, 3), (Player.Yellow, 2),
   (Player.Red, 4), (Player.Yellow, 2), (Player.Red, 4), (Player.Yellow, 2),
   (Player.Red, 2), (Player.Yellow, 3), (Player.Red, 6), (Player.Yellow, 3),
   (Player.Red, 6), (Player.Yellow, 4), (Player.Red, 4), (Player.Yellow, 5),
   (Player.Red, 4), (Player.Yellow, 5), (Player.Red, 6), (Player.Yellow, 6),
   (Player.Red, 5), (Player.Yellow, 6), (Player.Red, 5), (Player.Yellow, 6),
   (Player.Red, 5), (Player.Yellow, 5)]

end Board

namespace Board

/-- The 7x6 board after the drops Red 0, Yellow 0, Red 1, Yellow 1, Red 2, Yellow 2,
Red 3 made with `AddPiece`: Red completed a run of four in row 0. -/
def redRowGame : Board :=
  (create 7 6 4).addPieces [(Player.Red, 0), (Player.Yellow, 0), (Player.Red, 1),
    (Player.Yellow, 1), (Player.Red, 2), (Player.Yellow, 2), (Player.Red, 3)]

end Board

/-! ### The cells read by `determineIfPlayerIsWinner`

The index expressions of the source are evaluated in `int` (the `uint_fast8_t` operands
are promoted), so indices are integers here; `oob` gives what a read outside the cell
array would yield. -/

namespace Board

/-- The indices read by one inner loop `for (i = 1; i < winningStreakSize; i++)` of
`determineIfPlayerIsWinner`: `idx i` is read at step `i`, and the loop is left after the
first read that differs from `slotToCheck`; the list holds the remaining values of `i`. -/
def loopReads (oob : Int → SlotStatus) (b : Board) (slotToCheck : SlotStatus)
    (idx : Nat → Int) : List Nat → List Int
  | [] => []
  | i :: rest =>
    if b.cellAt oob (idx i) ≠ slotToCheck then [idx i]
    else idx i :: loopReads oob b slotToCheck idx rest

/-- The indices read by the horizontal check for the cell at row `r`, column `c`. -/
def horzReads (oob : Int → SlotStatus) (b : Board) (slotStatusToCheck : SlotStatus)
    (r c : Nat) : List Int :=
  if b.cellAt oob ((b.width : Int) * (r : Int) + (c : Int)) = slotStatusToCheck then
    if (c : Int) ≤ (b.width : Int) - (b.winningStreakSize : Int) then
      loopReads oob b slotStatusToCheck
        (fun (i : Nat) => (b.width : Int) * (r : Int) + (c : Int) + (i : Int))
        (List.range' 1 (b.winningStreakSize - 1))
    else []
  else []

/-- The indices read by the vertical check for the cell at row `r`, column `c`. -/
def vertReads (oob : Int → SlotStatus) (b : Board) (slotStatusToCheck : SlotStatus)
    (r c : Nat) : List Int :=
  if b.cellAt oob ((b.width : Int) * (r : Int) + (c : Int)) = slotStatusToCheck then
    if (r : Int) ≤ (b.height : Int) - (b.winningStreakSize : Int) then
      loopReads oob b slotStatusToCheck
        (fun (i : Nat) => (b.width : Int) * ((r : Int) + (i : Int)) + (c : Int))
        (List.range' 1 (b.winningStreakSize - 1))
    else []
  else []

/-- The indices read by the right-diagonal check for the cell at row `r`, column `c`;
the check is nested in the test for vertical room. -/
def rightDiagReads (oob : Int → SlotStatus) (b : Board) (slotStatusToCheck : SlotStatus)
    (r c : Nat) : List Int :=
  if b.cellAt oob ((b.width : Int) * (r : Int) + (c : Int)) = slotStatusToCheck then
    if (r : Int) ≤ (b.height : Int) - (b.winningStreakSize : Int) then
      if (c : Int) ≤ (b.width : Int) - (b.winningStreakSize : Int) then
        loopReads oob b slotStatusToCheck
          (fun (i : Nat) => (b.width : Int) * ((r : Int) + (i : Int)) + ((c : Int) + (i : Int)))
          (List.range' 1 (b.winningStreakSize - 1))
      else []
    else []
  else []

/-- The indices read by the left-diagonal check for the cell at row `r`, column `c`;
the check is nested in the test for vertical room. -/
def leftDiagReads (oob : Int → SlotStatus) (b : Board) (slotStatusToCheck : SlotStatus)
    (r c : Nat) : List Int :=
  if b.cellAt oob ((b.width : Int) * (r : Int) + (c : Int)) = slotStatusToCheck then
    if (r : Int) ≤ (b.height : Int) - (b.winningStreakSize : Int) then
      if (c : Int) ≥ (b.winningStreakSize : Int) - 1 then
        loopReads oob b slotStatusToCheck
          (fun (i : Nat) => (b.width : Int) * ((r : Int) + (i : Int)) + ((c : Int) - (i : Int)))
          (List.range' 1 (b.winningStreakSize - 1))
      else []
    else []
  else []

/-- All indices read by the body of the double loop for the cell at row `r`, column `c`:
the cell itself, then the four checks. -/
def cellReads (oob : Int → SlotStatus) (b : Board) (slotStatusToCheck : SlotStatus)
    (r c : Nat) : List Int :=
  ((b.width : Int) * (r : Int) + (c : Int)) ::
    (b.horzReads oob slotStatusToCheck r c ++ b.vertReads oob slotStatusToCheck r c
      ++ b.rightDiagReads oob slotStatusToCheck r c
      ++ b.leftDiagReads oob slotStatusToCheck r c)

/-- All indices read by `determineIfPlayerIsWinner(player)`. -/
def winnerReads (oob : Int → SlotStatus) (b : Board) (player : Player) : List Int :=
  if player = Player.None then []
  else
    ((List.range b.height).map (fun r =>
      ((List.range b.width).map (fun c =>
        b.cellReads oob
          (if player = Player.Red then SlotStatus.Red else SlotStatus.Yellow) r c)).flatten)).flatten

end Board

/-! ### The parallel win detector (`BoardMp::determineIfPlayerIsWinner`) -/

namespace BoardMp

/-- What `BoardMp::determineIfPlayerIsWinner` works on: the cell array `board` of the
base class, with the members `width`, `height` and `winningStreakSize` of `BoardMp`. -/
def ownView (m : BoardMp) : Board :=
  { m.base with
    width := m.width
    height := m.height
    winningStreakSize := m.winningStreakSize }

/-- The iterations `(r, c)` of the two collapsed loops
`for (r = 0; r < this->height; r++) for (c = 0; c < this->width; c++)`. -/
def iterations (m : BoardMp) : List (Nat × Nat) :=
  ((List.range m.height).map (fun r => (List.range m.width).map (fun c => (r, c)))).flatten

/-- Model of `BoardMp::determineIfPlayerIsWinner`.  The iterations of the collapsed loops
are shared among the workers of `#pragma omp parallel for collapse(2)`; `order` lists
them in the order in which they act on the shared flag `return_val`.  The body is that of
`Board::determineIfPlayerIsWinner`: it does not read the flag and only assigns `true` to
it.  A cell read past the end of the array counts as `Empty`. -/
def determineIfPlayerIsWinner (m : BoardMp) (order : List (Nat × Nat)) (player : Player) :
    Bool :=
  if player = Player.None then false
  else
    let slotStatusToCheck :=
      if player = Player.Red then SlotStatus.Red else SlotStatus.Yellow
    order.foldl
      (fun return_val rc => Board.winnerCell m.ownView slotStatusToCheck rc.1 rc.2 return_val)
      false

/-- The `BoardMp` of `MpSolver(7, 6, 4)` after the moves `playMove(1, Red)`,
`playMove(1, Yellow)`, `playMove(2, Red)`, `playMove(2, Yellow)`, `playMove(3, Red)`,
`playMove(3, Yellow)`, `playMove(4, Red)`, which give it the cells of `redWonBoard`; the
arguments are the contents of the members `width`, `height`, `winningStreakSize` of
`BoardMp`. -/
def redWonMp (width0 height0 winningStreakSize0 : Nat) : BoardMp :=
  (((((((((MpSolver.create 7 6 4 width0 height0 winningStreakSize0).playMove
    (fun _ => SlotStatus.Empty) 1 Player.Red).2.playMove
    (fun _ => SlotStatus.Empty) 1 Player.Yellow).2.playMove
    (fun _ => SlotStatus.Empty) 2 Player.Red).2.playMove
    (fun _ => SlotStatus.Empty) 2 Player.Yellow).2.playMove
    (fun _ => SlotStatus.Empty) 3 Player.Red).2.playMove
    (fun _ => SlotStatus.Empty) 3 Player.Yellow).2.playMove
    (fun _ => SlotStatus.Empty) 4 Player.Red).2)._boardMp

end BoardMp

/-! ## Properties -/

open Board SlotStatus

theorem streakLoop_iff (b : Board) (slot : SlotStatus) (idx : Nat → Nat) :
    ∀ (n s : Nat) (rv : Bool), s + n = b.winningStreakSize →
      (streakLoop b slot idx (List.range' s n) rv = true ↔
        rv = true ∨ (0 < n ∧ ∀ i, s ≤ i → i < s + n → b.cell (idx i) = slot)) := by
  intro n
  induction n with
  | zero => intro s rv _; simp [List.range', streakLoop]
  | succ n ih =>
    intro s rv hs
    rw [List.range'_succ]
    simp only [streakLoop]
    by_cases hm : b.cell (idx s) = slot
    · simp only [hm, and_true, ne_eq, not_true_eq_false, if_false]
      rw [ih (s + 1) _ (by omega)]
      by_cases hn : n = 0
      · subst hn
        have : (s : Int) = (b.winningStreakSize : Int) - 1 := by omega
        simp only [this, if_true, true_or, true_iff]
        right
        refine ⟨by omega, ?_⟩
        intro i h1 h2
        have : i = s := by omega
        subst this; exact hm
      · have : ¬ ((s : Int) = (b.winningStreakSize : Int) - 1) := by omega
        simp only [this, if_false]
        constructor
        · rintro (h | ⟨_, h⟩)
          · exact Or.inl h
          · right
            refine ⟨by omega, ?_⟩
            intro i h1 h2
            by_cases hi : i = s
            · subst hi; exact hm
            · exact h i (by omega) (by omega)
        · rintro (h | ⟨_, h⟩)
          · exact Or.inl h
          · right
            exact ⟨by omega, fun i h1 h2 => h i (by omega) (by omega)⟩
    · simp only [hm, and_false, if_false, ne_eq, not_false_eq_true, if_true]
      constructor
      · intro h; exact Or.inl h
      · rintro (h | ⟨_, h⟩)
        · exact h
        · exact absurd (h s (le_refl _) (by omega)) hm

theorem guardedLoop_iff (b : Board) (slot : SlotStatus) (idx : Nat → Nat) (g : Prop)
    [Decidable g] (rv : Bool) (h2 : 2 ≤ b.winningStreakSize) :
    ((if g then streakLoop b slot idx (List.range' 1 (b.winningStreakSize - 1)) rv else rv)
        = true ↔
      rv = true ∨ (g ∧ ∀ i, 1 ≤ i → i < b.winningStreakSize → b.cell (idx i) = slot)) := by
  by_cases hg : g
  · simp only [hg, if_true, true_and]
    rw [streakLoop_iff b slot idx _ 1 rv (by omega)]
    constructor
    · rintro (h | ⟨_, h⟩)
      · exact Or.inl h
      · exact Or.inr (fun i h1 h3 => h i h1 (by omega))
    · rintro (h | h)
      · exact Or.inl h
      · exact Or.inr ⟨by omega, fun i h1 h3 => h i h1 (by omega)⟩
  · simp [hg]

theorem winnerCell_iff (b : Board) (slot : SlotStatus) (r c : Nat) (rv : Bool)
    (h2 : 2 ≤ b.winningStreakSize) :
    (winnerCell b slot r c rv = true ↔ rv = true ∨ b.runFrom slot r c) := by
  unfold winnerCell runFrom
  by_cases hc : b.cell (b.width * r + c) = slot
  · simp only [hc, if_true, true_and]
    have e1 : ((c : Int) ≤ (b.width : Int) - (b.winningStreakSize : Int)) ↔
        c + b.winningStreakSize ≤ b.width := by omega
    have e2 : ((r : Int) ≤ (b.height : Int) - (b.winningStreakSize : Int)) ↔
        r + b.winningStreakSize ≤ b.height := by omega
    have e3 : ((c : Int) ≥ (b.winningStreakSize : Int) - 1) ↔
        b.winningStreakSize ≤ c + 1 := by omega
    by_cases hr : (r : Int) ≤ (b.height : Int) - (b.winningStreakSize : Int)
    · simp only [hr, if_true]
      rw [guardedLoop_iff b slot _ _ _ h2, guardedLoop_iff b slot _ _ _ h2,
        streakLoop_iff b slot _ _ 1 _ (by omega), guardedLoop_iff b slot _ _ _ h2]
      have hr2 := e2.mp hr
      rw [e1, e3]
      constructor
      · rintro ((((h | h) | ⟨_, h⟩) | h) | h)
        · exact Or.inl h
        · exact Or.inr (Or.inl h)
        · exact Or.inr (Or.inr (Or.inl ⟨hr2, fun i h1 h3 => h i h1 (by omega)⟩))
        · exact Or.inr (Or.inr (Or.inr (Or.inl ⟨hr2, h⟩)))
        · exact Or.inr (Or.inr (Or.inr (Or.inr ⟨hr2, h⟩)))
      · rintro (h | h | ⟨_, h⟩ | ⟨_, h⟩ | ⟨_, h⟩)
        · exact Or.inl (Or.inl (Or.inl (Or.inl h)))
        · exact Or.inl (Or.inl (Or.inl (Or.inr h)))
        · exact Or.inl (Or.inl (Or.inr ⟨by omega, fun i h1 h3 => h i h1 (by omega)⟩))
        · exact Or.inl (Or.inr h)
        · exact Or.inr h
    · simp only [hr, if_false]
      rw [guardedLoop_iff b slot _ _ _ h2, e1]
      have hr2 : ¬ (r + b.winningStreakSize ≤ b.height) := fun h => hr (e2.mpr h)
      constructor
      · rintro (h | h)
        · exact Or.inl h
        · exact Or.inr (Or.inl h)
      · rintro (h | h | ⟨h, _⟩ | ⟨h, _⟩ | ⟨h, _⟩)
        · exact Or.inl h
        · exact Or.inr h
        · exact absurd h hr2
        · exact absurd h hr2
        · exact absurd h hr2
  · simp [hc]

theorem foldl_or_iff {α : Type} (f : Bool → α → Bool) (P : α → Prop)
    (hf : ∀ rv x, f rv x = true ↔ rv = true ∨ P x) :
    ∀ (l : List α) (init : Bool),
      (l.foldl f init = true ↔ init = true ∨ ∃ x ∈ l, P x) := by
  intro l
  induction l with
  | nil => intro init; simp
  | cons a l ih =>
    intro init
    rw [List.foldl_cons, ih, hf]
    simp only [List.mem_cons, exists_eq_or_imp]
    tauto

theorem determineIfPlayerIsWinner_iff_runFrom (b : Board) (p : Player)
    (h2 : 2 ≤ b.winningStreakSize) (hp : p ≠ Player.None) :
    (b.determineIfPlayerIsWinner p = true ↔
      ∃ r c, r < b.height ∧ c < b.width ∧ b.runFrom (getPlayerColor p) r c) := by
  have hcol : (if p = Player.Red then SlotStatus.Red else SlotStatus.Yellow)
      = getPlayerColor p := by
    cases p <;> simp [getPlayerColor] at hp ⊢
  unfold determineIfPlayerIsWinner
  simp only [hp, if_false, hcol]
  rw [foldl_or_iff _ (fun r => ∃ c, c < b.width ∧ b.runFrom (getPlayerColor p) r c)]
  · simp only [List.mem_range, Bool.false_eq_true, false_or]
    constructor
    · rintro ⟨r, hr, c, hc, h⟩; exact ⟨r, c, hr, hc, h⟩
    · rintro ⟨r, c, hr, hc, h⟩; exact ⟨r, hr, c, hc, h⟩
  · intro rv r
    rw [foldl_or_iff _ (fun c => b.runFrom (getPlayerColor p) r c)]
    · simp only [List.mem_range]
    · intro rv c
      exact winnerCell_iff b _ r c rv h2

theorem idx_horz (w r c i : Nat) :
    ((w : Int) * ((r : Int) + i * 0) + ((c : Int) + i * 1)).toNat = w * r + c + i := by
  have : (w : Int) * ((r : Int) + i * 0) + ((c : Int) + i * 1) = ((w * r + c + i : Nat) : Int) := by
    push_cast; ring
  rw [this, Int.toNat_natCast]

theorem idx_vert (w r c i : Nat) :
    ((w : Int) * ((r : Int) + i * 1) + ((c : Int) + i * 0)).toNat = w * (r + i) + c := by
  have : (w : Int) * ((r : Int) + i * 1) + ((c : Int) + i * 0) = ((w * (r + i) + c : Nat) : Int) := by
    push_cast; ring
  rw [this, Int.toNat_natCast]

theorem idx_diag (w r c i : Nat) :
    ((w : Int) * ((r : Int) + i * 1) + ((c : Int) + i * 1)).toNat = w * (r + i) + (c + i) := by
  have : (w : Int) * ((r : Int) + i * 1) + ((c : Int) + i * 1)
      = ((w * (r + i) + (c + i) : Nat) : Int) := by
    push_cast; ring
  rw [this, Int.toNat_natCast]

theorem idx_anti (w r c i : Nat) (h : i ≤ c) :
    ((w : Int) * ((r : Int) + i * 1) + ((c : Int) + i * (-1))).toNat = w * (r + i) + (c - i) := by
  have : (w : Int) * ((r : Int) + i * 1) + ((c : Int) + i * (-1))
      = ((w * (r + i) + (c - i) : Nat) : Int) := by
    push_cast [h]; ring
  rw [this, Int.toNat_natCast]

theorem runFrom_iff_line (b : Board) (color : SlotStatus) (r c : Nat)
    (h2 : 2 ≤ b.winningStreakSize) :
    (r < b.height ∧ c < b.width ∧ b.runFrom color r c) ↔
      ∃ d : Int × Int, d ∈ [((0 : Int), (1 : Int)), (1, 0), (1, 1), (1, -1)] ∧
        b.lineOf color r c d.1 d.2 := by
  constructor
  · rintro ⟨hr, hc, h0, h | h | h | h⟩
    · refine ⟨(0, 1), by simp, ?_⟩
      intro i hi
      refine ⟨by simp, by simpa using hr, by omega, by omega, ?_⟩
      rw [idx_horz]
      rcases Nat.eq_zero_or_pos i with h3 | h3
      · subst h3; simpa using h0
      · exact h.2 i h3 hi
    · refine ⟨(1, 0), by simp, ?_⟩
      intro i hi
      refine ⟨by omega, by omega, by simp, by simpa using hc, ?_⟩
      rw [idx_vert]
      rcases Nat.eq_zero_or_pos i with h3 | h3
      · subst h3; simpa using h0
      · exact h.2 i h3 hi
    · refine ⟨(1, 1), by simp, ?_⟩
      intro i hi
      refine ⟨by omega, by omega, by omega, by omega, ?_⟩
      rw [idx_diag]
      rcases Nat.eq_zero_or_pos i with h3 | h3
      · subst h3; simpa using h0
      · exact h.2.2 i h3 hi
    · refine ⟨(1, -1), by simp, ?_⟩
      intro i hi
      refine ⟨by omega, by omega, by omega, by omega, ?_⟩
      rw [idx_anti _ _ _ _ (by omega)]
      rcases Nat.eq_zero_or_pos i with h3 | h3
      · subst h3; simpa using h0
      · exact h.2.2 i h3 hi
  · rintro ⟨d, hd, hl⟩
    have hz := hl 0 (by omega)
    have hlast := hl (b.winningStreakSize - 1) (by omega)
    have hr : r < b.height := by have := hz.2.1; simp at this; exact this
    have hc : c < b.width := by have := hz.2.2.2.1; simp at this; exact this
    have hcell : b.cell (b.width * r + c) = color := by
      have := hz.2.2.2.2
      simp only [Nat.cast_zero, zero_mul, add_zero] at this
      have e : (b.width : Int) * (r : Int) + (c : Int) = ((b.width * r + c : Nat) : Int) := by
        push_cast; ring
      rw [e, Int.toNat_natCast] at this
      exact this
    refine ⟨hr, hc, hcell, ?_⟩
    simp only [List.mem_cons, List.mem_singleton, List.not_mem_nil, or_false] at hd
    have hw : ((b.winningStreakSize - 1 : Nat) : Int) = (b.winningStreakSize : Int) - 1 := by
      omega
    rcases hd with rfl | rfl | rfl | rfl
    · left
      refine ⟨?_, fun i h1 h3 => ?_⟩
      · have := hlast.2.2.2.1; simp only [hw] at this; omega
      · have := (hl i h3).2.2.2.2; rwa [idx_horz] at this
    · right; left
      refine ⟨?_, fun i h1 h3 => ?_⟩
      · have := hlast.2.1; simp only [hw] at this; omega
      · have := (hl i h3).2.2.2.2; rwa [idx_vert] at this
    · right; right; left
      refine ⟨?_, ?_, fun i h1 h3 => ?_⟩
      · have := hlast.2.1; simp only [hw] at this; omega
      · have := hlast.2.2.2.1; simp only [hw] at this; omega
      · have := (hl i h3).2.2.2.2; rwa [idx_diag] at this
    · right; right; right
      have hcw : b.winningStreakSize ≤ c + 1 := by
        have := hlast.2.2.1; simp only [hw] at this; omega
      refine ⟨?_, hcw, fun i h1 h3 => ?_⟩
      · have := hlast.2.1; simp only [hw] at this; omega
      · have := (hl i h3).2.2.2.2; rwa [idx_anti _ _ _ _ (by omega)] at this

/-- C1: on a board with `winningStreakSize ≥ 2`, for Red and for Yellow,
`determineIfPlayerIsWinner` is true exactly when some cell `(r, c)` and one of the
directions `(0,+1)`, `(+1,0)`, `(+1,+1)`, `(+1,-1)` give `winningStreakSize` cells
inside the grid that all hold the colour of the player; for `Player::None` it is false. -/
theorem determineIfPlayerIsWinner_iff_line (b : Board) (h2 : 2 ≤ b.winningStreakSize) :
    (∀ p : Player, p ≠ Player.None →
      (b.determineIfPlayerIsWinner p = true ↔
        ∃ r c : Nat, ∃ d : Int × Int,
          d ∈ [((0 : Int), (1 : Int)), (1, 0), (1, 1), (1, -1)] ∧
          b.lineOf (getPlayerColor p) r c d.1 d.2)) ∧
    b.determineIfPlayerIsWinner Player.None = false := by
  refine ⟨fun p hp => ?_, by simp [determineIfPlayerIsWinner]⟩
  rw [determineIfPlayerIsWinner_iff_runFrom b p h2 hp]
  constructor
  · rintro ⟨r, c, hr, hc, h⟩
    exact ⟨r, c, (runFrom_iff_line b _ r c h2).mp ⟨hr, hc, h⟩⟩
  · rintro ⟨r, c, h⟩
    obtain ⟨hr, hc, h⟩ := (runFrom_iff_line b _ r c h2).mpr h
    exact ⟨r, c, hr, hc, h⟩

/-- C1 at the default 7x6 board with streak 4. -/
theorem determineIfPlayerIsWinner_iff_line_witness :
    2 ≤ (Board.create 7 6 4).winningStreakSize ∧
    ((∀ p : Player, p ≠ Player.None →
      ((Board.create 7 6 4).determineIfPlayerIsWinner p = true ↔
        ∃ r c : Nat, ∃ d : Int × Int,
          d ∈ [((0 : Int), (1 : Int)), (1, 0), (1, 1), (1, -1)] ∧
          (Board.create 7 6 4).lineOf (getPlayerColor p) r c d.1 d.2)) ∧
    (Board.create 7 6 4).determineIfPlayerIsWinner Player.None = false) :=
  ⟨by decide, determineIfPlayerIsWinner_iff_line (Board.create 7 6 4) (by decide)⟩

/-! ### `AddPiece` -/

theorem getD_set_eq {α : Type} (l : List α) (i j : Nat) (v d : α) :
    (l.set i v).getD j d = if i = j ∧ i < l.length then v else l.getD j d := by
  simp only [List.getD_eq_getElem?_getD, List.getElem?_set]
  by_cases h : i = j
  · subst h
    by_cases h2 : i < l.length
    · simp [h2]
    · simp [h2, List.getElem?_eq_none (not_lt.mp h2)]
  · simp [h]

theorem nextRow_le (b : Board) (hwf : b.WF) (c : Nat) : b.nextRow c ≤ b.height := by
  unfold nextRow
  rw [List.getD_eq_getElem?_getD]
  by_cases h : c < b.next_row.length
  · rw [List.getElem?_eq_getElem h]
    exact hwf.2.2.2.2.2.2 _ (List.getElem_mem h)
  · rw [List.getElem?_eq_none (not_lt.mp h)]
    exact Nat.zero_le _

theorem AddPiece_refused (b : Board) (player : Player) (column : Nat)
    (h : (b.AddPiece player column).1 ≠ 0) : (b.AddPiece player column).2 = b := by
  unfold AddPiece at h ⊢
  by_cases h1 : b.isGameOver = true
  · simp [h1]
  · by_cases h2 : column ≥ b.width
    · simp [h1, h2]
    · by_cases h3 : b.nextRow column ≥ b.height
      · simp [h1, h2, h3]
      · simp [h1, h2, h3] at h

/-- C3: `AddPiece` returns a non-zero code exactly when the game is already over, or
`column >= width`, or the column is full (`next_row[column] == height`), and in each of
these cases the board object (cells, column heights, `winner`, `isGameOver`) is
returned as it was. -/
theorem AddPiece_error_iff (b : Board) (hwf : b.WF) (player : Player) (column : Nat) :
    ((b.AddPiece player column).1 ≠ 0 ↔
      (b.isGameOver = true ∨ column ≥ b.width ∨ b.nextRow column = b.height)) ∧
    ((b.AddPiece player column).1 ≠ 0 → (b.AddPiece player column).2 = b) := by
  have hle := nextRow_le b hwf column
  unfold AddPiece
  by_cases h1 : b.isGameOver = true
  · simp [h1]
  · by_cases h2 : column ≥ b.width
    · simp [h1, h2]
    · by_cases h3 : b.nextRow column ≥ b.height
      · have : b.nextRow column = b.height := le_antisymm hle h3
        simp [h1, h2, this]
      · have : b.nextRow column ≠ b.height := by omega
        simp [h1, h2, h3, this]

/-- C3 at a 7x6 board whose game is over. -/
theorem AddPiece_error_iff_witness :
    finishedBoard.WF ∧
    (((finishedBoard.AddPiece Player.Red 3).1 ≠ 0 ↔
      (finishedBoard.isGameOver = true ∨ 3 ≥ finishedBoard.width ∨
        finishedBoard.nextRow 3 = finishedBoard.height)) ∧
    ((finishedBoard.AddPiece Player.Red 3).1 ≠ 0 →
      (finishedBoard.AddPiece Player.Red 3).2 = finishedBoard)) :=
  ⟨by decide, AddPiece_error_iff finishedBoard (by decide) Player.Red 3⟩

theorem AddPiece_ok (b : Board) (player : Player) (column : Nat)
    (h : (b.AddPiece player column).1 = 0) :
    b.isGameOver = false ∧ column < b.width ∧ b.nextRow column < b.height := by
  unfold AddPiece at h
  by_cases h1 : b.isGameOver = true
  · simp [h1] at h
  · by_cases h2 : column ≥ b.width
    · simp [h1, h2] at h
    · by_cases h3 : b.nextRow column ≥ b.height
      · simp [h1, h2, h3] at h
      · exact ⟨by simpa using h1, by omega, by omega⟩

theorem AddPiece_code (b : Board) (player : Player) (column : Nat)
    (h1 : b.isGameOver = false) (h2 : column < b.width) (h3 : b.nextRow column < b.height) :
    (b.AddPiece player column).1 = 0 := by
  have e2 : ¬ (column ≥ b.width) := by omega
  have e3 : ¬ (b.nextRow column ≥ b.height) := by omega
  unfold AddPiece
  simp only [h1, e2, e3, if_false, Bool.false_eq_true]

theorem cell_congr (b c : Board) (h1 : b.board = c.board) (i : Nat) :
    b.cell i = c.cell i := by
  unfold cell; rw [h1]

theorem streakLoop_congr (b c : Board) (slot : SlotStatus) (idx : Nat → Nat)
    (h1 : b.board = c.board) (h4 : b.winningStreakSize = c.winningStreakSize) :
    ∀ (l : List Nat) (rv : Bool),
      streakLoop b slot idx l rv = streakLoop c slot idx l rv := by
  intro l
  induction l with
  | nil => intro rv; rfl
  | cons i l ih =>
    intro rv
    simp only [streakLoop, cell_congr b c h1, h4, ih]

theorem winnerCell_congr (b c : Board) (slot : SlotStatus) (r k : Nat) (rv : Bool)
    (h1 : b.board = c.board) (h2 : b.width = c.width) (h3 : b.height = c.height)
    (h4 : b.winningStreakSize = c.winningStreakSize) :
    winnerCell b slot r k rv = winnerCell c slot r k rv := by
  simp only [winnerCell, cell_congr b c h1, h2, h3, h4, streakLoop_congr b c _ _ h1 h4]

/-- The win scan reads only the cells and the dimensions. -/
theorem determineIfPlayerIsWinner_congr (b c : Board) (p : Player)
    (h1 : b.board = c.board) (h2 : b.width = c.width) (h3 : b.height = c.height)
    (h4 : b.winningStreakSize = c.winningStreakSize) :
    b.determineIfPlayerIsWinner p = c.determineIfPlayerIsWinner p := by
  simp only [determineIfPlayerIsWinner, h2, h3, winnerCell_congr b c _ _ _ _ h1 h2 h3 h4]

/-- The fullness test reads only the cells and the dimensions. -/
theorem IsFull_congr (b c : Board)
    (h1 : b.board = c.board) (h2 : b.width = c.width) (h3 : b.height = c.height) :
    b.IsFull = c.IsFull := by
  simp only [IsFull, cell_congr b c h1, h2, h3]

/-- The board returned by a successful `AddPiece`. -/
theorem AddPiece_snd (b : Board) (player : Player) (column : Nat)
    (h1 : b.isGameOver = false) (h2 : column < b.width) (h3 : b.nextRow column < b.height) :
    (b.AddPiece player column).2 =
      { b.dropPiece player column with
        winner :=
          if (b.dropPiece player column).determineIfPlayerIsWinner player = true
          then player else b.winner
        isGameOver :=
          ((b.dropPiece player column).IsFull
            || (b.dropPiece player column).determineIfPlayerIsWinner player) } := by
  have e2 : ¬ (column ≥ b.width) := by omega
  have e3 : ¬ (b.nextRow column ≥ b.height) := by omega
  unfold AddPiece
  simp only [h1, e2, e3, if_false, Bool.false_eq_true]
  rfl

/-- The fields of the board after a successful `AddPiece`. -/
theorem AddPiece_fields (b : Board) (player : Player) (column : Nat)
    (h : (b.AddPiece player column).1 = 0) :
    (b.AddPiece player column).2.board =
        b.board.set (b.width * b.nextRow column + column)
          (if player = Player.Red then SlotStatus.Red else SlotStatus.Yellow) ∧
    (b.AddPiece player column).2.next_row =
        b.next_row.set column ((b.nextRow column + 1) % 256) ∧
    (b.AddPiece player column).2.width = b.width ∧
    (b.AddPiece player column).2.height = b.height ∧
    (b.AddPiece player column).2.winningStreakSize = b.winningStreakSize ∧
    (b.AddPiece player column).2.winner =
      (if (b.AddPiece player column).2.determineIfPlayerIsWinner player = true
        then player else b.winner) ∧
    (b.AddPiece player column).2.isGameOver =
      ((b.AddPiece player column).2.IsFull ||
        (b.AddPiece player column).2.determineIfPlayerIsWinner player) := by
  obtain ⟨h1, h2, h3⟩ := AddPiece_ok b player column h
  have e := AddPiece_snd b player column h1 h2 h3
  have hW : (b.AddPiece player column).2.determineIfPlayerIsWinner player =
      (b.dropPiece player column).determineIfPlayerIsWinner player :=
    determineIfPlayerIsWinner_congr _ _ player (by rw [e]) (by rw [e]) (by rw [e]) (by rw [e])
  have hF : (b.AddPiece player column).2.IsFull = (b.dropPiece player column).IsFull :=
    IsFull_congr _ _ (by rw [e]) (by rw [e]) (by rw [e])
  rw [hW, hF, e]
  exact ⟨rfl, rfl, rfl, rfl, rfl, rfl, rfl⟩

theorem rowMajor_inj (w r c r2 c2 : Nat) (hc : c < w) (hc2 : c2 < w)
    (h : w * r + c = w * r2 + c2) : r = r2 ∧ c = c2 := by
  have e1 : (w * r + c) % w = c := by
    rw [Nat.mul_add_mod]; exact Nat.mod_eq_of_lt hc
  have e2 : (w * r2 + c2) % w = c2 := by
    rw [Nat.mul_add_mod]; exact Nat.mod_eq_of_lt hc2
  have hcc : c = c2 := by rw [← e1, ← e2, h]
  subst hcc
  have hw : 0 < w := by omega
  have : w * r = w * r2 := by omega
  exact ⟨Nat.eq_of_mul_eq_mul_left hw this, rfl⟩

theorem rowMajor_lt (w h r c : Nat) (hr : r < h) (hc : c < w) : w * r + c < w * h := by
  have : w * (r + 1) ≤ w * h := Nat.mul_le_mul_left w hr
  rw [Nat.mul_add, Nat.mul_one] at this
  omega

theorem cell_create (w h k i : Nat) : (create w h k).cell i = SlotStatus.Empty := by
  unfold cell create
  simp only [List.getD_eq_getElem?_getD]
  by_cases hi : i < w * h
  · rw [List.getElem?_eq_getElem (by simpa using hi)]; simp
  · rw [List.getElem?_eq_none (by simpa using hi)]; rfl

theorem nextRow_of_set (b c : Board) (i v : Nat) (h : c.next_row = b.next_row.set i v)
    (j : Nat) :
    c.nextRow j = if i = j ∧ i < b.next_row.length then v else b.nextRow j := by
  unfold nextRow; rw [h, getD_set_eq]

theorem cell_of_set (b c : Board) (i : Nat) (v : SlotStatus) (h : c.board = b.board.set i v)
    (j : Nat) :
    c.cell j = if i = j ∧ i < b.board.length then v else b.cell j := by
  unfold cell; rw [h, getD_set_eq]

theorem AddPiece_WF (b : Board) (hwf : b.WF) (player : Player) (column : Nat) :
    (b.AddPiece player column).2.WF := by
  by_cases h : (b.AddPiece player column).1 = 0
  · obtain ⟨hb, hn, hw, hh, hs, -, -⟩ := AddPiece_fields b player column h
    obtain ⟨h1, h2, h3⟩ := AddPiece_ok b player column h
    obtain ⟨w1, w2, w3, w4, w5, w6, w7⟩ := hwf
    refine ⟨by rw [hw]; exact w1, by rw [hh]; exact w2, by rw [hs]; exact w3,
      by rw [hw, hh]; exact w4, by rw [hb, hw, hh, List.length_set]; exact w5,
      by rw [hn, hw, List.length_set]; exact w6, ?_⟩
    intro x hx
    rw [hn] at hx
    rw [hh]
    rcases List.mem_or_eq_of_mem_set hx with hx | hx
    · exact w7 x hx
    · subst hx
      have : (b.nextRow column + 1) % 256 = b.nextRow column + 1 := Nat.mod_eq_of_lt (by omega)
      omega
  · rw [AddPiece_refused b player column h]; exact hwf

theorem AddPiece_Stacked (b : Board) (hwf : b.WF) (hst : b.Stacked) (player : Player)
    (column : Nat) : (b.AddPiece player column).2.Stacked := by
  by_cases h : (b.AddPiece player column).1 = 0
  · obtain ⟨hb, hn, hw, hh, hs, -, -⟩ := AddPiece_fields b player column h
    obtain ⟨h1, h2, h3⟩ := AddPiece_ok b player column h
    intro c r hc hr hrh
    rw [hw] at hc ⊢
    rw [hh] at hrh
    have hlen : column < b.next_row.length := by rw [hwf.2.2.2.2.2.1]; exact h2
    have hmod : (b.nextRow column + 1) % 256 = b.nextRow column + 1 :=
      Nat.mod_eq_of_lt (by have := hwf.2.1; omega)
    have hnr : (b.AddPiece player column).2.nextRow c =
        if column = c then b.nextRow column + 1 else b.nextRow c := by
      rw [nextRow_of_set b _ _ _ hn, hmod]
      by_cases hcc : column = c
      · subst hcc; simp [hlen]
      · simp [hcc]
    rw [hnr] at hr
    have hne : b.width * b.nextRow column + column ≠ b.width * r + c := by
      intro he
      obtain ⟨e1, e2⟩ := rowMajor_inj _ _ _ _ _ h2 hc he
      rw [if_pos e2] at hr
      omega
    have hcell : (b.AddPiece player column).2.cell (b.width * r + c) = b.cell (b.width * r + c) := by
      rw [cell_of_set b _ _ _ hb]
      simp [hne]
    rw [hcell]
    apply hst c r hc _ hrh
    by_cases hcc : column = c
    · rw [if_pos hcc] at hr; subst hcc; omega
    · rw [if_neg hcc] at hr; exact hr
  · rw [AddPiece_refused b player column h]; exact hst

theorem AddPieceReachable_inv (b : Board) (h : b.AddPieceReachable) : b.WF ∧ b.Stacked := by
  induction h with
  | fresh w h k hwf =>
    exact ⟨hwf, fun c r _ _ _ => cell_create w h k _⟩
  | step b player column _ ih =>
    exact ⟨AddPiece_WF b ih.1 player column, AddPiece_Stacked b ih.1 ih.2 player column⟩

/-- C2 (as amended): when `AddPiece(player, column)` returns 0 for Red or Yellow, the
only cell that can change is index `width*h0 + column` (`h0` the column's `next_row`
entry before the call) and it now holds the colour of the player; that cell was `Empty`
on every board reached from a fresh board by `AddPiece` alone; `next_row[column]`
becomes `h0 + 1` and the other entries are unchanged; `winner` becomes the player if
the player now satisfies the win scan and is otherwise unchanged; `isGameOver` becomes
`IsFull()` or the player now wins. -/
theorem AddPiece_success_effect (b : Board) (hwf : b.WF) (player : Player) (column : Nat)
    (hp : player = Player.Red ∨ player = Player.Yellow)
    (h : (b.AddPiece player column).1 = 0) :
    (∀ i, i ≠ b.width * b.nextRow column + column →
      (b.AddPiece player column).2.cell i = b.cell i) ∧
    (b.AddPiece player column).2.cell (b.width * b.nextRow column + column)
      = getPlayerColor player ∧
    (b.AddPieceReachable →
      b.cell (b.width * b.nextRow column + column) = SlotStatus.Empty) ∧
    (b.AddPiece player column).2.nextRow column = b.nextRow column + 1 ∧
    (∀ c, c ≠ column → (b.AddPiece player column).2.nextRow c = b.nextRow c) ∧
    (b.AddPiece player column).2.winner =
      (if (b.AddPiece player column).2.determineIfPlayerIsWinner player = true
        then player else b.winner) ∧
    (b.AddPiece player column).2.isGameOver =
      ((b.AddPiece player column).2.IsFull ||
        (b.AddPiece player column).2.determineIfPlayerIsWinner player) := by
  obtain ⟨hb, hn, hw, hh, hs, hwin, hover⟩ := AddPiece_fields b player column h
  obtain ⟨h1, h2, h3⟩ := AddPiece_ok b player column h
  have hlen : column < b.next_row.length := by rw [hwf.2.2.2.2.2.1]; exact h2
  have hmod : (b.nextRow column + 1) % 256 = b.nextRow column + 1 :=
    Nat.mod_eq_of_lt (by have := hwf.2.1; omega)
  have hidx : b.width * b.nextRow column + column < b.board.length := by
    rw [hwf.2.2.2.2.1]; exact rowMajor_lt _ _ _ _ h3 h2
  have hcol : (if player = Player.Red then SlotStatus.Red else SlotStatus.Yellow)
      = getPlayerColor player := by
    rcases hp with rfl | rfl <;> simp [getPlayerColor]
  refine ⟨?_, ?_, ?_, ?_, ?_, hwin, hover⟩
  · intro i hi
    rw [cell_of_set b _ _ _ hb]
    simp [Ne.symm hi]
  · rw [cell_of_set b _ _ _ hb, hcol]
    simp [hidx]
  · intro hreach
    exact (AddPieceReachable_inv b hreach).2 column (b.nextRow column) h2 (le_refl _) h3
  · rw [nextRow_of_set b _ _ _ hn, hmod]
    simp [hlen]
  · intro c hc
    rw [nextRow_of_set b _ _ _ hn]
    simp [Ne.symm hc]

/-- C2 as stated fails: on the 7x6 board on which `playMove(0, SlotStatus::Red)` wrote
cell 0, `AddPiece(Yellow, 0)` returns 0 and stores Yellow in cell 0, which was not
`Empty` but Red. -/
theorem AddPiece_overwrites_piece :
    boardWithRawWrite.WF ∧
    (boardWithRawWrite.AddPiece Player.Yellow 0).1 = 0 ∧
    boardWithRawWrite.cell (boardWithRawWrite.width * boardWithRawWrite.nextRow 0 + 0)
      = SlotStatus.Red ∧
    (boardWithRawWrite.AddPiece Player.Yellow 0).2.cell
        (boardWithRawWrite.width * boardWithRawWrite.nextRow 0 + 0) = SlotStatus.Yellow := by
  decide

/-- C2 (as amended) at the first drop on the default board. -/
theorem AddPiece_success_effect_witness :
    (create 7 6 4).WF ∧ (Player.Red = Player.Red ∨ Player.Red = Player.Yellow) ∧
    ((create 7 6 4).AddPiece Player.Red 3).1 = 0 ∧
    ((create 7 6 4).AddPiece Player.Red 3).2.cell
      ((create 7 6 4).width * (create 7 6 4).nextRow 3 + 3) = getPlayerColor Player.Red :=
  ⟨by decide, by decide, by decide,
    (AddPiece_success_effect (create 7 6 4) (by decide) Player.Red 3 (by decide)
      (by decide)).2.1⟩

/-! ### A horizontal run dropped into a fresh board -/

theorem IsFull_iff (b : Board) :
    b.IsFull = true ↔ ∀ i, i < (b.width * b.height) % 256 → b.cell i ≠ SlotStatus.Empty := by
  unfold IsFull
  simp only [List.all_eq_true, List.mem_range, bne_iff_ne]

theorem nextRow_create (w h k c : Nat) : (create w h k).nextRow c = 0 := by
  unfold nextRow create
  simp only [List.getD_eq_getElem?_getD]
  by_cases hi : c < w
  · rw [List.getElem?_eq_getElem (by simpa using hi)]; simp
  · rw [List.getElem?_eq_none (by simpa using hi)]; rfl

theorem RowState_create (w h n s : Nat) (color : SlotStatus) :
    RowState (create w h n) w h n s 0 color := by
  refine ⟨rfl, rfl, rfl, rfl, rfl, by simp [create], by simp [create], ?_, ?_⟩
  · intro i
    rw [cell_create, if_neg (by omega)]
  · intro c
    rw [nextRow_create, if_neg (by omega)]

/-- One more drop onto a row of `k < n` pieces: the call succeeds, and the board reports a
win exactly when the row has reached length `n`. -/
theorem RowState_step (b : Board) (w h n s k : Nat) (p : Player)
    (hp : p = Player.Red ∨ p = Player.Yellow)
    (hst : RowState b w h n s k (getPlayerColor p))
    (h2 : 2 ≤ n) (hh : 1 ≤ h) (hwh : w * h ≤ 255) (hs : s + n ≤ w) (hk : k < n) :
    (b.AddPiece p (s + k)).1 = 0 ∧
    (k + 1 < n → RowState (b.AddPiece p (s + k)).2 w h n s (k + 1) (getPlayerColor p)) ∧
    (k + 1 = n → (b.AddPiece p (s + k)).2.winner = p ∧
      (b.AddPiece p (s + k)).2.isGameOver = true) := by
  obtain ⟨ew, eh, en, eo, ewin, elen, enl, ecell, enr⟩ := hst
  have hcolor : getPlayerColor p ≠ SlotStatus.Empty := by
    rcases hp with rfl | rfl <;> simp [getPlayerColor]
  have hcol : (if p = Player.Red then SlotStatus.Red else SlotStatus.Yellow)
      = getPlayerColor p := by
    rcases hp with rfl | rfl <;> simp [getPlayerColor]
  have hpn : p ≠ Player.None := by rcases hp with rfl | rfl <;> simp
  have hnr0 : b.nextRow (s + k) = 0 := by
    rw [enr, if_neg (by omega)]
  have hcode : (b.AddPiece p (s + k)).1 = 0 :=
    AddPiece_code b p (s + k) eo (by omega) (by omega)
  obtain ⟨hb, hn, hw, hhh, hss, hwin, hover⟩ := AddPiece_fields b p (s + k) hcode
  rw [hnr0, hcol, Nat.mul_zero, Nat.zero_add] at hb
  rw [hnr0, Nat.zero_add, Nat.mod_eq_of_lt (by omega : 1 < 256)] at hn
  have hwpos : w ≤ w * h := Nat.le_mul_of_pos_right w hh
  have hcell2 : ∀ i, (b.AddPiece p (s + k)).2.cell i =
      if s ≤ i ∧ i < s + (k + 1) then getPlayerColor p else SlotStatus.Empty := by
    intro i
    rw [cell_of_set b _ _ _ hb, ecell, elen]
    split_ifs <;> first | rfl | (exfalso; omega)
  have hcolored : ∀ i, (b.AddPiece p (s + k)).2.cell i = getPlayerColor p ↔
      (s ≤ i ∧ i < s + (k + 1)) := by
    intro i
    rw [hcell2]
    by_cases h5 : s ≤ i ∧ i < s + (k + 1)
    · simp [h5]
    · simp only [h5, if_false, iff_false]
      exact fun h => hcolor h.symm
  have hdw : (b.AddPiece p (s + k)).2.determineIfPlayerIsWinner p = true ↔ k + 1 = n := by
    rw [determineIfPlayerIsWinner_iff_runFrom _ p (by rw [hss, en]; exact h2) hpn]
    constructor
    · rintro ⟨r, c, hr, hc, h0, hdir⟩
      rw [hw, ew] at h0 hdir hc
      rw [hhh, eh] at hdir
      rw [hss, en] at hdir
      rw [hcolored] at h0
      rcases hdir with ⟨_, hd⟩ | ⟨_, hd⟩ | ⟨_, _, hd⟩ | ⟨_, _, hd⟩
      · have := (hcolored _).mp (hd (n - 1) (by omega) (by omega))
        omega
      · have := (hcolored _).mp (hd 1 (by omega) (by omega))
        have : w ≤ w * (r + 1) := Nat.le_mul_of_pos_right w (by omega)
        omega
      · have := (hcolored _).mp (hd 1 (by omega) (by omega))
        have : w ≤ w * (r + 1) := Nat.le_mul_of_pos_right w (by omega)
        omega
      · have := (hcolored _).mp (hd 1 (by omega) (by omega))
        have : w ≤ w * (r + 1) := Nat.le_mul_of_pos_right w (by omega)
        omega
    · intro hkn
      refine ⟨0, s, by rw [hhh, eh]; omega, by rw [hw, ew]; omega, ?_, Or.inl ⟨?_, ?_⟩⟩
      · rw [hcolored, hw, ew]; omega
      · rw [hss, en, hw, ew]; exact hs
      · intro i h1 h3
        rw [hss, en] at h3
        rw [hcolored, hw, ew]; omega
  refine ⟨hcode, ?_, ?_⟩
  · intro hlt
    have hdwf : (b.AddPiece p (s + k)).2.determineIfPlayerIsWinner p = false := by
      have : ¬ ((b.AddPiece p (s + k)).2.determineIfPlayerIsWinner p = true) := by
        rw [hdw]; omega
      simpa using this
    have hfull : (b.AddPiece p (s + k)).2.IsFull = false := by
      have : ¬ ((b.AddPiece p (s + k)).2.IsFull = true) := by
        rw [IsFull_iff, hw, hhh, ew, eh, Nat.mod_eq_of_lt (by omega)]
        intro hall
        apply hall (s + (k + 1)) (by omega)
        rw [hcell2, if_neg (by omega)]
      simpa using this
    refine ⟨by rw [hw, ew], by rw [hhh, eh], by rw [hss, en], ?_, ?_, ?_, ?_, hcell2, ?_⟩
    · rw [hover, hdwf, hfull]; rfl
    · rw [hwin, hdwf]; simpa using ewin
    · rw [hb, List.length_set, elen]
    · rw [hn, List.length_set, enl]
    · intro c
      rw [nextRow_of_set b _ _ _ hn, enr, enl]
      split_ifs <;> first | rfl | (exfalso; omega)
  · intro heq
    have hdwt := hdw.mpr heq
    refine ⟨by rw [hwin, hdwt]; simp, by rw [hover, hdwt]; simp⟩

theorem dropRun_RowState (w h n s : Nat) (p : Player)
    (hp : p = Player.Red ∨ p = Player.Yellow)
    (h2 : 2 ≤ n) (hh : 1 ≤ h) (hwh : w * h ≤ 255) (hs : s + n ≤ w) :
    ∀ k, k < n → RowState (dropRun (create w h n) p s k) w h n s k (getPlayerColor p) := by
  intro k
  induction k with
  | zero => intro _; exact RowState_create w h n s _
  | succ k ih =>
    intro hk
    exact (RowState_step _ w h n s k p hp (ih (by omega)) h2 hh hwh hs (by omega)).2.1 hk

/-- C4 (as amended): on a fresh board with `height ≥ 1` and
`2 ≤ winningStreakSize ≤ width`, for every start column
`s ≤ width - winningStreakSize`, dropping pieces of one player (Red or Yellow) with
`AddPiece` into columns `s, s+1, ...` succeeds every time; after each of the first
`winningStreakSize - 1` drops `Winner()` is `None` and `IsGameOver()` is false, and
after drop number `winningStreakSize` `Winner()` is that player and `IsGameOver()` is
true. -/
theorem horizontal_run_wins_at_last_drop (w h n s : Nat) (p : Player)
    (hp : p = Player.Red ∨ p = Player.Yellow) (hwf : (create w h n).WF)
    (h2 : 2 ≤ n) (hnw : n ≤ w) (hh : 1 ≤ h) (hs : s ≤ w - n) :
    ∀ k, k < n →
      ((dropRun (create w h n) p s k).AddPiece p (s + k)).1 = 0 ∧
      (k + 1 < n →
        (dropRun (create w h n) p s (k + 1)).winner = Player.None ∧
        (dropRun (create w h n) p s (k + 1)).isGameOver = false) ∧
      (k + 1 = n →
        (dropRun (create w h n) p s (k + 1)).winner = p ∧
        (dropRun (create w h n) p s (k + 1)).isGameOver = true) := by
  intro k hk
  have hwh : w * h ≤ 255 := hwf.2.2.2.1
  have hs2 : s + n ≤ w := by omega
  have hst := dropRun_RowState w h n s p hp h2 hh hwh hs2 k hk
  obtain ⟨h1, h3, h4⟩ := RowState_step _ w h n s k p hp hst h2 hh hwh hs2 hk
  refine ⟨h1, ?_, h4⟩
  intro hlt
  have := h3 hlt
  exact ⟨this.2.2.2.2.1, this.2.2.2.1⟩

/-- C4 as stated fails on a board of height 0: the very first drop is refused. -/
theorem first_drop_refused_on_height_zero :
    (create 7 0 4).WF ∧ 2 ≤ (create 7 0 4).winningStreakSize ∧
    (create 7 0 4).winningStreakSize ≤ (create 7 0 4).width ∧
    ((dropRun (create 7 0 4) Player.Red 0 0).AddPiece Player.Red (0 + 0)).1 ≠ 0 := by
  decide

/-- C4 (as amended) on the 7x6 board with streak 4, columns 0, 1, 2, 3: the fourth
drop wins. -/
theorem horizontal_run_wins_at_last_drop_witness :
    (create 7 6 4).WF ∧
    ((dropRun (create 7 6 4) Player.Red 0 3).AddPiece Player.Red (0 + 3)).1 = 0 ∧
    (dropRun (create 7 6 4) Player.Red 0 (3 + 1)).winner = Player.Red ∧
    (dropRun (create 7 6 4) Player.Red 0 (3 + 1)).isGameOver = true :=
  ⟨by decide,
    (horizontal_run_wins_at_last_drop 7 6 4 0 Player.Red (Or.inl rfl) (by decide)
      (by decide) (by decide) (by decide) (by decide) 3 (by decide)).1,
    (horizontal_run_wins_at_last_drop 7 6 4 0 Player.Red (Or.inl rfl) (by decide)
      (by decide) (by decide) (by decide) (by decide) 3 (by decide)).2.2 rfl⟩

/-! ### Runs and the scanners of `checkStreak` -/

theorem streakClose_eq (t : Nat) (st : Nat × Nat) : streakClose t st = streakStep t st false := by
  simp [streakClose, streakStep]

theorem foldl_streakStep (t : Nat) :
    ∀ (ev : List Bool) (cs c : Nat),
      ev.foldl (streakStep t) (cs, c) = (openRun ev cs, c + (closedRuns ev cs).count t) := by
  intro ev
  induction ev with
  | nil => intro cs c; simp [openRun, closedRuns]
  | cons e ev ih =>
    intro cs c
    cases e with
    | true =>
      simp only [List.foldl_cons, streakStep, if_true, openRun, closedRuns]
      exact ih _ _
    | false =>
      simp only [List.foldl_cons, streakStep, Bool.false_eq_true, if_false, openRun, closedRuns]
      rw [ih, List.count_cons]
      by_cases h : cs = t
      · simp [h]; omega
      · simp [h]

theorem foldl_allEvents {α : Type} (t : Nat) (ev : α → List Bool) :
    ∀ (l : List α) (st : Nat × Nat),
      l.foldl (fun st a => (ev a).foldl (streakStep t) st) st
        = (allEvents ev l).foldl (streakStep t) st := by
  intro l
  induction l with
  | nil => intro st; rfl
  | cons a l ih =>
    intro st
    simp only [List.foldl_cons, allEvents, List.foldl_append]
    exact ih _

theorem foldl_guarded (t : Nat) (g : Nat → Bool) (c : Nat → Bool) :
    ∀ (l : List Nat) (st : Nat × Nat),
      l.foldl (fun st k => if g k = true then streakStep t st (c k) else st) st
        = ((l.filter g).map c).foldl (streakStep t) st := by
  intro l
  induction l with
  | nil => intro st; rfl
  | cons a l ih =>
    intro st
    by_cases h : g a = true
    · simp only [List.foldl_cons, h, if_true, List.filter_cons_of_pos, List.map_cons]
      exact ih _
    · simp only [List.foldl_cons, h, if_false, Bool.false_eq_true]
      rw [List.filter_cons_of_neg h]
      exact ih _

theorem checkHorzStreak_eq (b : Board) (color : SlotStatus) (streak : Int) :
    b.checkHorzStreak color streak =
      (closedRuns (allEvents (rowEvents b color) (List.range b.height)) 0).count
        (toUInt32 streak) := by
  unfold checkHorzStreak
  have h : ∀ (st : Nat × Nat) (i : Nat),
      streakClose (toUInt32 streak)
        ((List.range b.width).foldl
          (fun st j => streakStep (toUInt32 streak) st (b.cell (b.width * i + j) == color)) st)
      = (rowEvents b color i).foldl (streakStep (toUInt32 streak)) st := by
    intro st i
    rw [streakClose_eq, rowEvents, List.foldl_append, List.foldl_map]
    rfl
  simp only [h]
  rw [foldl_allEvents, foldl_streakStep]
  simp

theorem checkVertStreak_eq (b : Board) (color : SlotStatus) (streak : Int) :
    b.checkVertStreak color streak =
      (closedRuns (allEvents (colEvents b color) (List.range b.width)) 0).count
        (toUInt32 streak) := by
  unfold checkVertStreak
  have h : ∀ (st : Nat × Nat) (j : Nat),
      streakClose (toUInt32 streak)
        ((List.range b.height).foldl
          (fun st i => streakStep (toUInt32 streak) st (b.cell (b.width * i + j) == color)) st)
      = (colEvents b color j).foldl (streakStep (toUInt32 streak)) st := by
    intro st j
    rw [streakClose_eq, colEvents, List.foldl_append, List.foldl_map]
    rfl
  simp only [h]
  rw [foldl_allEvents, foldl_streakStep]
  simp

theorem diagWalkUp_eq (b : Board) (color : SlotStatus) (t i j : Nat) (st : Nat × Nat) :
    diagWalkUp b color t i j st = (upEvents b color i j).foldl (streakStep t) st := by
  unfold diagWalkUp upEvents
  rw [← foldl_guarded]
  congr 1
  funext st k
  by_cases h : i + k < b.height ∧ j + k < b.width
  · simp [h]
  · simp [h]

theorem diagWalkDown_eq (b : Board) (color : SlotStatus) (t i j : Nat) (st : Nat × Nat) :
    diagWalkDown b color t i j st = (downEvents b color i j).foldl (streakStep t) st := by
  unfold diagWalkDown downEvents
  rw [← foldl_guarded]
  congr 1
  funext st k
  by_cases h : (i : Int) - (k : Int) ≥ 0 ∧ (j : Int) - (k : Int) ≥ 0
  · simp [h]
  · simp [h]

theorem checkDiagStreak_eq (b : Board) (color : SlotStatus) (streak : Int) :
    b.checkDiagStreak color streak =
      (closedRuns
        (allEvents (fun i => allEvents (originEvents b color i) (List.range b.width))
          (List.range b.height)) 0).count (toUInt32 streak) := by
  unfold checkDiagStreak
  have h : ∀ (i : Nat) (st : Nat × Nat) (j : Nat),
      (if b.cell (b.width * i + j) = color then
        streakClose (toUInt32 streak)
          (diagWalkDown b color (toUInt32 streak) i j
            (streakClose (toUInt32 streak)
              (diagWalkUp b color (toUInt32 streak) i j st)))
      else st)
      = (originEvents b color i j).foldl (streakStep (toUInt32 streak)) st := by
    intro i st j
    unfold originEvents
    by_cases hc : b.cell (b.width * i + j) = color
    · simp only [hc, if_true, streakClose_eq, diagWalkUp_eq, diagWalkDown_eq,
        List.foldl_append, List.foldl_cons, List.foldl_nil]
    · simp only [hc, if_false, List.foldl_nil]
  simp only [h]
  simp only [foldl_allEvents]
  rw [foldl_streakStep]
  simp

theorem checkStreak_eq_count (b : Board) (color : SlotStatus) (streak : Int) :
    b.checkStreak color streak = (b.allRuns color).count (toUInt32 streak) := by
  unfold checkStreak allRuns
  rw [checkHorzStreak_eq, checkVertStreak_eq, checkDiagStreak_eq, List.count_append,
    List.count_append]

theorem closedRuns_sum :
    ∀ (ev : List Bool) (cs : Nat),
      (closedRuns ev cs).sum + openRun ev cs = cs + ev.count true := by
  intro ev
  induction ev with
  | nil => intro cs; simp [closedRuns, openRun]
  | cons e ev ih =>
    intro cs
    cases e with
    | true =>
      simp only [closedRuns, openRun, List.count_cons_self]
      rw [ih]; omega
    | false =>
      simp only [closedRuns, openRun, List.sum_cons]
      have := ih 0
      rw [List.count_cons_of_ne (by simp)]
      omega

theorem closedRuns_mem_le :
    ∀ (ev : List Bool) (cs v : Nat), v ∈ closedRuns ev cs → v ≤ cs + ev.count true := by
  intro ev
  induction ev with
  | nil => intro cs v h; simp [closedRuns] at h
  | cons e ev ih =>
    intro cs v h
    cases e with
    | true =>
      simp only [closedRuns] at h
      have := ih _ _ h
      rw [List.count_cons_self]; omega
    | false =>
      simp only [closedRuns, List.mem_cons] at h
      rcases h with h | h
      · omega
      · have := ih _ _ h
        rw [List.count_cons_of_ne (by simp)]
        omega

theorem closedRuns_append :
    ∀ (e1 e2 : List Bool) (cs : Nat),
      closedRuns (e1 ++ e2) cs = closedRuns e1 cs ++ closedRuns e2 (openRun e1 cs) ∧
      openRun (e1 ++ e2) cs = openRun e2 (openRun e1 cs) := by
  intro e1
  induction e1 with
  | nil => intro e2 cs; simp [closedRuns, openRun]
  | cons e e1 ih =>
    intro e2 cs
    cases e with
    | true =>
      simp only [List.cons_append, closedRuns, openRun]
      exact ih _ _
    | false =>
      simp only [List.cons_append, closedRuns, openRun, List.cons.injEq, true_and]
      exact ih _ _

theorem cubeSum_append (r1 r2 : List Nat) : cubeSum (r1 ++ r2) = cubeSum r1 + cubeSum r2 := by
  simp [cubeSum]

theorem cubeSum_le (m : Nat) :
    ∀ (r : List Nat), (∀ v ∈ r, v ≤ m) → cubeSum r ≤ m * m * r.sum := by
  intro r
  induction r with
  | nil => intro _; simp [cubeSum]
  | cons a r ih =>
    intro h
    have ha : a ≤ m := h a (List.mem_cons_self _ _)
    have ih2 := ih (fun v hv => h v (List.mem_cons_of_mem _ hv))
    simp only [cubeSum, List.map_cons, List.sum_cons] at ih2 ⊢
    have e1 : a ^ 3 ≤ m * m * a := by
      have : a ^ 3 = a * a * a := by ring
      rw [this]
      exact Nat.mul_le_mul_right a (Nat.mul_le_mul ha ha)
    rw [Nat.mul_add]
    omega

/-- A segment closed by a final `false` contributes at most `m^3` when it holds at most
`m` events. -/
theorem cubeSum_closed_segment (e : List Bool) (m : Nat) (h : e.length ≤ m) :
    cubeSum (closedRuns (e ++ [false]) 0) ≤ m * m * m ∧ openRun (e ++ [false]) 0 = 0 := by
  have hopen : openRun (e ++ [false]) 0 = 0 := by
    rw [(closedRuns_append e [false] 0).2]; rfl
  refine ⟨?_, hopen⟩
  have hc : (e ++ [false]).count true ≤ m := by
    rw [List.count_append]
    have : e.count true ≤ e.length := List.count_le_length _ _
    simp; omega
  have hs := closedRuns_sum (e ++ [false]) 0
  rw [hopen] at hs
  have hm : ∀ v ∈ closedRuns (e ++ [false]) 0, v ≤ m := by
    intro v hv
    have := closedRuns_mem_le _ _ _ hv
    omega
  have h1 := cubeSum_le m _ hm
  have h2 : m * m * (closedRuns (e ++ [false]) 0).sum ≤ m * m * m :=
    Nat.mul_le_mul_left _ (by omega)
  omega

/-- Segments that each end closed contribute independently. -/
theorem cubeSum_allEvents {α : Type} (ev : α → List Bool) (K : Nat) :
    ∀ (l : List α),
      (∀ a ∈ l, cubeSum (closedRuns (ev a) 0) ≤ K ∧ openRun (ev a) 0 = 0) →
      cubeSum (closedRuns (allEvents ev l) 0) ≤ l.length * K ∧
        openRun (allEvents ev l) 0 = 0 := by
  intro l
  induction l with
  | nil => intro _; simp [allEvents, closedRuns, openRun, cubeSum]
  | cons a l ih =>
    intro h
    obtain ⟨h1, h2⟩ := h a (List.mem_cons_self _ _)
    obtain ⟨h3, h4⟩ := ih (fun x hx => h x (List.mem_cons_of_mem _ hx))
    simp only [allEvents]
    rw [(closedRuns_append _ _ 0).1, (closedRuns_append _ _ 0).2, h2, cubeSum_append]
    refine ⟨?_, h4⟩
    simp only [List.length_cons]
    rw [Nat.add_mul]
    omega

theorem count_true_allEvents {α : Type} (ev : α → List Bool) (m : Nat) :
    ∀ (l : List α), (∀ a ∈ l, (ev a).count true ≤ m) →
      (allEvents ev l).count true ≤ l.length * m := by
  intro l
  induction l with
  | nil => intro _; simp [allEvents]
  | cons a l ih =>
    intro h
    have h1 := h a (List.mem_cons_self _ _)
    have h2 := ih (fun x hx => h x (List.mem_cons_of_mem _ hx))
    simp only [allEvents, List.count_append, List.length_cons]
    rw [Nat.add_mul]
    omega

/-- Runs scanned from `T` or fewer cells of the colour weigh at most `T^3`. -/
theorem cubeSum_closedRuns_le (ev : List Bool) (T : Nat) (h : ev.count true ≤ T) :
    cubeSum (closedRuns ev 0) ≤ T * T * T := by
  have hs := closedRuns_sum ev 0
  have hm : ∀ v ∈ closedRuns ev 0, v ≤ T := by
    intro v hv
    have := closedRuns_mem_le _ _ _ hv
    omega
  have h1 := cubeSum_le T _ hm
  have h2 : T * T * (closedRuns ev 0).sum ≤ T * T * T := Nat.mul_le_mul_left _ (by omega)
  omega

theorem length_le_of_bounded (m : Nat) (l : List Nat) (hn : l.Nodup)
    (h : ∀ k ∈ l, 1 ≤ k ∧ k ≤ m) : l.length ≤ m := by
  have hsub : l ⊆ List.range' 1 m := by
    intro k hk
    have := h k hk
    rw [List.mem_range'_1]; omega
  have := (List.subperm_of_subset hn hsub).length_le
  simpa using this

theorem le_15_of_sq (k w h : Nat) (hwh : w * h ≤ 255) (h1 : k < w) (h2 : k < h) : k ≤ 15 := by
  by_contra hc
  have hk : 16 ≤ k := by omega
  have : 16 * 16 ≤ w * h := Nat.mul_le_mul (by omega) (by omega)
  omega

theorem upEvents_length (b : Board) (color : SlotStatus) (i j : Nat)
    (hwh : b.width * b.height ≤ 255) : (upEvents b color i j).length ≤ 15 := by
  unfold upEvents
  rw [List.length_map]
  apply length_le_of_bounded
  · exact (List.nodup_range' 1 _).filter _
  · intro k hk
    simp only [List.mem_filter, List.mem_range'_1, decide_eq_true_eq] at hk
    exact ⟨hk.1.1, le_15_of_sq k _ _ hwh (by omega) (by omega)⟩

theorem downEvents_length (b : Board) (color : SlotStatus) (i j : Nat)
    (hwh : b.width * b.height ≤ 255) (hi : i < b.height) (hj : j < b.width) :
    (downEvents b color i j).length ≤ 15 := by
  unfold downEvents
  rw [List.length_map]
  apply length_le_of_bounded
  · exact (List.nodup_range' 1 _).filter _
  · intro k hk
    simp only [List.mem_filter, List.mem_range'_1, decide_eq_true_eq] at hk
    exact ⟨hk.1.1, le_15_of_sq k _ _ hwh (by omega) (by omega)⟩

theorem originEvents_bound (b : Board) (color : SlotStatus) (i j : Nat)
    (hwh : b.width * b.height ≤ 255) (hi : i < b.height) (hj : j < b.width) :
    cubeSum (closedRuns (originEvents b color i j) 0) ≤ 6750 ∧
      openRun (originEvents b color i j) 0 = 0 := by
  unfold originEvents
  by_cases hc : b.cell (b.width * i + j) = color
  · simp only [hc, if_true]
    obtain ⟨h1, h2⟩ := cubeSum_closed_segment _ 15 (upEvents_length b color i j hwh)
    obtain ⟨h3, h4⟩ := cubeSum_closed_segment _ 15 (downEvents_length b color i j hwh hi hj)
    rw [(closedRuns_append (upEvents b color i j ++ [false])
        (downEvents b color i j ++ [false]) 0).1,
      (closedRuns_append (upEvents b color i j ++ [false])
        (downEvents b color i j ++ [false]) 0).2, h2, cubeSum_append]
    exact ⟨by omega, h4⟩
  · simp [hc, closedRuns, openRun, cubeSum]

/-- The cubes of all runs seen by `checkStreak` on a board of at most 255 cells. -/
theorem cubeSum_allRuns_le (b : Board) (color : SlotStatus)
    (hwh : b.width * b.height ≤ 255) : cubeSum (b.allRuns color) ≤ 34884000 := by
  unfold allRuns
  rw [cubeSum_append, cubeSum_append]
  have hH : cubeSum (closedRuns (allEvents (rowEvents b color) (List.range b.height)) 0)
      ≤ 255 * 255 * 255 := by
    apply cubeSum_closedRuns_le
    have := count_true_allEvents (rowEvents b color) b.width (List.range b.height) (by
      intro a _
      unfold rowEvents
      rw [List.count_append]
      have := List.count_le_length true
        ((List.range b.width).map (fun j => b.cell (b.width * a + j) == color))
      simp at this ⊢
      exact this)
    rw [List.length_range] at this
    rw [Nat.mul_comm] at hwh
    omega
  have hV : cubeSum (closedRuns (allEvents (colEvents b color) (List.range b.width)) 0)
      ≤ 255 * 255 * 255 := by
    apply cubeSum_closedRuns_le
    have := count_true_allEvents (colEvents b color) b.height (List.range b.width) (by
      intro a _
      unfold colEvents
      rw [List.count_append]
      have := List.count_le_length true
        ((List.range b.height).map (fun i => b.cell (b.width * i + a) == color))
      simp at this ⊢
      exact this)
    rw [List.length_range] at this
    omega
  have hD : cubeSum (closedRuns
      (allEvents (fun i => allEvents (originEvents b color i) (List.range b.width))
        (List.range b.height)) 0) ≤ 255 * 6750 := by
    have h1 := cubeSum_allEvents
      (fun i => allEvents (originEvents b color i) (List.range b.width)) (b.width * 6750)
      (List.range b.height) (by
        intro i hi
        have := cubeSum_allEvents (originEvents b color i) 6750 (List.range b.width) (by
          intro j hj
          exact originEvents_bound b color i j hwh (List.mem_range.mp hi) (List.mem_range.mp hj))
        rw [List.length_range] at this
        exact this)
    rw [List.length_range] at h1
    have h2 : b.height * (b.width * 6750) ≤ 255 * 6750 := by
      rw [← Nat.mul_assoc, Nat.mul_comm b.height b.width]
      exact Nat.mul_le_mul_right _ hwh
    omega
  omega

theorem indicator_sum_le (v : Nat) :
    ∀ (ks : List Nat), ks.Nodup →
      (ks.map (fun k => (if v = k then 1 else 0) * k ^ 3)).sum ≤ v ^ 3 := by
  intro ks
  induction ks with
  | nil => intro _; simp
  | cons a ks ih =>
    intro hn
    rw [List.nodup_cons] at hn
    simp only [List.map_cons, List.sum_cons]
    by_cases h : v = a
    · subst h
      have hz : (ks.map (fun k => (if v = k then 1 else 0) * k ^ 3)).sum = 0 := by
        apply List.sum_eq_zero
        intro x hx
        simp only [List.mem_map] at hx
        obtain ⟨k, hk, rfl⟩ := hx
        have : v ≠ k := fun e => hn.1 (e ▸ hk)
        simp [this]
      rw [hz]; simp
    · have := ih hn.2
      simp only [h, if_false, Nat.zero_mul, Nat.zero_add]
      exact this

/-- Counting the runs of each length `k` with weight `k^3` never exceeds the sum of the
cubes of all runs. -/
theorem weighted_count_le (ks : List Nat) (hn : ks.Nodup) :
    ∀ (r : List Nat), (ks.map (fun k => r.count k * k ^ 3)).sum ≤ cubeSum r := by
  intro r
  induction r with
  | nil => simp [cubeSum]
  | cons v r ih =>
    have hfun : (fun k => (v :: r).count k * k ^ 3)
        = fun k => r.count k * k ^ 3 + (if v = k then 1 else 0) * k ^ 3 := by
      funext k
      rw [List.count_cons, Nat.add_mul]
      simp only [beq_iff_eq]
    have e : (ks.map (fun k => (v :: r).count k * k ^ 3)).sum =
        (ks.map (fun k => r.count k * k ^ 3)).sum
          + (ks.map (fun k => (if v = k then 1 else 0) * k ^ 3)).sum := by
      rw [hfun, List.sum_map_add]
    rw [e]
    have h1 := indicator_sum_le v ks hn
    simp only [cubeSum, List.map_cons, List.sum_cons] at ih ⊢
    omega

theorem toUInt32_natCast (k : Nat) (hk : k < 4294967296) : toUInt32 (k : Int) = k := by
  unfold toUInt32
  have : ((k : Int) % 4294967296) = (k : Int) := Int.emod_eq_of_lt (by omega) (by omega)
  rw [this, Int.toNat_natCast]

/-- The weighted streak counts of one colour on a board of at most 255 cells. -/
theorem weighted_checkStreak_le (b : Board) (color : SlotStatus) (hwf : b.WF) :
    ((List.range' 2 (b.winningStreakSize - 1)).map
      (fun k : Nat => b.checkStreak color (k : Int) * k ^ 3)).sum ≤ 34884000 := by
  have h1 : (List.range' 2 (b.winningStreakSize - 1)).map
      (fun k : Nat => b.checkStreak color (k : Int) * k ^ 3)
      = (List.range' 2 (b.winningStreakSize - 1)).map
      (fun k : Nat => (b.allRuns color).count k * k ^ 3) := by
    apply List.map_congr_left
    intro k hk
    rw [List.mem_range'_1] at hk
    rw [checkStreak_eq_count, toUInt32_natCast k (by have := hwf.2.2.1; omega)]
  rw [h1]
  exact le_trans (weighted_count_le _ (List.nodup_range' 2 _) _)
    (cubeSum_allRuns_le b color hwf.2.2.2.1)

/-- The exact score: the sum over `k = 2 .. winningStreakSize` of
`(checkStreak(for, k) - checkStreak(against, k)) * k^3`, as an integer. -/
theorem exactScore_bounds (b : Board) (cf ca : SlotStatus) (hwf : b.WF) :
    -34884000 ≤ ∑ k ∈ Finset.Icc 2 b.winningStreakSize,
        ((b.checkStreak cf (k : Int) : Int) - (b.checkStreak ca (k : Int) : Int)) * (k : Int) ^ 3 ∧
    ∑ k ∈ Finset.Icc 2 b.winningStreakSize,
        ((b.checkStreak cf (k : Int) : Int) - (b.checkStreak ca (k : Int) : Int)) * (k : Int) ^ 3
      ≤ 34884000 := by
  have hset : Finset.Icc 2 b.winningStreakSize
      = (List.range' 2 (b.winningStreakSize - 1)).toFinset := by
    ext k
    simp only [Finset.mem_Icc, List.mem_toFinset, List.mem_range'_1]
    omega
  have hsum : ∀ f : Nat → Int, ∑ k ∈ Finset.Icc 2 b.winningStreakSize, f k
      = ((List.range' 2 (b.winningStreakSize - 1)).map f).sum := by
    intro f
    rw [hset, List.sum_toFinset f (List.nodup_range' 2 _)]
  rw [hsum]
  have hF := weighted_checkStreak_le b cf hwf
  have hA := weighted_checkStreak_le b ca hwf
  have hsplit : ∀ l : List Nat,
      (l.map (fun k : Nat => ((b.checkStreak cf (k : Int) : Int)
        - (b.checkStreak ca (k : Int) : Int)) * (k : Int) ^ 3)).sum
      = (((l.map (fun k : Nat => b.checkStreak cf (k : Int) * k ^ 3)).sum : Nat) : Int)
        - (((l.map (fun k : Nat => b.checkStreak ca (k : Int) * k ^ 3)).sum : Nat) : Int) := by
    intro l
    induction l with
    | nil => simp
    | cons a l ih =>
      simp only [List.map_cons, List.sum_cons, ih]
      push_cast
      ring
  rw [hsplit]
  omega

/-! ### `EvaluateBoard` -/

theorem toUInt32_modEq (s : Int) : ((toUInt32 s : Nat) : Int) ≡ s [ZMOD 4294967296] := by
  unfold toUInt32
  rw [Int.toNat_of_nonneg (Int.emod_nonneg _ (by norm_num))]
  exact Int.mod_modEq _ _

theorem scoreLoop_modEq (b : Board) (cf ca : SlotStatus) :
    ∀ (l : List Int) (score : Int),
      scoreLoop b cf ca l score ≡
        score + (l.map (fun s => ((b.checkStreak cf s : Int) - (b.checkStreak ca s : Int))
          * s ^ 3)).sum [ZMOD 4294967296] := by
  intro l
  induction l with
  | nil => intro score; simp [scoreLoop, Int.ModEq]
  | cons s l ih =>
    intro score
    simp only [scoreLoop, List.map_cons, List.sum_cons]
    refine (ih _).trans ?_
    have hu := toUInt32_modEq s
    have hterm : ((b.checkStreak cf s : Int) - (b.checkStreak ca s : Int)) % 4294967296
          * ((toUInt32 s : Nat) : Int) % 4294967296 * ((toUInt32 s : Nat) : Int) % 4294967296
          * ((toUInt32 s : Nat) : Int) % 4294967296
        ≡ ((b.checkStreak cf s : Int) - (b.checkStreak ca s : Int)) * s ^ 3
          [ZMOD 4294967296] := by
      have h1 : ((b.checkStreak cf s : Int) - (b.checkStreak ca s : Int)) % 4294967296
          ≡ ((b.checkStreak cf s : Int) - (b.checkStreak ca s : Int)) [ZMOD 4294967296] :=
        Int.mod_modEq _ _
      have h2 := (Int.mod_modEq _ 4294967296).trans (h1.mul hu)
      have h3 := (Int.mod_modEq _ 4294967296).trans (h2.mul hu)
      have h4 := (Int.mod_modEq _ 4294967296).trans (h3.mul hu)
      refine h4.trans ?_
      have : ((b.checkStreak cf s : Int) - (b.checkStreak ca s : Int)) * s * s * s
          = ((b.checkStreak cf s : Int) - (b.checkStreak ca s : Int)) * s ^ 3 := by ring
      rw [this]
    have h5 := (Int.mod_modEq (score + (((b.checkStreak cf s : Int)
          - (b.checkStreak ca s : Int)) % 4294967296
          * ((toUInt32 s : Nat) : Int) % 4294967296 * ((toUInt32 s : Nat) : Int) % 4294967296
          * ((toUInt32 s : Nat) : Int) % 4294967296)) 4294967296).trans
        ((Int.ModEq.refl score).add hterm)
    refine (h5.add (Int.ModEq.refl _)).trans ?_
    rw [add_assoc]

theorem toInt32_of_modEq (x S : Int) (h : x ≡ S [ZMOD 4294967296])
    (h1 : -2147483648 ≤ S) (h2 : S < 2147483648) : toInt32 x = S := by
  unfold toInt32
  unfold Int.ModEq at h
  omega

theorem toInt32_range (x : Int) : INT_MIN ≤ toInt32 x ∧ toInt32 x ≤ INT_MAX := by
  unfold toInt32 INT_MIN INT_MAX
  split <;> omega

theorem streakValues_sum (b : Board) (f : Int → Int) :
    (b.streakValues.map f).sum = ∑ k ∈ Finset.Icc 2 b.winningStreakSize, f (k : Int) := by
  have hset : Finset.Icc 2 b.winningStreakSize
      = (List.range' 2 (b.winningStreakSize - 1)).toFinset := by
    ext k
    simp only [Finset.mem_Icc, List.mem_toFinset, List.mem_range'_1]
    omega
  rw [hset, List.sum_toFinset (fun k : Nat => f (k : Int)) (List.nodup_range' 2 _)]
  unfold streakValues
  rw [List.map_map, List.map_reverse, List.sum_reverse]
  rfl

/-- The heuristic branch of `EvaluateBoard` computes the exact integer score. -/
theorem heuristic_exact (b : Board) (cf ca : SlotStatus) (hwf : b.WF) :
    toInt32 (scoreLoop b cf ca b.streakValues 0) =
      ∑ k ∈ Finset.Icc 2 b.winningStreakSize,
        ((b.checkStreak cf (k : Int) : Int) - (b.checkStreak ca (k : Int) : Int))
          * (k : Int) ^ 3 := by
  have h := scoreLoop_modEq b cf ca b.streakValues 0
  rw [zero_add, streakValues_sum b
    (fun s => ((b.checkStreak cf s : Int) - (b.checkStreak ca s : Int)) * s ^ 3)] at h
  obtain ⟨h1, h2⟩ := exactScore_bounds b cf ca hwf
  exact toInt32_of_modEq _ _ h (by omega) (by omega)

theorem colorAgainst_eq (player : Player) (hp : player = Player.Red ∨ player = Player.Yellow) :
    colorAgainst player = getPlayerColor (oppPlayer player) := by
  rcases hp with rfl | rfl <;> simp [colorAgainst, getPlayerColor, oppPlayer]

/-- C10: on a board of at most 255 cells on which `DetermineWinner()` is `None`,
`EvaluateBoard(player)` for Red or Yellow equals the exact signed integer sum over
`k = 2 .. winningStreakSize` of
`(checkStreak(player colour, k) - checkStreak(opponent colour, k)) * k^3`: the `uint32_t`
accumulation and the conversion to `int` do not change the value. -/
theorem EvaluateBoard_eq_exact_sum (b : Board) (hwf : b.WF) (player : Player)
    (hp : player = Player.Red ∨ player = Player.Yellow)
    (hnone : b.DetermineWinner = Player.None) :
    b.EvaluateBoard player =
      ∑ k ∈ Finset.Icc 2 b.winningStreakSize,
        ((b.checkStreak (getPlayerColor player) (k : Int) : Int)
          - (b.checkStreak (getPlayerColor (oppPlayer player)) (k : Int) : Int))
          * (k : Int) ^ 3 := by
  unfold EvaluateBoard
  have h1 : ¬ (Player.None = player) := by rcases hp with rfl | rfl <;> simp
  have h2 : ¬ (Player.None = oppPlayer player) := by
    rcases hp with rfl | rfl <;> simp [oppPlayer]
  simp only [hnone, h1, h2, if_false]
  rw [colorAgainst_eq player hp]
  exact heuristic_exact b _ _ hwf

/-- C9: on a board of at most 255 cells, for Red and for Yellow, `EvaluateBoard(player)`
is `INT_MAX` exactly when `DetermineWinner()` is the player, `INT_MIN` exactly when it is
the opponent, and in every other case a value that is neither sentinel. -/
theorem EvaluateBoard_sentinel_iff (b : Board) (hwf : b.WF) (player : Player)
    (hp : player = Player.Red ∨ player = Player.Yellow) :
    (b.EvaluateBoard player = INT_MAX ↔ b.DetermineWinner = player) ∧
    (b.EvaluateBoard player = INT_MIN ↔ b.DetermineWinner = oppPlayer player) ∧
    (b.DetermineWinner ≠ player → b.DetermineWinner ≠ oppPlayer player →
      b.EvaluateBoard player ≠ INT_MAX ∧ b.EvaluateBoard player ≠ INT_MIN) := by
  have hne : player ≠ oppPlayer player := by
    rcases hp with rfl | rfl <;> simp [oppPlayer]
  have hheur : ∀ cf ca, toInt32 (scoreLoop b cf ca b.streakValues 0) ≠ INT_MAX ∧
      toInt32 (scoreLoop b cf ca b.streakValues 0) ≠ INT_MIN := by
    intro cf ca
    rw [heuristic_exact b cf ca hwf]
    obtain ⟨h1, h2⟩ := exactScore_bounds b cf ca hwf
    unfold INT_MAX INT_MIN
    constructor <;> omega
  have hmm : INT_MAX ≠ INT_MIN := by unfold INT_MAX INT_MIN; omega
  by_cases h1 : b.DetermineWinner = player
  · have h2 : b.DetermineWinner ≠ oppPlayer player := fun h => hne (h1.symm.trans h)
    have e : b.EvaluateBoard player = INT_MAX := by
      unfold EvaluateBoard; simp only []; rw [if_pos h1]
    rw [e]
    refine ⟨⟨fun _ => h1, fun _ => rfl⟩, ⟨fun h => absurd h hmm, fun h => absurd h h2⟩, ?_⟩
    intro h3; exact absurd h1 h3
  · by_cases h2 : b.DetermineWinner = oppPlayer player
    · have e : b.EvaluateBoard player = INT_MIN := by
        unfold EvaluateBoard; simp only []; rw [if_neg h1, if_pos h2]
      rw [e]
      refine ⟨⟨fun h => absurd h.symm hmm, fun h => absurd h h1⟩, ⟨fun _ => h2, fun _ => rfl⟩, ?_⟩
      intro _ h4; exact absurd h2 h4
    · have e : b.EvaluateBoard player =
          toInt32 (scoreLoop b (getPlayerColor player) (colorAgainst player)
            b.streakValues 0) := by
        unfold EvaluateBoard; simp only []; rw [if_neg h1, if_neg h2]
      rw [e]
      exact ⟨⟨fun h => absurd h (hheur _ _).1, fun h => absurd h h1⟩,
        ⟨fun h => absurd h (hheur _ _).2, fun h => absurd h h2⟩, fun _ _ => hheur _ _⟩

/-- C10 on a 7x6 board with two adjacent Yellow pieces: the score for Red is the exact
sum, which is negative. -/
theorem EvaluateBoard_eq_exact_sum_witness :
    twoYellowBoard.WF ∧ twoYellowBoard.DetermineWinner = Player.None ∧
    twoYellowBoard.EvaluateBoard Player.Red =
      ∑ k ∈ Finset.Icc 2 twoYellowBoard.winningStreakSize,
        ((twoYellowBoard.checkStreak (getPlayerColor Player.Red) (k : Int) : Int)
          - (twoYellowBoard.checkStreak (getPlayerColor (oppPlayer Player.Red)) (k : Int) : Int))
          * (k : Int) ^ 3 ∧
    twoYellowBoard.EvaluateBoard Player.Red = -8 :=
  ⟨by decide, by decide,
    EvaluateBoard_eq_exact_sum twoYellowBoard (by decide) Player.Red (Or.inl rfl) (by decide),
    by decide⟩

/-- C9 on a 7x6 board with two adjacent Yellow pieces and no winner. -/
theorem EvaluateBoard_sentinel_iff_witness :
    twoYellowBoard.WF ∧
    ((twoYellowBoard.EvaluateBoard Player.Red = INT_MAX ↔
        twoYellowBoard.DetermineWinner = Player.Red) ∧
    (twoYellowBoard.EvaluateBoard Player.Red = INT_MIN ↔
        twoYellowBoard.DetermineWinner = oppPlayer Player.Red) ∧
    (twoYellowBoard.DetermineWinner ≠ Player.Red →
      twoYellowBoard.DetermineWinner ≠ oppPlayer Player.Red →
      twoYellowBoard.EvaluateBoard Player.Red ≠ INT_MAX ∧
        twoYellowBoard.EvaluateBoard Player.Red ≠ INT_MIN)) :=
  ⟨by decide, EvaluateBoard_sentinel_iff twoYellowBoard (by decide) Player.Red (Or.inl rfl)⟩

/-! ### The search: basic facts -/

open SequentialSolver

theorem set_restore (l : List SlotStatus) (i : Nat) (c : SlotStatus)
    (h : l.getD i SlotStatus.Empty = SlotStatus.Empty) :
    (l.set i c).set i SlotStatus.Empty = l := by
  rw [List.set_set]
  apply List.ext_getElem?
  intro n
  rw [List.getElem?_set]
  by_cases hn : i = n
  · subst hn
    by_cases hl : i < l.length
    · rw [List.getD_eq_getElem?_getD, List.getElem?_eq_getElem hl] at h
      simp only [Option.getD_some] at h
      simp [hl, h]
    · simp [hl, List.getElem?_eq_none (not_lt.mp hl)]
  · simp [hn]

theorem writeCell_restore (s : SequentialSolver) (i : Nat) (c : SlotStatus)
    (h : s._boardSeq.cell i = SlotStatus.Empty) :
    (s.writeCell i c).writeCell i SlotStatus.Empty = s := by
  unfold writeCell playMoveIndex
  simp only []
  rw [set_restore _ _ _ h]

theorem emptyCount_writeCell (b : Board) (i : Nat) (c : SlotStatus)
    (h : b.cell i = SlotStatus.Empty) (hi : i < b.board.length) (hc : c ≠ SlotStatus.Empty) :
    (b.playMoveIndex i c).emptyCount + 1 = b.emptyCount := by
  unfold emptyCount playMoveIndex
  simp only []
  rw [List.count_set _ _ _ _ hi]
  unfold cell at h
  rw [List.getD_eq_getElem?_getD, List.getElem?_eq_getElem hi] at h
  simp only [Option.getD_some] at h
  have hpos : 0 < b.board.count SlotStatus.Empty := by
    rw [List.count_pos_iff]
    rw [← h]; exact List.getElem_mem hi
  simp [h, hc]
  omega

theorem cell_empty_lt (b : Board) (i : Nat) (h : b.cell i ≠ SlotStatus.Empty) :
    i < b.board.length := by
  by_contra hc
  apply h
  unfold cell
  rw [List.getD_eq_getElem?_getD, List.getElem?_eq_none (not_lt.mp hc)]
  rfl

/-- A board with an `Empty` cell has a legal one: the `Empty` cell of largest index. -/
theorem exists_legal_of_empty (b : Board) :
    ∀ (n : Nat), n ≤ b.width * b.height →
      (∃ i, i < n ∧ b.cell i = SlotStatus.Empty) →
      (∀ j, n ≤ j → j < b.width * b.height → b.cell j ≠ SlotStatus.Empty) →
      ∃ i, i < b.width * b.height ∧ b.legalEmpty i = true := by
  intro n
  induction n with
  | zero => rintro _ ⟨i, hi, _⟩ _; omega
  | succ n ih =>
    intro hn hex hfull
    by_cases hc : b.cell n = SlotStatus.Empty
    · refine ⟨n, by omega, ?_⟩
      unfold legalEmpty isLegalMove
      simp only [hc, decide_True, Bool.true_and, ne_eq, not_true_eq_false, if_false]
      by_cases hrow : ((n / b.width : Nat) : Int) = (b.height : Int) - 1
      · simp [hrow]
      · simp only [hrow, if_false]
        have hw : 0 < b.width := by
          rcases Nat.eq_zero_or_pos b.width with h0 | h0
          · rw [h0] at hn; omega
          · exact h0
        have hlt : n / b.width < b.height := by
          rw [Nat.div_lt_iff_lt_mul hw]
          rw [Nat.mul_comm]; omega
        have hlt2 : n / b.width + 1 < b.height := by omega
        have h1 : n < b.width * (n / b.width + 1) := Nat.lt_mul_div_succ n hw
        have h3 : b.width * (n / b.width + 2) ≤ b.width * b.height :=
          Nat.mul_le_mul_left _ (by omega)
        have h4 : n + b.width < b.width * b.height := by
          have : b.width * (n / b.width + 2) = b.width * (n / b.width + 1) + b.width := by ring
          omega
        have := hfull (n + b.width) (by omega) h4
        simp [this]
    · apply ih (by omega)
      · obtain ⟨i, hi, he⟩ := hex
        refine ⟨i, ?_, he⟩
        rcases Nat.lt_succ_iff_lt_or_eq.mp hi with h | h
        · exact h
        · subst h; exact absurd he hc
      · intro j hj hj2
        rcases Nat.eq_or_lt_of_le hj with h | h
        · subst h; exact hc
        · exact hfull j h hj2

theorem exists_legal_of_not_full (b : Board) (h : b.IsFull = false) :
    ∃ i, i < b.width * b.height ∧ b.legalEmpty i = true := by
  have hn : ¬ (b.IsFull = true) := by simp [h]
  rw [IsFull_iff] at hn
  push_neg at hn
  obtain ⟨i, hi, he⟩ := hn
  have hle : (b.width * b.height) % 256 ≤ b.width * b.height := Nat.mod_le _ _
  exact exists_legal_of_empty b (b.width * b.height) (le_refl _) ⟨i, by omega, he⟩
    (fun j h1 h2 => by omega)

theorem emptyCount_zero_IsFull (b : Board) (hlen : b.board.length = b.width * b.height)
    (h : b.emptyCount = 0) : b.IsFull = true := by
  rw [IsFull_iff]
  intro i hi hc
  unfold emptyCount at h
  rw [List.count_eq_zero] at h
  apply h
  have hle : (b.width * b.height) % 256 ≤ b.width * b.height := Nat.mod_le _ _
  have hl : i < b.board.length := by omega
  unfold cell at hc
  rw [List.getD_eq_getElem?_getD, List.getElem?_eq_getElem hl] at hc
  simp only [Option.getD_some] at hc
  rw [← hc]; exact List.getElem_mem hl

theorem minimaxLoop_spec (child : SequentialSolver → Option (Int × SequentialSolver))
    (color : SlotStatus) (maximizer : Bool) (s : SequentialSolver) (val : Nat → Int)
    (N : Nat)
    (hchild : ∀ i, i < N → s._boardSeq.legalEmpty i = true → ∀ n, ∃ n1,
      child ((s.writeCell i color).withNodes n)
        = some (val i, (s.writeCell i color).withNodes n1)) :
    ∀ (l : List Nat), (∀ i ∈ l, i < N) → ∀ (n : Nat) (best : Int), ∃ n1,
      minimaxLoop child color maximizer l (s.withNodes n) best
        = some (loopValue (legalEmpty s._boardSeq) val maximizer l best, s.withNodes n1) := by
  intro l
  induction l with
  | nil => intro _ n best; exact ⟨n, rfl⟩
  | cons i l ih =>
    intro hl n best
    have hl2 : ∀ j ∈ l, j < N := fun j hj => hl j (List.mem_cons_of_mem _ hj)
    have hi : i < N := hl i (List.mem_cons_self _ _)
    rw [minimaxLoop, loopValue]
    by_cases hc : s._boardSeq.cell i = SlotStatus.Empty
    · by_cases hg : s._boardSeq.isLegalMove i = true
      · have hle : s._boardSeq.legalEmpty i = true := by
          unfold legalEmpty; simp [hc, hg]
        obtain ⟨n1, hn1⟩ := hchild i hi hle n
        have e1 : (s.withNodes n)._boardSeq.cell i = SlotStatus.Empty := hc
        have e2 : (s.withNodes n)._boardSeq.isLegalMove i = true := hg
        have e3 : child ((s.withNodes n).writeCell i color)
            = some (val i, (s.writeCell i color).withNodes n1) := hn1
        rw [if_pos e1, if_pos e2, e3, if_pos hle]
        simp only []
        have e4 : (((s.writeCell i color).withNodes n1).writeCell i SlotStatus.Empty).countNode
            = s.withNodes ((n1 + 1) % 18446744073709551616) := by
          have : ((s.writeCell i color).withNodes n1).writeCell i SlotStatus.Empty
              = ((s.writeCell i color).writeCell i SlotStatus.Empty).withNodes n1 := rfl
          rw [this, writeCell_restore s i color hc]
          rfl
        rw [e4]
        exact ih hl2 _ _
      · have hle : ¬ (s._boardSeq.legalEmpty i = true) := by
          unfold legalEmpty; simp [hc, hg]
        have e1 : (s.withNodes n)._boardSeq.cell i = SlotStatus.Empty := hc
        have e2 : ¬ ((s.withNodes n)._boardSeq.isLegalMove i = true) := hg
        rw [if_pos e1, if_neg e2, if_neg hle]
        exact ih hl2 _ _
    · have hle : ¬ (s._boardSeq.legalEmpty i = true) := by
        unfold legalEmpty; simp [hc]
      have e1 : ¬ ((s.withNodes n)._boardSeq.cell i = SlotStatus.Empty) := hc
      rw [if_neg e1, if_neg hle]
      exact ih hl2 _ _

theorem loopValue_range (legal : Nat → Bool) (val : Nat → Int) (maximizer : Bool)
    (lo hi : Int) :
    ∀ (l : List Nat) (best : Int),
      (∀ i ∈ l, legal i = true → lo ≤ val i ∧ val i ≤ hi) → lo ≤ best → best ≤ hi →
      lo ≤ loopValue legal val maximizer l best ∧ loopValue legal val maximizer l best ≤ hi := by
  intro l
  induction l with
  | nil => intro best _ h1 h2; exact ⟨h1, h2⟩
  | cons i l ih =>
    intro best h h1 h2
    have hl : ∀ j ∈ l, legal j = true → lo ≤ val j ∧ val j ≤ hi :=
      fun j hj => h j (List.mem_cons_of_mem _ hj)
    rw [loopValue]
    by_cases hg : legal i = true
    · rw [if_pos hg]
      obtain ⟨h3, h4⟩ := h i (List.mem_cons_self _ _) hg
      apply ih _ hl
      · cases maximizer
        · simp only [Bool.false_eq_true, if_false]; exact le_min h1 h3
        · simp only [if_true]; exact le_trans h3 (le_max_left _ _)
      · cases maximizer
        · simp only [Bool.false_eq_true, if_false]; exact le_trans (min_le_left _ _) h2
        · simp only [if_true]; exact max_le h4 h2
    · rw [if_neg hg]; exact ih _ hl h1 h2

theorem loopValue_max_spec (legal : Nat → Bool) (val : Nat → Int) :
    ∀ (l : List Nat) (best : Int),
      (loopValue legal val true l best = best ∨
        ∃ i ∈ l, legal i = true ∧ loopValue legal val true l best = val i) ∧
      best ≤ loopValue legal val true l best ∧
      ∀ i ∈ l, legal i = true → val i ≤ loopValue legal val true l best := by
  intro l
  induction l with
  | nil => intro best; simp [loopValue]
  | cons i l ih =>
    intro best
    rw [loopValue]
    by_cases hg : legal i = true
    · rw [if_pos hg]
      simp only [if_true]
      obtain ⟨h1, h2, h3⟩ := ih (max (val i) best)
      refine ⟨?_, le_trans (le_max_right _ _) h2, ?_⟩
      · rcases h1 with h1 | ⟨j, hj, hjl, hje⟩
        · rcases max_choice (val i) best with hm | hm
          · right; exact ⟨i, List.mem_cons_self _ _, hg, by rw [h1, hm]⟩
          · left; rw [h1, hm]
        · right; exact ⟨j, List.mem_cons_of_mem _ hj, hjl, hje⟩
      · intro j hj hjl
        rcases List.mem_cons.mp hj with rfl | hj
        · exact le_trans (le_max_left _ _) h2
        · exact h3 j hj hjl
    · rw [if_neg hg]
      obtain ⟨h1, h2, h3⟩ := ih best
      refine ⟨?_, h2, ?_⟩
      · rcases h1 with h1 | ⟨j, hj, hjl, hje⟩
        · left; exact h1
        · right; exact ⟨j, List.mem_cons_of_mem _ hj, hjl, hje⟩
      · intro j hj hjl
        rcases List.mem_cons.mp hj with rfl | hj
        · exact absurd hjl hg
        · exact h3 j hj hjl

theorem loopValue_min_spec (legal : Nat → Bool) (val : Nat → Int) :
    ∀ (l : List Nat) (best : Int),
      (loopValue legal val false l best = best ∨
        ∃ i ∈ l, legal i = true ∧ loopValue legal val false l best = val i) ∧
      loopValue legal val false l best ≤ best ∧
      ∀ i ∈ l, legal i = true → loopValue legal val false l best ≤ val i := by
  intro l
  induction l with
  | nil => intro best; simp [loopValue]
  | cons i l ih =>
    intro best
    rw [loopValue]
    by_cases hg : legal i = true
    · rw [if_pos hg]
      simp only [Bool.false_eq_true, if_false]
      obtain ⟨h1, h2, h3⟩ := ih (min best (val i))
      refine ⟨?_, le_trans h2 (min_le_left _ _), ?_⟩
      · rcases h1 with h1 | ⟨j, hj, hjl, hje⟩
        · rcases min_choice best (val i) with hm | hm
          · left; rw [h1, hm]
          · right; exact ⟨i, List.mem_cons_self _ _, hg, by rw [h1, hm]⟩
        · right; exact ⟨j, List.mem_cons_of_mem _ hj, hjl, hje⟩
      · intro j hj hjl
        rcases List.mem_cons.mp hj with rfl | hj
        · exact le_trans h2 (min_le_right _ _)
        · exact h3 j hj hjl
    · rw [if_neg hg]
      obtain ⟨h1, h2, h3⟩ := ih best
      refine ⟨?_, h2, ?_⟩
      · rcases h1 with h1 | ⟨j, hj, hjl, hje⟩
        · left; exact h1
        · right; exact ⟨j, List.mem_cons_of_mem _ hj, hjl, hje⟩
      · intro j hj hjl
        rcases List.mem_cons.mp hj with rfl | hj
        · exact absurd hjl hg
        · exact h3 j hj hjl

theorem foldl_max_spec :
    ∀ (xs : List Int) (init : Int),
      (xs.foldl max init = init ∨ xs.foldl max init ∈ xs) ∧
      init ≤ xs.foldl max init ∧ ∀ x ∈ xs, x ≤ xs.foldl max init := by
  intro xs
  induction xs with
  | nil => intro init; simp
  | cons a xs ih =>
    intro init
    rw [List.foldl_cons]
    obtain ⟨h1, h2, h3⟩ := ih (max init a)
    refine ⟨?_, le_trans (le_max_left _ _) h2, ?_⟩
    · rcases h1 with h1 | h1
      · rcases max_choice init a with hm | hm
        · left; rw [h1, hm]
        · right; rw [h1, hm]; exact List.mem_cons_self _ _
      · right; exact List.mem_cons_of_mem _ h1
    · intro x hx
      rcases List.mem_cons.mp hx with rfl | hx
      · exact le_trans (le_max_right _ _) h2
      · exact h3 x hx

theorem foldl_min_spec :
    ∀ (xs : List Int) (init : Int),
      (xs.foldl min init = init ∨ xs.foldl min init ∈ xs) ∧
      xs.foldl min init ≤ init ∧ ∀ x ∈ xs, xs.foldl min init ≤ x := by
  intro xs
  induction xs with
  | nil => intro init; simp
  | cons a xs ih =>
    intro init
    rw [List.foldl_cons]
    obtain ⟨h1, h2, h3⟩ := ih (min init a)
    refine ⟨?_, le_trans h2 (min_le_left _ _), ?_⟩
    · rcases h1 with h1 | h1
      · rcases min_choice init a with hm | hm
        · left; rw [h1, hm]
        · right; rw [h1, hm]; exact List.mem_cons_self _ _
      · right; exact List.mem_cons_of_mem _ h1
    · intro x hx
      rcases List.mem_cons.mp hx with rfl | hx
      · exact le_trans h2 (min_le_right _ _)
      · exact h3 x hx

/-- The value `maximumOf` is the greatest element of a non-empty list. -/
theorem maximumOf_spec (vals : List Int) (h : vals ≠ []) :
    maximumOf vals ∈ vals ∧ ∀ x ∈ vals, x ≤ maximumOf vals := by
  cases vals with
  | nil => exact absurd rfl h
  | cons a xs =>
    obtain ⟨h1, h2, h3⟩ := foldl_max_spec xs a
    simp only [maximumOf]
    refine ⟨?_, ?_⟩
    · rcases h1 with h1 | h1
      · rw [h1]; exact List.mem_cons_self _ _
      · exact List.mem_cons_of_mem _ h1
    · intro x hx
      rcases List.mem_cons.mp hx with rfl | hx
      · exact h2
      · exact h3 x hx

/-- The value `minimumOf` is the least element of a non-empty list. -/
theorem minimumOf_spec (vals : List Int) (h : vals ≠ []) :
    minimumOf vals ∈ vals ∧ ∀ x ∈ vals, minimumOf vals ≤ x := by
  cases vals with
  | nil => exact absurd rfl h
  | cons a xs =>
    obtain ⟨h1, h2, h3⟩ := foldl_min_spec xs a
    simp only [minimumOf]
    refine ⟨?_, ?_⟩
    · rcases h1 with h1 | h1
      · rw [h1]; exact List.mem_cons_self _ _
      · exact List.mem_cons_of_mem _ h1
    · intro x hx
      rcases List.mem_cons.mp hx with rfl | hx
      · exact h2
      · exact h3 x hx

theorem loopValue_eq_maximumOf (legal : Nat → Bool) (val g : Nat → Int) (l l2 : List Nat)
    (hmem : ∀ i, i ∈ l ↔ i ∈ l2)
    (hval : ∀ i ∈ l, legal i = true → val i = g i)
    (hlo : ∀ i ∈ l, legal i = true → INT_MIN ≤ val i)
    (hex : ∃ i ∈ l, legal i = true) :
    loopValue legal val true l INT_MIN = maximumOf ((l2.filter legal).map g) := by
  obtain ⟨i0, hi0, hl0⟩ := hex
  have hne : (l2.filter legal).map g ≠ [] := by
    intro h
    have : g i0 ∈ (l2.filter legal).map g :=
      List.mem_map.mpr ⟨i0, List.mem_filter.mpr ⟨(hmem i0).mp hi0, hl0⟩, rfl⟩
    rw [h] at this
    exact List.not_mem_nil _ this
  obtain ⟨hM1, hM2⟩ := maximumOf_spec _ hne
  obtain ⟨h1, h2, h3⟩ := loopValue_max_spec legal val l INT_MIN
  apply le_antisymm
  · have : ∃ i ∈ l, legal i = true ∧ loopValue legal val true l INT_MIN = val i := by
      rcases h1 with h1 | h1
      · refine ⟨i0, hi0, hl0, ?_⟩
        have a := h3 i0 hi0 hl0
        have c := hlo i0 hi0 hl0
        rw [h1] at a ⊢
        exact le_antisymm c a
      · exact h1
    obtain ⟨i, hi, hli, he⟩ := this
    rw [he, hval i hi hli]
    exact hM2 _ (List.mem_map.mpr ⟨i, List.mem_filter.mpr ⟨(hmem i).mp hi, hli⟩, rfl⟩)
  · obtain ⟨j, hj, hje⟩ := List.mem_map.mp hM1
    obtain ⟨hj1, hj2⟩ := List.mem_filter.mp hj
    rw [← hje, ← hval j ((hmem j).mpr hj1) hj2]
    exact h3 j ((hmem j).mpr hj1) hj2

theorem loopValue_eq_minimumOf (legal : Nat → Bool) (val g : Nat → Int) (l l2 : List Nat)
    (hmem : ∀ i, i ∈ l ↔ i ∈ l2)
    (hval : ∀ i ∈ l, legal i = true → val i = g i)
    (hhi : ∀ i ∈ l, legal i = true → val i ≤ INT_MAX)
    (hex : ∃ i ∈ l, legal i = true) :
    loopValue legal val false l INT_MAX = minimumOf ((l2.filter legal).map g) := by
  obtain ⟨i0, hi0, hl0⟩ := hex
  have hne : (l2.filter legal).map g ≠ [] := by
    intro h
    have : g i0 ∈ (l2.filter legal).map g :=
      List.mem_map.mpr ⟨i0, List.mem_filter.mpr ⟨(hmem i0).mp hi0, hl0⟩, rfl⟩
    rw [h] at this
    exact List.not_mem_nil _ this
  obtain ⟨hM1, hM2⟩ := minimumOf_spec _ hne
  obtain ⟨h1, h2, h3⟩ := loopValue_min_spec legal val l INT_MAX
  apply le_antisymm
  · obtain ⟨j, hj, hje⟩ := List.mem_map.mp hM1
    obtain ⟨hj1, hj2⟩ := List.mem_filter.mp hj
    rw [← hje, ← hval j ((hmem j).mpr hj1) hj2]
    exact h3 j ((hmem j).mpr hj1) hj2
  · have : ∃ i ∈ l, legal i = true ∧ loopValue legal val false l INT_MAX = val i := by
      rcases h1 with h1 | h1
      · refine ⟨i0, hi0, hl0, ?_⟩
        have a := h3 i0 hi0 hl0
        have c := hhi i0 hi0 hl0
        rw [h1] at a ⊢
        exact le_antisymm a c
      · exact h1
    obtain ⟨i, hi, hli, he⟩ := this
    rw [he, hval i hi hli]
    exact hM2 _ (List.mem_map.mpr ⟨i, List.mem_filter.mpr ⟨(hmem i).mp hi, hli⟩, rfl⟩)

theorem EvaluateBoard_range (b : Board) (player : Player) :
    INT_MIN ≤ b.EvaluateBoard player ∧ b.EvaluateBoard player ≤ INT_MAX := by
  unfold EvaluateBoard
  simp only []
  split_ifs
  · unfold INT_MIN INT_MAX; omega
  · unfold INT_MIN INT_MAX; omega
  · exact toInt32_range _

theorem mem_cellsDescending (b : Board) (i : Nat) :
    i ∈ cellsDescending b ↔ i < b.width * b.height := by
  unfold cellsDescending
  rw [List.mem_reverse, List.mem_range]

/-- What the recursive call on the board with cell `i` filled returns, given the
statement for the smaller fuel. -/
theorem child_spec (fuel : Nat) (s : SequentialSolver) (color : SlotStatus) (depth : Int)
    (player : Player) (maximizer : Bool) (i : Nat)
    (ih : ∃ v, INT_MIN ≤ v ∧ v ≤ INT_MAX ∧
      (∀ n, ∃ n1, minimax fuel ((s.writeCell i color).withNodes n) depth player maximizer
        = some (v, (s.writeCell i color).withNodes n1)) ∧
      (∀ d : Nat, depth = (d : Int) → (player = Player.Red ∨ player = Player.Yellow) →
        v = minimaxRef d (s.writeCell i color)._boardSeq player maximizer)) :
    INT_MIN ≤ childValue fuel s color depth player maximizer i ∧
    childValue fuel s color depth player maximizer i ≤ INT_MAX ∧
    (∀ n, ∃ n1, minimax fuel ((s.writeCell i color).withNodes n) depth player maximizer
      = some (childValue fuel s color depth player maximizer i,
          (s.writeCell i color).withNodes n1)) ∧
    (∀ d : Nat, depth = (d : Int) → (player = Player.Red ∨ player = Player.Yellow) →
      childValue fuel s color depth player maximizer i
        = minimaxRef d (s._boardSeq.playMoveIndex i color) player maximizer) := by
  obtain ⟨v, h1, h2, h3, h4⟩ := ih
  have hv : childValue fuel s color depth player maximizer i = v := by
    obtain ⟨n1, hn1⟩ := h3 (s.writeCell i color)._nodesTraversed
    have e : (s.writeCell i color).withNodes (s.writeCell i color)._nodesTraversed
        = s.writeCell i color := rfl
    rw [e] at hn1
    unfold childValue
    rw [hn1]
  rw [hv]
  exact ⟨h1, h2, h3, h4⟩

/-- The master statement about `minimax`: with fuel above the number of `Empty` cells it
returns; the score depends on the board only, lies in the `int` range and, for a depth
`d ≥ 0`, is the reference value; the solver is returned with the same board. -/
theorem minimax_spec :
    ∀ (fuel : Nat) (s : SequentialSolver) (depth : Int) (player : Player) (maximizer : Bool),
      s._boardSeq.board.length = s._boardSeq.width * s._boardSeq.height →
      s._boardSeq.emptyCount < fuel →
      ∃ v, INT_MIN ≤ v ∧ v ≤ INT_MAX ∧
        (∀ n, ∃ n1, minimax fuel (s.withNodes n) depth player maximizer
          = some (v, s.withNodes n1)) ∧
        (∀ d : Nat, depth = (d : Int) → (player = Player.Red ∨ player = Player.Yellow) →
          v = minimaxRef d s._boardSeq player maximizer) := by
  intro fuel
  induction fuel with
  | zero => intro s _ _ _ _ h; omega
  | succ fuel ih =>
    intro s depth player maximizer hlen hfuel
    have hb : ∀ n, (s.withNodes n)._boardSeq = s._boardSeq := fun _ => rfl
    by_cases hcut : (s._boardSeq.EvaluateBoard player = INT_MAX ∨
        s._boardSeq.EvaluateBoard player = INT_MIN) ∨ s._boardSeq.IsFull = true ∨ depth = 0
    · refine ⟨s._boardSeq.EvaluateBoard player, (EvaluateBoard_range _ _).1,
        (EvaluateBoard_range _ _).2, ?_, ?_⟩
      · intro n
        refine ⟨n, ?_⟩
        simp only [minimax, hb]
        rcases hcut with h | h | h
        · rw [if_pos h]
        · by_cases h1 : s._boardSeq.EvaluateBoard player = INT_MAX ∨
              s._boardSeq.EvaluateBoard player = INT_MIN
          · rw [if_pos h1]
          · rw [if_neg h1, if_pos h]
        · by_cases h1 : s._boardSeq.EvaluateBoard player = INT_MAX ∨
              s._boardSeq.EvaluateBoard player = INT_MIN
          · rw [if_pos h1]
          · rw [if_neg h1]
            by_cases h2 : s._boardSeq.IsFull = true
            · rw [if_pos h2]
            · rw [if_neg h2, if_pos h]
      · intro d hd _
        cases d with
        | zero => simp only [minimaxRef]
        | succ d =>
          have hne : depth ≠ 0 := by rw [hd]; push_cast; omega
          have : s._boardSeq.EvaluateBoard player = INT_MAX ∨
              s._boardSeq.EvaluateBoard player = INT_MIN ∨ s._boardSeq.IsFull = true := by
            rcases hcut with (h | h) | h | h
            · exact Or.inl h
            · exact Or.inr (Or.inl h)
            · exact Or.inr (Or.inr h)
            · exact absurd h hne
          rw [minimaxRef, if_pos this]
    · have hs : ¬ (s._boardSeq.EvaluateBoard player = INT_MAX ∨
          s._boardSeq.EvaluateBoard player = INT_MIN) := fun h => hcut (Or.inl h)
      have hfull : s._boardSeq.IsFull = false := by
        have : ¬ (s._boardSeq.IsFull = true) := fun h => hcut (Or.inr (Or.inl h))
        simpa using this
      have hfull2 : ¬ (s._boardSeq.IsFull = true) := by simp [hfull]
      have hd0 : ¬ (depth = 0) := fun h => hcut (Or.inr (Or.inr h))
      obtain ⟨i0, hi0, hl0⟩ := exists_legal_of_not_full _ hfull
      -- facts about every child, for either colour
      have hchild : ∀ (color : SlotStatus), color ≠ SlotStatus.Empty → ∀ i,
          i < s._boardSeq.width * s._boardSeq.height → s._boardSeq.legalEmpty i = true →
          INT_MIN ≤ childValue fuel s color (depth - 1) player (!maximizer) i ∧
          childValue fuel s color (depth - 1) player (!maximizer) i ≤ INT_MAX ∧
          (∀ n, ∃ n1, minimax fuel ((s.writeCell i color).withNodes n) (depth - 1) player
              (!maximizer)
            = some (childValue fuel s color (depth - 1) player (!maximizer) i,
                (s.writeCell i color).withNodes n1)) ∧
          (∀ d : Nat, depth - 1 = (d : Int) → (player = Player.Red ∨ player = Player.Yellow) →
            childValue fuel s color (depth - 1) player (!maximizer) i
              = minimaxRef d (s._boardSeq.playMoveIndex i color) player (!maximizer)) := by
        intro color hcolor i hi hle
        apply child_spec
        have hcell : s._boardSeq.cell i = SlotStatus.Empty := by
          unfold legalEmpty at hle
          simp only [Bool.and_eq_true, decide_eq_true_eq] at hle
          exact hle.1
        apply ih
        · show (s._boardSeq.board.set i color).length = _
          rw [List.length_set]; exact hlen
        · have := emptyCount_writeCell s._boardSeq i color hcell (by rw [hlen]; exact hi) hcolor
          have e : (s.writeCell i color)._boardSeq = s._boardSeq.playMoveIndex i color := rfl
          rw [e]; omega
      cases maximizer with
      | true =>
        have hcolor : (if player = Player.Red then SlotStatus.Red else SlotStatus.Yellow)
            ≠ SlotStatus.Empty := by split <;> simp
        refine ⟨loopValue (legalEmpty s._boardSeq)
          (childValue fuel s (if player = Player.Red then SlotStatus.Red else SlotStatus.Yellow)
            (depth - 1) player (!true)) true (cellsDescending s._boardSeq) INT_MIN, ?_, ?_, ?_, ?_⟩
        · exact (loopValue_range _ _ _ INT_MIN INT_MAX _ _
            (fun i hi hl => ⟨(hchild _ hcolor i ((mem_cellsDescending _ i).mp hi) hl).1,
              (hchild _ hcolor i ((mem_cellsDescending _ i).mp hi) hl).2.1⟩)
            (le_refl _) (by unfold INT_MIN INT_MAX; omega)).1
        · exact (loopValue_range _ _ _ INT_MIN INT_MAX _ _
            (fun i hi hl => ⟨(hchild _ hcolor i ((mem_cellsDescending _ i).mp hi) hl).1,
              (hchild _ hcolor i ((mem_cellsDescending _ i).mp hi) hl).2.1⟩)
            (le_refl _) (by unfold INT_MIN INT_MAX; omega)).2
        · intro n
          simp only [minimax, hb]
          rw [if_neg hs, if_neg hfull2, if_neg hd0]
          simp only [if_true]
          exact minimaxLoop_spec _ _ true s _ (s._boardSeq.width * s._boardSeq.height)
            (fun i hi hl n => (hchild _ hcolor i hi hl).2.2.1 n) _
            (fun i hi => (mem_cellsDescending _ i).mp hi) n INT_MIN
        · intro d hd hp
          cases d with
          | zero => exact absurd hd hd0
          | succ d =>
            have hd1 : depth - 1 = (d : Int) := by rw [hd]; push_cast; omega
            have hcol : (if player = Player.Red then SlotStatus.Red else SlotStatus.Yellow)
                = getPlayerColor player := by
              rcases hp with rfl | rfl <;> simp [getPlayerColor]
            have hnc : ¬ (s._boardSeq.EvaluateBoard player = INT_MAX ∨
                s._boardSeq.EvaluateBoard player = INT_MIN ∨ s._boardSeq.IsFull = true) := by
              rintro (h | h | h)
              · exact hs (Or.inl h)
              · exact hs (Or.inr h)
              · exact hfull2 h
            rw [minimaxRef, if_neg hnc]
            simp only [if_true]
            unfold legalCells
            apply loopValue_eq_maximumOf
            · intro i
              rw [mem_cellsDescending, List.mem_range]
            · intro i hi hl
              have := (hchild _ hcolor i ((mem_cellsDescending _ i).mp hi) hl).2.2.2 d hd1 hp
              rw [this, hcol]; rfl
            · intro i hi hl
              exact (hchild _ hcolor i ((mem_cellsDescending _ i).mp hi) hl).1
            · exact ⟨i0, (mem_cellsDescending _ i0).mpr hi0, hl0⟩
      | false =>
        have hcolor : (if player = Player.Red then SlotStatus.Yellow else SlotStatus.Red)
            ≠ SlotStatus.Empty := by split <;> simp
        refine ⟨loopValue (legalEmpty s._boardSeq)
          (childValue fuel s (if player = Player.Red then SlotStatus.Yellow else SlotStatus.Red)
            (depth - 1) player (!false)) false (cellsDescending s._boardSeq) INT_MAX,
          ?_, ?_, ?_, ?_⟩
        · exact (loopValue_range _ _ _ INT_MIN INT_MAX _ _
            (fun i hi hl => ⟨(hchild _ hcolor i ((mem_cellsDescending _ i).mp hi) hl).1,
              (hchild _ hcolor i ((mem_cellsDescending _ i).mp hi) hl).2.1⟩)
            (by unfold INT_MIN INT_MAX; omega) (le_refl _)).1
        · exact (loopValue_range _ _ _ INT_MIN INT_MAX _ _
            (fun i hi hl => ⟨(hchild _ hcolor i ((mem_cellsDescending _ i).mp hi) hl).1,
              (hchild _ hcolor i ((mem_cellsDescending _ i).mp hi) hl).2.1⟩)
            (by unfold INT_MIN INT_MAX; omega) (le_refl _)).2
        · intro n
          simp only [minimax, hb]
          rw [if_neg hs, if_neg hfull2, if_neg hd0]
          simp only [Bool.false_eq_true, if_false]
          exact minimaxLoop_spec _ _ false s _ (s._boardSeq.width * s._boardSeq.height)
            (fun i hi hl n => (hchild _ hcolor i hi hl).2.2.1 n) _
            (fun i hi => (mem_cellsDescending _ i).mp hi) n INT_MAX
        · intro d hd hp
          cases d with
          | zero => exact absurd hd hd0
          | succ d =>
            have hd1 : depth - 1 = (d : Int) := by rw [hd]; push_cast; omega
            have hcol : (if player = Player.Red then SlotStatus.Yellow else SlotStatus.Red)
                = getPlayerColor (oppPlayer player) := by
              rcases hp with rfl | rfl <;> simp [getPlayerColor, oppPlayer]
            have hnc : ¬ (s._boardSeq.EvaluateBoard player = INT_MAX ∨
                s._boardSeq.EvaluateBoard player = INT_MIN ∨ s._boardSeq.IsFull = true) := by
              rintro (h | h | h)
              · exact hs (Or.inl h)
              · exact hs (Or.inr h)
              · exact hfull2 h
            rw [minimaxRef, if_neg hnc]
            simp only [Bool.false_eq_true, if_false]
            unfold legalCells
            apply loopValue_eq_minimumOf
            · intro i
              rw [mem_cellsDescending, List.mem_range]
            · intro i hi hl
              have := (hchild _ hcolor i ((mem_cellsDescending _ i).mp hi) hl).2.2.2 d hd1 hp
              rw [this, hcol]; rfl
            · intro i hi hl
              exact (hchild _ hcolor i ((mem_cellsDescending _ i).mp hi) hl).2.1
            · exact ⟨i0, (mem_cellsDescending _ i0).mpr hi0, hl0⟩

/-! ### `findBestMove` -/

theorem isTimeLeft_unlimited (s : SequentialSolver) : s.isTimeLeft (-1) = (true, s) := by
  unfold isTimeLeft
  rw [if_pos rfl]

theorem isTimeLeft_board (s : SequentialSolver) (t : Rat) :
    (s.isTimeLeft t).2._boardSeq = s._boardSeq := by
  unfold isTimeLeft
  split
  · rfl
  · simp only []
    split <;> rfl

theorem findBestMoveLoop_frame (fuel : Nat) (color : SlotStatus) (player : Player)
    (maxDepth : Int) (time_limit : Rat) (hcolor : color ≠ SlotStatus.Empty) (b : Board)
    (hlen : b.board.length = b.width * b.height) (hfuel : b.emptyCount ≤ fuel) :
    ∀ (l : List Nat), (∀ i ∈ l, i < b.width * b.height) →
      ∀ (s : SequentialSolver) (v : SearchVars), s._boardSeq = b →
      ∃ v1 s1, findBestMoveLoop fuel color player maxDepth time_limit l s v = some (v1, s1) ∧
        s1._boardSeq = b := by
  intro l
  induction l with
  | nil => intro _ s v hs; exact ⟨v, s, rfl, hs⟩
  | cons i l ih =>
    intro hl s v hs
    have hl2 : ∀ j ∈ l, j < b.width * b.height := fun j hj => hl j (List.mem_cons_of_mem _ hj)
    have hi : i < b.width * b.height := hl i (List.mem_cons_self _ _)
    have hb0 : (s.isTimeLeft time_limit).2._boardSeq = b := by rw [isTimeLeft_board]; exact hs
    rw [findBestMoveLoop]
    by_cases ht : (s.isTimeLeft time_limit).1 = false
    · rw [if_pos ht]
      exact ⟨v, _, rfl, hb0⟩
    · rw [if_neg ht]
      simp only []
      by_cases hc : (s.isTimeLeft time_limit).2._boardSeq.cell i = SlotStatus.Empty
      · rw [if_pos hc]
        by_cases hg : (s.isTimeLeft time_limit).2._boardSeq.isLegalMove i = false
        · rw [if_pos hg]
          exact ih hl2 _ _ hb0
        · rw [if_neg hg]
          have hcell : b.cell i = SlotStatus.Empty := by rw [← hb0]; exact hc
          obtain ⟨val, -, -, hrun, -⟩ := minimax_spec fuel
            ((s.isTimeLeft time_limit).2.writeCell i color) maxDepth player false
            (by
              have e : ((s.isTimeLeft time_limit).2.writeCell i color)._boardSeq
                  = b.playMoveIndex i color := by rw [← hb0]; rfl
              rw [e]
              show (b.board.set i color).length = b.width * b.height
              rw [List.length_set]; exact hlen)
            (by
              have e : ((s.isTimeLeft time_limit).2.writeCell i color)._boardSeq
                  = b.playMoveIndex i color := by rw [← hb0]; rfl
              have := emptyCount_writeCell b i color hcell (by rw [hlen]; exact hi) hcolor
              rw [e]; omega)
          obtain ⟨n1, hn1⟩ := hrun ((s.isTimeLeft time_limit).2.writeCell i color)._nodesTraversed
          have e0 : ((s.isTimeLeft time_limit).2.writeCell i color).withNodes
              ((s.isTimeLeft time_limit).2.writeCell i color)._nodesTraversed
              = (s.isTimeLeft time_limit).2.writeCell i color := rfl
          rw [e0] at hn1
          rw [hn1]
          simp only []
          have e4 : ((((s.isTimeLeft time_limit).2.writeCell i color).withNodes n1).writeCell i
              SlotStatus.Empty).countNode
              = (s.isTimeLeft time_limit).2.withNodes ((n1 + 1) % 18446744073709551616) := by
            have : (((s.isTimeLeft time_limit).2.writeCell i color).withNodes n1).writeCell i
                SlotStatus.Empty
                = (((s.isTimeLeft time_limit).2.writeCell i color).writeCell i
                    SlotStatus.Empty).withNodes n1 := rfl
            rw [this, writeCell_restore _ i color hc]
            rfl
          rw [e4]
          split
          · exact ih hl2 _ _ hb0
          · exact ih hl2 _ _ hb0
      · rw [if_neg hc]
        exact ih hl2 _ _ hb0

theorem findBestMoveLoop_spec (fuel : Nat) (color : SlotStatus) (player : Player)
    (maxDepth : Int) (s : SequentialSolver) (N : Nat)
    (hchild : ∀ i, i < N → s._boardSeq.legalEmpty i = true → ∀ n, ∃ n1,
      minimax fuel ((s.writeCell i color).withNodes n) maxDepth player false
        = some (childValue fuel s color maxDepth player false i,
            (s.writeCell i color).withNodes n1)) :
    ∀ (l : List Nat), (∀ i ∈ l, i < N) → ∀ (n : Nat) (v : SearchVars), ∃ n1,
      findBestMoveLoop fuel color player maxDepth (-1) l (s.withNodes n) v
        = some (searchFold (legalEmpty s._boardSeq)
            (childValue fuel s color maxDepth player false) l v, s.withNodes n1) := by
  intro l
  induction l with
  | nil => intro _ n v; exact ⟨n, rfl⟩
  | cons i l ih =>
    intro hl n v
    have hl2 : ∀ j ∈ l, j < N := fun j hj => hl j (List.mem_cons_of_mem _ hj)
    have hi : i < N := hl i (List.mem_cons_self _ _)
    rw [findBestMoveLoop, searchFold, isTimeLeft_unlimited]
    simp only [Bool.true_eq_false, if_false]
    by_cases hc : s._boardSeq.cell i = SlotStatus.Empty
    · have e1 : (s.withNodes n)._boardSeq.cell i = SlotStatus.Empty := hc
      rw [if_pos e1]
      by_cases hg : s._boardSeq.isLegalMove i = false
      · have e2 : (s.withNodes n)._boardSeq.isLegalMove i = false := hg
        have hle : ¬ (s._boardSeq.legalEmpty i = true) := by
          unfold legalEmpty; simp [hc, hg]
        rw [if_pos e2, if_neg hle]
        exact ih hl2 _ _
      · have e2 : ¬ ((s.withNodes n)._boardSeq.isLegalMove i = false) := hg
        have hle : s._boardSeq.legalEmpty i = true := by
          unfold legalEmpty; simpa [hc] using hg
        obtain ⟨n1, hn1⟩ := hchild i hi hle n
        have e3 : minimax fuel ((s.withNodes n).writeCell i color) maxDepth player false
            = some (childValue fuel s color maxDepth player false i,
                (s.writeCell i color).withNodes n1) := hn1
        rw [if_neg e2, if_pos hle, e3]
        simp only []
        have e4 : (((s.writeCell i color).withNodes n1).writeCell i SlotStatus.Empty).countNode
            = s.withNodes ((n1 + 1) % 18446744073709551616) := by
          have : ((s.writeCell i color).withNodes n1).writeCell i SlotStatus.Empty
              = ((s.writeCell i color).writeCell i SlotStatus.Empty).withNodes n1 := rfl
          rw [this, writeCell_restore s i color hc]
          rfl
        rw [e4]
        by_cases hgt : childValue fuel s color maxDepth player false i > v.bestScore
        · rw [if_pos hgt, if_pos hgt]
          exact ih hl2 _ _
        · rw [if_neg hgt, if_neg hgt]
          exact ih hl2 _ _
    · have e1 : ¬ ((s.withNodes n)._boardSeq.cell i = SlotStatus.Empty) := hc
      have hle : ¬ (s._boardSeq.legalEmpty i = true) := by
        unfold legalEmpty; simp [hc]
      rw [if_neg e1, if_neg hle]
      exact ih hl2 _ _

theorem SearchInv_congr (legal : Nat → Bool) (val : Nat → Int) (P Q : Nat → Prop)
    (v : SearchVars) (h : ∀ x, P x ↔ Q x) (hinv : SearchInv legal val P v) :
    SearchInv legal val Q v := by
  have : P = Q := funext (fun x => propext (h x))
  rw [← this]; exact hinv

theorem searchFold_inv (legal : Nat → Bool) (val : Nat → Int) :
    ∀ (l : List Nat), l.Pairwise (· > ·) → ∀ (P : Nat → Prop) (v : SearchVars),
      (∀ i ∈ l, ∀ p, P p → i < p) → SearchInv legal val P v →
      SearchInv legal val (fun x => P x ∨ x ∈ l) (searchFold legal val l v) := by
  intro l
  induction l with
  | nil =>
    intro _ P v _ hinv
    exact SearchInv_congr _ _ P _ v (fun x => by simp) hinv
  | cons i l ih =>
    intro hpw P v hlt hinv
    rw [List.pairwise_cons] at hpw
    obtain ⟨hil, hpw2⟩ := hpw
    have hiP : ∀ p, P p → i < p := hlt i (List.mem_cons_self _ _)
    have hstep : ∀ v1, SearchInv legal val (fun x => P x ∨ x = i) v1 →
        SearchInv legal val (fun x => P x ∨ x ∈ i :: l) (searchFold legal val l v1) := by
      intro v1 h1
      have := ih hpw2 (fun x => P x ∨ x = i) v1 (by
        intro j hj p hp
        rcases hp with hp | hp
        · exact hlt j (List.mem_cons_of_mem _ hj) p hp
        · rw [hp]; exact hil j hj) h1
      exact SearchInv_congr _ _ _ _ _ (fun x => by simp only [List.mem_cons]; tauto) this
    obtain ⟨ha, hb, hc⟩ := hinv
    rw [searchFold]
    by_cases hg : legal i = true
    · rw [if_pos hg]
      by_cases hgt : val i > v.bestScore
      · rw [if_pos hgt]
        apply hstep
        refine ⟨?_, ?_, ?_⟩
        · simp only [true_iff]; exact ⟨i, Or.inr rfl, hg⟩
        · intro h; simp only at h; omega
        · intro _
          refine ⟨i, rfl, Or.inr rfl, hg, rfl, ?_⟩
          intro j hj hjl
          rcases hj with hj | hj
          · have hle : val j ≤ v.bestScore := by
              by_cases hm : v.move = -1
              · obtain ⟨h1, h2⟩ := hb hm
                rw [h1]; exact h2 j hj hjl
              · obtain ⟨m, _, _, _, h4, h5⟩ := hc hm
                rw [h4]; exact (h5 j hj hjl).1
            exact ⟨by omega, fun he => by omega⟩
          · subst hj; exact ⟨le_refl _, fun _ => le_refl _⟩
      · rw [if_neg hgt]
        apply hstep
        refine ⟨?_, ?_, ?_⟩
        · simp only [true_iff]; exact ⟨i, Or.inr rfl, hg⟩
        · intro hm
          obtain ⟨h1, h2⟩ := hb hm
          refine ⟨h1, ?_⟩
          intro j hj hjl
          rcases hj with hj | hj
          · exact h2 j hj hjl
          · subst hj; rw [← h1]; omega
        · intro hm
          obtain ⟨m, h1, h2, h3, h4, h5⟩ := hc hm
          refine ⟨m, h1, Or.inl h2, h3, h4, ?_⟩
          intro j hj hjl
          rcases hj with hj | hj
          · exact h5 j hj hjl
          · subst hj
            have hv : val j ≤ val m := by
              have e : v.bestScore = val m := h4
              omega
            exact ⟨hv, fun _ => le_of_lt (hiP m h2)⟩
    · rw [if_neg hg]
      apply hstep
      refine ⟨?_, ?_, ?_⟩
      · rw [ha]
        constructor
        · rintro ⟨x, hx, hxl⟩; exact ⟨x, Or.inl hx, hxl⟩
        · rintro ⟨x, hx | hx, hxl⟩
          · exact ⟨x, hx, hxl⟩
          · subst hx; exact absurd hxl hg
      · intro hm
        obtain ⟨h1, h2⟩ := hb hm
        refine ⟨h1, ?_⟩
        intro j hj hjl
        rcases hj with hj | hj
        · exact h2 j hj hjl
        · subst hj; exact absurd hjl hg
      · intro hm
        obtain ⟨m, h1, h2, h3, h4, h5⟩ := hc hm
        refine ⟨m, h1, Or.inl h2, h3, h4, ?_⟩
        intro j hj hjl
        rcases hj with hj | hj
        · exact h5 j hj hjl
        · subst hj; exact absurd hjl hg

theorem firstLegalLoop_spec (b : Board) :
    ∀ (l : List Nat), l.Pairwise (· > ·) → (∃ i ∈ l, b.legalEmpty i = true) →
      ∀ mv : Int, ∃ m : Nat, m ∈ l ∧ b.legalEmpty m = true ∧
        firstLegalLoop b l mv = (m : Int) ∧ ∀ j ∈ l, b.legalEmpty j = true → j ≤ m := by
  intro l
  induction l with
  | nil => rintro _ ⟨i, hi, _⟩; exact absurd hi (List.not_mem_nil _)
  | cons i l ih =>
    intro hpw hex mv
    rw [List.pairwise_cons] at hpw
    obtain ⟨hil, hpw2⟩ := hpw
    rw [firstLegalLoop]
    by_cases hg : b.legalEmpty i = true
    · have hg2 := hg
      unfold legalEmpty at hg2
      simp only [Bool.and_eq_true, decide_eq_true_eq] at hg2
      have hne : ¬ (b.isLegalMove i = false) := by simp [hg2.2]
      rw [if_pos hg2.1, if_neg hne]
      refine ⟨i, List.mem_cons_self _ _, hg, rfl, ?_⟩
      intro j hj _
      rcases List.mem_cons.mp hj with rfl | hj
      · exact le_refl _
      · exact le_of_lt (hil j hj)
    · have hex2 : ∃ j ∈ l, b.legalEmpty j = true := by
        obtain ⟨j, hj, hjl⟩ := hex
        rcases List.mem_cons.mp hj with rfl | hj
        · exact absurd hjl hg
        · exact ⟨j, hj, hjl⟩
      obtain ⟨m, hm, hml, hme, hmax⟩ := ih hpw2 hex2 mv
      have hrec : (if b.cell i = SlotStatus.Empty then
            if b.isLegalMove i = false then firstLegalLoop b l mv else (i : Int)
          else firstLegalLoop b l mv) = firstLegalLoop b l mv := by
        by_cases hc : b.cell i = SlotStatus.Empty
        · rw [if_pos hc]
          have : b.isLegalMove i = false := by
            unfold legalEmpty at hg
            simpa [hc] using hg
          rw [if_pos this]
        · rw [if_neg hc]
      rw [hrec]
      refine ⟨m, List.mem_cons_of_mem _ hm, hml, hme, ?_⟩
      intro j hj hjl
      rcases List.mem_cons.mp hj with rfl | hj
      · exact absurd hjl hg
      · exact hmax j hj hjl

theorem cellsDescending_pairwise (b : Board) : (cellsDescending b).Pairwise (· > ·) := by
  unfold cellsDescending
  rw [List.pairwise_reverse]
  exact List.pairwise_lt_range _

theorem mem_legalCells (b : Board) (i : Nat) :
    i ∈ b.legalCells ↔ i < b.width * b.height ∧ b.legalEmpty i = true := by
  unfold legalCells legalEmpty
  rw [List.mem_filter, List.mem_range]

/-- What `findBestMove` returns on a board that is not full when the clock never stops it:
a legal cell of greatest reply score, the greatest index among those. -/
theorem findBestMove_spec (fuel : Nat) (s : SequentialSolver) (player : Player)
    (maxDepth : Int)
    (hlen : s._boardSeq.board.length = s._boardSeq.width * s._boardSeq.height)
    (hfuel : s._boardSeq.emptyCount ≤ fuel) (hnf : s._boardSeq.IsFull = false) :
    ∃ (m : Nat) (n1 : Nat),
      findBestMove fuel s player maxDepth (-1) = some ((m : Int), s.withNodes n1) ∧
      m ∈ s._boardSeq.legalCells ∧
      (∀ j ∈ s._boardSeq.legalCells,
        ∃ sj, minimax fuel
            (s.writeCell j (if player = Player.Red then SlotStatus.Red else SlotStatus.Yellow))
            maxDepth player false
          = some (childValue fuel s
              (if player = Player.Red then SlotStatus.Red else SlotStatus.Yellow)
              maxDepth player false j, sj)) ∧
      (∀ j ∈ s._boardSeq.legalCells,
        childValue fuel s (if player = Player.Red then SlotStatus.Red else SlotStatus.Yellow)
            maxDepth player false j
          ≤ childValue fuel s (if player = Player.Red then SlotStatus.Red else SlotStatus.Yellow)
            maxDepth player false m ∧
        (childValue fuel s (if player = Player.Red then SlotStatus.Red else SlotStatus.Yellow)
            maxDepth player false j
          = childValue fuel s (if player = Player.Red then SlotStatus.Red else SlotStatus.Yellow)
            maxDepth player false m → j ≤ m)) := by
  have hcolor : (if player = Player.Red then SlotStatus.Red else SlotStatus.Yellow)
      ≠ SlotStatus.Empty := by split <;> simp
  generalize hcdef : (if player = Player.Red then SlotStatus.Red else SlotStatus.Yellow) = color
    at hcolor ⊢
  have hchild : ∀ i, i < s._boardSeq.width * s._boardSeq.height →
      s._boardSeq.legalEmpty i = true →
      INT_MIN ≤ childValue fuel s color maxDepth player false i ∧
      (∀ n, ∃ n1, minimax fuel ((s.writeCell i color).withNodes n) maxDepth player false
        = some (childValue fuel s color maxDepth player false i,
            (s.writeCell i color).withNodes n1)) := by
    intro i hi hle
    have hcell : s._boardSeq.cell i = SlotStatus.Empty := by
      unfold legalEmpty at hle
      simp only [Bool.and_eq_true, decide_eq_true_eq] at hle
      exact hle.1
    have := child_spec fuel s color maxDepth player false i
      (minimax_spec fuel (s.writeCell i color) maxDepth player false
        (by
          show (s._boardSeq.board.set i color).length = _
          rw [List.length_set]; exact hlen)
        (by
          have := emptyCount_writeCell s._boardSeq i color hcell (by rw [hlen]; exact hi) hcolor
          have e : (s.writeCell i color)._boardSeq = s._boardSeq.playMoveIndex i color := rfl
          rw [e]; omega))
    exact ⟨this.1, this.2.2.1⟩
  obtain ⟨i0, hi0, hl0⟩ := exists_legal_of_not_full _ hnf
  obtain ⟨n1, hloop⟩ := findBestMoveLoop_spec fuel color player maxDepth s
    (s._boardSeq.width * s._boardSeq.height) (fun i hi hl => (hchild i hi hl).2)
    (cellsDescending s._boardSeq) (fun i hi => (mem_cellsDescending _ i).mp hi)
    s._nodesTraversed { move := -1, bestScore := INT_MIN, empty_slot_avl := false }
  have e0 : s.withNodes s._nodesTraversed = s := rfl
  rw [e0] at hloop
  have hinv := searchFold_inv (legalEmpty s._boardSeq)
    (childValue fuel s color maxDepth player false) (cellsDescending s._boardSeq)
    (cellsDescending_pairwise _) (fun _ => False)
    { move := -1, bestScore := INT_MIN, empty_slot_avl := false }
    (fun _ _ _ hp => absurd hp id)
    ⟨by simp, fun _ => ⟨rfl, fun _ hp => absurd hp id⟩, fun h => absurd rfl h⟩
  obtain ⟨ha, hb, hc⟩ := hinv
  have hfull2 : ¬ (s._boardSeq.IsFull = true) := by simp [hnf]
  have hplay : ∀ j ∈ s._boardSeq.legalCells,
      ∃ sj, minimax fuel (s.writeCell j color) maxDepth player false
        = some (childValue fuel s color maxDepth player false j, sj) := by
    intro j hj
    rw [mem_legalCells] at hj
    obtain ⟨n2, hn2⟩ := (hchild j hj.1 hj.2).2 (s.writeCell j color)._nodesTraversed
    exact ⟨_, hn2⟩
  unfold findBestMove
  rw [if_neg hfull2]
  simp only []
  rw [hcdef, hloop]
  simp only []
  have havl : (searchFold (legalEmpty s._boardSeq)
      (childValue fuel s color maxDepth player false) (cellsDescending s._boardSeq)
      { move := -1, bestScore := INT_MIN, empty_slot_avl := false }).empty_slot_avl = true :=
    ha.mpr ⟨i0, Or.inr ((mem_cellsDescending _ i0).mpr hi0), hl0⟩
  by_cases hm : (searchFold (legalEmpty s._boardSeq)
      (childValue fuel s color maxDepth player false) (cellsDescending s._boardSeq)
      { move := -1, bestScore := INT_MIN, empty_slot_avl := false }).move = -1
  · rw [if_pos ⟨hm, havl⟩]
    obtain ⟨h1, h2⟩ := hb hm
    obtain ⟨m, hm1, hm2, hm3, hm4⟩ := firstLegalLoop_spec s._boardSeq
      (cellsDescending s._boardSeq) (cellsDescending_pairwise _)
      ⟨i0, (mem_cellsDescending _ i0).mpr hi0, hl0⟩ (-1)
    have e1 : (s.withNodes n1)._boardSeq = s._boardSeq := rfl
    rw [e1, hm, hm3]
    refine ⟨m, n1, rfl, ?_, hplay, ?_⟩
    · rw [mem_legalCells]; exact ⟨(mem_cellsDescending _ m).mp hm1, hm2⟩
    · intro j hj
      rw [mem_legalCells] at hj
      have hj1 := h2 j (Or.inr ((mem_cellsDescending _ j).mpr hj.1)) hj.2
      have hm5 := (hchild m ((mem_cellsDescending _ m).mp hm1) hm2).1
      exact ⟨le_trans hj1 hm5, fun _ => hm4 j ((mem_cellsDescending _ j).mpr hj.1) hj.2⟩
  · have hneg : ¬ ((searchFold (legalEmpty s._boardSeq)
        (childValue fuel s color maxDepth player false) (cellsDescending s._boardSeq)
        { move := -1, bestScore := INT_MIN, empty_slot_avl := false }).move = -1 ∧
        (searchFold (legalEmpty s._boardSeq)
        (childValue fuel s color maxDepth player false) (cellsDescending s._boardSeq)
        { move := -1, bestScore := INT_MIN, empty_slot_avl := false }).empty_slot_avl = true) :=
      fun h => hm h.1
    rw [if_neg hneg]
    obtain ⟨m, h1, h2, h3, h4, h5⟩ := hc hm
    rw [h1]
    have hm1 : m ∈ cellsDescending s._boardSeq := by
      rcases h2 with h2 | h2
      · exact absurd h2 id
      · exact h2
    refine ⟨m, n1, rfl, ?_, hplay, ?_⟩
    · rw [mem_legalCells]; exact ⟨(mem_cellsDescending _ m).mp hm1, h3⟩
    · intro j hj
      rw [mem_legalCells] at hj
      exact h5 j (Or.inr ((mem_cellsDescending _ j).mpr hj.1)) hj.2

/-! ### The claims about `minimax` and `findBestMove` -/

/-- C5: for every board, depth `d ≥ 0`, player Red or Yellow and both values of
`maximizer`, `minimax` (given fuel above the number of `Empty` cells) returns the value of
the reference recursion `minimaxRef`: the static evaluation `EvaluateBoard(player)` when
it is `INT_MAX` or `INT_MIN`, or the board is full, or the depth is 0, and otherwise the
maximum (maximizer) or minimum (minimizer) over the `Empty` cells accepted by
`isLegalMove` of the value of the board with that cell set to the colour of the mover, at
depth `d - 1` with the flag flipped, always evaluated for the same player. -/
theorem minimax_eq_reference (fuel : Nat) (s : SequentialSolver) (d : Nat) (player : Player)
    (maximizer : Bool) (hwf : s._boardSeq.WF)
    (hp : player = Player.Red ∨ player = Player.Yellow)
    (hfuel : s._boardSeq.emptyCount < fuel) :
    ∃ s1, minimax fuel s (d : Int) player maximizer
      = some (minimaxRef d s._boardSeq player maximizer, s1) := by
  obtain ⟨v, -, -, hrun, href⟩ := minimax_spec fuel s (d : Int) player maximizer
    hwf.2.2.2.2.1 hfuel
  obtain ⟨n1, hn1⟩ := hrun s._nodesTraversed
  have e0 : s.withNodes s._nodesTraversed = s := rfl
  rw [e0] at hn1
  rw [← href d rfl hp]
  exact ⟨_, hn1⟩

/-- C5 on the fresh 7x6 board at depth 2, for Red as maximizer. -/
theorem minimax_eq_reference_witness :
    freshSolver._boardSeq.WF ∧ freshSolver._boardSeq.emptyCount < 43 ∧
    ∃ s1, minimax 43 freshSolver ((2 : Nat) : Int) Player.Red true
      = some (minimaxRef 2 freshSolver._boardSeq Player.Red true, s1) :=
  ⟨by decide, by decide,
    minimax_eq_reference 43 freshSolver 2 Player.Red true (by decide) (Or.inl rfl) (by decide)⟩

/-- C6: backtracking is exact.  For every board, depth, player and flag, `minimax` (given
fuel above the number of `Empty` cells) returns with the board object (cells, column
heights, `winner`, `isGameOver`) exactly as at the call, and so does `findBestMove` for
every depth, every time limit and every clock. -/
theorem search_restores_board (fuel : Nat) (s : SequentialSolver) (depth : Int)
    (player : Player) (maximizer : Bool) (time_limit : Rat) (hwf : s._boardSeq.WF)
    (hfuel : s._boardSeq.emptyCount < fuel) :
    (∃ v s1, minimax fuel s depth player maximizer = some (v, s1) ∧
      s1._boardSeq = s._boardSeq) ∧
    (∃ m s1, findBestMove fuel s player depth time_limit = some (m, s1) ∧
      s1._boardSeq = s._boardSeq) := by
  constructor
  · obtain ⟨v, -, -, hrun, -⟩ := minimax_spec fuel s depth player maximizer
      hwf.2.2.2.2.1 hfuel
    obtain ⟨n1, hn1⟩ := hrun s._nodesTraversed
    have e0 : s.withNodes s._nodesTraversed = s := rfl
    rw [e0] at hn1
    exact ⟨v, _, hn1, rfl⟩
  · unfold findBestMove
    by_cases hf : s._boardSeq.IsFull = true
    · rw [if_pos hf]; exact ⟨_, _, rfl, rfl⟩
    · rw [if_neg hf]
      simp only []
      have hcolor : (if player = Player.Red then SlotStatus.Red else SlotStatus.Yellow)
          ≠ SlotStatus.Empty := by split <;> simp
      obtain ⟨v1, s1, h1, h2⟩ := findBestMoveLoop_frame fuel _ player depth time_limit hcolor
        s._boardSeq hwf.2.2.2.2.1 (le_of_lt hfuel) (cellsDescending s._boardSeq)
        (fun i hi => (mem_cellsDescending _ i).mp hi) s
        { move := -1, bestScore := INT_MIN, empty_slot_avl := false } rfl
      rw [h1]
      simp only []
      split
      · exact ⟨_, _, rfl, h2⟩
      · exact ⟨_, _, rfl, h2⟩

/-- C6 on the fresh 7x6 board, depth 2, with a time limit of one millisecond. -/
theorem search_restores_board_witness :
    freshSolver._boardSeq.WF ∧ freshSolver._boardSeq.emptyCount < 43 ∧
    ((∃ v s1, minimax 43 freshSolver 2 Player.Red false = some (v, s1) ∧
      s1._boardSeq = freshSolver._boardSeq) ∧
    (∃ m s1, findBestMove 43 freshSolver Player.Red 2 (1 / 1000) = some (m, s1) ∧
      s1._boardSeq = freshSolver._boardSeq)) :=
  ⟨by decide, by decide,
    search_restores_board 43 freshSolver 2 Player.Red false (1 / 1000) (by decide) (by decide)⟩

/-- C7: with no time limit (`time_limit = -1`), for every player and every depth,
`findBestMove` (given fuel at least the number of `Empty` cells) returns `-1` exactly
when the board is full; otherwise it returns an index `i` with `0 ≤ i < width*height`
whose cell is `Empty` and for which `isLegalMove(i)` is true. -/
theorem findBestMove_returns_legal_cell (fuel : Nat) (s : SequentialSolver) (player : Player)
    (maxDepth : Int) (hwf : s._boardSeq.WF)
    (hfuel : s._boardSeq.emptyCount ≤ fuel) :
    ∃ m s1, findBestMove fuel s player maxDepth (-1) = some (m, s1) ∧
      (m = -1 ↔ s._boardSeq.IsFull = true) ∧
      (s._boardSeq.IsFull = false →
        ∃ i : Nat, m = (i : Int) ∧ i < s._boardSeq.width * s._boardSeq.height ∧
          s._boardSeq.cell i = SlotStatus.Empty ∧ s._boardSeq.isLegalMove i = true) := by
  by_cases hf : s._boardSeq.IsFull = true
  · refine ⟨-1, s, ?_, ?_, ?_⟩
    · unfold findBestMove; rw [if_pos hf]
    · simp [hf]
    · intro h; rw [hf] at h; exact absurd h (by simp)
  · have hnf : s._boardSeq.IsFull = false := by simpa using hf
    obtain ⟨m, n1, h1, h2, -, -⟩ := findBestMove_spec fuel s player maxDepth
      hwf.2.2.2.2.1 hfuel hnf
    rw [mem_legalCells] at h2
    have hle := h2.2
    unfold legalEmpty at hle
    simp only [Bool.and_eq_true, decide_eq_true_eq] at hle
    refine ⟨(m : Int), _, h1, ?_, ?_⟩
    · constructor
      · intro h; omega
      · intro h; exact absurd h hf
    · intro _
      exact ⟨m, rfl, h2.1, hle.1, hle.2⟩

/-- C7 on the fresh 7x6 board at depth 2. -/
theorem findBestMove_returns_legal_cell_witness :
    freshSolver._boardSeq.WF ∧ freshSolver._boardSeq.emptyCount ≤ 42 ∧
    ∃ m s1, findBestMove 42 freshSolver Player.Red 2 (-1) = some (m, s1) ∧
      (m = -1 ↔ freshSolver._boardSeq.IsFull = true) ∧
      (freshSolver._boardSeq.IsFull = false →
        ∃ i : Nat, m = (i : Int) ∧
          i < freshSolver._boardSeq.width * freshSolver._boardSeq.height ∧
          freshSolver._boardSeq.cell i = SlotStatus.Empty ∧
          freshSolver._boardSeq.isLegalMove i = true) :=
  ⟨by decide, by decide,
    findBestMove_returns_legal_cell 42 freshSolver Player.Red 2 (by decide) (by decide)⟩

/-- C8: with no time limit on a board that is not full, the index `m` returned by
`findBestMove` is a legal `Empty` cell whose reply score
`minimax(board with the cell set to the colour of the player, maxDepth, player, false)`
is maximal over all legal `Empty` cells, and it is the greatest index among the cells of
maximal score; in particular it is the greatest legal index when every reply score is
`INT_MIN`. -/
theorem findBestMove_greatest_best_cell (fuel : Nat) (s : SequentialSolver) (player : Player)
    (maxDepth : Int) (hwf : s._boardSeq.WF)
    (hp : player = Player.Red ∨ player = Player.Yellow)
    (hfuel : s._boardSeq.emptyCount ≤ fuel) (hnf : s._boardSeq.IsFull = false) :
    ∃ (m : Nat) (s1 : SequentialSolver) (score : Nat → Int),
      findBestMove fuel s player maxDepth (-1) = some ((m : Int), s1) ∧
      m ∈ s._boardSeq.legalCells ∧
      (∀ j ∈ s._boardSeq.legalCells,
        ∃ sj, minimax fuel (s.writeCell j (getPlayerColor player)) maxDepth player false
          = some (score j, sj)) ∧
      (∀ j ∈ s._boardSeq.legalCells, score j ≤ score m ∧ (score j = score m → j ≤ m)) ∧
      ((∀ j ∈ s._boardSeq.legalCells, score j = INT_MIN) →
        ∀ j ∈ s._boardSeq.legalCells, j ≤ m) := by
  have hcol : (if player = Player.Red then SlotStatus.Red else SlotStatus.Yellow)
      = getPlayerColor player := by
    rcases hp with rfl | rfl <;> simp [getPlayerColor]
  obtain ⟨m, n1, h1, h2, h3, h4⟩ := findBestMove_spec fuel s player maxDepth
    hwf.2.2.2.2.1 hfuel hnf
  rw [hcol] at h3 h4
  refine ⟨m, _, childValue fuel s (getPlayerColor player) maxDepth player false, h1, h2, h3,
    h4, ?_⟩
  intro hall j hj
  exact (h4 j hj).2 ((hall j hj).trans (hall m h2).symm)

/-- C8 on the fresh 7x6 board at depth 2. -/
theorem findBestMove_greatest_best_cell_witness :
    freshSolver._boardSeq.WF ∧ freshSolver._boardSeq.emptyCount ≤ 42 ∧
    freshSolver._boardSeq.IsFull = false ∧
    ∃ (m : Nat) (s1 : SequentialSolver) (score : Nat → Int),
      findBestMove 42 freshSolver Player.Red 2 (-1) = some ((m : Int), s1) ∧
      m ∈ freshSolver._boardSeq.legalCells ∧
      (∀ j ∈ freshSolver._boardSeq.legalCells,
        ∃ sj, minimax 42 (freshSolver.writeCell j (getPlayerColor Player.Red)) 2 Player.Red false
          = some (score j, sj)) ∧
      (∀ j ∈ freshSolver._boardSeq.legalCells,
        score j ≤ score m ∧ (score j = score m → j ≤ m)) ∧
      ((∀ j ∈ freshSolver._boardSeq.legalCells, score j = INT_MIN) →
        ∀ j ∈ freshSolver._boardSeq.legalCells, j ≤ m) :=
  ⟨by decide, by decide, by decide,
    findBestMove_greatest_best_cell 42 freshSolver Player.Red 2 (by decide) (Or.inl rfl)
      (by decide) (by decide)⟩
/-! ### The legality test and the column interface `playMove` -/

theorem isLegalMove_spec (b : Board) (i : Nat) :
    b.isLegalMove i = true ↔
      b.cell i = SlotStatus.Empty ∧
        (i / b.width + 1 = b.height ∨ b.cell (i + b.width) ≠ SlotStatus.Empty) := by
  unfold isLegalMove
  by_cases h1 : b.cell i = SlotStatus.Empty
  · rw [if_neg (by simpa using h1)]
    simp only []
    by_cases h2 : ((i / b.width : Nat) : Int) = (b.height : Int) - 1
    · rw [if_pos h2]
      simp only [h1, true_and, true_iff]
      left; omega
    · rw [if_neg h2]
      have h3 : ¬ (i / b.width + 1 = b.height) := by omega
      by_cases h4 : b.cell (i + b.width) = SlotStatus.Empty
      · rw [if_pos h4]; simp [h1, h3, h4]
      · rw [if_neg h4]; simp [h1, h4]
  · rw [if_pos (by simpa using h1)]
    simp [h1]

/-- C20 (as the code has it): for every board and index `i`, `isLegalMove(i)` is true
if and only if cell `i` is `Empty` and either `i` lies in the row of largest index,
`height - 1`, or the cell one row further, at index `i + width`, is not `Empty`. -/
theorem isLegalMove_iff_last_row_or_supported (b : Board) (i : Nat) :
    b.isLegalMove i = true ↔
      b.cell i = SlotStatus.Empty ∧
        (i / b.width + 1 = b.height ∨ b.cell (i + b.width) ≠ SlotStatus.Empty) :=
  isLegalMove_spec b i

/-- C20, counterexample: on the empty 7x6 board cell 0 is `Empty` and lies in row 0, yet
`isLegalMove(0)` is false; cell 35 is not in row 0 and the cell at index `35 - 7` is
`Empty`, yet `isLegalMove(35)` is true. -/
theorem isLegalMove_row_zero_refused :
    (create 7 6 4).cell 0 = SlotStatus.Empty ∧ 0 / (create 7 6 4).width = 0 ∧
      (create 7 6 4).isLegalMove 0 = false ∧
      35 / (create 7 6 4).width ≠ 0 ∧ (create 7 6 4).cell (35 - 7) = SlotStatus.Empty ∧
      (create 7 6 4).isLegalMove 35 = true := by
  decide

theorem cellAt_inside (oob : Int → SlotStatus) (b : Board) (i k : Nat)
    (hlen : b.board.length = b.width * b.height) (hi : i < b.height) (hk : k < b.width) :
    b.cellAt oob ((i : Int) * (b.width : Int) + ((k : Int) + 1) - 1)
      = b.cell (b.width * i + k) := by
  have hlt : b.width * i + k < b.width * b.height := rowMajor_lt b.width b.height i k hi hk
  have e : (i : Int) * (b.width : Int) + ((k : Int) + 1) - 1 = ((b.width * i + k : Nat) : Int) := by
    push_cast; ring
  unfold cellAt
  rw [e, if_pos ⟨by omega, by rw [hlen]; exact_mod_cast hlt⟩, Int.toNat_natCast]

theorem playMoveScan_range (oob : Int → SlotStatus) (b : Board) (column : Int) :
    ∀ l : List Nat, playMoveScan oob b column l = -1 ∨
      ∃ i ∈ l, playMoveScan oob b column l = (i : Int) + 1 := by
  intro l
  induction l with
  | nil => left; rfl
  | cons i l ih =>
    rw [playMoveScan]
    split
    · right; exact ⟨i, List.mem_cons_self _ _, rfl⟩
    · rcases ih with h | ⟨j, hj, h⟩
      · left; exact h
      · right; exact ⟨j, List.mem_cons_of_mem _ hj, h⟩

theorem playMoveScan_desc (oob : Int → SlotStatus) (b : Board) (k : Nat)
    (hlen : b.board.length = b.width * b.height) (hk : k < b.width) :
    ∀ l : List Nat, l.Pairwise (· > ·) → (∀ i ∈ l, i < b.height) →
      ((∀ i ∈ l, b.cell (b.width * i + k) ≠ SlotStatus.Empty) ∧
        playMoveScan oob b ((k : Int) + 1) l = -1) ∨
      (∃ r ∈ l, b.cell (b.width * r + k) = SlotStatus.Empty ∧
        (∀ r2 ∈ l, r < r2 → b.cell (b.width * r2 + k) ≠ SlotStatus.Empty) ∧
        playMoveScan oob b ((k : Int) + 1) l = (r : Int) + 1) := by
  intro l
  induction l with
  | nil => intro _ _; left; exact ⟨fun i hi => absurd hi (List.not_mem_nil _), rfl⟩
  | cons i l ih =>
    intro hpw hl
    rw [List.pairwise_cons] at hpw
    have hi : i < b.height := hl i (List.mem_cons_self _ _)
    rw [playMoveScan, cellAt_inside oob b i k hlen hi hk]
    by_cases hc : b.cell (b.width * i + k) = SlotStatus.Empty
    · rw [if_pos hc]
      right
      refine ⟨i, List.mem_cons_self _ _, hc, ?_, rfl⟩
      intro r2 hr2 hlt
      rcases List.mem_cons.mp hr2 with h | h
      · omega
      · have := hpw.1 r2 h; omega
    · rw [if_neg hc]
      rcases ih hpw.2 (fun j hj => hl j (List.mem_cons_of_mem _ hj)) with ⟨h1, h2⟩ | ⟨r, hr, h1, h2, h3⟩
      · left
        refine ⟨?_, h2⟩
        intro j hj
        rcases List.mem_cons.mp hj with h | h
        · rw [h]; exact hc
        · exact h1 j h
      · right
        refine ⟨r, List.mem_cons_of_mem _ hr, h1, ?_, h3⟩
        intro r2 hr2 hlt
        rcases List.mem_cons.mp hr2 with h | h
        · rw [h]; exact hc
        · exact h2 r2 h hlt

theorem rows_descending (h : Nat) : ((List.range h).reverse).Pairwise (· > ·) := by
  rw [List.pairwise_reverse]
  exact List.pairwise_lt_range _

/-- The two ways `playMove(column, player)` ends for a column inside the board: the column
has no `Empty` cell and `-1` is returned, or the `Empty` cell of largest row index is
written and `0` is returned. -/
theorem playMove_column_cases (oob : Int → SlotStatus) (b : Board) (k : Nat)
    (player : Player) (hlen : b.board.length = b.width * b.height) (hk : k < b.width) :
    ((∀ r, r < b.height → b.cell (b.width * r + k) ≠ SlotStatus.Empty) ∧
      b.playMove oob ((k : Int) + 1) player = (-1, b)) ∨
    (∃ r, r < b.height ∧ b.cell (b.width * r + k) = SlotStatus.Empty ∧
      (∀ r2, r < r2 → r2 < b.height → b.cell (b.width * r2 + k) ≠ SlotStatus.Empty) ∧
      b.playMove oob ((k : Int) + 1) player
        = (0, b.playMoveIndex (b.width * r + k) (getPlayerColor player))) := by
  have hmem : ∀ i, i ∈ (List.range b.height).reverse ↔ i < b.height := by
    intro i; rw [List.mem_reverse, List.mem_range]
  rcases playMoveScan_desc oob b k hlen hk (List.range b.height).reverse
      (rows_descending _) (fun i hi => (hmem i).mp hi) with ⟨h1, h2⟩ | ⟨r, hr, h1, h2, h3⟩
  · left
    refine ⟨fun r hr => h1 r ((hmem r).mpr hr), ?_⟩
    unfold playMove
    simp only []
    rw [h2, if_pos rfl]
  · right
    have hr2 : r < b.height := (hmem r).mp hr
    refine ⟨r, hr2, h1, fun r2 hlt hr3 => h2 r2 ((hmem r2).mpr hr3) hlt, ?_⟩
    have hconv : b.conv2DTo1D ((r : Int) + 1) ((k : Int) + 1) = ((b.width * r + k : Nat) : Int) := by
      unfold conv2DTo1D
      rw [if_neg (by omega), if_neg (by omega)]
      push_cast; ring
    unfold playMove
    simp only []
    rw [h3, if_neg (by omega), hconv, if_neg (by omega), Int.toNat_natCast]

theorem playMove_column_outside (oob : Int → SlotStatus) (b : Board) (column : Int)
    (player : Player) (hout : column < 1 ∨ (b.width : Int) < column) :
    b.playMove oob column player = (-1, b) := by
  have hmem : ∀ i, i ∈ (List.range b.height).reverse ↔ i < b.height := by
    intro i; rw [List.mem_reverse, List.mem_range]
  unfold playMove
  simp only []
  rcases playMoveScan_range oob b column (List.range b.height).reverse with h | ⟨i, hi, h⟩
  · rw [h, if_pos rfl]
  · have hconv : b.conv2DTo1D ((i : Int) + 1) column = -1 := by
      unfold conv2DTo1D
      rcases hout with h1 | h1
      · rw [if_pos (Or.inr h1)]
      · split
        · rfl
        · rw [if_pos (Or.inr h1)]
    rw [h, if_neg (by omega), hconv, if_pos rfl]
theorem rowMajor_div (w r k : Nat) (hk : k < w) : (w * r + k) / w = r := by
  rw [Nat.mul_add_div (by omega), Nat.div_eq_of_lt hk, Nat.add_zero]

theorem rowMajor_mod (w r k : Nat) (hk : k < w) : (w * r + k) % w = k := by
  rw [Nat.mul_add_mod, Nat.mod_eq_of_lt hk]

/-- The `Empty` cell of largest row index of a column passes `isLegalMove`. -/
theorem isLegalMove_of_top_free (b : Board) (k r : Nat) (hk : k < b.width)
    (hr : r < b.height) (hE : b.cell (b.width * r + k) = SlotStatus.Empty)
    (hmax : ∀ r2, r < r2 → r2 < b.height → b.cell (b.width * r2 + k) ≠ SlotStatus.Empty) :
    b.isLegalMove (b.width * r + k) = true := by
  rw [isLegalMove_spec, rowMajor_div _ _ _ hk]
  refine ⟨hE, ?_⟩
  by_cases h : r + 1 = b.height
  · left; exact h
  · right
    have e : b.width * r + k + b.width = b.width * (r + 1) + k := by ring
    rw [e]
    exact hmax (r + 1) (by omega) (by omega)

theorem cell_playMoveIndex (b : Board) (i : Nat) (color : SlotStatus) (j : Nat) :
    (b.playMoveIndex i color).cell j
      = if i = j ∧ i < b.board.length then color else b.cell j :=
  cell_of_set b (b.playMoveIndex i color) i color rfl j

/-- C17: for every well-formed board, every 1-based column with `1 ≤ column ≤ width`
that still holds an `Empty` cell and every player Red or Yellow, `playMove(column,
player)` returns 0 and writes the colour of the player to the `Empty` cell of largest row
index of board column `column - 1`; every other cell, the column heights `next_row`, the
dimensions, `winner` and `isGameOver` are unchanged, and the cell written passed
`isLegalMove` before the call.  Reads outside the array do not occur for such a column:
the result is the same for every `oob`. -/
theorem playMove_column_effect (oob : Int → SlotStatus) (b : Board) (column : Nat)
    (player : Player) (hwf : b.WF) (h1 : 1 ≤ column) (h2 : column ≤ b.width)
    (hp : player = Player.Red ∨ player = Player.Yellow)
    (hfree : ∃ r, r < b.height ∧ b.cell (b.width * r + (column - 1)) = SlotStatus.Empty) :
    ∃ r, r < b.height ∧ b.cell (b.width * r + (column - 1)) = SlotStatus.Empty ∧
      (∀ r2, r < r2 → r2 < b.height →
        b.cell (b.width * r2 + (column - 1)) ≠ SlotStatus.Empty) ∧
      b.isLegalMove (b.width * r + (column - 1)) = true ∧
      (b.playMove oob (column : Int) player).1 = 0 ∧
      (b.playMove oob (column : Int) player).2.cell (b.width * r + (column - 1))
        = (if player = Player.Red then SlotStatus.Red else SlotStatus.Yellow) ∧
      (∀ j, j ≠ b.width * r + (column - 1) →
        (b.playMove oob (column : Int) player).2.cell j = b.cell j) ∧
      (b.playMove oob (column : Int) player).2.next_row = b.next_row ∧
      (b.playMove oob (column : Int) player).2.width = b.width ∧
      (b.playMove oob (column : Int) player).2.height = b.height ∧
      (b.playMove oob (column : Int) player).2.winningStreakSize = b.winningStreakSize ∧
      (b.playMove oob (column : Int) player).2.winner = b.winner ∧
      (b.playMove oob (column : Int) player).2.isGameOver = b.isGameOver := by
  obtain ⟨-, -, -, -, hlen, -, -⟩ := hwf
  have hk : column - 1 < b.width := by omega
  have hcol : (column : Int) = ((column - 1 : Nat) : Int) + 1 := by omega
  rw [hcol]
  rcases playMove_column_cases oob b (column - 1) player hlen hk with
    ⟨hfull, -⟩ | ⟨r, hr, hE, hmax, hplay⟩
  · obtain ⟨r, hr, hE⟩ := hfree
    exact absurd hE (hfull r hr)
  · have hlt : b.width * r + (column - 1) < b.board.length := by
      rw [hlen]; exact rowMajor_lt _ _ _ _ hr hk
    have hcolor : getPlayerColor player
        = (if player = Player.Red then SlotStatus.Red else SlotStatus.Yellow) := by
      rcases hp with h | h <;> rw [h] <;> rfl
    refine ⟨r, hr, hE, hmax, isLegalMove_of_top_free b _ r hk hr hE hmax, ?_⟩
    rw [hplay]
    refine ⟨rfl, ?_, ?_, rfl, rfl, rfl, rfl, rfl, rfl⟩
    · show (b.playMoveIndex _ _).cell _ = _
      rw [cell_playMoveIndex, if_pos ⟨rfl, hlt⟩, hcolor]
    · intro j hj
      show (b.playMoveIndex _ _).cell _ = _
      rw [cell_playMoveIndex, if_neg (fun h => hj h.1.symm)]

/-- C17, instance: Yellow plays column 3 of the board `redThreatBoard`, whose column 2
holds pieces in rows 5 and 4. -/
theorem playMove_column_effect_witness :
    redThreatBoard.WF ∧ (1 ≤ 3 ∧ 3 ≤ redThreatBoard.width) ∧
    (∃ r, r < redThreatBoard.height ∧
      redThreatBoard.cell (redThreatBoard.width * r + (3 - 1)) = SlotStatus.Empty) ∧
    ∃ r, r < redThreatBoard.height ∧
      redThreatBoard.cell (redThreatBoard.width * r + (3 - 1)) = SlotStatus.Empty ∧
      (∀ r2, r < r2 → r2 < redThreatBoard.height →
        redThreatBoard.cell (redThreatBoard.width * r2 + (3 - 1)) ≠ SlotStatus.Empty) ∧
      redThreatBoard.isLegalMove (redThreatBoard.width * r + (3 - 1)) = true ∧
      (redThreatBoard.playMove (fun _ => SlotStatus.Red) ((3 : Nat) : Int) Player.Yellow).1 = 0 ∧
      (redThreatBoard.playMove (fun _ => SlotStatus.Red) ((3 : Nat) : Int) Player.Yellow).2.cell
          (redThreatBoard.width * r + (3 - 1))
        = (if Player.Yellow = Player.Red then SlotStatus.Red else SlotStatus.Yellow) ∧
      (∀ j, j ≠ redThreatBoard.width * r + (3 - 1) →
        (redThreatBoard.playMove (fun _ => SlotStatus.Red) ((3 : Nat) : Int) Player.Yellow).2.cell j
          = redThreatBoard.cell j) ∧
      (redThreatBoard.playMove (fun _ => SlotStatus.Red) ((3 : Nat) : Int) Player.Yellow).2.next_row
        = redThreatBoard.next_row ∧
      (redThreatBoard.playMove (fun _ => SlotStatus.Red) ((3 : Nat) : Int) Player.Yellow).2.width
        = redThreatBoard.width ∧
      (redThreatBoard.playMove (fun _ => SlotStatus.Red) ((3 : Nat) : Int) Player.Yellow).2.height
        = redThreatBoard.height ∧
      (redThreatBoard.playMove (fun _ => SlotStatus.Red) ((3 : Nat) : Int)
          Player.Yellow).2.winningStreakSize = redThreatBoard.winningStreakSize ∧
      (redThreatBoard.playMove (fun _ => SlotStatus.Red) ((3 : Nat) : Int) Player.Yellow).2.winner
        = redThreatBoard.winner ∧
      (redThreatBoard.playMove (fun _ => SlotStatus.Red) ((3 : Nat) : Int)
          Player.Yellow).2.isGameOver = redThreatBoard.isGameOver :=
  ⟨by decide, by decide, ⟨0, by decide, by decide⟩,
    playMove_column_effect (fun _ => SlotStatus.Red) redThreatBoard 3 Player.Yellow
      (by decide) (by decide) (by decide) (Or.inr rfl) ⟨0, by decide, by decide⟩⟩

/-- C18: `playMove(column, player)` returns -1 with every cell unchanged if and only if
the 1-based column is outside `1..width` or the column has no `Empty` cell; and for a
column outside `1..width` the board afterwards is the board before, whatever the reads
outside the array (`oob`) yield. -/
theorem playMove_error_iff (oob : Int → SlotStatus) (b : Board) (column : Int)
    (player : Player) (hwf : b.WF) :
    (((b.playMove oob column player).1 = -1 ∧
        (b.playMove oob column player).2.board = b.board) ↔
      (column < 1 ∨ (b.width : Int) < column ∨
        ∀ r, r < b.height → b.cell (b.width * r + (column - 1).toNat) ≠ SlotStatus.Empty)) ∧
    (column < 1 ∨ (b.width : Int) < column → (b.playMove oob column player).2 = b) := by
  obtain ⟨-, -, -, -, hlen, -, -⟩ := hwf
  have hout : column < 1 ∨ (b.width : Int) < column → b.playMove oob column player = (-1, b) :=
    playMove_column_outside oob b column player
  refine ⟨?_, fun h => by rw [hout h]⟩
  by_cases hin : column < 1 ∨ (b.width : Int) < column
  · rw [hout hin]
    constructor
    · intro _
      rcases hin with h | h
      · exact Or.inl h
      · exact Or.inr (Or.inl h)
    · intro _; exact ⟨rfl, rfl⟩
  · have hk : (column - 1).toNat < b.width := by omega
    have hcol : column = (((column - 1).toNat : Nat) : Int) + 1 := by omega
    rcases playMove_column_cases oob b (column - 1).toNat player hlen hk with
      ⟨hfull, hplay⟩ | ⟨r, hr, hE, -, hplay⟩
    · rw [← hcol] at hplay
      rw [hplay]
      constructor
      · intro _; exact Or.inr (Or.inr hfull)
      · intro _; exact ⟨rfl, rfl⟩
    · rw [← hcol] at hplay
      rw [hplay]
      constructor
      · rintro ⟨h, -⟩
        have h0 : (0 : Int) = -1 := h
        omega
      · rintro (h | h | h)
        · exact absurd (Or.inl h) hin
        · exact absurd (Or.inr h) hin
        · exact absurd hE (h r hr)

/-- C18, instance: column 9 of the 7x6 board `redThreatBoard`. -/
theorem playMove_error_iff_witness :
    redThreatBoard.WF ∧
    ((((redThreatBoard.playMove (fun _ => SlotStatus.Empty) 9 Player.Red).1 = -1 ∧
        (redThreatBoard.playMove (fun _ => SlotStatus.Empty) 9 Player.Red).2.board
          = redThreatBoard.board) ↔
      ((9 : Int) < 1 ∨ (redThreatBoard.width : Int) < 9 ∨
        ∀ r, r < redThreatBoard.height →
          redThreatBoard.cell (redThreatBoard.width * r + ((9 : Int) - 1).toNat)
            ≠ SlotStatus.Empty)) ∧
    ((9 : Int) < 1 ∨ (redThreatBoard.width : Int) < 9 →
      (redThreatBoard.playMove (fun _ => SlotStatus.Empty) 9 Player.Red).2 = redThreatBoard)) :=
  ⟨by decide, playMove_error_iff (fun _ => SlotStatus.Empty) redThreatBoard 9 Player.Red
    (by decide)⟩
/-! ### The search under a time limit -/

theorem isTimeLeft_limited (s : SequentialSolver) (seconds : Rat) (h : seconds ≠ -1) :
    (s.isTimeLeft seconds).2 = s.withTicks (s.ticks + 1) ∧
      ((s.isTimeLeft seconds).1 = false ↔ s.expiredAt seconds s.ticks) := by
  unfold isTimeLeft expiredAt
  rw [if_neg h]
  simp only []
  split
  · next h1 => exact ⟨rfl, ⟨fun _ => h1, fun _ => rfl⟩⟩
  · next h1 => exact ⟨rfl, ⟨fun h2 => by simp at h2, fun h2 => absurd h2 h1⟩⟩

/-- The first loop of `findBestMove` under a time limit other than `-1`: it returns, the
board is as before, at most one clock reading per cell is taken, `move` is unchanged or a
legal cell of the list, and either some reading taken was past the limit or every cell
was visited. -/
theorem findBestMoveLoop_general (fuel : Nat) (color : SlotStatus) (player : Player)
    (maxDepth : Int) (time_limit : Rat) (htl : time_limit ≠ -1)
    (hcolor : color ≠ SlotStatus.Empty) (s : SequentialSolver)
    (hlen : s._boardSeq.board.length = s._boardSeq.width * s._boardSeq.height)
    (hfuel : s._boardSeq.emptyCount ≤ fuel) :
    ∀ (l : List Nat), (∀ i ∈ l, i < s._boardSeq.width * s._boardSeq.height) →
      ∀ (n t : Nat) (v : SearchVars), ∃ v1 n1 t1,
        findBestMoveLoop fuel color player maxDepth time_limit l
            ((s.withNodes n).withTicks t) v
          = some (v1, (s.withNodes n1).withTicks t1) ∧
        t ≤ t1 ∧ t1 ≤ t + l.length ∧
        (v1.move = v.move ∨ ∃ j ∈ l, s._boardSeq.legalEmpty j = true ∧ v1.move = (j : Int)) ∧
        ((∃ k, t ≤ k ∧ k < t1 ∧ s.expiredAt time_limit k) ∨
          ((v.empty_slot_avl = true ∨ ∃ i ∈ l, s._boardSeq.legalEmpty i = true) →
            v1.empty_slot_avl = true)) := by
  intro l
  induction l with
  | nil =>
    intro _ n t v
    exact ⟨v, n, t, rfl, le_refl _, le_refl _, Or.inl rfl, Or.inr (fun h => by
      rcases h with h | ⟨i, hi, _⟩
      · exact h
      · exact absurd hi (List.not_mem_nil _))⟩
  | cons i l ih =>
    intro hl n t v
    have hl2 : ∀ j ∈ l, j < s._boardSeq.width * s._boardSeq.height :=
      fun j hj => hl j (List.mem_cons_of_mem _ hj)
    have hi : i < s._boardSeq.width * s._boardSeq.height := hl i (List.mem_cons_self _ _)
    obtain ⟨hst, hex⟩ := isTimeLeft_limited ((s.withNodes n).withTicks t) time_limit htl
    have hst2 : (((s.withNodes n).withTicks t).isTimeLeft time_limit).2
        = (s.withNodes n).withTicks (t + 1) := hst
    have hex2 : (((s.withNodes n).withTicks t).isTimeLeft time_limit).1 = false ↔
        s.expiredAt time_limit t := hex
    rw [findBestMoveLoop]
    by_cases ht : (((s.withNodes n).withTicks t).isTimeLeft time_limit).1 = false
    · rw [if_pos ht, hst2]
      refine ⟨v, n, t + 1, rfl, by omega, ?_, Or.inl rfl, Or.inl ⟨t, le_refl _, by omega,
        hex2.mp ht⟩⟩
      simp only [List.length_cons]; omega
    · rw [if_neg ht]
      simp only []
      rw [hst2]
      -- the remaining cells, from a state with the same board
      have hrest : ∀ (n2 : Nat) (v2 : SearchVars),
          (v2.move = v.move ∨ (s._boardSeq.legalEmpty i = true ∧ v2.move = (i : Int))) →
          ((v.empty_slot_avl = true ∨ s._boardSeq.legalEmpty i = true) →
            v2.empty_slot_avl = true) →
          ∃ v1 n1 t1,
            findBestMoveLoop fuel color player maxDepth time_limit l
                ((s.withNodes n2).withTicks (t + 1)) v2
              = some (v1, (s.withNodes n1).withTicks t1) ∧
            t ≤ t1 ∧ t1 ≤ t + (i :: l).length ∧
            (v1.move = v.move ∨
              ∃ j ∈ i :: l, s._boardSeq.legalEmpty j = true ∧ v1.move = (j : Int)) ∧
            ((∃ k, t ≤ k ∧ k < t1 ∧ s.expiredAt time_limit k) ∨
              ((v.empty_slot_avl = true ∨ ∃ i2 ∈ i :: l, s._boardSeq.legalEmpty i2 = true) →
                v1.empty_slot_avl = true)) := by
        intro n2 v2 hmv havl
        obtain ⟨v1, n1, t1, h1, h2, h3, h4, h5⟩ := ih hl2 n2 (t + 1) v2
        refine ⟨v1, n1, t1, h1, by omega, by simp only [List.length_cons]; omega, ?_, ?_⟩
        · rcases h4 with h4 | ⟨j, hj, hj1, hj2⟩
          · rcases hmv with hmv | ⟨hmv1, hmv2⟩
            · left; rw [h4, hmv]
            · right; exact ⟨i, List.mem_cons_self _ _, hmv1, by rw [h4, hmv2]⟩
          · right; exact ⟨j, List.mem_cons_of_mem _ hj, hj1, hj2⟩
        · rcases h5 with ⟨k, hk1, hk2, hk3⟩ | h5
          · left; exact ⟨k, by omega, hk2, hk3⟩
          · right
            intro h
            apply h5
            rcases h with h | ⟨i2, hi2, hi3⟩
            · left; exact havl (Or.inl h)
            · rcases List.mem_cons.mp hi2 with e | e
              · left; exact havl (Or.inr (by rw [← e]; exact hi3))
              · right; exact ⟨i2, e, hi3⟩
      have hcellst : ((s.withNodes n).withTicks (t + 1))._boardSeq = s._boardSeq := rfl
      rw [hcellst]
      by_cases hc : s._boardSeq.cell i = SlotStatus.Empty
      · rw [if_pos hc]
        by_cases hg : s._boardSeq.isLegalMove i = false
        · rw [if_pos hg]
          have hle : ¬ (s._boardSeq.legalEmpty i = true) := by
            unfold legalEmpty; simp [hc, hg]
          exact hrest n v (Or.inl rfl) (fun h => by
            rcases h with h | h
            · exact h
            · exact absurd h hle)
        · rw [if_neg hg]
          have hle : s._boardSeq.legalEmpty i = true := by
            unfold legalEmpty; simpa [hc] using hg
          obtain ⟨val, -, -, hrun, -⟩ := minimax_spec fuel
            (((s.withNodes n).withTicks (t + 1)).writeCell i color) maxDepth player false
            (by
              show (s._boardSeq.board.set i color).length = _
              rw [List.length_set]; exact hlen)
            (by
              have := emptyCount_writeCell s._boardSeq i color hc (by rw [hlen]; exact hi) hcolor
              have e : (((s.withNodes n).withTicks (t + 1)).writeCell i color)._boardSeq
                  = s._boardSeq.playMoveIndex i color := rfl
              rw [e]; omega)
          obtain ⟨n1, hn1⟩ := hrun n
          have e0 : ((((s.withNodes n).withTicks (t + 1)).writeCell i color).withNodes n)
              = ((s.withNodes n).withTicks (t + 1)).writeCell i color := rfl
          rw [e0] at hn1
          rw [hn1]
          simp only []
          have e4 : ((((((s.withNodes n).withTicks (t + 1)).writeCell i color).withNodes n1).writeCell
              i SlotStatus.Empty).countNode)
              = (s.withNodes ((n1 + 1) % 18446744073709551616)).withTicks (t + 1) := by
            have : ((((s.withNodes n).withTicks (t + 1)).writeCell i color).withNodes n1).writeCell
                i SlotStatus.Empty
                = (((s.writeCell i color).writeCell i SlotStatus.Empty).withNodes n1).withTicks
                    (t + 1) := rfl
            rw [this, writeCell_restore s i color hc]
            rfl
          rw [e4]
          split
          · exact hrest _ _ (Or.inr ⟨hle, rfl⟩) (fun _ => rfl)
          · exact hrest _ _ (Or.inl rfl) (fun _ => rfl)
      · rw [if_neg hc]
        have hle : ¬ (s._boardSeq.legalEmpty i = true) := by
          unfold legalEmpty; simp [hc]
        exact hrest n v (Or.inl rfl) (fun h => by
          rcases h with h | h
          · exact h
          · exact absurd h hle)

/-- What `findBestMove` does on a board that is not full under a time limit other than
`-1`: it returns with the board as before after at most `width*height` clock readings,
and the move is a legal cell, or it is `-1` or a legal cell and some reading taken was
past the limit. -/
theorem findBestMove_general (fuel : Nat) (s : SequentialSolver) (player : Player)
    (maxDepth : Int) (time_limit : Rat) (htl : time_limit ≠ -1)
    (hlen : s._boardSeq.board.length = s._boardSeq.width * s._boardSeq.height)
    (hfuel : s._boardSeq.emptyCount ≤ fuel) (hnf : s._boardSeq.IsFull = false)
    (n t : Nat) :
    ∃ (m : Int) (n1 t1 : Nat),
      findBestMove fuel ((s.withNodes n).withTicks t) player maxDepth time_limit
        = some (m, (s.withNodes n1).withTicks t1) ∧
      t ≤ t1 ∧ t1 ≤ t + s._boardSeq.width * s._boardSeq.height ∧
      (m = -1 ∨ ∃ j ∈ s._boardSeq.legalCells, m = (j : Int)) ∧
      ((∃ j ∈ s._boardSeq.legalCells, m = (j : Int)) ∨
        ∃ k, t ≤ k ∧ k < t1 ∧ s.expiredAt time_limit k) := by
  have hcolor : (if player = Player.Red then SlotStatus.Red else SlotStatus.Yellow)
      ≠ SlotStatus.Empty := by split <;> simp
  obtain ⟨i0, hi0, hl0⟩ := exists_legal_of_not_full _ hnf
  obtain ⟨v1, n1, t1, hloop, ht1, ht2, hmv, hcut⟩ := findBestMoveLoop_general fuel _ player
    maxDepth time_limit htl hcolor s hlen hfuel (cellsDescending s._boardSeq)
    (fun i hi => (mem_cellsDescending _ i).mp hi) n t
    { move := -1, bestScore := INT_MIN, empty_slot_avl := false }
  have hlenl : (cellsDescending s._boardSeq).length = s._boardSeq.width * s._boardSeq.height := by
    unfold cellsDescending; rw [List.length_reverse, List.length_range]
  rw [hlenl] at ht2
  have hfull2 : ¬ (((s.withNodes n).withTicks t)._boardSeq.IsFull = true) := by
    show ¬ (s._boardSeq.IsFull = true); simp [hnf]
  have hb : ((s.withNodes n).withTicks t)._boardSeq = s._boardSeq := rfl
  have hb1 : ((s.withNodes n1).withTicks t1)._boardSeq = s._boardSeq := rfl
  unfold findBestMove
  rw [if_neg hfull2]
  simp only []
  rw [hb, hloop]
  simp only []
  rw [hb1]
  have hmv2 : v1.move = -1 ∨ ∃ j ∈ s._boardSeq.legalCells, v1.move = (j : Int) := by
    rcases hmv with h | ⟨j, hj, hj1, hj2⟩
    · left; exact h
    · right
      exact ⟨j, (mem_legalCells _ j).mpr ⟨(mem_cellsDescending _ j).mp hj, hj1⟩, hj2⟩
  obtain ⟨m, hm1, hm2, hm3, -⟩ := firstLegalLoop_spec s._boardSeq
    (cellsDescending s._boardSeq) (cellsDescending_pairwise _)
    ⟨i0, (mem_cellsDescending _ i0).mpr hi0, hl0⟩ v1.move
  have hmleg : m ∈ s._boardSeq.legalCells :=
    (mem_legalCells _ m).mpr ⟨(mem_cellsDescending _ m).mp hm1, hm2⟩
  by_cases hsel : v1.move = -1 ∧ v1.empty_slot_avl = true
  · rw [if_pos hsel, hm3]
    exact ⟨m, n1, t1, rfl, ht1, ht2, Or.inr ⟨m, hmleg, rfl⟩, Or.inl ⟨m, hmleg, rfl⟩⟩
  · rw [if_neg hsel]
    refine ⟨v1.move, n1, t1, rfl, ht1, ht2, hmv2, ?_⟩
    rcases hcut with hcut | hcut
    · right; exact hcut
    · have havl := hcut (Or.inr ⟨i0, (mem_cellsDescending _ i0).mpr hi0, hl0⟩)
      rcases hmv2 with h | h
      · exact absurd ⟨h, havl⟩ hsel
      · left; exact h
/-- The move `findBestMove` returns under a time limit other than `-1`, on any board: the
solver keeps its board, and the move is `-1` or a legal cell. -/
theorem findBestMove_any (fuel : Nat) (s : SequentialSolver) (player : Player)
    (maxDepth : Int) (time_limit : Rat) (htl : time_limit ≠ -1)
    (hlen : s._boardSeq.board.length = s._boardSeq.width * s._boardSeq.height)
    (hfuel : s._boardSeq.emptyCount ≤ fuel) (n t : Nat) :
    ∃ (m : Int) (n1 t1 : Nat),
      findBestMove fuel ((s.withNodes n).withTicks t) player maxDepth time_limit
        = some (m, (s.withNodes n1).withTicks t1) ∧
      t ≤ t1 ∧ t1 ≤ t + s._boardSeq.width * s._boardSeq.height ∧
      (m = -1 ∨ ∃ j ∈ s._boardSeq.legalCells, m = (j : Int)) ∧
      (s._boardSeq.IsFull = false →
        (∃ j ∈ s._boardSeq.legalCells, m = (j : Int)) ∨
          ∃ k, t ≤ k ∧ k < t1 ∧ s.expiredAt time_limit k) := by
  by_cases hnf : s._boardSeq.IsFull = false
  · obtain ⟨m, n1, t1, h1, h2, h3, h4, h5⟩ := findBestMove_general fuel s player maxDepth
      time_limit htl hlen hfuel hnf n t
    exact ⟨m, n1, t1, h1, h2, h3, h4, fun _ => h5⟩
  · have hf : ((s.withNodes n).withTicks t)._boardSeq.IsFull = true := by
      show s._boardSeq.IsFull = true
      simpa using hnf
    refine ⟨-1, n, t, ?_, le_refl _, by omega, Or.inl rfl, fun h => absurd h hnf⟩
    unfold findBestMove
    rw [if_pos hf]

/-- The iterative-deepening loop of `solve` from a state over the board of `s`: when it
returns, the board is as before and `bestMove` is `-1` or a legal cell; with a clock whose
readings stay past the limit once one is, a legal `bestMove` stays legal; and it returns
when the readings are past the limit from some number on that the iteration bound
covers. -/
theorem deepenLoop_general (fuel : Nat) (s : SequentialSolver) (player : Player)
    (time_limit : Rat) (htl : time_limit ≠ -1)
    (hlen : s._boardSeq.board.length = s._boardSeq.width * s._boardSeq.height)
    (hfuel : s._boardSeq.emptyCount ≤ fuel) :
    ∀ (iters n t : Nat) (depth : Int) (v : DeepenVars),
      (v.bestMove = -1 ∨ ∃ j ∈ s._boardSeq.legalCells, v.bestMove = (j : Int)) →
      (∀ x, deepenLoop fuel player time_limit iters ((s.withNodes n).withTicks t) depth v
          = some x →
        ∃ n1 t1, x.2 = (s.withNodes n1).withTicks t1 ∧
          (x.1.bestMove = -1 ∨ ∃ j ∈ s._boardSeq.legalCells, x.1.bestMove = (j : Int)) ∧
          ((∀ k k2, k ≤ k2 → s.expiredAt time_limit k → s.expiredAt time_limit k2) →
            s._boardSeq.IsFull = false →
            (∃ j ∈ s._boardSeq.legalCells, v.bestMove = (j : Int)) →
            ∃ j ∈ s._boardSeq.legalCells, x.1.bestMove = (j : Int))) ∧
      (∀ N, (∀ k, N ≤ k → s.expiredAt time_limit k) → 0 < iters → N < t + iters →
        deepenLoop fuel player time_limit iters ((s.withNodes n).withTicks t) depth v
          ≠ none) := by
  intro iters
  induction iters with
  | zero =>
    intro n t depth v _
    refine ⟨fun x hx => ?_, fun N _ h0 _ => absurd h0 (lt_irrefl 0)⟩
    rw [deepenLoop] at hx
    exact absurd hx (by simp)
  | succ iters ih =>
    intro n t depth v hv
    obtain ⟨hst, hex⟩ := isTimeLeft_limited ((s.withNodes n).withTicks t) time_limit htl
    have hst2 : (((s.withNodes n).withTicks t).isTimeLeft time_limit).2
        = (s.withNodes n).withTicks (t + 1) := hst
    have hex2 : (((s.withNodes n).withTicks t).isTimeLeft time_limit).1 = false ↔
        s.expiredAt time_limit t := hex
    rw [deepenLoop]
    by_cases ht : (((s.withNodes n).withTicks t).isTimeLeft time_limit).1 = false
    · rw [if_pos ht, hst2]
      refine ⟨fun x hx => ?_, fun _ _ _ _ => by simp⟩
      have hx2 : x = (v, (s.withNodes n).withTicks (t + 1)) := by
        simp only [Option.some.injEq] at hx; exact hx.symm
      rw [hx2]
      exact ⟨n, t + 1, rfl, hv, fun _ _ h => h⟩
    · rw [if_neg ht, hst2]
      have hin : ¬ s.expiredAt time_limit t := fun h => ht (hex2.mpr h)
      obtain ⟨m, n1, t1, hF, ht1, -, hm, hcut⟩ := findBestMove_any fuel s player depth
        time_limit htl hlen hfuel n (t + 1)
      rw [hF]
      simp only []
      obtain ⟨hst3, hex3⟩ := isTimeLeft_limited ((s.withNodes n1).withTicks t1) time_limit htl
      have hst4 : (((s.withNodes n1).withTicks t1).isTimeLeft time_limit).2
          = (s.withNodes n1).withTicks (t1 + 1) := hst3
      have hex4 : (((s.withNodes n1).withTicks t1).isTimeLeft time_limit).1 = false ↔
          s.expiredAt time_limit t1 := hex3
      rw [hst4]
      by_cases hcm : (((s.withNodes n1).withTicks t1).isTimeLeft time_limit).1 = true
      · rw [if_pos hcm]
        have hin1 : ¬ s.expiredAt time_limit t1 := fun h => by
          have := hex4.mpr h
          rw [hcm] at this
          exact absurd this (by simp)
        have e : ((s.withNodes n1).withTicks (t1 + 1)).withNodes 0
            = (s.withNodes 0).withTicks (t1 + 1) := rfl
        have e2 : ((s.withNodes n1).withTicks (t1 + 1))._nodesTraversed = n1 := rfl
        rw [e, e2]
        obtain ⟨ih1, ih2⟩ := ih 0 (t1 + 1) (depth + 2) { bestMove := m, nodesTraversed := n1 } hm
        refine ⟨fun x hx => ?_, fun N hN _ hlt => ?_⟩
        · obtain ⟨n2, t2, h1, h2, h3⟩ := ih1 x hx
          refine ⟨n2, t2, h1, h2, fun hmono hnf _ => h3 hmono hnf ?_⟩
          rcases hcut hnf with h | ⟨k, hk1, hk2, hk3⟩
          · exact h
          · exact absurd (hmono k t1 (by omega) hk3) hin1
        · have htN : t < N := by
            by_contra hc
            exact hin (hN t (by omega))
          exact ih2 N hN (by omega) (by omega)
      · rw [if_neg hcm]
        obtain ⟨ih1, ih2⟩ := ih n1 (t1 + 1) (depth + 2) v hv
        refine ⟨fun x hx => ?_, fun N hN _ hlt => ?_⟩
        · obtain ⟨n2, t2, h1, h2, h3⟩ := ih1 x hx
          exact ⟨n2, t2, h1, h2, h3⟩
        · have htN : t < N := by
            by_contra hc
            exact hin (hN t (by omega))
          exact ih2 N hN (by omega) (by omega)

/-- With a clock that never reads past the limit the iterative-deepening loop does not
end, whatever the iteration bound. -/
theorem deepenLoop_stalled (fuel : Nat) (s : SequentialSolver) (player : Player)
    (time_limit : Rat) (htl : time_limit ≠ -1)
    (hlen : s._boardSeq.board.length = s._boardSeq.width * s._boardSeq.height)
    (hfuel : s._boardSeq.emptyCount ≤ fuel)
    (hstall : ∀ k, ¬ s.expiredAt time_limit k) :
    ∀ (iters n t : Nat) (depth : Int) (v : DeepenVars),
      deepenLoop fuel player time_limit iters ((s.withNodes n).withTicks t) depth v
        = none := by
  intro iters
  induction iters with
  | zero => intro n t depth v; rw [deepenLoop]
  | succ iters ih =>
    intro n t depth v
    obtain ⟨hst, hex⟩ := isTimeLeft_limited ((s.withNodes n).withTicks t) time_limit htl
    have hst2 : (((s.withNodes n).withTicks t).isTimeLeft time_limit).2
        = (s.withNodes n).withTicks (t + 1) := hst
    have hex2 : (((s.withNodes n).withTicks t).isTimeLeft time_limit).1 = false ↔
        s.expiredAt time_limit t := hex
    have ht : ¬ ((((s.withNodes n).withTicks t).isTimeLeft time_limit).1 = false) :=
      fun h => hstall t (hex2.mp h)
    rw [deepenLoop, if_neg ht, hst2]
    obtain ⟨m, n1, t1, hF, -, -, -, -⟩ := findBestMove_any fuel s player depth
      time_limit htl hlen hfuel n (t + 1)
    rw [hF]
    simp only []
    obtain ⟨hst3, hex3⟩ := isTimeLeft_limited ((s.withNodes n1).withTicks t1) time_limit htl
    have hst4 : (((s.withNodes n1).withTicks t1).isTimeLeft time_limit).2
        = (s.withNodes n1).withTicks (t1 + 1) := hst3
    rw [hst4]
    split
    · exact ih _ _ _ _
    · exact ih _ _ _ _
/-! ### The entry point `solve` -/

theorem solve_of_search (fuel iters : Nat) (s : SequentialSolver) (player : Player)
    (maxDepth : Int) (time_limit : Rat) (hnw : s._boardSeq.DetermineWinner = Player.None)
    (m : Int) (s1 : SequentialSolver)
    (h : solveSearch fuel iters s player maxDepth time_limit = some (m, s1)) :
    solve fuel iters s player maxDepth time_limit = solveFinish s1 player m := by
  unfold solve
  rw [if_neg (by simp [hnw]), h]

theorem solve_of_winner (fuel iters : Nat) (s : SequentialSolver) (player : Player)
    (maxDepth : Int) (time_limit : Rat) (hw : s._boardSeq.DetermineWinner ≠ Player.None) :
    solve fuel iters s player maxDepth time_limit = Outcome.returned (-1, s) := by
  unfold solve
  rw [if_pos hw]

theorem solveFinish_no_move (s1 : SequentialSolver) (player : Player) (m : Int)
    (h : m = -1 ∨ s1._boardSeq.IsFull = true) :
    ∃ s2, solveFinish s1 player m = Outcome.returned (-1, s2) ∧
      s2._boardSeq = s1._boardSeq := by
  unfold solveFinish
  by_cases hf : s1._boardSeq.IsFull = true
  · rw [if_pos hf]; exact ⟨s1, rfl, rfl⟩
  · rw [if_neg hf]
    rcases h with h | h
    · rw [h, if_neg (by decide)]
      split
      · exact ⟨s1, rfl, rfl⟩
      · exact ⟨_, rfl, rfl⟩
    · exact absurd h hf

theorem solveFinish_move (s1 : SequentialSolver) (player : Player) (j : Nat)
    (hp : player = Player.Red ∨ player = Player.Yellow)
    (hnf : s1._boardSeq.IsFull = false) :
    solveFinish s1 player (j : Int)
      = if (s1.writeCell j (if player = Player.Red then SlotStatus.Red
            else SlotStatus.Yellow))._boardSeq.DetermineWinner ≠ Player.None then
          Outcome.returned (-1, s1.writeCell j (if player = Player.Red then SlotStatus.Red
            else SlotStatus.Yellow))
        else
          Outcome.returned (((j : Int)) % (s1._boardSeq.width : Int),
            { s1.writeCell j (if player = Player.Red then SlotStatus.Red
                else SlotStatus.Yellow) with
              _totalNodesTraversed :=
                (s1._totalNodesTraversed + s1._nodesTraversed) % 18446744073709551616 }) := by
  have hc : SequentialSolver.getPlayerColor player
      = some (if player = Player.Red then SlotStatus.Red else SlotStatus.Yellow) := by
    rcases hp with h | h <;> rw [h] <;> rfl
  unfold solveFinish
  rw [if_neg (by simp [hnf]), if_pos (by omega), hc, Int.toNat_natCast]

/-- The search of `solve` without a time limit on an open board: one `findBestMove` call
that returns a legal cell and keeps the board. -/
theorem solveSearch_unlimited (fuel iters : Nat) (s : SequentialSolver) (player : Player)
    (maxDepth : Int)
    (hlen : s._boardSeq.board.length = s._boardSeq.width * s._boardSeq.height)
    (hfuel : s._boardSeq.emptyCount ≤ fuel) (hnf : s._boardSeq.IsFull = false) :
    ∃ (m : Nat) (n1 : Nat),
      solveSearch fuel iters s player maxDepth (-1) = some ((m : Int), s.withNodes n1) ∧
      findBestMove fuel (s.withNodes 0) player maxDepth (-1)
        = some ((m : Int), s.withNodes n1) ∧
      m ∈ s._boardSeq.legalCells := by
  obtain ⟨m, n1, h1, h2, -, -⟩ := findBestMove_spec fuel (s.withNodes 0) player maxDepth
    hlen hfuel hnf
  refine ⟨m, n1, ?_, h1, h2⟩
  unfold solveSearch
  rw [if_neg (by norm_num)]
  exact h1

/-- The search of `solve`, for every time limit: when it returns, the board and the
cumulative node total are as before and the move is `-1` or a legal cell. -/
theorem solveSearch_frame (fuel iters : Nat) (s : SequentialSolver) (player : Player)
    (maxDepth : Int) (time_limit : Rat)
    (hlen : s._boardSeq.board.length = s._boardSeq.width * s._boardSeq.height)
    (hfuel : s._boardSeq.emptyCount ≤ fuel) (m : Int) (s1 : SequentialSolver)
    (h : solveSearch fuel iters s player maxDepth time_limit = some (m, s1)) :
    s1._boardSeq = s._boardSeq ∧ s1._totalNodesTraversed = s._totalNodesTraversed ∧
      (m = -1 ∨ ∃ j ∈ s._boardSeq.legalCells, m = (j : Int)) := by
  unfold solveSearch at h
  by_cases hpos : time_limit > 0
  · rw [if_pos hpos] at h
    have htl : time_limit ≠ -1 := by
      intro e; rw [e] at hpos; norm_num at hpos
    have e0 : (s.withNodes 0).startTimer = (s.startTimer.withNodes 0).withTicks (s.ticks + 1) :=
      rfl
    rw [e0] at h
    obtain ⟨h1, -⟩ := deepenLoop_general fuel s.startTimer player time_limit htl hlen hfuel
      iters 0 (s.ticks + 1) 2 { bestMove := -1, nodesTraversed := 0 } (Or.inl rfl)
    cases hd : deepenLoop fuel player time_limit iters
        ((s.startTimer.withNodes 0).withTicks (s.ticks + 1)) 2
        { bestMove := -1, nodesTraversed := 0 } with
    | none => rw [hd] at h; exact absurd h (by simp)
    | some x =>
      rw [hd] at h
      obtain ⟨n1, t1, hx1, hx2, -⟩ := h1 x hd
      obtain ⟨v, sx⟩ := x
      simp only [Option.some.injEq, Prod.mk.injEq] at h
      obtain ⟨hm, hs1⟩ := h
      simp only [] at hx1 hx2
      rw [← hs1, ← hm, hx1]
      exact ⟨rfl, rfl, hx2⟩
  · rw [if_neg hpos] at h
    by_cases htl : time_limit = -1
    · rw [htl] at h
      by_cases hnf : s._boardSeq.IsFull = false
      · obtain ⟨m2, n1, -, h2, h3⟩ := solveSearch_unlimited fuel iters s player maxDepth
          hlen hfuel hnf
        rw [h2] at h
        simp only [Option.some.injEq, Prod.mk.injEq] at h
        obtain ⟨hm, hs1⟩ := h
        rw [← hs1, ← hm]
        exact ⟨rfl, rfl, Or.inr ⟨m2, h3, rfl⟩⟩
      · have hf : (s.withNodes 0)._boardSeq.IsFull = true := by
          show s._boardSeq.IsFull = true
          simpa using hnf
        unfold findBestMove at h
        rw [if_pos hf] at h
        simp only [Option.some.injEq, Prod.mk.injEq] at h
        obtain ⟨hm, hs1⟩ := h
        rw [← hs1, ← hm]
        exact ⟨rfl, rfl, Or.inl rfl⟩
    · obtain ⟨m2, n1, t1, hF, -, -, hm2, -⟩ := findBestMove_any fuel s player maxDepth
        time_limit htl hlen hfuel 0 s.ticks
      have e0 : (s.withNodes 0).withTicks s.ticks = s.withNodes 0 := rfl
      rw [e0] at hF
      rw [hF] at h
      simp only [Option.some.injEq, Prod.mk.injEq] at h
      obtain ⟨hm, hs1⟩ := h
      rw [← hs1, ← hm]
      exact ⟨rfl, rfl, hm2⟩

/-- The search of `solve` returns for every time limit that is not positive. -/
theorem solveSearch_returns (fuel iters : Nat) (s : SequentialSolver) (player : Player)
    (maxDepth : Int) (time_limit : Rat) (hle : time_limit ≤ 0)
    (hlen : s._boardSeq.board.length = s._boardSeq.width * s._boardSeq.height)
    (hfuel : s._boardSeq.emptyCount ≤ fuel) :
    ∃ m s1, solveSearch fuel iters s player maxDepth time_limit = some (m, s1) := by
  unfold solveSearch
  rw [if_neg (by simpa using hle)]
  by_cases htl : time_limit = -1
  · rw [htl]
    by_cases hnf : s._boardSeq.IsFull = false
    · obtain ⟨m2, n1, -, h2, -⟩ := solveSearch_unlimited fuel iters s player maxDepth
        hlen hfuel hnf
      exact ⟨_, _, h2⟩
    · have hf : (s.withNodes 0)._boardSeq.IsFull = true := by
        show s._boardSeq.IsFull = true
        simpa using hnf
      unfold findBestMove
      rw [if_pos hf]
      exact ⟨_, _, rfl⟩
  · obtain ⟨m2, n1, t1, hF, -⟩ := findBestMove_any fuel s player maxDepth
      time_limit htl hlen hfuel 0 s.ticks
    exact ⟨_, _, hF⟩

/-- The cells of a board after `playMove(index, color)` on a legal cell. -/
theorem cells_after_move (b : Board) (hlen : b.board.length = b.width * b.height)
    (m : Nat) (hm : m ∈ b.legalCells) (color : SlotStatus) :
    m < b.width * b.height ∧ b.cell m = SlotStatus.Empty ∧ b.isLegalMove m = true ∧
      (b.playMoveIndex m color).cell m = color ∧
      ∀ j, j ≠ m → (b.playMoveIndex m color).cell j = b.cell j := by
  rw [mem_legalCells] at hm
  obtain ⟨hm1, hm2⟩ := hm
  unfold legalEmpty at hm2
  simp only [Bool.and_eq_true, decide_eq_true_eq] at hm2
  refine ⟨hm1, hm2.1, hm2.2, ?_, ?_⟩
  · rw [cell_playMoveIndex, if_pos ⟨rfl, by rw [hlen]; exact hm1⟩]
  · intro j hj
    rw [cell_playMoveIndex, if_neg (fun h => hj h.1.symm)]

/-- C13: if `DetermineWinner()` is not `None` when `solve` is called, `solve` returns -1
and the solver, with every cell and the cumulative node total, is exactly as before, for
every player, `maxDepth` and time limit. -/
theorem solve_with_winner_returns_unchanged (fuel iters : Nat) (s : SequentialSolver)
    (player : Player) (maxDepth : Int) (time_limit : Rat)
    (hw : s._boardSeq.DetermineWinner ≠ Player.None) :
    solve fuel iters s player maxDepth time_limit = Outcome.returned (-1, s) ∧
    ∃ s1, solve fuel iters s player maxDepth time_limit = Outcome.returned (-1, s1) ∧
      s1._boardSeq.board = s._boardSeq.board ∧
      s1.getTotalNodesTraversed = s.getTotalNodesTraversed :=
  ⟨solve_of_winner fuel iters s player maxDepth time_limit hw,
    s, solve_of_winner fuel iters s player maxDepth time_limit hw, rfl, rfl⟩

/-- C13, instance: Yellow asks for a move on the board `redWonBoard`, which Red has won,
with a time limit of half a second. -/
theorem solve_with_winner_returns_unchanged_witness :
    (start redWonBoard (fun _ => 0))._boardSeq.DetermineWinner ≠ Player.None ∧
    (solve 0 0 (start redWonBoard (fun _ => 0)) Player.Yellow 4 (1 / 2)
        = Outcome.returned (-1, start redWonBoard (fun _ => 0)) ∧
      ∃ s1, solve 0 0 (start redWonBoard (fun _ => 0)) Player.Yellow 4 (1 / 2)
          = Outcome.returned (-1, s1) ∧
        s1._boardSeq.board = (start redWonBoard (fun _ => 0))._boardSeq.board ∧
        s1.getTotalNodesTraversed
          = (start redWonBoard (fun _ => 0)).getTotalNodesTraversed) :=
  ⟨by decide, solve_with_winner_returns_unchanged 0 0 (start redWonBoard (fun _ => 0))
    Player.Yellow 4 (1 / 2) (by decide)⟩

/-- C11: with no time limit (`time_limit = -1`), for every well-formed board that is not
full and has no winner and every player Red or Yellow, `solve` (given fuel for the
`Empty` cells) returns and changes exactly one cell: a cell `m` that was `Empty` and
passed `isLegalMove` before the call now holds the colour of the player, and every other
cell is unchanged. -/
theorem solve_fills_one_legal_cell (fuel iters : Nat) (s : SequentialSolver)
    (player : Player) (maxDepth : Int) (hwf : s._boardSeq.WF)
    (hnf : s._boardSeq.IsFull = false)
    (hnw : s._boardSeq.DetermineWinner = Player.None)
    (hp : player = Player.Red ∨ player = Player.Yellow)
    (hfuel : s._boardSeq.emptyCount ≤ fuel) :
    ∃ (c : Int) (s1 : SequentialSolver) (m : Nat),
      solve fuel iters s player maxDepth (-1) = Outcome.returned (c, s1) ∧
      m < s._boardSeq.width * s._boardSeq.height ∧
      s._boardSeq.cell m = SlotStatus.Empty ∧ s._boardSeq.isLegalMove m = true ∧
      s1._boardSeq.cell m
        = (if player = Player.Red then SlotStatus.Red else SlotStatus.Yellow) ∧
      (∀ j, j ≠ m → s1._boardSeq.cell j = s._boardSeq.cell j) := by
  obtain ⟨-, -, -, -, hlen, -, -⟩ := hwf
  obtain ⟨m, n1, h1, -, h3⟩ := solveSearch_unlimited fuel iters s player maxDepth hlen
    hfuel hnf
  obtain ⟨c1, c2, c3, c4, c5⟩ := cells_after_move s._boardSeq hlen m h3
    (if player = Player.Red then SlotStatus.Red else SlotStatus.Yellow)
  rw [solve_of_search fuel iters s player maxDepth (-1) hnw _ _ h1,
    solveFinish_move (s.withNodes n1) player m hp hnf]
  by_cases hw : ((s.withNodes n1).writeCell m (if player = Player.Red then SlotStatus.Red
      else SlotStatus.Yellow))._boardSeq.DetermineWinner ≠ Player.None
  · rw [if_pos hw]
    exact ⟨_, _, m, rfl, c1, c2, c3, c4, c5⟩
  · rw [if_neg hw]
    exact ⟨_, _, m, rfl, c1, c2, c3, c4, c5⟩

/-- C11, instance: Red moves on the empty 7x6 board, search depth 2. -/
theorem solve_fills_one_legal_cell_witness :
    freshSolver._boardSeq.WF ∧ freshSolver._boardSeq.IsFull = false ∧
    freshSolver._boardSeq.DetermineWinner = Player.None ∧
    freshSolver._boardSeq.emptyCount ≤ 42 ∧
    ∃ (c : Int) (s1 : SequentialSolver) (m : Nat),
      solve 42 0 freshSolver Player.Red 2 (-1) = Outcome.returned (c, s1) ∧
      m < freshSolver._boardSeq.width * freshSolver._boardSeq.height ∧
      freshSolver._boardSeq.cell m = SlotStatus.Empty ∧
      freshSolver._boardSeq.isLegalMove m = true ∧
      s1._boardSeq.cell m
        = (if Player.Red = Player.Red then SlotStatus.Red else SlotStatus.Yellow) ∧
      (∀ j, j ≠ m → s1._boardSeq.cell j = freshSolver._boardSeq.cell j) :=
  ⟨by decide, by decide, by decide, by decide,
    solve_fills_one_legal_cell 42 0 freshSolver Player.Red 2 (by decide) (by decide)
      (by decide) (Or.inl rfl) (by decide)⟩
/-! ### The search does not depend on the clock readings taken so far -/

theorem minimaxLoop_withTicks (child : SequentialSolver → Option (Int × SequentialSolver))
    (color : SlotStatus) (maximizer : Bool) (t : Nat)
    (hchild : ∀ s, child (s.withTicks t)
      = (child s).map (fun x => (x.1, x.2.withTicks t))) :
    ∀ (l : List Nat) (s : SequentialSolver) (bestScore : Int),
      minimaxLoop child color maximizer l (s.withTicks t) bestScore
        = (minimaxLoop child color maximizer l s bestScore).map
            (fun x => (x.1, x.2.withTicks t)) := by
  intro l
  induction l with
  | nil => intro s bestScore; rfl
  | cons i l ih =>
    intro s bestScore
    have hb : (s.withTicks t)._boardSeq = s._boardSeq := rfl
    rw [minimaxLoop, minimaxLoop, hb]
    by_cases hc : s._boardSeq.cell i = SlotStatus.Empty
    · rw [if_pos hc, if_pos hc]
      by_cases hg : s._boardSeq.isLegalMove i = true
      · rw [if_pos hg, if_pos hg]
        have e : (s.withTicks t).writeCell i color = (s.writeCell i color).withTicks t := rfl
        rw [e, hchild]
        cases hch : child (s.writeCell i color) with
        | none => rfl
        | some x =>
          obtain ⟨score, s1⟩ := x
          simp only [Option.map_some']
          have e2 : ((s1.withTicks t).writeCell i SlotStatus.Empty).countNode
              = ((s1.writeCell i SlotStatus.Empty).countNode).withTicks t := rfl
          rw [e2]
          exact ih _ _
      · rw [if_neg hg, if_neg hg]
        exact ih _ _
    · rw [if_neg hc, if_neg hc]
      exact ih _ _

/-- The run of `minimax` from a solver that differs only in the number of clock readings
taken: same score, same resulting solver up to that number. -/
theorem minimax_withTicks (t : Nat) :
    ∀ (fuel : Nat) (s : SequentialSolver) (depth : Int) (player : Player)
      (maximizer : Bool),
      minimax fuel (s.withTicks t) depth player maximizer
        = (minimax fuel s depth player maximizer).map (fun x => (x.1, x.2.withTicks t)) := by
  intro fuel
  induction fuel with
  | zero => intro s depth player maximizer; rfl
  | succ fuel ih =>
    intro s depth player maximizer
    have hb : (s.withTicks t)._boardSeq = s._boardSeq := rfl
    simp only [minimax, hb]
    by_cases h1 : s._boardSeq.EvaluateBoard player = INT_MAX ∨
        s._boardSeq.EvaluateBoard player = INT_MIN
    · rw [if_pos h1, if_pos h1]; rfl
    · rw [if_neg h1, if_neg h1]
      by_cases h2 : s._boardSeq.IsFull = true
      · rw [if_pos h2, if_pos h2]; rfl
      · rw [if_neg h2, if_neg h2]
        by_cases h3 : depth = 0
        · rw [if_pos h3, if_pos h3]; rfl
        · rw [if_neg h3, if_neg h3]
          cases maximizer
          · simp only [Bool.false_eq_true, if_false]
            exact minimaxLoop_withTicks
              (fun s1 => minimax fuel s1 (depth - 1) player (!false)) _ _ t
              (fun s1 => ih s1 _ _ _) _ _ _
          · simp only [if_true]
            exact minimaxLoop_withTicks
              (fun s1 => minimax fuel s1 (depth - 1) player (!true)) _ _ t
              (fun s1 => ih s1 _ _ _) _ _ _

/-- The first loop of `findBestMove` under a time limit other than `-1` when every clock
reading it takes is within the limit: the outcome of the loop without a time limit. -/
theorem findBestMoveLoop_uncut (fuel : Nat) (color : SlotStatus) (player : Player)
    (maxDepth : Int) (time_limit : Rat) (htl : time_limit ≠ -1) (s : SequentialSolver)
    (N : Nat)
    (hchild : ∀ i, i < N → s._boardSeq.legalEmpty i = true → ∀ n, ∃ n1,
      minimax fuel ((s.writeCell i color).withNodes n) maxDepth player false
        = some (childValue fuel s color maxDepth player false i,
            (s.writeCell i color).withNodes n1)) :
    ∀ (l : List Nat), (∀ i ∈ l, i < N) → ∀ (n t : Nat) (v : SearchVars),
      (∀ k, t ≤ k → k < t + l.length → ¬ s.expiredAt time_limit k) →
      ∃ n1,
        findBestMoveLoop fuel color player maxDepth time_limit l
            ((s.withNodes n).withTicks t) v
          = some (searchFold (legalEmpty s._boardSeq)
              (childValue fuel s color maxDepth player false) l v,
              (s.withNodes n1).withTicks (t + l.length)) := by
  intro l
  induction l with
  | nil => intro _ n t v _; exact ⟨n, rfl⟩
  | cons i l ih =>
    intro hl n t v hin
    have hl2 : ∀ j ∈ l, j < N := fun j hj => hl j (List.mem_cons_of_mem _ hj)
    have hi : i < N := hl i (List.mem_cons_self _ _)
    obtain ⟨hst, hex⟩ := isTimeLeft_limited ((s.withNodes n).withTicks t) time_limit htl
    have hst2 : (((s.withNodes n).withTicks t).isTimeLeft time_limit).2
        = (s.withNodes n).withTicks (t + 1) := hst
    have hex2 : (((s.withNodes n).withTicks t).isTimeLeft time_limit).1 = false ↔
        s.expiredAt time_limit t := hex
    have ht : ¬ ((((s.withNodes n).withTicks t).isTimeLeft time_limit).1 = false) :=
      fun h => hin t (le_refl _) (by simp only [List.length_cons]; omega) (hex2.mp h)
    have hin2 : ∀ k, t + 1 ≤ k → k < t + 1 + l.length → ¬ s.expiredAt time_limit k :=
      fun k h1 h2 => hin k (by omega) (by simp only [List.length_cons]; omega)
    have hlen2 : t + (i :: l).length = t + 1 + l.length := by
      simp only [List.length_cons]; omega
    rw [findBestMoveLoop, searchFold, if_neg ht, hlen2]
    simp only []
    rw [hst2]
    have hb : ((s.withNodes n).withTicks (t + 1))._boardSeq = s._boardSeq := rfl
    rw [hb]
    by_cases hc : s._boardSeq.cell i = SlotStatus.Empty
    · rw [if_pos hc]
      by_cases hg : s._boardSeq.isLegalMove i = false
      · have hle : ¬ (s._boardSeq.legalEmpty i = true) := by
          unfold legalEmpty; simp [hc, hg]
        rw [if_pos hg, if_neg hle]
        exact ih hl2 _ _ _ hin2
      · have hle : s._boardSeq.legalEmpty i = true := by
          unfold legalEmpty; simpa [hc] using hg
        obtain ⟨n1, hn1⟩ := hchild i hi hle n
        have e3 : minimax fuel (((s.withNodes n).withTicks (t + 1)).writeCell i color)
            maxDepth player false
            = some (childValue fuel s color maxDepth player false i,
                ((s.writeCell i color).withNodes n1).withTicks (t + 1)) := by
          have e : ((s.withNodes n).withTicks (t + 1)).writeCell i color
              = ((s.writeCell i color).withNodes n).withTicks (t + 1) := rfl
          rw [e, minimax_withTicks, hn1]
          rfl
        rw [if_neg hg, if_pos hle, e3]
        simp only []
        have e4 : ((((s.writeCell i color).withNodes n1).withTicks (t + 1)).writeCell i
            SlotStatus.Empty).countNode
            = (s.withNodes ((n1 + 1) % 18446744073709551616)).withTicks (t + 1) := by
          have : (((s.writeCell i color).withNodes n1).withTicks (t + 1)).writeCell i
              SlotStatus.Empty
              = (((s.writeCell i color).writeCell i SlotStatus.Empty).withNodes n1).withTicks
                  (t + 1) := rfl
          rw [this, writeCell_restore s i color hc]
          rfl
        rw [e4]
        by_cases hgt : childValue fuel s color maxDepth player false i > v.bestScore
        · rw [if_pos hgt, if_pos hgt]
          exact ih hl2 _ _ _ hin2
        · rw [if_neg hgt, if_neg hgt]
          exact ih hl2 _ _ _ hin2
    · have hle : ¬ (s._boardSeq.legalEmpty i = true) := by
        unfold legalEmpty; simp [hc]
      rw [if_neg hc, if_neg hle]
      exact ih hl2 _ _ _ hin2

/-- Under a time limit other than `-1` whose clock readings all lie within the limit,
`findBestMove` returns the move it returns without a time limit. -/
theorem findBestMove_uncut (fuel : Nat) (s : SequentialSolver) (player : Player)
    (maxDepth : Int) (time_limit : Rat) (htl : time_limit ≠ -1)
    (hlen : s._boardSeq.board.length = s._boardSeq.width * s._boardSeq.height)
    (hfuel : s._boardSeq.emptyCount ≤ fuel) (hnf : s._boardSeq.IsFull = false)
    (n t : Nat)
    (hin : ∀ k, t ≤ k → k < t + s._boardSeq.width * s._boardSeq.height →
      ¬ s.expiredAt time_limit k) :
    ∃ (m : Int) (n1 n2 : Nat),
      findBestMove fuel ((s.withNodes n).withTicks t) player maxDepth time_limit
        = some (m, (s.withNodes n1).withTicks (t + s._boardSeq.width * s._boardSeq.height)) ∧
      findBestMove fuel (s.withNodes n) player maxDepth (-1) = some (m, s.withNodes n2) := by
  have hcolor : (if player = Player.Red then SlotStatus.Red else SlotStatus.Yellow)
      ≠ SlotStatus.Empty := by split <;> simp
  generalize hcdef : (if player = Player.Red then SlotStatus.Red else SlotStatus.Yellow) = color
    at hcolor
  have hchild : ∀ i, i < s._boardSeq.width * s._boardSeq.height →
      s._boardSeq.legalEmpty i = true → ∀ n, ∃ n1,
      minimax fuel ((s.writeCell i color).withNodes n) maxDepth player false
        = some (childValue fuel s color maxDepth player false i,
            (s.writeCell i color).withNodes n1) := by
    intro i hi hle
    have hcell : s._boardSeq.cell i = SlotStatus.Empty := by
      unfold legalEmpty at hle
      simp only [Bool.and_eq_true, decide_eq_true_eq] at hle
      exact hle.1
    have := child_spec fuel s color maxDepth player false i
      (minimax_spec fuel (s.writeCell i color) maxDepth player false
        (by
          show (s._boardSeq.board.set i color).length = _
          rw [List.length_set]; exact hlen)
        (by
          have := emptyCount_writeCell s._boardSeq i color hcell (by rw [hlen]; exact hi) hcolor
          have e : (s.writeCell i color)._boardSeq = s._boardSeq.playMoveIndex i color := rfl
          rw [e]; omega))
    exact this.2.2.1
  have hlenl : (cellsDescending s._boardSeq).length = s._boardSeq.width * s._boardSeq.height := by
    unfold cellsDescending; rw [List.length_reverse, List.length_range]
  obtain ⟨n1, h1⟩ := findBestMoveLoop_uncut fuel color player maxDepth time_limit htl s
    (s._boardSeq.width * s._boardSeq.height) hchild (cellsDescending s._boardSeq)
    (fun i hi => (mem_cellsDescending _ i).mp hi) n t
    { move := -1, bestScore := INT_MIN, empty_slot_avl := false }
    (by rw [hlenl]; exact hin)
  obtain ⟨n2, h2⟩ := findBestMoveLoop_spec fuel color player maxDepth s
    (s._boardSeq.width * s._boardSeq.height) hchild (cellsDescending s._boardSeq)
    (fun i hi => (mem_cellsDescending _ i).mp hi) n
    { move := -1, bestScore := INT_MIN, empty_slot_avl := false }
  rw [hlenl] at h1
  have hfull2 : ¬ (s._boardSeq.IsFull = true) := by simp [hnf]
  have hb : ((s.withNodes n).withTicks t)._boardSeq = s._boardSeq := rfl
  have hb2 : (s.withNodes n)._boardSeq = s._boardSeq := rfl
  unfold findBestMove
  rw [hb, hb2, if_neg hfull2]
  simp only []
  rw [hcdef, h1, h2]
  simp only []
  have hb3 : ((s.withNodes n1).withTicks
      (t + s._boardSeq.width * s._boardSeq.height))._boardSeq = s._boardSeq := rfl
  have hb4 : (s.withNodes n2)._boardSeq = s._boardSeq := rfl
  rw [hb3, hb4]
  split
  · exact ⟨_, n1, n2, rfl, rfl⟩
  · exact ⟨_, n1, n2, rfl, rfl⟩
/-- What the last part of `solve` does with the move found by the search, for a solver
`sx` holding the board of `s`: it returns -1 with the board as before, or it writes the
colour of the player to a legal cell and returns its column, or -1 if that made a
winner; it does write when the board is not full and the move is a legal cell. -/
theorem solveFinish_spec (s sx : SequentialSolver) (player : Player) (m : Int)
    (hlen : s._boardSeq.board.length = s._boardSeq.width * s._boardSeq.height)
    (hp : player = Player.Red ∨ player = Player.Yellow)
    (hb : sx._boardSeq = s._boardSeq)
    (hm : m = -1 ∨ ∃ j ∈ s._boardSeq.legalCells, m = (j : Int)) :
    ∃ c s1, solveFinish sx player m = Outcome.returned (c, s1) ∧
      ((c = -1 ∧ s1._boardSeq = s._boardSeq) ∨
        ∃ m : Nat, m < s._boardSeq.width * s._boardSeq.height ∧
          s._boardSeq.cell m = SlotStatus.Empty ∧ s._boardSeq.isLegalMove m = true ∧
          s1._boardSeq = s._boardSeq.playMoveIndex m
            (if player = Player.Red then SlotStatus.Red else SlotStatus.Yellow) ∧
          ((s1._boardSeq.DetermineWinner = Player.None ∧
              c = (m : Int) % (s._boardSeq.width : Int)) ∨
            (s1._boardSeq.DetermineWinner ≠ Player.None ∧ c = -1))) ∧
      (s._boardSeq.IsFull = false → (∃ j ∈ s._boardSeq.legalCells, m = (j : Int)) →
        ∃ m : Nat, m < s._boardSeq.width * s._boardSeq.height ∧
          s._boardSeq.cell m = SlotStatus.Empty ∧ s._boardSeq.isLegalMove m = true ∧
          s1._boardSeq = s._boardSeq.playMoveIndex m
            (if player = Player.Red then SlotStatus.Red else SlotStatus.Yellow)) := by
  by_cases hnf : sx._boardSeq.IsFull = false
  · rcases hm with hm | ⟨j, hj, hm⟩
    · obtain ⟨s2, h1, h2⟩ := solveFinish_no_move sx player m (Or.inl hm)
      refine ⟨-1, s2, h1, Or.inl ⟨rfl, by rw [h2, hb]⟩, ?_⟩
      rintro - ⟨j, -, hj⟩
      rw [hm] at hj
      omega
    · obtain ⟨c1, c2, c3, -, -⟩ := cells_after_move s._boardSeq hlen j hj
        (if player = Player.Red then SlotStatus.Red else SlotStatus.Yellow)
      rw [hm, solveFinish_move sx player j hp hnf]
      by_cases hw : (sx.writeCell j (if player = Player.Red then SlotStatus.Red
          else SlotStatus.Yellow))._boardSeq.DetermineWinner ≠ Player.None
      · rw [if_pos hw]
        have e : (sx.writeCell j (if player = Player.Red then SlotStatus.Red
            else SlotStatus.Yellow))._boardSeq = s._boardSeq.playMoveIndex j
            (if player = Player.Red then SlotStatus.Red else SlotStatus.Yellow) := by
          show sx._boardSeq.playMoveIndex j _ = _
          rw [hb]
        exact ⟨_, _, rfl, Or.inr ⟨j, c1, c2, c3, e, Or.inr ⟨hw, rfl⟩⟩,
          fun _ _ => ⟨j, c1, c2, c3, e⟩⟩
      · rw [if_neg hw]
        have e : (sx.writeCell j (if player = Player.Red then SlotStatus.Red
            else SlotStatus.Yellow))._boardSeq = s._boardSeq.playMoveIndex j
            (if player = Player.Red then SlotStatus.Red else SlotStatus.Yellow) := by
          show sx._boardSeq.playMoveIndex j _ = _
          rw [hb]
        refine ⟨_, _, rfl, Or.inr ⟨j, c1, c2, c3, e, Or.inl ⟨?_, ?_⟩⟩,
          fun _ _ => ⟨j, c1, c2, c3, e⟩⟩
        · simpa using hw
        · rw [hb]
  · obtain ⟨s2, h1, h2⟩ := solveFinish_no_move sx player m
      (Or.inr (by simpa using hnf))
    refine ⟨-1, s2, h1, Or.inl ⟨rfl, by rw [h2, hb]⟩, ?_⟩
    intro h
    rw [hb] at hnf
    exact absurd h hnf

/-- The last part of `solve` gives the same return value and the same board from two
solvers that hold the same board. -/
theorem solveFinish_same (s1 s2 : SequentialSolver) (player : Player) (m : Int)
    (hp : player = Player.Red ∨ player = Player.Yellow)
    (hb : s1._boardSeq = s2._boardSeq) :
    ∃ c a b, solveFinish s1 player m = Outcome.returned (c, a) ∧
      solveFinish s2 player m = Outcome.returned (c, b) ∧ a._boardSeq = b._boardSeq := by
  have hc : SequentialSolver.getPlayerColor player
      = some (if player = Player.Red then SlotStatus.Red else SlotStatus.Yellow) := by
    rcases hp with h | h <;> rw [h] <;> rfl
  have hw : ∀ j color, (s1.writeCell j color)._boardSeq = (s2.writeCell j color)._boardSeq := by
    intro j color
    show s1._boardSeq.playMoveIndex j color = s2._boardSeq.playMoveIndex j color
    rw [hb]
  unfold solveFinish
  rw [hb, hc]
  simp only []
  rw [hw]
  by_cases h1 : s2._boardSeq.IsFull = true
  · rw [if_pos h1, if_pos h1]; exact ⟨_, _, _, rfl, rfl, hb⟩
  · rw [if_neg h1, if_neg h1]
    by_cases h2 : m > -1
    · rw [if_pos h2, if_pos h2]
      by_cases h3 : (s2.writeCell m.toNat (if player = Player.Red then SlotStatus.Red
          else SlotStatus.Yellow))._boardSeq.DetermineWinner ≠ Player.None
      · rw [if_pos h3, if_pos h3]; exact ⟨_, _, _, rfl, rfl, hw _ _⟩
      · rw [if_neg h3, if_neg h3]; exact ⟨_, _, _, rfl, rfl, rfl⟩
    · rw [if_neg h2, if_neg h2]
      by_cases h3 : s2._boardSeq.DetermineWinner ≠ Player.None
      · rw [if_pos h3, if_pos h3]; exact ⟨_, _, _, rfl, rfl, hb⟩
      · rw [if_neg h3, if_neg h3]; exact ⟨_, _, _, rfl, rfl, rfl⟩

/-- C12 (as the code has it): for every well-formed board, every player Red or Yellow
and every time limit, when `solve` returns, either it returns -1 and the board is as
before, or it has written the colour of the player to one legal `Empty` cell `m` and
returns the column `m % width` when the board then has no winner, and -1 when the piece
it placed made a winner.  With a time limit that is not positive it does return. -/
theorem solve_column_or_minus_one (fuel iters : Nat) (s : SequentialSolver)
    (player : Player) (maxDepth : Int) (time_limit : Rat) (hwf : s._boardSeq.WF)
    (hp : player = Player.Red ∨ player = Player.Yellow)
    (hfuel : s._boardSeq.emptyCount ≤ fuel) :
    (time_limit ≤ 0 →
      ∃ c s1, solve fuel iters s player maxDepth time_limit = Outcome.returned (c, s1)) ∧
    ∀ c s1, solve fuel iters s player maxDepth time_limit = Outcome.returned (c, s1) →
      (c = -1 ∧ s1._boardSeq = s._boardSeq) ∨
      ∃ m : Nat, m < s._boardSeq.width * s._boardSeq.height ∧
        s._boardSeq.cell m = SlotStatus.Empty ∧ s._boardSeq.isLegalMove m = true ∧
        s1._boardSeq = s._boardSeq.playMoveIndex m
          (if player = Player.Red then SlotStatus.Red else SlotStatus.Yellow) ∧
        ((s1._boardSeq.DetermineWinner = Player.None ∧
            c = (m : Int) % (s._boardSeq.width : Int)) ∨
          (s1._boardSeq.DetermineWinner ≠ Player.None ∧ c = -1)) := by
  obtain ⟨-, -, -, -, hlen, -, -⟩ := hwf
  constructor
  · intro hle
    by_cases hw : s._boardSeq.DetermineWinner ≠ Player.None
    · exact ⟨_, _, solve_of_winner fuel iters s player maxDepth time_limit hw⟩
    · have hnw : s._boardSeq.DetermineWinner = Player.None := by simpa using hw
      obtain ⟨m, sx, hs⟩ := solveSearch_returns fuel iters s player maxDepth time_limit hle
        hlen hfuel
      obtain ⟨hb, -, hm⟩ := solveSearch_frame fuel iters s player maxDepth time_limit hlen
        hfuel m sx hs
      obtain ⟨c, s1, h1, -⟩ := solveFinish_spec s sx player m hlen hp hb hm
      exact ⟨c, s1, by rw [solve_of_search fuel iters s player maxDepth time_limit hnw m sx hs,
        h1]⟩
  · intro c s1 hret
    by_cases hw : s._boardSeq.DetermineWinner ≠ Player.None
    · rw [solve_of_winner fuel iters s player maxDepth time_limit hw] at hret
      simp only [Outcome.returned.injEq, Prod.mk.injEq] at hret
      exact Or.inl ⟨hret.1.symm, by rw [← hret.2]⟩
    · have hnw : s._boardSeq.DetermineWinner = Player.None := by simpa using hw
      cases hs : solveSearch fuel iters s player maxDepth time_limit with
      | none =>
        unfold solve at hret
        rw [if_neg hw, hs] at hret
        exact absurd hret (by simp)
      | some x =>
        obtain ⟨m, sx⟩ := x
        obtain ⟨hb, -, hm⟩ := solveSearch_frame fuel iters s player maxDepth time_limit hlen
          hfuel m sx hs
        obtain ⟨c2, s2, h1, h2, -⟩ := solveFinish_spec s sx player m hlen hp hb hm
        rw [solve_of_search fuel iters s player maxDepth time_limit hnw m sx hs, h1] at hret
        simp only [Outcome.returned.injEq, Prod.mk.injEq] at hret
        rw [← hret.1, ← hret.2]
        exact h2

theorem solve_fresh_depth_zero :
    solve 42 0 freshSolver Player.Red 0 (-1) = Outcome.returned (6, freshSolved) := rfl

/-- C12, instance: Red moves on the empty 7x6 board at depth 0 without a time limit;
`solve` fills cell 41 and returns column 6. -/
theorem solve_column_or_minus_one_witness :
    freshSolver._boardSeq.WF ∧ freshSolver._boardSeq.emptyCount ≤ 42 ∧
    ((-1 : Rat) ≤ 0 ∧
      ∃ c s1, solve 42 0 freshSolver Player.Red 0 (-1) = Outcome.returned (c, s1)) ∧
    solve 42 0 freshSolver Player.Red 0 (-1) = Outcome.returned (6, freshSolved) ∧
    (((6 : Int) = -1 ∧ freshSolved._boardSeq = freshSolver._boardSeq) ∨
      ∃ m : Nat, m < freshSolver._boardSeq.width * freshSolver._boardSeq.height ∧
        freshSolver._boardSeq.cell m = SlotStatus.Empty ∧
        freshSolver._boardSeq.isLegalMove m = true ∧
        freshSolved._boardSeq = freshSolver._boardSeq.playMoveIndex m
          (if Player.Red = Player.Red then SlotStatus.Red else SlotStatus.Yellow) ∧
        ((freshSolved._boardSeq.DetermineWinner = Player.None ∧
            (6 : Int) = (m : Int) % (freshSolver._boardSeq.width : Int)) ∨
          (freshSolved._boardSeq.DetermineWinner ≠ Player.None ∧ (6 : Int) = -1))) :=
  ⟨by decide, by decide,
    ⟨by norm_num, (solve_column_or_minus_one 42 0 freshSolver Player.Red 0 (-1) (by decide)
      (Or.inl rfl) (by decide)).1 (by norm_num)⟩,
    solve_fresh_depth_zero,
    (solve_column_or_minus_one 42 0 freshSolver Player.Red 0 (-1) (by decide)
      (Or.inl rfl) (by decide)).2 6 freshSolved solve_fresh_depth_zero⟩

/-- C12, counterexample: on the board `redThreatBoard` Red moves at depth 0 without a time
limit; `solve` writes Red to cell 38, which was `Empty`, and returns -1: it placed a piece
and did not return its column, and it returned -1 with the board changed. -/
theorem solve_minus_one_after_winning_move :
    ∃ s1, solve 42 0 (start redThreatBoard (fun _ => 0)) Player.Red 0 (-1)
        = Outcome.returned (-1, s1) ∧
      (start redThreatBoard (fun _ => 0))._boardSeq.cell 38 = SlotStatus.Empty ∧
      s1._boardSeq.cell 38 = SlotStatus.Red :=
  ⟨_, rfl, by decide, by decide⟩

/-- C16, failing input: on the board `redThreatBoard` Red moves at depth 0 without a time
limit.  The `findBestMove` call of `solve` counts 7 nodes, `solve` places the winning
piece and returns -1, and `getTotalNodesTraversed()` is 0 after the call as it was
before. -/
theorem solve_total_skipped_after_winning_move :
    (∃ m s2, findBestMove 42 ((start redThreatBoard (fun _ => 0)).withNodes 0) Player.Red 0
        (-1) = some (m, s2) ∧ s2._nodesTraversed = 7) ∧
    (start redThreatBoard (fun _ => 0)).getTotalNodesTraversed = 0 ∧
    ∃ s1, solve 42 0 (start redThreatBoard (fun _ => 0)) Player.Red 0 (-1)
        = Outcome.returned (-1, s1) ∧
      s1._nodesTraversed = 7 ∧ s1.getTotalNodesTraversed = 0 :=
  ⟨⟨_, _, rfl, by decide⟩, rfl, _, rfl, by decide, by decide⟩
/-! ### Time limits other than `-1` -/

theorem findBestMove_expired_at_once (fuel : Nat) (s : SequentialSolver) (player : Player)
    (maxDepth : Int) (time_limit : Rat) (htl : time_limit ≠ -1)
    (hnf : s._boardSeq.IsFull = false) (hpos : 0 < s._boardSeq.width * s._boardSeq.height)
    (hexp : s.expiredAt time_limit s.ticks) :
    findBestMove fuel s player maxDepth time_limit = some (-1, s.withTicks (s.ticks + 1)) := by
  obtain ⟨hst, hex⟩ := isTimeLeft_limited s time_limit htl
  obtain ⟨i, rest, hl⟩ : ∃ i rest, cellsDescending s._boardSeq = i :: rest := by
    apply List.exists_cons_of_length_pos
    unfold cellsDescending
    rw [List.length_reverse, List.length_range]
    exact hpos
  unfold findBestMove
  rw [if_neg (by simp [hnf])]
  simp only []
  rw [hl, findBestMoveLoop, if_pos (hex.mpr hexp), hst]
  simp

/-- With a time limit that is neither positive nor `-1`, `solve` on an open board whose
first clock reading is past the limit places no piece and returns -1. -/
theorem solve_expired_at_once (fuel iters : Nat) (s : SequentialSolver) (player : Player)
    (maxDepth : Int) (time_limit : Rat) (hle : time_limit ≤ 0) (htl : time_limit ≠ -1)
    (hnw : s._boardSeq.DetermineWinner = Player.None)
    (hnf : s._boardSeq.IsFull = false) (hpos : 0 < s._boardSeq.width * s._boardSeq.height)
    (hexp : s.expiredAt time_limit s.ticks) :
    ∃ s1, solve fuel iters s player maxDepth time_limit = Outcome.returned (-1, s1) ∧
      s1._boardSeq = s._boardSeq := by
  have hs : solveSearch fuel iters s player maxDepth time_limit
      = some (-1, (s.withNodes 0).withTicks (s.ticks + 1)) := by
    unfold solveSearch
    rw [if_neg (by simpa using hle)]
    exact findBestMove_expired_at_once fuel (s.withNodes 0) player maxDepth time_limit htl
      hnf hpos hexp
  rw [solve_of_search fuel iters s player maxDepth time_limit hnw _ _ hs]
  obtain ⟨s2, h1, h2⟩ := solveFinish_no_move ((s.withNodes 0).withTicks (s.ticks + 1)) player
    (-1) (Or.inl rfl)
  exact ⟨s2, h1, h2⟩

/-- C14 (as the code has it): for every time limit that is not positive, `solve` makes a
single `findBestMove` call at `maxDepth`.  Only the value `-1` switches the clock off: for
another value the call polls the clock against the stored start time before each cell.
On a well-formed board that is not full and has no winner, if the limit is `-1` or none of
the `width*height` readings taken is past the limit, `solve` returns and places the same
piece as with `time_limit = -1`, with the same return value. -/
theorem solve_nonpositive_limit_same_piece (fuel iters : Nat) (s : SequentialSolver)
    (player : Player) (maxDepth : Int) (time_limit : Rat) (hwf : s._boardSeq.WF)
    (hnf : s._boardSeq.IsFull = false)
    (hnw : s._boardSeq.DetermineWinner = Player.None)
    (hp : player = Player.Red ∨ player = Player.Yellow)
    (hfuel : s._boardSeq.emptyCount ≤ fuel) (hle : time_limit ≤ 0)
    (hclock : time_limit = -1 ∨
      ∀ k, s.ticks ≤ k → k < s.ticks + s._boardSeq.width * s._boardSeq.height →
        ¬ (time_limit * 1000 < s.clock k - s._start)) :
    solveSearch fuel iters s player maxDepth time_limit
      = findBestMove fuel (s.withNodes 0) player maxDepth time_limit ∧
    ∃ (c : Int) (s1 s2 : SequentialSolver) (m : Nat),
      solve fuel iters s player maxDepth time_limit = Outcome.returned (c, s1) ∧
      solve fuel iters s player maxDepth (-1) = Outcome.returned (c, s2) ∧
      m < s._boardSeq.width * s._boardSeq.height ∧
      s._boardSeq.cell m = SlotStatus.Empty ∧
      s1._boardSeq = s._boardSeq.playMoveIndex m
        (if player = Player.Red then SlotStatus.Red else SlotStatus.Yellow) ∧
      s2._boardSeq = s1._boardSeq := by
  obtain ⟨-, -, -, -, hlen, -, -⟩ := hwf
  have hsearch : solveSearch fuel iters s player maxDepth time_limit
      = findBestMove fuel (s.withNodes 0) player maxDepth time_limit := by
    unfold solveSearch
    rw [if_neg (by simpa using hle)]
  refine ⟨hsearch, ?_⟩
  obtain ⟨m, n2, hs2, hf2, hm⟩ := solveSearch_unlimited fuel iters s player maxDepth hlen
    hfuel hnf
  -- the search under the limit returns the same move over the same board
  have hs1 : ∃ sx, solveSearch fuel iters s player maxDepth time_limit = some ((m : Int), sx) ∧
      sx._boardSeq = s._boardSeq := by
    by_cases htl : time_limit = -1
    · rw [htl]; exact ⟨_, hs2, rfl⟩
    · have hin : ∀ k, s.ticks ≤ k → k < s.ticks + s._boardSeq.width * s._boardSeq.height →
          ¬ s.expiredAt time_limit k := by
        rcases hclock with h | h
        · exact absurd h htl
        · exact h
      obtain ⟨m1, n1, n3, h1, h3⟩ := findBestMove_uncut fuel s player maxDepth time_limit htl
        hlen hfuel hnf 0 s.ticks hin
      have e0 : (s.withNodes 0).withTicks s.ticks = s.withNodes 0 := rfl
      rw [e0] at h1
      rw [hf2] at h3
      simp only [Option.some.injEq, Prod.mk.injEq] at h3
      rw [hsearch, h1, ← h3.1]
      exact ⟨_, rfl, rfl⟩
  obtain ⟨sx, hsx, hbx⟩ := hs1
  obtain ⟨c, a, b, ha, hb, hab⟩ := solveFinish_same sx (s.withNodes n2) player (m : Int) hp hbx
  obtain ⟨c2, a2, ha2, -, hplaced⟩ := solveFinish_spec s sx player (m : Int) hlen hp hbx
    (Or.inr ⟨m, hm, rfl⟩)
  rw [ha] at ha2
  simp only [Outcome.returned.injEq, Prod.mk.injEq] at ha2
  obtain ⟨j, hj1, hj2, -, hj4⟩ := hplaced hnf ⟨m, hm, rfl⟩
  rw [← ha2.2] at hj4
  refine ⟨c, a, b, j, ?_, ?_, hj1, hj2, hj4, hab.symm⟩
  · rw [solve_of_search fuel iters s player maxDepth time_limit hnw _ _ hsx, ha]
  · rw [solve_of_search fuel iters s player maxDepth (-1) hnw _ _ hs2, hb]

/-- C14, instance: time limit 0 on the empty 7x6 board with a clock that stands at the
stored start time, search depth 2. -/
theorem solve_nonpositive_limit_same_piece_witness :
    freshSolver._boardSeq.WF ∧ freshSolver._boardSeq.IsFull = false ∧
    freshSolver._boardSeq.DetermineWinner = Player.None ∧
    freshSolver._boardSeq.emptyCount ≤ 42 ∧ (0 : Rat) ≤ 0 ∧
    ((0 : Rat) = -1 ∨
      ∀ k, freshSolver.ticks ≤ k →
        k < freshSolver.ticks + freshSolver._boardSeq.width * freshSolver._boardSeq.height →
        ¬ ((0 : Rat) * 1000 < freshSolver.clock k - freshSolver._start)) ∧
    (solveSearch 42 0 freshSolver Player.Red 2 0
      = findBestMove 42 (freshSolver.withNodes 0) Player.Red 2 0 ∧
    ∃ (c : Int) (s1 s2 : SequentialSolver) (m : Nat),
      solve 42 0 freshSolver Player.Red 2 0 = Outcome.returned (c, s1) ∧
      solve 42 0 freshSolver Player.Red 2 (-1) = Outcome.returned (c, s2) ∧
      m < freshSolver._boardSeq.width * freshSolver._boardSeq.height ∧
      freshSolver._boardSeq.cell m = SlotStatus.Empty ∧
      s1._boardSeq = freshSolver._boardSeq.playMoveIndex m
        (if Player.Red = Player.Red then SlotStatus.Red else SlotStatus.Yellow) ∧
      s2._boardSeq = s1._boardSeq) :=
  ⟨by decide, by decide, by decide, by decide, le_refl _,
    Or.inr (fun k _ _ => by simp [freshSolver, start]),
    solve_nonpositive_limit_same_piece 42 0 freshSolver Player.Red 2 0 (by decide)
      (by decide) (by decide) (Or.inl rfl) (by decide) (le_refl _)
      (Or.inr (fun k _ _ => by simp [freshSolver, start]))⟩

/-- C14, counterexample: on the empty 7x6 board with time limit -2, Red to move at depth
0, the first clock poll of `findBestMove` is past the limit; `solve` returns -1 and
leaves the board as it was, whereas with time limit -1 it fills cell 41 and returns
column 6. -/
theorem solve_negative_limit_places_nothing :
    freshSolver._boardSeq.IsFull = false ∧
    freshSolver._boardSeq.DetermineWinner = Player.None ∧ (-2 : Rat) ≤ 0 ∧
    (∃ s1, solve 42 0 freshSolver Player.Red 0 (-2) = Outcome.returned (-1, s1) ∧
      s1._boardSeq = freshSolver._boardSeq) ∧
    solve 42 0 freshSolver Player.Red 0 (-1) = Outcome.returned (6, freshSolved) ∧
    freshSolved._boardSeq.cell 41 = SlotStatus.Red ∧
    freshSolver._boardSeq.cell 41 = SlotStatus.Empty :=
  ⟨by decide, by decide, by norm_num,
    solve_expired_at_once 42 0 freshSolver Player.Red 0 (-2) (by norm_num) (by norm_num)
      (by decide) (by decide) (by decide)
      (by unfold expiredAt; norm_num [freshSolver, start]),
    solve_fresh_depth_zero, by decide, by decide⟩
/-! ### Iterative deepening under a positive time limit -/

/-- The first iteration of the deepening loop when every clock reading up to its commit
check is within the limit: the search is not cut, its move is a legal cell and the loop
goes on with that move stored. -/
theorem deepenLoop_first_commit (fuel : Nat) (s : SequentialSolver) (player : Player)
    (time_limit : Rat) (htl : time_limit ≠ -1)
    (hlen : s._boardSeq.board.length = s._boardSeq.width * s._boardSeq.height)
    (hfuel : s._boardSeq.emptyCount ≤ fuel) (hnf : s._boardSeq.IsFull = false)
    (iters n t : Nat) (depth : Int) (v : DeepenVars)
    (hin : ∀ k, t ≤ k → k ≤ t + 1 + s._boardSeq.width * s._boardSeq.height →
      ¬ s.expiredAt time_limit k) :
    ∃ j ∈ s._boardSeq.legalCells, ∃ n1 t1,
      deepenLoop fuel player time_limit (iters + 1) ((s.withNodes n).withTicks t) depth v
        = deepenLoop fuel player time_limit iters ((s.withNodes 0).withTicks (t1 + 1))
            (depth + 2) { bestMove := (j : Int), nodesTraversed := n1 } := by
  obtain ⟨hst, hex⟩ := isTimeLeft_limited ((s.withNodes n).withTicks t) time_limit htl
  have hst2 : (((s.withNodes n).withTicks t).isTimeLeft time_limit).2
      = (s.withNodes n).withTicks (t + 1) := hst
  have hex2 : (((s.withNodes n).withTicks t).isTimeLeft time_limit).1 = false ↔
      s.expiredAt time_limit t := hex
  have ht : ¬ ((((s.withNodes n).withTicks t).isTimeLeft time_limit).1 = false) :=
    fun h => hin t (le_refl _) (by omega) (hex2.mp h)
  obtain ⟨m, n1, t1, hF, ht1, ht2, -, hcut⟩ := findBestMove_any fuel s player depth
    time_limit htl hlen hfuel n (t + 1)
  obtain ⟨hst3, hex3⟩ := isTimeLeft_limited ((s.withNodes n1).withTicks t1) time_limit htl
  have hst4 : (((s.withNodes n1).withTicks t1).isTimeLeft time_limit).2
      = (s.withNodes n1).withTicks (t1 + 1) := hst3
  have hex4 : (((s.withNodes n1).withTicks t1).isTimeLeft time_limit).1 = false ↔
      s.expiredAt time_limit t1 := hex3
  have hcm : (((s.withNodes n1).withTicks t1).isTimeLeft time_limit).1 = true := by
    cases hv : (((s.withNodes n1).withTicks t1).isTimeLeft time_limit).1 with
    | true => rfl
    | false => exact absurd (hex4.mp hv) (hin t1 (by omega) (by omega))
  rcases hcut hnf with ⟨j, hj, hmj⟩ | ⟨k, hk1, hk2, hk3⟩
  · refine ⟨j, hj, n1, t1, ?_⟩
    rw [deepenLoop, if_neg ht, hst2, hF]
    simp only []
    rw [if_pos hcm, hst4, hmj]
    rfl
  · exact absurd hk3 (hin k (by omega) (by omega))

/-- C15 (as the code has it): for every positive time limit and every non-decreasing
clock, on a well-formed board that is not full and has no winner, if some clock reading
`N` is past the limit (measured from the reading that starts the timer) and the iteration
bound covers it, `solve` returns; it leaves the board as it was and returns -1, or it has
placed one piece on a legal `Empty` cell; and it has placed a piece whenever the reading
taken by the commit check of the depth-2 iteration, number `ticks + 2 + width*height`, is
still within the limit. -/
theorem solve_deepening_returns (fuel iters : Nat) (s : SequentialSolver)
    (player : Player) (maxDepth : Int) (time_limit : Rat) (hwf : s._boardSeq.WF)
    (hnf : s._boardSeq.IsFull = false)
    (hnw : s._boardSeq.DetermineWinner = Player.None)
    (hp : player = Player.Red ∨ player = Player.Yellow)
    (hfuel : s._boardSeq.emptyCount ≤ fuel) (hpos : 0 < time_limit)
    (hmono : ∀ a b, a ≤ b → s.clock a ≤ s.clock b)
    (N : Nat) (hN : time_limit * 1000 < s.clock N - s.clock s.ticks) (hiters : N < iters) :
    ∃ (c : Int) (s1 : SequentialSolver),
      solve fuel iters s player maxDepth time_limit = Outcome.returned (c, s1) ∧
      ((c = -1 ∧ s1._boardSeq = s._boardSeq) ∨
        ∃ m : Nat, m < s._boardSeq.width * s._boardSeq.height ∧
          s._boardSeq.cell m = SlotStatus.Empty ∧ s._boardSeq.isLegalMove m = true ∧
          s1._boardSeq = s._boardSeq.playMoveIndex m
            (if player = Player.Red then SlotStatus.Red else SlotStatus.Yellow)) ∧
      (¬ (time_limit * 1000
            < s.clock (s.ticks + 2 + s._boardSeq.width * s._boardSeq.height)
              - s.clock s.ticks) →
        ∃ m : Nat, m < s._boardSeq.width * s._boardSeq.height ∧
          s._boardSeq.cell m = SlotStatus.Empty ∧ s._boardSeq.isLegalMove m = true ∧
          s1._boardSeq = s._boardSeq.playMoveIndex m
            (if player = Player.Red then SlotStatus.Red else SlotStatus.Yellow)) := by
  obtain ⟨-, -, -, -, hlen, -, -⟩ := hwf
  have htl : time_limit ≠ -1 := by
    intro e; rw [e] at hpos; norm_num at hpos
  have hexpdef : ∀ k, s.startTimer.expiredAt time_limit k ↔
      time_limit * 1000 < s.clock k - s.clock s.ticks := fun k => Iff.rfl
  have hmonoE : ∀ k k2, k ≤ k2 → s.startTimer.expiredAt time_limit k →
      s.startTimer.expiredAt time_limit k2 := by
    intro k k2 hk h
    rw [hexpdef] at h ⊢
    have := hmono k k2 hk
    linarith
  have hexpN : ∀ k, N ≤ k → s.startTimer.expiredAt time_limit k :=
    fun k hk => hmonoE N k hk ((hexpdef N).mpr hN)
  obtain ⟨it, hit⟩ : ∃ it, iters = it + 1 := ⟨iters - 1, by omega⟩
  have e0 : (s.withNodes 0).startTimer = (s.startTimer.withNodes 0).withTicks (s.ticks + 1) :=
    rfl
  obtain ⟨h1, h2⟩ := deepenLoop_general fuel s.startTimer player time_limit htl hlen hfuel
    iters 0 (s.ticks + 1) 2 { bestMove := -1, nodesTraversed := 0 } (Or.inl rfl)
  have hsome := h2 N hexpN (by omega) (by omega)
  cases hd : deepenLoop fuel player time_limit iters
      ((s.startTimer.withNodes 0).withTicks (s.ticks + 1)) 2
      { bestMove := -1, nodesTraversed := 0 } with
  | none => exact absurd hd hsome
  | some x =>
    obtain ⟨n1, t1, hx1, hx2, -⟩ := h1 x hd
    obtain ⟨v, sx⟩ := x
    simp only [] at hx1 hx2
    have hs : solveSearch fuel iters s player maxDepth time_limit
        = some (v.bestMove, sx.withNodes v.nodesTraversed) := by
      unfold solveSearch
      rw [if_pos hpos, e0, hd]
    have hbx : (sx.withNodes v.nodesTraversed)._boardSeq = s._boardSeq := by
      rw [hx1]; rfl
    obtain ⟨c, s1, hf1, hf2, hf3⟩ := solveFinish_spec s (sx.withNodes v.nodesTraversed) player
      v.bestMove hlen hp hbx hx2
    refine ⟨c, s1, ?_, ?_, ?_⟩
    · rw [solve_of_search fuel iters s player maxDepth time_limit hnw _ _ hs, hf1]
    · rcases hf2 with h | ⟨m, hm1, hm2, hm3, hm4, -⟩
      · exact Or.inl h
      · exact Or.inr ⟨m, hm1, hm2, hm3, hm4⟩
    · intro hcommit
      apply hf3 hnf
      have hin : ∀ k, s.ticks + 1 ≤ k →
          k ≤ s.ticks + 1 + 1 + s._boardSeq.width * s._boardSeq.height →
          ¬ s.startTimer.expiredAt time_limit k := by
        intro k _ hk2 hk3
        apply hcommit
        exact (hexpdef _).mp (hmonoE k _ (by omega) hk3)
      obtain ⟨j, hj, n2, t2, hstep⟩ := deepenLoop_first_commit fuel s.startTimer player
        time_limit htl hlen hfuel hnf it 0 (s.ticks + 1) 2
        { bestMove := -1, nodesTraversed := 0 } hin
      rw [hit] at hd
      rw [hstep] at hd
      obtain ⟨h3, -⟩ := deepenLoop_general fuel s.startTimer player time_limit htl hlen hfuel
        it 0 (t2 + 1) (2 + 2) { bestMove := (j : Int), nodesTraversed := n2 }
        (Or.inr ⟨j, hj, rfl⟩)
      obtain ⟨n3, t3, -, -, hgood⟩ := h3 _ hd
      exact hgood hmonoE hnf ⟨j, hj, rfl⟩

theorem slowSolver_clock_mono : ∀ a b : Nat, a ≤ b → slowSolver.clock a ≤ slowSolver.clock b := by
  intro a b h
  show (a : Rat) / 100000 ≤ (b : Rat) / 100000
  have : (a : Rat) ≤ (b : Rat) := by exact_mod_cast h
  linarith

/-- C15, instance: time limit 0.001 s on the empty 7x6 board with a clock that advances
by 0.00001 ms per reading; reading number 200000 is past the limit. -/
theorem solve_deepening_returns_witness :
    slowSolver._boardSeq.WF ∧ slowSolver._boardSeq.IsFull = false ∧
    slowSolver._boardSeq.DetermineWinner = Player.None ∧
    slowSolver._boardSeq.emptyCount ≤ 42 ∧ (0 : Rat) < 1 / 1000 ∧
    (∀ a b : Nat, a ≤ b → slowSolver.clock a ≤ slowSolver.clock b) ∧
    ((1 / 1000 : Rat) * 1000 < slowSolver.clock 200000 - slowSolver.clock slowSolver.ticks) ∧
    200000 < 200001 ∧
    ∃ (c : Int) (s1 : SequentialSolver),
      solve 42 200001 slowSolver Player.Red 2 (1 / 1000) = Outcome.returned (c, s1) ∧
      ((c = -1 ∧ s1._boardSeq = slowSolver._boardSeq) ∨
        ∃ m : Nat, m < slowSolver._boardSeq.width * slowSolver._boardSeq.height ∧
          slowSolver._boardSeq.cell m = SlotStatus.Empty ∧
          slowSolver._boardSeq.isLegalMove m = true ∧
          s1._boardSeq = slowSolver._boardSeq.playMoveIndex m
            (if Player.Red = Player.Red then SlotStatus.Red else SlotStatus.Yellow)) ∧
      (¬ ((1 / 1000 : Rat) * 1000
            < slowSolver.clock
                (slowSolver.ticks + 2 + slowSolver._boardSeq.width * slowSolver._boardSeq.height)
              - slowSolver.clock slowSolver.ticks) →
        ∃ m : Nat, m < slowSolver._boardSeq.width * slowSolver._boardSeq.height ∧
          slowSolver._boardSeq.cell m = SlotStatus.Empty ∧
          slowSolver._boardSeq.isLegalMove m = true ∧
          s1._boardSeq = slowSolver._boardSeq.playMoveIndex m
            (if Player.Red = Player.Red then SlotStatus.Red else SlotStatus.Yellow)) :=
  ⟨by decide, by decide, by decide, by decide, by norm_num, slowSolver_clock_mono,
    by simp only [slowSolver, start]; norm_num, by decide,
    solve_deepening_returns 42 200001 slowSolver Player.Red 2 (1 / 1000) (by decide)
      (by decide) (by decide) (Or.inl rfl) (by decide) (by norm_num) slowSolver_clock_mono
      200000 (by simp only [slowSolver, start]; norm_num) (by decide)⟩

/-- Under a positive time limit, when the reading that opens the first iteration is
within the limit and the next three are past it, `solve` on an open board places no
piece and returns -1. -/
theorem solve_cut_before_first_commit (fuel it : Nat) (s : SequentialSolver)
    (player : Player) (maxDepth : Int) (time_limit : Rat) (hpos : 0 < time_limit)
    (hnw : s._boardSeq.DetermineWinner = Player.None)
    (hnf : s._boardSeq.IsFull = false) (hcells : 0 < s._boardSeq.width * s._boardSeq.height)
    (h1 : ¬ s.startTimer.expiredAt time_limit (s.ticks + 1))
    (h2 : s.startTimer.expiredAt time_limit (s.ticks + 2))
    (h3 : s.startTimer.expiredAt time_limit (s.ticks + 3))
    (h4 : s.startTimer.expiredAt time_limit (s.ticks + 4)) :
    ∃ s1, solve fuel (it + 2) s player maxDepth time_limit = Outcome.returned (-1, s1) ∧
      s1._boardSeq = s._boardSeq := by
  have htl : time_limit ≠ -1 := by
    intro e; rw [e] at hpos; norm_num at hpos
  have poll : ∀ n t, (((s.startTimer.withNodes n).withTicks t).isTimeLeft time_limit).2
        = (s.startTimer.withNodes n).withTicks (t + 1) ∧
      ((((s.startTimer.withNodes n).withTicks t).isTimeLeft time_limit).1 = false ↔
        s.startTimer.expiredAt time_limit t) := fun n t =>
    isTimeLeft_limited ((s.startTimer.withNodes n).withTicks t) time_limit htl
  have e0 : (s.withNodes 0).startTimer = (s.startTimer.withNodes 0).withTicks (s.ticks + 1) :=
    rfl
  have hF : findBestMove fuel ((s.startTimer.withNodes 0).withTicks (s.ticks + 1 + 1)) player 2
      time_limit = some (-1, (s.startTimer.withNodes 0).withTicks (s.ticks + 1 + 1 + 1)) :=
    findBestMove_expired_at_once fuel _ player 2 time_limit htl hnf hcells h2
  have hc3 : ¬ ((((s.startTimer.withNodes 0).withTicks (s.ticks + 1 + 1 + 1)).isTimeLeft
      time_limit).1 = true) := by
    rw [(poll 0 (s.ticks + 1 + 1 + 1)).2.mpr h3]; simp
  have hs : solveSearch fuel (it + 2) s player maxDepth time_limit
      = some (-1, ((s.startTimer.withNodes 0).withTicks (s.ticks + 1 + 1 + 1 + 1 + 1)).withNodes
          0) := by
    unfold solveSearch
    rw [if_pos hpos, e0, deepenLoop, if_neg (fun h => h1 ((poll 0 (s.ticks + 1)).2.mp h)),
      (poll 0 (s.ticks + 1)).1, hF]
    simp only []
    rw [if_neg hc3, (poll 0 (s.ticks + 1 + 1 + 1)).1, deepenLoop,
      if_pos ((poll 0 (s.ticks + 1 + 1 + 1 + 1)).2.mpr h4), (poll 0 (s.ticks + 1 + 1 + 1 + 1)).1]
  rw [solve_of_search fuel (it + 2) s player maxDepth time_limit hnw _ _ hs]
  obtain ⟨s2, h5, h6⟩ := solveFinish_no_move
    (((s.startTimer.withNodes 0).withTicks (s.ticks + 1 + 1 + 1 + 1 + 1)).withNodes 0) player
    (-1) (Or.inl rfl)
  exact ⟨s2, h5, h6⟩

/-- Under a positive time limit, with a clock that never reads past the limit, `solve`
on an open board does not return, whatever the iteration bound. -/
theorem solve_stalled (fuel iters : Nat) (s : SequentialSolver) (player : Player)
    (maxDepth : Int) (time_limit : Rat) (hpos : 0 < time_limit)
    (hlen : s._boardSeq.board.length = s._boardSeq.width * s._boardSeq.height)
    (hfuel : s._boardSeq.emptyCount ≤ fuel)
    (hnw : s._boardSeq.DetermineWinner = Player.None)
    (hstall : ∀ k, ¬ s.startTimer.expiredAt time_limit k) :
    solve fuel iters s player maxDepth time_limit = Outcome.outOfFuel := by
  have htl : time_limit ≠ -1 := by
    intro e; rw [e] at hpos; norm_num at hpos
  have e0 : (s.withNodes 0).startTimer = (s.startTimer.withNodes 0).withTicks (s.ticks + 1) :=
    rfl
  have hs : solveSearch fuel iters s player maxDepth time_limit = none := by
    unfold solveSearch
    rw [if_pos hpos, e0,
      deepenLoop_stalled fuel s.startTimer player time_limit htl hlen hfuel hstall]
  unfold solve
  rw [if_neg (by simp [hnw]), hs]

/-- C15, counterexample: time limit 0.001 s on the empty 7x6 board.  With a clock that
reads 0, 1, 2, ... milliseconds (non-decreasing) the loop is entered at reading 1, the
first poll of the depth-2 search at reading 2 is past the limit, and `solve` returns -1
with the board unchanged: no piece is placed.  With a clock that stands still
(non-decreasing as well) `solve` does not return, whatever the iteration bound. -/
theorem solve_deepening_no_piece_or_no_return :
    tickingSolver._boardSeq.IsFull = false ∧
    tickingSolver._boardSeq.DetermineWinner = Player.None ∧
    (∃ s1, solve 42 2 tickingSolver Player.Red 2 (1 / 1000) = Outcome.returned (-1, s1) ∧
      s1._boardSeq = tickingSolver._boardSeq) ∧
    (∀ iters, solve 42 iters freshSolver Player.Red 2 (1 / 1000) = Outcome.outOfFuel) :=
  ⟨by decide, by decide,
    solve_cut_before_first_commit 42 0 tickingSolver Player.Red 2 (1 / 1000) (by norm_num)
      (by decide) (by decide) (by decide)
      (by unfold expiredAt; norm_num [tickingSolver, start, startTimer])
      (by unfold expiredAt; norm_num [tickingSolver, start, startTimer])
      (by unfold expiredAt; norm_num [tickingSolver, start, startTimer])
      (by unfold expiredAt; norm_num [tickingSolver, start, startTimer]),
    fun iters => solve_stalled 42 iters freshSolver Player.Red 2 (1 / 1000) (by norm_num)
      (by decide) (by decide) (by decide)
      (fun k => by unfold expiredAt; norm_num [freshSolver, start, startTimer])⟩
/-! ### Boards reached by `playMove` and `solve`, and the column convention -/

theorem Settled_create (w h k : Nat) : (create w h k).Settled := by
  intro c r r2 _ _ _ hne
  exact absurd (cell_create w h k _) hne

theorem WF_playMoveIndex (b : Board) (hwf : b.WF) (i : Nat) (color : SlotStatus) :
    (b.playMoveIndex i color).WF := by
  obtain ⟨h1, h2, h3, h4, h5, h6, h7⟩ := hwf
  refine ⟨h1, h2, h3, h4, ?_, h6, h7⟩
  show (b.board.set i color).length = _
  rw [List.length_set]; exact h5

/-- On a settled board a cell that passes `isLegalMove` has no `Empty` cell at a larger
row index in its column. -/
theorem top_free_of_legal (b : Board) (hs : b.Settled) (r c : Nat) (hc : c < b.width)
    (hleg : b.isLegalMove (b.width * r + c) = true) :
    ∀ r2, r < r2 → r2 < b.height → b.cell (b.width * r2 + c) ≠ SlotStatus.Empty := by
  intro r2 hlt hr2
  rw [isLegalMove_spec, rowMajor_div _ _ _ hc] at hleg
  rcases hleg.2 with h | h
  · omega
  · have e : b.width * r + c + b.width = b.width * (r + 1) + c := by ring
    rw [e] at h
    by_cases h2 : r2 = r + 1
    · rw [h2]; exact h
    · exact hs c (r + 1) r2 hc (by omega) hr2 h

theorem Settled_write (b : Board) (hs : b.Settled) (m : Nat)
    (hE : b.cell m = SlotStatus.Empty) (hleg : b.isLegalMove m = true)
    (color : SlotStatus) : (b.playMoveIndex m color).Settled := by
  intro c r r2 hc hlt hr2 hne
  have hw : (b.playMoveIndex m color).width = b.width := rfl
  have hh : (b.playMoveIndex m color).height = b.height := rfl
  rw [hw] at hc hne ⊢
  rw [hh] at hr2
  rw [cell_playMoveIndex] at hne ⊢
  by_cases hcol : color = SlotStatus.Empty
  · -- writing `Empty` to an `Empty` cell changes nothing
    have same : ∀ j, (if m = j ∧ m < b.board.length then color else b.cell j) = b.cell j := by
      intro j
      split
      · next h => rw [hcol, ← h.1, hE]
      · rfl
    rw [same] at hne ⊢
    exact hs c r r2 hc hlt hr2 hne
  · by_cases h2 : m = b.width * r2 + c ∧ m < b.board.length
    · rw [if_pos h2]; exact hcol
    · rw [if_neg h2]
      by_cases h1 : m = b.width * r + c ∧ m < b.board.length
      · have hleg2 : b.isLegalMove (b.width * r + c) = true := by rw [← h1.1]; exact hleg
        exact top_free_of_legal b hs r c hc hleg2 r2 hlt hr2
      · rw [if_neg h1] at hne
        exact hs c r r2 hc hlt hr2 hne

/-- The last part of `solve` for a player that is neither Red nor Yellow: when it returns,
it returns -1 with the board as before. -/
theorem solveFinish_other_player (sx : SequentialSolver) (player : Player) (m : Int)
    (h1 : player ≠ Player.Red) (h2 : player ≠ Player.Yellow) (c : Int)
    (s1 : SequentialSolver) (h : solveFinish sx player m = Outcome.returned (c, s1)) :
    c = -1 ∧ s1._boardSeq = sx._boardSeq := by
  have hc : SequentialSolver.getPlayerColor player = none := by
    unfold SequentialSolver.getPlayerColor
    rw [if_neg h1, if_neg h2]
  unfold solveFinish at h
  rw [hc] at h
  simp only [] at h
  split at h
  · simp only [Outcome.returned.injEq, Prod.mk.injEq] at h
    exact ⟨h.1.symm, by rw [← h.2]⟩
  · split at h
    · exact absurd h (by simp)
    · split at h
      · simp only [Outcome.returned.injEq, Prod.mk.injEq] at h
        exact ⟨h.1.symm, by rw [← h.2]⟩
      · simp only [Outcome.returned.injEq, Prod.mk.injEq] at h
        exact ⟨h.1.symm, by rw [← h.2]⟩

/-- The board after a `solve` call that returns, for every player and time limit: the
board as before with return value -1, or one legal `Empty` cell `m` written with the
colour of a player Red or Yellow and return value `m % width` or -1. -/
theorem solve_returned_cases (fuel iters : Nat) (s : SequentialSolver) (player : Player)
    (maxDepth : Int) (time_limit : Rat)
    (hlen : s._boardSeq.board.length = s._boardSeq.width * s._boardSeq.height)
    (hfuel : s._boardSeq.emptyCount ≤ fuel) (c : Int) (s1 : SequentialSolver)
    (hret : solve fuel iters s player maxDepth time_limit = Outcome.returned (c, s1)) :
    (c = -1 ∧ s1._boardSeq = s._boardSeq) ∨
    ∃ m : Nat, (player = Player.Red ∨ player = Player.Yellow) ∧
      m < s._boardSeq.width * s._boardSeq.height ∧
      s._boardSeq.cell m = SlotStatus.Empty ∧ s._boardSeq.isLegalMove m = true ∧
      s1._boardSeq = s._boardSeq.playMoveIndex m
        (if player = Player.Red then SlotStatus.Red else SlotStatus.Yellow) ∧
      (c = (m : Int) % (s._boardSeq.width : Int) ∨ c = -1) := by
  by_cases hw : s._boardSeq.DetermineWinner ≠ Player.None
  · rw [solve_of_winner fuel iters s player maxDepth time_limit hw] at hret
    simp only [Outcome.returned.injEq, Prod.mk.injEq] at hret
    exact Or.inl ⟨hret.1.symm, by rw [← hret.2]⟩
  · have hnw : s._boardSeq.DetermineWinner = Player.None := by simpa using hw
    cases hs : solveSearch fuel iters s player maxDepth time_limit with
    | none =>
      unfold solve at hret
      rw [if_neg hw, hs] at hret
      exact absurd hret (by simp)
    | some x =>
      obtain ⟨m, sx⟩ := x
      obtain ⟨hb, -, hm⟩ := solveSearch_frame fuel iters s player maxDepth time_limit hlen
        hfuel m sx hs
      rw [solve_of_search fuel iters s player maxDepth time_limit hnw m sx hs] at hret
      by_cases hp : player = Player.Red ∨ player = Player.Yellow
      · obtain ⟨c2, s2, h1, h2, -⟩ := solveFinish_spec s sx player m hlen hp hb hm
        rw [h1] at hret
        simp only [Outcome.returned.injEq, Prod.mk.injEq] at hret
        rw [← hret.1, ← hret.2]
        rcases h2 with h | ⟨j, hj1, hj2, hj3, hj4, hj5⟩
        · exact Or.inl h
        · refine Or.inr ⟨j, hp, hj1, hj2, hj3, hj4, ?_⟩
          rcases hj5 with h | h
          · exact Or.inl h.2
          · exact Or.inr h.2
      · have h1 : player ≠ Player.Red := fun h => hp (Or.inl h)
        have h2 : player ≠ Player.Yellow := fun h => hp (Or.inr h)
        obtain ⟨h3, h4⟩ := solveFinish_other_player sx player m h1 h2 c s1 hret
        exact Or.inl ⟨h3, by rw [h4, hb]⟩

/-- Every solver reached from a fresh one by `playMove` and `solve` calls holds a
well-formed, settled board. -/
theorem SolverReachable_inv (s : SequentialSolver) (h : SolverReachable s) :
    s._boardSeq.WF ∧ s._boardSeq.Settled := by
  induction h with
  | fresh w h k clock hwf => exact ⟨hwf, Settled_create w h k⟩
  | afterPlayMove oob s column player _ ih =>
    obtain ⟨hwf, hs⟩ := ih
    have hlen : s._boardSeq.board.length = s._boardSeq.width * s._boardSeq.height := hwf.2.2.2.2.1
    show (s._boardSeq.playMove oob column player).2.WF ∧
      (s._boardSeq.playMove oob column player).2.Settled
    by_cases hout : column < 1 ∨ (s._boardSeq.width : Int) < column
    · rw [playMove_column_outside oob _ column player hout]
      exact ⟨hwf, hs⟩
    · have hk : (column - 1).toNat < s._boardSeq.width := by omega
      have hcol : column = (((column - 1).toNat : Nat) : Int) + 1 := by omega
      rw [hcol]
      rcases playMove_column_cases oob s._boardSeq (column - 1).toNat player hlen hk with
        ⟨-, hplay⟩ | ⟨r, hr, hE, hmax, hplay⟩
      · rw [hplay]; exact ⟨hwf, hs⟩
      · rw [hplay]
        exact ⟨WF_playMoveIndex _ hwf _ _,
          Settled_write _ hs _ hE (isLegalMove_of_top_free _ _ r hk hr hE hmax) _⟩
  | afterSolve fuel iters s player maxDepth time_limit c s1 _ hfuel hret ih =>
    obtain ⟨hwf, hs⟩ := ih
    have hlen : s._boardSeq.board.length = s._boardSeq.width * s._boardSeq.height := hwf.2.2.2.2.1
    rcases solve_returned_cases fuel iters s player maxDepth time_limit hlen hfuel c s1 hret
      with ⟨-, hb⟩ | ⟨m, -, hm1, hm2, hm3, hm4, -⟩
    · rw [hb]; exact ⟨hwf, hs⟩
    · rw [hm4]
      exact ⟨WF_playMoveIndex _ hwf _ _, Settled_write _ hs m hm2 hm3 _⟩

/-- C19: the 0-based column returned by `solve` is the 1-based column of `playMove`
minus one.  If a solver `s1` reached from a fresh board by `playMove` and `solve` calls
and a solver `s2` hold equal boards, and `solve(p, d, -1)` on `s1` returns `c ≥ 0`, then
`playMove(c + 1, p)` on `s2` returns 0 and the two boards are equal again. -/
theorem solve_column_feeds_playMove (fuel iters : Nat) (s1 s2 : SequentialSolver)
    (p : Player) (d : Int) (c : Int) (s1a : SequentialSolver)
    (hreach : SolverReachable s1) (heq : s2._boardSeq = s1._boardSeq)
    (hfuel : s1._boardSeq.emptyCount ≤ fuel)
    (hret : solve fuel iters s1 p d (-1) = Outcome.returned (c, s1a)) (hc : 0 ≤ c) :
    ∀ oob : Int → SlotStatus, (s2.playMove oob (c + 1) p).1 = 0 ∧
      (s2.playMove oob (c + 1) p).2._boardSeq = s1a._boardSeq := by
  intro oob
  obtain ⟨hwf, hs⟩ := SolverReachable_inv s1 hreach
  have hlen : s1._boardSeq.board.length = s1._boardSeq.width * s1._boardSeq.height :=
    hwf.2.2.2.2.1
  show (s2._boardSeq.playMove oob (c + 1) p).1 = 0 ∧
    (s2._boardSeq.playMove oob (c + 1) p).2 = s1a._boardSeq
  rw [heq]
  rcases solve_returned_cases fuel iters s1 p d (-1) hlen hfuel c s1a hret
    with ⟨h, -⟩ | ⟨m, hp, hm1, hm2, hm3, hm4, hm5⟩
  · omega
  · have hcm : c = (m : Int) % (s1._boardSeq.width : Int) := by
      rcases hm5 with h | h
      · exact h
      · omega
    have hwpos : 0 < s1._boardSeq.width := by
      rcases Nat.eq_zero_or_pos s1._boardSeq.width with h | h
      · rw [h, Nat.zero_mul] at hm1; omega
      · exact h
    have hk : m % s1._boardSeq.width < s1._boardSeq.width := Nat.mod_lt _ hwpos
    have hr : m / s1._boardSeq.width < s1._boardSeq.height := by
      rw [Nat.div_lt_iff_lt_mul hwpos, Nat.mul_comm]; exact hm1
    have hdm : s1._boardSeq.width * (m / s1._boardSeq.width) + m % s1._boardSeq.width = m :=
      Nat.div_add_mod m _
    have hcol : c + 1 = ((m % s1._boardSeq.width : Nat) : Int) + 1 := by
      rw [hcm]; norm_cast
    have hcolor : getPlayerColor p
        = (if p = Player.Red then SlotStatus.Red else SlotStatus.Yellow) := by
      rcases hp with h | h <;> rw [h] <;> rfl
    have hE : s1._boardSeq.cell (s1._boardSeq.width * (m / s1._boardSeq.width)
        + m % s1._boardSeq.width) = SlotStatus.Empty := by rw [hdm]; exact hm2
    have hmax := top_free_of_legal s1._boardSeq hs (m / s1._boardSeq.width)
      (m % s1._boardSeq.width) hk (by rw [hdm]; exact hm3)
    rw [hcol]
    rcases playMove_column_cases oob s1._boardSeq (m % s1._boardSeq.width) p hlen hk with
      ⟨hfull, -⟩ | ⟨r, hr2, hE2, hmax2, hplay⟩
    · exact absurd hE (hfull _ hr)
    · have hrr : r = m / s1._boardSeq.width := by
        rcases Nat.lt_trichotomy r (m / s1._boardSeq.width) with h | h | h
        · exact absurd hE (hmax2 _ h hr)
        · exact h
        · exact absurd hE2 (hmax r h hr2)
      rw [hplay, hrr, hdm, hcolor, hm4]
      exact ⟨rfl, rfl⟩

/-- C19, instance: two solvers over the empty 7x6 board; `solve(Red, 0, -1)` on the first
returns column 6, and `playMove(7, Red)` on the second returns 0 and gives the same
board. -/
theorem solve_column_feeds_playMove_witness :
    SolverReachable freshSolver ∧ freshSolver._boardSeq = freshSolver._boardSeq ∧
    freshSolver._boardSeq.emptyCount ≤ 42 ∧
    solve 42 0 freshSolver Player.Red 0 (-1) = Outcome.returned (6, freshSolved) ∧
    (0 : Int) ≤ 6 ∧
    ∀ oob : Int → SlotStatus, (freshSolver.playMove oob (6 + 1) Player.Red).1 = 0 ∧
      (freshSolver.playMove oob (6 + 1) Player.Red).2._boardSeq = freshSolved._boardSeq :=
  ⟨SolverReachable.fresh 7 6 4 (fun _ => 0) (by decide), rfl, by decide,
    solve_fresh_depth_zero, by decide,
    solve_column_feeds_playMove 42 0 freshSolver freshSolver Player.Red 0 6 freshSolved
      (SolverReachable.fresh 7 6 4 (fun _ => 0) (by decide)) rfl (by decide)
      solve_fresh_depth_zero (by decide)⟩
/-! ### `DetermineWinner`, `IsFull` and `Reset` -/

/-- C21: `DetermineWinner` returns Red exactly when Red satisfies the win predicate
`determineIfPlayerIsWinner` and Yellow does not, Yellow exactly when Yellow satisfies it
and Red does not, and None otherwise, that is when neither or both satisfy it; when both
do, it returns None. -/
theorem DetermineWinner_exactly_one (b : Board) :
    (b.DetermineWinner = Player.Red ↔
      b.determineIfPlayerIsWinner Player.Red = true ∧
        b.determineIfPlayerIsWinner Player.Yellow = false) ∧
    (b.DetermineWinner = Player.Yellow ↔
      b.determineIfPlayerIsWinner Player.Yellow = true ∧
        b.determineIfPlayerIsWinner Player.Red = false) ∧
    (b.DetermineWinner = Player.None ↔
      b.determineIfPlayerIsWinner Player.Red = b.determineIfPlayerIsWinner Player.Yellow) ∧
    (b.determineIfPlayerIsWinner Player.Red = true →
      b.determineIfPlayerIsWinner Player.Yellow = true → b.DetermineWinner = Player.None) := by
  unfold DetermineWinner
  cases b.determineIfPlayerIsWinner Player.Red <;>
    cases b.determineIfPlayerIsWinner Player.Yellow <;> simp

/-- C21, instance: on the board `redWonBoard` Red satisfies the win predicate and Yellow
does not. -/
theorem DetermineWinner_exactly_one_witness :
    redWonBoard.determineIfPlayerIsWinner Player.Red = true ∧
    redWonBoard.determineIfPlayerIsWinner Player.Yellow = false ∧
    redWonBoard.DetermineWinner = Player.Red :=
  ⟨by decide, by decide,
    (DetermineWinner_exactly_one redWonBoard).1.mpr ⟨by decide, by decide⟩⟩

/-- C22: for every well-formed board, `IsFull()` is true if and only if none of the
`width*height` cells is `Empty`. -/
theorem IsFull_iff_no_empty_cell (b : Board) (hwf : b.WF) :
    b.IsFull = true ↔ ∀ i, i < b.width * b.height → b.cell i ≠ SlotStatus.Empty := by
  obtain ⟨-, -, -, h4, -, -, -⟩ := hwf
  rw [IsFull_iff, Nat.mod_eq_of_lt (by omega)]

/-- C22, instance: the board `redThreatBoard`. -/
theorem IsFull_iff_no_empty_cell_witness :
    redThreatBoard.WF ∧
    (redThreatBoard.IsFull = true ↔
      ∀ i, i < redThreatBoard.width * redThreatBoard.height →
        redThreatBoard.cell i ≠ SlotStatus.Empty) :=
  ⟨by decide, IsFull_iff_no_empty_cell redThreatBoard (by decide)⟩

theorem foldl_set_getElem? {α : Type} (v : α) (l : List α) :
    ∀ (m j : Nat),
      ((List.range m).foldl (fun cells i => cells.set i v) l)[j]?
        = if j < m ∧ j < l.length then some v else l[j]? := by
  intro m
  induction m with
  | zero => intro j; simp
  | succ m ih =>
    intro j
    rw [List.range_succ, List.foldl_append]
    simp only [List.foldl_cons, List.foldl_nil]
    rw [List.getElem?_set]
    have hlen : ∀ (n : Nat), ((List.range n).foldl (fun cells i => cells.set i v) l).length
        = l.length := by
      intro n
      induction n with
      | zero => rfl
      | succ n ihn =>
        rw [List.range_succ, List.foldl_append]
        simp only [List.foldl_cons, List.foldl_nil, List.length_set]
        exact ihn
    rw [hlen, ih]
    by_cases h1 : m = j
    · subst h1
      by_cases h2 : m < l.length
      · simp [h2]
      · simp [h2, List.getElem?_eq_none (not_lt.mp h2)]
    · rw [if_neg h1]
      by_cases h3 : j < m ∧ j < l.length
      · rw [if_pos h3, if_pos ⟨by omega, h3.2⟩]
      · rw [if_neg h3, if_neg (by omega)]

theorem foldl_set_all {α : Type} (v : α) (l : List α) :
    (List.range l.length).foldl (fun cells i => cells.set i v) l
      = List.replicate l.length v := by
  apply List.ext_getElem?
  intro j
  rw [foldl_set_getElem?]
  by_cases h : j < l.length
  · rw [if_pos ⟨h, h⟩, List.getElem?_replicate, if_pos h]
  · rw [if_neg (fun hh => h hh.1), List.getElem?_eq_none (not_lt.mp h),
      List.getElem?_replicate, if_neg h]

theorem Reset_eq_create (b : Board) (hwf : b.WF) :
    b.Reset = create b.width b.height b.winningStreakSize := by
  obtain ⟨-, -, -, h4, h5, h6, -⟩ := hwf
  unfold Reset create
  rw [Nat.mod_eq_of_lt (by omega), ← h5, foldl_set_all, h5]
  have : (List.range b.width).foldl (fun rows i => rows.set i 0) b.next_row
      = List.replicate b.width 0 := by
    rw [← h6, foldl_set_all, h6]
  rw [this]

/-- C23: after `Board::Reset` on a well-formed board, in whatever state, the board equals
the freshly constructed board of the same `width`, `height` and `winningStreakSize`:
every cell is `Empty`, every column height is 0, `winner` is None and `isGameOver` is
false.  `SequentialSolver::resetSolver` resets the board in this way and sets
`_nodesTraversed` and `_totalNodesTraversed` to 0. -/
theorem Reset_restores_fresh_board (s : SequentialSolver) (hwf : s._boardSeq.WF) :
    s._boardSeq.Reset
      = create s._boardSeq.width s._boardSeq.height s._boardSeq.winningStreakSize ∧
    (∀ i, s._boardSeq.Reset.cell i = SlotStatus.Empty) ∧
    (∀ c, s._boardSeq.Reset.nextRow c = 0) ∧
    s._boardSeq.Reset.winner = Player.None ∧ s._boardSeq.Reset.isGameOver = false ∧
    s._boardSeq.Reset.width = s._boardSeq.width ∧
    s._boardSeq.Reset.height = s._boardSeq.height ∧
    s._boardSeq.Reset.winningStreakSize = s._boardSeq.winningStreakSize ∧
    s.resetSolver._boardSeq
      = create s._boardSeq.width s._boardSeq.height s._boardSeq.winningStreakSize ∧
    s.resetSolver._nodesTraversed = 0 ∧ s.resetSolver._totalNodesTraversed = 0 := by
  have h := Reset_eq_create s._boardSeq hwf
  refine ⟨h, ?_, ?_, rfl, rfl, rfl, rfl, rfl, ?_, rfl, rfl⟩
  · intro i; rw [h]; exact cell_create _ _ _ i
  · intro c; rw [h]; exact nextRow_create _ _ _ c
  · show s._boardSeq.Reset = _
    exact h

/-- C23, instance: the solver `freshSolved` (Red at cell 41, both node counters 7). -/
theorem Reset_restores_fresh_board_witness :
    freshSolved._boardSeq.WF ∧ freshSolved._boardSeq.cell 41 = SlotStatus.Red ∧
    freshSolved._totalNodesTraversed = 7 ∧
    (freshSolved._boardSeq.Reset
      = create freshSolved._boardSeq.width freshSolved._boardSeq.height
          freshSolved._boardSeq.winningStreakSize ∧
    (∀ i, freshSolved._boardSeq.Reset.cell i = SlotStatus.Empty) ∧
    (∀ c, freshSolved._boardSeq.Reset.nextRow c = 0) ∧
    freshSolved._boardSeq.Reset.winner = Player.None ∧
    freshSolved._boardSeq.Reset.isGameOver = false ∧
    freshSolved._boardSeq.Reset.width = freshSolved._boardSeq.width ∧
    freshSolved._boardSeq.Reset.height = freshSolved._boardSeq.height ∧
    freshSolved._boardSeq.Reset.winningStreakSize = freshSolved._boardSeq.winningStreakSize ∧
    freshSolved.resetSolver._boardSeq
      = create freshSolved._boardSeq.width freshSolved._boardSeq.height
          freshSolved._boardSeq.winningStreakSize ∧
    freshSolved.resetSolver._nodesTraversed = 0 ∧
    freshSolved.resetSolver._totalNodesTraversed = 0) :=
  ⟨by decide, by decide, rfl, Reset_restores_fresh_board freshSolved (by decide)⟩
/-! ### The OpenMP board: `checkStreakMp`, `Reset`, `EvaluateBoard` -/

theorem closedRuns_length_le : ∀ (ev : List Bool) (cs : Nat),
    (closedRuns ev cs).length ≤ ev.length := by
  intro ev
  induction ev with
  | nil => intro cs; simp [closedRuns]
  | cons e ev ih =>
    intro cs
    cases e
    · simp only [closedRuns, List.length_cons]
      have := ih 0
      omega
    · simp only [closedRuns, List.length_cons]
      have := ih (cs + 1)
      omega

theorem allEvents_length_le {α : Type} (ev : α → List Bool) (m : Nat) :
    ∀ (l : List α), (∀ a ∈ l, (ev a).length ≤ m) →
      (allEvents ev l).length ≤ l.length * m := by
  intro l
  induction l with
  | nil => intro _; simp [allEvents]
  | cons a l ih =>
    intro h
    have h1 := h a (List.mem_cons_self _ _)
    have h2 := ih (fun x hx => h x (List.mem_cons_of_mem _ hx))
    simp only [allEvents, List.length_append, List.length_cons]
    rw [Nat.add_mul, Nat.one_mul]
    omega

theorem count_closedRuns_le (ev : List Bool) (t n : Nat) (h : ev.length ≤ n) :
    (closedRuns ev 0).count t ≤ n :=
  le_trans (List.count_le_length _ _) (le_trans (closedRuns_length_le ev 0) h)

/-- The three scanner results are small: their sum does not wrap a `uint32_t`. -/
theorem checkStreak_lt (b : Board) (color : SlotStatus) (streak : Int)
    (hw : b.width < 256) (hh : b.height < 256) :
    b.checkStreak color streak < 4294967296 := by
  have h1 : b.checkHorzStreak color streak ≤ b.height * (b.width + 1) := by
    rw [checkHorzStreak_eq]
    apply count_closedRuns_le
    have := allEvents_length_le (rowEvents b color) (b.width + 1) (List.range b.height)
      (fun i _ => by unfold rowEvents; simp)
    simpa using this
  have h2 : b.checkVertStreak color streak ≤ b.width * (b.height + 1) := by
    rw [checkVertStreak_eq]
    apply count_closedRuns_le
    have := allEvents_length_le (colEvents b color) (b.height + 1) (List.range b.width)
      (fun j _ => by unfold colEvents; simp)
    simpa using this
  have horig : ∀ i j, (originEvents b color i j).length ≤ 2 * b.width + 2 := by
    intro i j
    unfold originEvents
    split
    · have hu : (upEvents b color i j).length ≤ b.width - 1 := by
        unfold upEvents
        rw [List.length_map]
        exact le_trans (List.length_filter_le _ _) (by simp)
      have hd : (downEvents b color i j).length ≤ b.width - 1 := by
        unfold downEvents
        rw [List.length_map]
        exact le_trans (List.length_filter_le _ _) (by simp)
      simp only [List.length_append, List.length_cons, List.length_nil]
      omega
    · simp
  have h3 : b.checkDiagStreak color streak ≤ b.height * (b.width * (2 * b.width + 2)) := by
    rw [checkDiagStreak_eq]
    apply count_closedRuns_le
    have := allEvents_length_le
      (fun i => allEvents (originEvents b color i) (List.range b.width))
      (b.width * (2 * b.width + 2)) (List.range b.height)
      (fun i _ => by
        have := allEvents_length_le (originEvents b color i) (2 * b.width + 2)
          (List.range b.width) (fun j _ => horig i j)
        simpa using this)
    simpa using this
  have hw2 : b.width ≤ 255 := by omega
  have hh2 : b.height ≤ 255 := by omega
  have b1 : b.height * (b.width + 1) ≤ 255 * 256 := Nat.mul_le_mul hh2 (by omega)
  have b2 : b.width * (b.height + 1) ≤ 255 * 256 := Nat.mul_le_mul hw2 (by omega)
  have b3 : b.width * (2 * b.width + 2) ≤ 255 * 512 := Nat.mul_le_mul hw2 (by omega)
  have b4 : b.height * (b.width * (2 * b.width + 2)) ≤ 255 * (255 * 512) :=
    Nat.mul_le_mul hh2 b3
  unfold checkStreak
  omega

theorem foldl_add_mod (M : Nat) : ∀ (l : List Nat) (acc : Nat), acc < M →
    l.foldl (fun acc x => (acc + x) % M) acc = (acc + l.sum) % M := by
  intro l
  induction l with
  | nil => intro acc h; simp [Nat.mod_eq_of_lt h]
  | cons x l ih =>
    intro acc h
    have hM : 0 < M := by omega
    rw [List.foldl_cons, ih _ (Nat.mod_lt _ hM), List.sum_cons, Nat.mod_add_mod, Nat.add_assoc]

theorem reduceAdd_eq (l : List Nat) : BoardMp.reduceAdd l = l.sum % 4294967296 := by
  unfold BoardMp.reduceAdd
  rw [foldl_add_mod 4294967296 l 0 (by norm_num), Nat.zero_add]

theorem sum_map_mod (M : Nat) (f : List Nat → Nat) : ∀ (l : List (List Nat)),
    (l.map (fun x => f x % M)).sum % M = (l.map f).sum % M := by
  intro l
  induction l with
  | nil => rfl
  | cons a l ih =>
    simp only [List.map_cons, List.sum_cons]
    rw [Nat.add_mod, ih, Nat.mod_mod, ← Nat.add_mod]

/-- The reduction of `checkStreakMp` adds up, modulo `2^32`, the results of the sections
in the schedule. -/
theorem checkStreakMp_eq_sum (m : BoardMp) (schedule : List (List Nat)) (color : SlotStatus)
    (streak : Int) :
    m.checkStreakMp schedule color streak
      = (schedule.flatten.map (m.sectionCount color streak)).sum % 4294967296 := by
  unfold BoardMp.checkStreakMp
  rw [reduceAdd_eq]
  have e : (fun (sections : List Nat) =>
        BoardMp.reduceAdd (sections.map (m.sectionCount color streak)))
      = (fun (sections : List Nat) =>
        (sections.map (m.sectionCount color streak)).sum % 4294967296) := by
    funext sections; exact reduceAdd_eq _
  rw [e, sum_map_mod 4294967296
    (fun (sections : List Nat) => (sections.map (m.sectionCount color streak)).sum)]
  congr 1
  induction schedule with
  | nil => rfl
  | cons a l ih =>
    simp only [List.map_cons, List.sum_cons, List.flatten_cons, List.map_append, List.sum_append]
    rw [ih]

/-- C26: for every board with dimensions in `uint_fast8_t`, every colour and every streak
length, `BoardMp::checkStreakMp` returns the count returned by `Board::checkStreak`, the
sum of the horizontal, vertical and diagonal scanner results, for every assignment of the
three sections to threads and every order of the reduction. -/
theorem checkStreakMp_eq_checkStreak (m : BoardMp) (schedule : List (List Nat))
    (color : SlotStatus) (streak : Int) (hw : m.base.width < 256) (hh : m.base.height < 256)
    (hperm : schedule.flatten.Perm [0, 1, 2]) :
    m.checkStreakMp schedule color streak = m.base.checkStreak color streak ∧
    m.checkStreakMp schedule color streak
      = m.base.checkHorzStreak color streak + m.base.checkVertStreak color streak
        + m.base.checkDiagStreak color streak := by
  have h1 := checkStreakMp_eq_sum m schedule color streak
  have h2 : (schedule.flatten.map (m.sectionCount color streak)).sum
      = m.base.checkStreak color streak := by
    rw [(hperm.map (m.sectionCount color streak)).sum_eq]
    simp [BoardMp.sectionCount, checkStreak, Nat.add_assoc]
  rw [h2, Nat.mod_eq_of_lt (checkStreak_lt m.base color streak hw hh)] at h1
  exact ⟨h1, h1⟩

/-- C26, instance: a `BoardMp` holding the cells of `redThreatBoard`; one thread runs the
diagonal section and another the horizontal and vertical ones. -/
theorem checkStreakMp_eq_checkStreak_witness :
    redThreatBoard.width < 256 ∧ redThreatBoard.height < 256 ∧
    ([[2], [0, 1]] : List (List Nat)).flatten.Perm [0, 1, 2] ∧
    ({ BoardMp.create 7 6 4 0 0 0 with base := redThreatBoard } : BoardMp).checkStreakMp
        [[2], [0, 1]] SlotStatus.Red 3
      = redThreatBoard.checkStreak SlotStatus.Red 3 ∧
    ({ BoardMp.create 7 6 4 0 0 0 with base := redThreatBoard } : BoardMp).checkStreakMp
        [[2], [0, 1]] SlotStatus.Red 3
      = redThreatBoard.checkHorzStreak SlotStatus.Red 3
        + redThreatBoard.checkVertStreak SlotStatus.Red 3
        + redThreatBoard.checkDiagStreak SlotStatus.Red 3 :=
  ⟨by decide, by decide, by decide,
    checkStreakMp_eq_checkStreak
      ({ BoardMp.create 7 6 4 0 0 0 with base := redThreatBoard } : BoardMp)
      [[2], [0, 1]] SlotStatus.Red 3 (by decide) (by decide) (by decide)⟩

/-- C24, failing input: a `MpSolver` for a 7x6 board whose `BoardMp` members `width` and
`height`, never written by the constructor, hold 0.  After `playMove(1, Red)` cell 35 is
Red; `resetSolver` sets both node counters to 0 but leaves cell 35 Red, because
`BoardMp::Reset` clears `width * height` cells counted with the members of `BoardMp`.
Had these members held 7 and 6, the cell would be `Empty` again. -/
theorem resetSolver_leaves_piece :
    (((MpSolver.create 7 6 4 0 0 0).playMove (fun _ => SlotStatus.Empty) 1
        Player.Red).2)._boardMp.base.cell 35 = SlotStatus.Red ∧
    (((MpSolver.create 7 6 4 0 0 0).playMove (fun _ => SlotStatus.Empty) 1
        Player.Red).2).resetSolver._boardMp.base.cell 35 = SlotStatus.Red ∧
    (((MpSolver.create 7 6 4 0 0 0).playMove (fun _ => SlotStatus.Empty) 1
        Player.Red).2).resetSolver._nodesTraversed = 0 ∧
    (((MpSolver.create 7 6 4 0 0 0).playMove (fun _ => SlotStatus.Empty) 1
        Player.Red).2).resetSolver._totalNodesTraversed = 0 ∧
    (((MpSolver.create 7 6 4 7 6 4).playMove (fun _ => SlotStatus.Empty) 1
        Player.Red).2).resetSolver._boardMp.base.cell 35 = SlotStatus.Empty := by
  decide

/-- C25, failing input: a `BoardMp` for a 7x6 board with streak size 4 whose member
`winningStreakSize`, never written by the constructor, holds 0, after `playMove(1,
Yellow)` and `playMove(2, Yellow)`.  It holds the cells of `twoYellowBoard`;
`Board::EvaluateBoard(Yellow)` is 8 on that board, and `BoardMp::EvaluateBoard(Yellow)`
is 0, because its loop starts at the member of `BoardMp`.  Had the member held 4, the
result would be 8. -/
theorem EvaluateBoard_mp_differs :
    ((((MpSolver.create 7 6 4 0 0 0).playMove (fun _ => SlotStatus.Empty) 1
        Player.Yellow).2.playMove (fun _ => SlotStatus.Empty) 2
        Player.Yellow).2)._boardMp.base.board = twoYellowBoard.board ∧
    twoYellowBoard.EvaluateBoard Player.Yellow = 8 ∧
    ((((MpSolver.create 7 6 4 0 0 0).playMove (fun _ => SlotStatus.Empty) 1
        Player.Yellow).2.playMove (fun _ => SlotStatus.Empty) 2
        Player.Yellow).2)._boardMp.EvaluateBoard Player.Yellow = 0 ∧
    ((((MpSolver.create 7 6 4 0 0 4).playMove (fun _ => SlotStatus.Empty) 1
        Player.Yellow).2.playMove (fun _ => SlotStatus.Empty) 2
        Player.Yellow).2)._boardMp.EvaluateBoard Player.Yellow = 8 := by
  decide

/-- C29, failing input: on the board `diagPairBoard`, whose only pieces are the diagonal
run of two Red cells 0 and 8, `checkDiagStreak(Red, 2)` is 0 and `checkDiagStreak(Red,
1)` is 2: each walk starts after its origin cell, so the run is seen as a run of one
from either end.  The row scanner gives `checkHorzStreak(Red, 2) = 1` for the run of two
of `rowPairBoard`. -/
theorem checkDiagStreak_misses_origin :
    diagPairBoard.cell 0 = SlotStatus.Red ∧ diagPairBoard.cell 8 = SlotStatus.Red ∧
    diagPairBoard.checkDiagStreak SlotStatus.Red 2 = 0 ∧
    diagPairBoard.checkDiagStreak SlotStatus.Red 1 = 2 ∧
    rowPairBoard.checkHorzStreak SlotStatus.Red 2 = 1 := by
  decide
/-- C30, failing input: on the board `antiDiagPairBoard`, whose only pieces are the run
of two Red cells 1 and 7 along the diagonal with steps of row+1, column-1,
`checkDiagStreak(Red, k)` is 0 for every `k ≥ 1`: both walks of `checkDiagStreak` follow
the diagonal with steps of row+1, column+1 (forwards, then backwards).  For the
mirror-image run of `diagPairBoard` the result is 2 at `k = 1`. -/
theorem checkDiagStreak_skips_other_diagonal :
    antiDiagPairBoard.cell 1 = SlotStatus.Red ∧ antiDiagPairBoard.cell 7 = SlotStatus.Red ∧
    (∀ k : Nat, 1 ≤ k → k ≤ 2147483647 →
      antiDiagPairBoard.checkDiagStreak SlotStatus.Red (k : Int) = 0) ∧
    diagPairBoard.checkDiagStreak SlotStatus.Red 1 = 2 := by
  refine ⟨by decide, by decide, ?_, by decide⟩
  intro k hk1 hk2
  rw [checkDiagStreak_eq, toUInt32_natCast k (by omega), List.count_eq_zero]
  intro hmem
  have hall : ∀ v ∈ closedRuns
      (allEvents (fun i => allEvents (originEvents antiDiagPairBoard SlotStatus.Red i)
        (List.range antiDiagPairBoard.width)) (List.range antiDiagPairBoard.height)) 0,
      v = 0 := by decide
  have := hall k hmem
  omega

/-! ### Maximal runs along rows and columns -/

theorem filter_run_nil (line : Nat → Bool) (k : Nat) (l : List Nat)
    (h : ∀ p ∈ l, ¬ isMaximalRun line p k) :
    (l.filter (fun p => decide (isMaximalRun line p k))).length = 0 := by
  rw [List.length_eq_zero, List.filter_eq_nil_iff]
  intro p hp
  simpa using h p hp

/-- A block of `cs` cells of a line that belong to a run, with no run cell before and
after it, holds one maximal run of exactly `k` cells if `cs = k` and none otherwise. -/
theorem runs_in_block (line : Nat → Bool) (k : Nat) (hk : 1 ≤ k) (a cs : Nat)
    (htrue : ∀ p, a ≤ p → p < a + cs → line p = true) (hend : line (a + cs) = false)
    (hpre : a = 0 ∨ line (a - 1) = false) :
    ((List.range' a cs).filter (fun p => decide (isMaximalRun line p k))).length
      = if cs = k then 1 else 0 := by
  cases cs with
  | zero =>
    rw [if_neg (by omega)]
    rfl
  | succ cs =>
    have hrest : ((List.range' (a + 1) cs).filter
        (fun p => decide (isMaximalRun line p k))).length = 0 := by
      apply filter_run_nil
      intro p hp hrun
      rw [List.mem_range'_1] at hp
      rcases hrun.2.2 with h | h
      · omega
      · have := htrue (p - 1) (by omega) (by omega)
        rw [this] at h
        exact absurd h (by simp)
    have hfirst : isMaximalRun line a k ↔ cs + 1 = k := by
      constructor
      · intro hrun
        by_contra hne
        rcases Nat.lt_or_gt_of_ne hne with h | h
        · have := hrun.1 (cs + 1) h
          rw [hend] at this
          exact absurd this (by simp)
        · have := htrue (a + k) (by omega) (by omega)
          rw [hrun.2.1] at this
          exact absurd this (by simp)
      · intro he
        subst he
        exact ⟨fun q hq => htrue (a + q) (by omega) (by omega), hend, hpre⟩
    rw [List.range'_succ, List.filter_cons]
    by_cases he : cs + 1 = k
    · rw [if_pos (by simpa using hfirst.mpr he), if_pos he, List.length_cons, hrest]
    · rw [if_neg (by simpa using fun h => he (hfirst.mp h)), if_neg he, hrest]

/-- The scanner statement run over the cells `s, s+1, ..., s+m-1` of a line and the
closing statement, entered with a run of `cs` cells in progress, counts the maximal runs
of exactly `k` cells that start at the positions from `s - cs` on. -/
theorem count_closedRuns_line (line : Nat → Bool) (k : Nat) (hk : 1 ≤ k) :
    ∀ (m s cs : Nat), cs ≤ s → (∀ p, s - cs ≤ p → p < s → line p = true) →
      (s = cs ∨ line (s - cs - 1) = false) → (∀ p, s + m ≤ p → line p = false) →
      (closedRuns ((List.range' s m).map line ++ [false]) cs).count k
        = ((List.range' (s - cs) (cs + m)).filter
            (fun p => decide (isMaximalRun line p k))).length := by
  intro m
  induction m with
  | zero =>
    intro s cs hcs htrue hpre htail
    have hb := runs_in_block line k hk (s - cs) cs
      (fun p h1 h2 => htrue p h1 (by omega))
      (by rw [Nat.sub_add_cancel hcs]; exact htail s (by omega))
      (by
        rcases hpre with h | h
        · left; omega
        · right; exact h)
    simp only [List.range'_zero, List.map_nil, List.nil_append, closedRuns, Nat.add_zero]
    rw [hb, List.count_singleton]
    by_cases h : cs = k
    · simp [h]
    · rw [if_neg h]; simp [h]
  | succ m ih =>
    intro s cs hcs htrue hpre htail
    rw [List.range'_succ, List.map_cons, List.cons_append]
    cases hfs : line s with
    | true =>
      simp only [closedRuns]
      rw [ih (s + 1) (cs + 1) (by omega)
        (fun p h1 h2 => by
          by_cases hp : p = s
          · rw [hp]; exact hfs
          · exact htrue p (by omega) (by omega))
        (by
          rcases hpre with h | h
          · left; omega
          · right
            have e : s + 1 - (cs + 1) - 1 = s - cs - 1 := by omega
            rw [e]; exact h)
        (fun p hp => htail p (by omega))]
      have e1 : s + 1 - (cs + 1) = s - cs := by omega
      have e2 : cs + 1 + m = cs + (m + 1) := by omega
      rw [e1, e2]
    | false =>
      simp only [closedRuns]
      rw [List.count_cons, ih (s + 1) 0 (by omega) (fun p h1 h2 => by omega)
        (Or.inr (by
          have e : s + 1 - 0 - 1 = s := by omega
          rw [e]; exact hfs))
        (fun p hp => htail p (by omega))]
      have hb := runs_in_block line k hk (s - cs) cs
        (fun p h1 h2 => htrue p h1 (by omega))
        (by rw [Nat.sub_add_cancel hcs]; exact hfs)
        (by
          rcases hpre with h | h
          · left; omega
          · right; exact h)
      have hsplit : List.range' (s - cs) (cs + (m + 1))
          = List.range' (s - cs) cs ++ (s :: List.range' (s + 1) m) := by
        rw [show cs + (m + 1) = (m + 1) + cs by omega, ← List.range'_append, Nat.one_mul,
          Nat.sub_add_cancel hcs, List.range'_succ]
      have hs : ¬ isMaximalRun line s k := by
        intro hrun
        have := hrun.1 0 (by omega)
        rw [Nat.add_zero, hfs] at this
        exact absurd this (by simp)
      have hmid : ((s :: List.range' (s + 1) m).filter
          (fun p => decide (isMaximalRun line p k))).length
          = ((List.range' (s + 1) m).filter
              (fun p => decide (isMaximalRun line p k))).length := by
        rw [List.filter_cons_of_neg (by simpa using hs)]
      rw [hsplit, List.filter_append, List.length_append, hb, hmid]
      simp only [Nat.sub_zero, Nat.zero_add]
      by_cases h : cs = k
      · rw [if_pos h, if_pos (by simp [h])]; omega
      · rw [if_neg h, if_neg (by simpa using h)]; omega

/-- The scanner statement run over a whole line of `n` cells and the closing statement
count the maximal runs of exactly `k ≥ 1` cells of the line. -/
theorem count_closedRuns_eq_maximalRuns (line : Nat → Bool) (n k : Nat) (hk : 1 ≤ k)
    (htail : ∀ p, n ≤ p → line p = false) :
    (closedRuns ((List.range n).map line ++ [false]) 0).count k = maximalRuns line n k := by
  have := count_closedRuns_line line k hk n 0 0 (le_refl _) (fun p h1 h2 => by omega)
    (Or.inl rfl) (fun p hp => htail p (by omega))
  rw [List.range_eq_range']
  simpa [maximalRuns, List.range_eq_range'] using this

theorem openRun_closed (ev : List Bool) (cs : Nat) : openRun (ev ++ [false]) cs = 0 := by
  rw [(closedRuns_append ev [false] cs).2]
  rfl

/-- When every line ends with the closing statement, the count over all lines is the sum
of the counts of the lines. -/
theorem count_allEvents_lines {α : Type} (ev : α → List Bool) (k : Nat)
    (hclosed : ∀ a, openRun (ev a) 0 = 0) :
    ∀ (l : List α), (closedRuns (allEvents ev l) 0).count k
      = (l.map (fun a => (closedRuns (ev a) 0).count k)).sum := by
  intro l
  induction l with
  | nil => rfl
  | cons a l ih =>
    simp only [allEvents, List.map_cons, List.sum_cons]
    rw [(closedRuns_append (ev a) (allEvents ev l) 0).1, List.count_append, hclosed a, ih]

theorem rowEvents_eq (b : Board) (color : SlotStatus) (i : Nat) :
    rowEvents b color i = (List.range b.width).map (b.rowLine color i) ++ [false] := by
  unfold rowEvents
  congr 1
  apply List.map_congr_left
  intro j hj
  rw [List.mem_range] at hj
  simp [rowLine, hj]

theorem colEvents_eq (b : Board) (color : SlotStatus) (j : Nat) :
    colEvents b color j = (List.range b.height).map (b.colLine color j) ++ [false] := by
  unfold colEvents
  congr 1
  apply List.map_congr_left
  intro i hi
  rw [List.mem_range] at hi
  simp [colLine, hi]

theorem checkHorzStreak_eq_rowRuns (b : Board) (color : SlotStatus) (k : Nat) (hk : 1 ≤ k)
    (hk2 : k ≤ 2147483647) :
    b.checkHorzStreak color (k : Int) = b.rowRunsOfLength color k := by
  rw [checkHorzStreak_eq, toUInt32_natCast k (by omega),
    count_allEvents_lines (rowEvents b color) k
      (fun i => by rw [rowEvents_eq]; exact openRun_closed _ _)]
  unfold rowRunsOfLength
  congr 1
  apply List.map_congr_left
  intro i _
  rw [rowEvents_eq]
  exact count_closedRuns_eq_maximalRuns _ _ _ hk (fun p hp => by simp [rowLine]; omega)

theorem checkVertStreak_eq_colRuns (b : Board) (color : SlotStatus) (k : Nat) (hk : 1 ≤ k)
    (hk2 : k ≤ 2147483647) :
    b.checkVertStreak color (k : Int) = b.colRunsOfLength color k := by
  rw [checkVertStreak_eq, toUInt32_natCast k (by omega),
    count_allEvents_lines (colEvents b color) k
      (fun j => by rw [colEvents_eq]; exact openRun_closed _ _)]
  unfold colRunsOfLength
  congr 1
  apply List.map_congr_left
  intro j _
  rw [colEvents_eq]
  exact count_closedRuns_eq_maximalRuns _ _ _ hk (fun p hp => by simp [colLine]; omega)

/-- C28: for every board, colour and streak length `k ≥ 1` (an `int`), `checkHorzStreak`
returns the number of maximal runs of exactly `k` cells of the colour within the rows (a
run ends at the end of its row) and `checkVertStreak` the number of maximal runs of
exactly `k` cells within the columns; a longer run is not a maximal run of `k` cells and
adds nothing. -/
theorem axis_scanners_count_exact_runs (b : Board) (color : SlotStatus) (k : Nat)
    (hk : 1 ≤ k) (hk2 : k ≤ 2147483647) :
    b.checkHorzStreak color (k : Int) = b.rowRunsOfLength color k ∧
    b.checkVertStreak color (k : Int) = b.colRunsOfLength color k :=
  ⟨checkHorzStreak_eq_rowRuns b color k hk hk2, checkVertStreak_eq_colRuns b color k hk hk2⟩

/-- C28, instance: streak length 5 on the board `rowFiveBoard`, whose row 5 holds one run
of five Red cells: one row run and no column run. -/
theorem axis_scanners_count_exact_runs_witness :
    1 ≤ 5 ∧ 5 ≤ 2147483647 ∧
    rowFiveBoard.rowRunsOfLength SlotStatus.Red 5 = 1 ∧
    rowFiveBoard.colRunsOfLength SlotStatus.Red 5 = 0 ∧
    rowFiveBoard.checkHorzStreak SlotStatus.Red ((5 : Nat) : Int)
      = rowFiveBoard.rowRunsOfLength SlotStatus.Red 5 ∧
    rowFiveBoard.checkVertStreak SlotStatus.Red ((5 : Nat) : Int)
      = rowFiveBoard.colRunsOfLength SlotStatus.Red 5 :=
  ⟨by decide, by decide, by decide, by decide,
    axis_scanners_count_exact_runs rowFiveBoard SlotStatus.Red 5 (by decide) (by decide)⟩
/-! ### A single run in one row -/

theorem closedRuns_all_false : ∀ (ev : List Bool), (∀ e ∈ ev, e = false) →
    ∀ v ∈ closedRuns ev 0, v = 0 := by
  intro ev
  induction ev with
  | nil => intro _ v hv; simp [closedRuns] at hv
  | cons e ev ih =>
    intro h v hv
    have he : e = false := h e (List.mem_cons_self _ _)
    subst he
    simp only [closedRuns, List.mem_cons] at hv
    rcases hv with hv | hv
    · exact hv
    · exact ih (fun x hx => h x (List.mem_cons_of_mem _ hx)) v hv

theorem mem_allEvents {α : Type} (ev : α → List Bool) (e : Bool) :
    ∀ (l : List α), e ∈ allEvents ev l → ∃ a ∈ l, e ∈ ev a := by
  intro l
  induction l with
  | nil => intro h; simp [allEvents] at h
  | cons a l ih =>
    intro h
    simp only [allEvents, List.mem_append] at h
    rcases h with h | h
    · exact ⟨a, List.mem_cons_self _ _, h⟩
    · obtain ⟨x, hx, hex⟩ := ih h
      exact ⟨x, List.mem_cons_of_mem _ hx, hex⟩

theorem sum_map_single (h r X : Nat) (hr : r < h) :
    ((List.range h).map (fun i => if i = r then X else 0)).sum = X := by
  induction h with
  | zero => omega
  | succ h ih =>
    rw [List.range_succ, List.map_append, List.sum_append]
    simp only [List.map_cons, List.map_nil, List.sum_cons, List.sum_nil, Nat.add_zero]
    by_cases he : h = r
    · rw [if_pos he]
      have hz : ((List.range h).map (fun i => if i = r then X else 0)).sum = 0 := by
        apply List.sum_eq_zero
        intro x hx
        rw [List.mem_map] at hx
        obtain ⟨i, hi, hix⟩ := hx
        rw [List.mem_range] at hi
        rw [if_neg (by omega)] at hix
        exact hix.symm
      rw [hz]; omega
    · rw [if_neg he, ih (by omega), Nat.add_zero]

/-- The scanners on a board whose only cells of the colour are the `L` cells of row `r`
from column `c` on: the row scanner finds one run, of length `L`; the column and
diagonal scanners find no run of two or more cells. -/
theorem single_row_run_scanners (b : Board) (color : SlotStatus) (r c L k : Nat)
    (hcolor : color ≠ SlotStatus.Empty) (hr : r < b.height) (hfit : c + L ≤ b.width)
    (hk : 2 ≤ k) (hk2 : k ≤ 2147483647)
    (hcells : ∀ i, i < b.height → ∀ j, j < b.width →
      b.cell (b.width * i + j)
        = if i = r ∧ c ≤ j ∧ j < c + L then color else SlotStatus.Empty) :
    b.checkHorzStreak color (k : Int) = (if k = L then 1 else 0) ∧
    b.checkVertStreak color (k : Int) = 0 ∧ b.checkDiagStreak color (k : Int) = 0 := by
  have hcell : ∀ i j, i < b.height → j < b.width →
      ((b.cell (b.width * i + j) == color) = true ↔ i = r ∧ c ≤ j ∧ j < c + L) := by
    intro i j hi hj
    rw [hcells i hi j hj]
    by_cases h : i = r ∧ c ≤ j ∧ j < c + L
    · simp [h]
    · rw [if_neg h]
      simp only [beq_iff_eq]
      exact ⟨fun e => absurd e.symm hcolor, fun e => absurd e h⟩
  have hrow : ∀ i j, i < b.height →
      (b.rowLine color i j = true ↔ i = r ∧ c ≤ j ∧ j < c + L) := by
    intro i j hi
    unfold rowLine
    rw [Bool.and_eq_true, decide_eq_true_eq]
    constructor
    · rintro ⟨h1, h2⟩
      exact (hcell i j hi h1).mp h2
    · intro h
      have hj : j < b.width := by omega
      exact ⟨hj, (hcell i j hi hj).mpr h⟩
  have hcol : ∀ i j, j < b.width →
      (b.colLine color j i = true ↔ i = r ∧ c ≤ j ∧ j < c + L) := by
    intro i j hj
    unfold colLine
    rw [Bool.and_eq_true, decide_eq_true_eq]
    constructor
    · rintro ⟨h1, h2⟩
      exact (hcell i j h1 hj).mp h2
    · intro h
      have hi : i < b.height := by omega
      exact ⟨hi, (hcell i j hi hj).mpr h⟩
  have hfalse : ∀ (x : Bool), ¬ (x = true) → x = false := by
    intro x; cases x <;> simp
  refine ⟨?_, ?_, ?_⟩
  · -- rows
    rw [checkHorzStreak_eq_rowRuns b color k (by omega) hk2]
    unfold rowRunsOfLength
    have hrows : ∀ i ∈ List.range b.height,
        maximalRuns (b.rowLine color i) b.width k
          = if i = r then (if k = L then 1 else 0) else 0 := by
      intro i hi
      rw [List.mem_range] at hi
      unfold maximalRuns
      by_cases hir : i = r
      · rw [if_pos hir]
        have hsplit : List.range b.width
            = List.range' 0 c ++ (List.range' c L ++ List.range' (c + L) (b.width - (c + L))) := by
          rw [List.range_eq_range']
          have e1 := List.range'_append c L (b.width - (c + L)) 1
          rw [Nat.one_mul] at e1
          rw [e1]
          have e2 := List.range'_append 0 c (b.width - (c + L) + L) 1
          rw [Nat.one_mul, Nat.zero_add] at e2
          rw [e2]
          congr 1
          omega
        have h1 : ((List.range' 0 c).filter
            (fun p => decide (isMaximalRun (b.rowLine color i) p k))).length = 0 := by
          apply filter_run_nil
          intro p hp hrun
          rw [List.mem_range'_1] at hp
          have := (hrow i p hi).mp (by have := hrun.1 0 (by omega); simpa using this)
          omega
        have h3 : ((List.range' (c + L) (b.width - (c + L))).filter
            (fun p => decide (isMaximalRun (b.rowLine color i) p k))).length = 0 := by
          apply filter_run_nil
          intro p hp hrun
          rw [List.mem_range'_1] at hp
          have := (hrow i p hi).mp (by have := hrun.1 0 (by omega); simpa using this)
          omega
        have h2 := runs_in_block (b.rowLine color i) k (by omega) c L
          (fun p hp1 hp2 => (hrow i p hi).mpr ⟨hir, hp1, hp2⟩)
          (hfalse _ (fun h => by have := (hrow i (c + L) hi).mp h; omega))
          (by
            by_cases hc0 : c = 0
            · left; exact hc0
            · right
              exact hfalse _ (fun h => by have := (hrow i (c - 1) hi).mp h; omega))
        rw [hsplit, List.filter_append, List.filter_append, List.length_append,
          List.length_append, h1, h2, h3]
        by_cases hkl : k = L
        · rw [if_pos hkl, if_pos hkl.symm]
        · rw [if_neg hkl, if_neg (fun h => hkl h.symm)]
      · rw [if_neg hir]
        apply filter_run_nil
        intro p _ hrun
        have := (hrow i p hi).mp (by have := hrun.1 0 (by omega); simpa using this)
        exact hir this.1
    rw [List.map_congr_left hrows]
    exact sum_map_single b.height r _ hr
  · -- columns
    rw [checkVertStreak_eq_colRuns b color k (by omega) hk2]
    unfold colRunsOfLength
    apply List.sum_eq_zero
    intro x hx
    rw [List.mem_map] at hx
    obtain ⟨j, hj, hjx⟩ := hx
    rw [List.mem_range] at hj
    rw [← hjx]
    unfold maximalRuns
    apply filter_run_nil
    intro p _ hrun
    have h0 := (hcol p j hj).mp (by have := hrun.1 0 (by omega); simpa using this)
    have h1 := (hcol (p + 1) j hj).mp (hrun.1 1 (by omega))
    omega
  · -- diagonal walks
    rw [checkDiagStreak_eq, toUInt32_natCast k (by omega), List.count_eq_zero]
    intro hmem
    have hzero := closedRuns_all_false _ (fun e he => by
      obtain ⟨i, hi, he1⟩ := mem_allEvents _ e _ he
      obtain ⟨j, hj, he2⟩ := mem_allEvents _ e _ he1
      rw [List.mem_range] at hi hj
      unfold originEvents at he2
      by_cases hc : b.cell (b.width * i + j) = color
      · rw [if_pos hc] at he2
        have hi2 : i = r := ((hcell i j hi hj).mp (by simpa using hc)).1
        simp only [List.mem_append, List.mem_singleton] at he2
        rcases he2 with (he3 | he3) | (he3 | he3)
        · unfold upEvents at he3
          simp only [List.mem_map, List.mem_filter, List.mem_range'_1,
            decide_eq_true_eq] at he3
          obtain ⟨k1, ⟨hk1, hk3⟩, hk4⟩ := he3
          rw [← hk4]
          exact hfalse _ (fun h => by
            have := (hcell (i + k1) (j + k1) hk3.1 hk3.2).mp h
            omega)
        · exact he3
        · unfold downEvents at he3
          simp only [List.mem_map, List.mem_filter, List.mem_range'_1,
            decide_eq_true_eq] at he3
          obtain ⟨k1, ⟨hk1, hk3⟩, hk4⟩ := he3
          rw [← hk4]
          exact hfalse _ (fun h => by
            have := (hcell (i - k1) (j - k1) (by omega) (by omega)).mp h
            omega)
        · exact he3
      · rw [if_neg hc] at he2
        exact absurd he2 (List.not_mem_nil _)) k hmem
    omega

/-- C27: exact-length rule.  On a board whose cells of one colour (Red or Yellow) are
`L` consecutive cells of one row, from column `c` on, and whose other cells are `Empty`,
`checkStreak(colour, k)` is 1 for `k = L` and 0 for every other `k ≥ 2` (an `int`); this
holds for every `L`, in particular for `L ≥ 2`. -/
theorem checkStreak_single_row_run (b : Board) (color : SlotStatus) (r c L k : Nat)
    (hcolor : color ≠ SlotStatus.Empty) (hr : r < b.height) (hfit : c + L ≤ b.width)
    (hk : 2 ≤ k) (hk2 : k ≤ 2147483647)
    (hcells : ∀ i, i < b.height → ∀ j, j < b.width →
      b.cell (b.width * i + j)
        = if i = r ∧ c ≤ j ∧ j < c + L then color else SlotStatus.Empty) :
    b.checkStreak color (k : Int) = if k = L then 1 else 0 := by
  obtain ⟨h1, h2, h3⟩ := single_row_run_scanners b color r c L k hcolor hr hfit hk hk2 hcells
  unfold checkStreak
  rw [h1, h2, h3, Nat.add_zero]

/-- C27, instance: the run of five Red cells in row 5 of `rowFiveBoard` (streak size 4)
and `k = 4`: `checkStreak(Red, 4)` is 0. -/
theorem checkStreak_single_row_run_witness :
    SlotStatus.Red ≠ SlotStatus.Empty ∧ 5 < rowFiveBoard.height ∧
    0 + 5 ≤ rowFiveBoard.width ∧ 2 ≤ 4 ∧ 4 ≤ 2147483647 ∧
    (∀ i, i < rowFiveBoard.height → ∀ j, j < rowFiveBoard.width →
      rowFiveBoard.cell (rowFiveBoard.width * i + j)
        = if i = 5 ∧ 0 ≤ j ∧ j < 0 + 5 then SlotStatus.Red else SlotStatus.Empty) ∧
    rowFiveBoard.checkStreak SlotStatus.Red ((4 : Nat) : Int) = (if 4 = 5 then 1 else 0) :=
  ⟨by decide, by decide, by decide, by decide, by decide, by decide,
    checkStreak_single_row_run rowFiveBoard SlotStatus.Red 5 0 5 4 (by decide) (by decide)
      (by decide) (by decide) (by decide) (by decide)⟩

/-- When the member `winningStreakSize` of `BoardMp` holds the streak size of the base
board, `BoardMp::EvaluateBoard` returns what `Board::EvaluateBoard` returns. -/
theorem EvaluateBoard_mp_eq_of_member (m : BoardMp) (player : Player)
    (h : m.winningStreakSize = m.base.winningStreakSize) :
    m.EvaluateBoard player = m.base.EvaluateBoard player := by
  unfold BoardMp.EvaluateBoard EvaluateBoard BoardMp.streakValues streakValues
  rw [h]

/-! ### Settled boards and the legal cells of a column -/

theorem isLegalMove_settled_iff (b : Board) (hs : b.Settled) (c r : Nat) (hc : c < b.width)
    (hr : r < b.height) :
    (b.isLegalMove (b.width * r + c) = true ↔
      b.cell (b.width * r + c) = SlotStatus.Empty ∧
        ∀ r2, r < r2 → r2 < b.height → b.cell (b.width * r2 + c) ≠ SlotStatus.Empty) := by
  constructor
  · intro h
    exact ⟨((isLegalMove_spec b _).mp h).1, top_free_of_legal b hs r c hc h⟩
  · rintro ⟨hE, hmax⟩
    exact isLegalMove_of_top_free b c r hc hr hE hmax

theorem legal_row_unique (b : Board) (hs : b.Settled) (c r r2 : Nat) (hc : c < b.width)
    (hr : r < b.height) (hr2 : r2 < b.height)
    (h1 : b.isLegalMove (b.width * r + c) = true)
    (h2 : b.isLegalMove (b.width * r2 + c) = true) : r2 = r := by
  have e1 := (isLegalMove_settled_iff b hs c r hc hr).mp h1
  have e2 := (isLegalMove_settled_iff b hs c r2 hc hr2).mp h2
  rcases Nat.lt_trichotomy r r2 with h | h | h
  · exact absurd e2.1 (e1.2 r2 h hr2)
  · exact h.symm
  · exact absurd e1.1 (e2.2 r h hr)

theorem exists_top_empty (b : Board) (c : Nat) :
    ∀ (n : Nat), n ≤ b.height →
      (∃ r, r < n ∧ b.cell (b.width * r + c) = SlotStatus.Empty) →
      (∀ r2, n ≤ r2 → r2 < b.height → b.cell (b.width * r2 + c) ≠ SlotStatus.Empty) →
      ∃ r, r < b.height ∧ b.cell (b.width * r + c) = SlotStatus.Empty ∧
        ∀ r2, r < r2 → r2 < b.height → b.cell (b.width * r2 + c) ≠ SlotStatus.Empty := by
  intro n
  induction n with
  | zero => rintro _ ⟨r, hr, _⟩ _; omega
  | succ n ih =>
    intro hn hex hfull
    by_cases hE : b.cell (b.width * n + c) = SlotStatus.Empty
    · refine ⟨n, by omega, hE, ?_⟩
      intro r2 h1 h2
      exact hfull r2 (by omega) h2
    · apply ih (by omega)
      · obtain ⟨r, hr, hrE⟩ := hex
        refine ⟨r, ?_, hrE⟩
        rcases Nat.lt_or_ge r n with h | h
        · exact h
        · have : r = n := by omega
          subst this
          exact absurd hrE hE
      · intro r2 h1 h2
        rcases Nat.eq_or_lt_of_le h1 with h | h
        · rw [← h]; exact hE
        · exact hfull r2 (by omega) h2

theorem legalCells_length_le (b : Board) (hs : b.Settled) :
    b.legalCells.length ≤ b.width := by
  have hn : (b.legalCells.map (fun i => i % b.width)).Nodup := by
    apply List.Nodup.map_on
    · intro x hx y hy hxy
      rw [mem_legalCells] at hx hy
      have hw : 0 < b.width := by
        rcases Nat.eq_zero_or_pos b.width with h | h
        · rw [h, Nat.zero_mul] at hx; omega
        · exact h
      have hc : x % b.width < b.width := Nat.mod_lt _ hw
      have hxr : x / b.width < b.height :=
        Nat.div_lt_of_lt_mul hx.1
      have hyr : y / b.width < b.height :=
        Nat.div_lt_of_lt_mul hy.1
      have ex : b.width * (x / b.width) + x % b.width = x := Nat.div_add_mod x b.width
      have ey : b.width * (y / b.width) + x % b.width = y := by
        have hxy2 : x % b.width = y % b.width := hxy
        rw [hxy2]; exact Nat.div_add_mod y b.width
      have lx : b.isLegalMove (b.width * (x / b.width) + x % b.width) = true := by
        rw [ex]
        have := hx.2
        unfold legalEmpty at this
        simp only [Bool.and_eq_true, decide_eq_true_eq] at this
        exact this.2
      have ly : b.isLegalMove (b.width * (y / b.width) + x % b.width) = true := by
        rw [ey]
        have := hy.2
        unfold legalEmpty at this
        simp only [Bool.and_eq_true, decide_eq_true_eq] at this
        exact this.2
      have := legal_row_unique b hs (x % b.width) (x / b.width) (y / b.width) hc hxr hyr lx ly
      rw [← ex, ← ey, this]
    · unfold legalCells
      exact List.Nodup.filter _ (List.nodup_range _)
  have hlt : ∀ x ∈ b.legalCells.map (fun i => i % b.width), x < b.width := by
    intro x hx
    rw [List.mem_map] at hx
    obtain ⟨i, hi, rfl⟩ := hx
    rw [mem_legalCells] at hi
    have hw : 0 < b.width := by
      rcases Nat.eq_zero_or_pos b.width with h | h
      · rw [h, Nat.zero_mul] at hi; omega
      · exact h
    exact Nat.mod_lt _ hw
  have hsub : b.legalCells.map (fun i => i % b.width) ⊆ List.range b.width := by
    intro x hx
    rw [List.mem_range]; exact hlt x hx
  have := (List.subperm_of_subset hn hsub).length_le
  rwa [List.length_map, List.length_range] at this

theorem playMove_column_Settled (oob : Int → SlotStatus) (b : Board) (column : Int)
    (player : Player) (hlen : b.board.length = b.width * b.height) (hs : b.Settled) :
    (b.playMove oob column player).2.Settled := by
  by_cases hout : column < 1 ∨ (b.width : Int) < column
  · rw [playMove_column_outside oob b column player hout]; exact hs
  · have hk : (column - 1).toNat < b.width := by omega
    have hcol : column = (((column - 1).toNat : Nat) : Int) + 1 := by omega
    rw [hcol]
    rcases playMove_column_cases oob b (column - 1).toNat player hlen hk with
      ⟨-, hplay⟩ | ⟨r, hr, hE, hmax, hplay⟩
    · rw [hplay]; exact hs
    · rw [hplay]
      exact Settled_write b hs _ hE (isLegalMove_of_top_free b _ r hk hr hE hmax) _

theorem solve_Settled (fuel iters : Nat) (s : SequentialSolver) (player : Player)
    (maxDepth : Int) (time_limit : Rat)
    (hlen : s._boardSeq.board.length = s._boardSeq.width * s._boardSeq.height)
    (hs : s._boardSeq.Settled)
    (hfuel : s._boardSeq.emptyCount ≤ fuel) (c : Int) (s1 : SequentialSolver)
    (hret : solve fuel iters s player maxDepth time_limit = Outcome.returned (c, s1)) :
    s1._boardSeq.Settled := by
  rcases solve_returned_cases fuel iters s player maxDepth time_limit hlen hfuel c s1 hret with
    ⟨-, hb⟩ | ⟨m, -, -, hE, hleg, hb, -⟩
  · rw [hb]; exact hs
  · rw [hb]; exact Settled_write _ hs m hE hleg _

theorem redThreatBoard_Settled : redThreatBoard.Settled := by
  unfold redThreatBoard
  apply Settled_write _ _ _ (by decide) (by decide)
  apply Settled_write _ _ _ (by decide) (by decide)
  apply Settled_write _ _ _ (by decide) (by decide)
  apply Settled_write _ _ _ (by decide) (by decide)
  apply Settled_write _ _ _ (by decide) (by decide)
  apply Settled_write _ _ _ (by decide) (by decide)
  exact Settled_create 7 6 4

/-- C36: the fresh board is settled; on a settled board `b`, filling a cell accepted by
`isLegalMove`, `playMove(column, player)` (any column, any out-of-array reads) and a
`solve` call that returns leave the board settled; `isLegalMove` accepts a cell of column
`c` exactly when it is the `Empty` cell of largest row index of that column, so exactly
one cell of each column that still has an `Empty` cell and none of a full column; and
the legal cells number at most `width`. -/
theorem settled_boards_one_legal_cell_per_column (b : Board)
    (hlen : b.board.length = b.width * b.height) (hs : b.Settled) :
    (∀ w h k, (create w h k).Settled) ∧
    (∀ m color, b.isLegalMove m = true → (b.playMoveIndex m color).Settled) ∧
    (∀ oob column player, (b.playMove oob column player).2.Settled) ∧
    (∀ fuel iters (s : SequentialSolver) player maxDepth time_limit c s1,
      s._boardSeq = b → b.emptyCount ≤ fuel →
      solve fuel iters s player maxDepth time_limit = Outcome.returned (c, s1) →
      s1._boardSeq.Settled) ∧
    (∀ c r, c < b.width → r < b.height →
      (b.isLegalMove (b.width * r + c) = true ↔
        b.cell (b.width * r + c) = SlotStatus.Empty ∧
          ∀ r2, r < r2 → r2 < b.height → b.cell (b.width * r2 + c) ≠ SlotStatus.Empty)) ∧
    (∀ c, c < b.width →
      (∃ r, r < b.height ∧ b.cell (b.width * r + c) = SlotStatus.Empty) →
      ∃ r, r < b.height ∧ b.isLegalMove (b.width * r + c) = true ∧
        ∀ r2, r2 < b.height → b.isLegalMove (b.width * r2 + c) = true → r2 = r) ∧
    (∀ c, c < b.width →
      (∀ r, r < b.height → b.cell (b.width * r + c) ≠ SlotStatus.Empty) →
      ∀ r, r < b.height → b.isLegalMove (b.width * r + c) = false) ∧
    b.legalCells.length ≤ b.width := by
  refine ⟨Settled_create, ?_, ?_, ?_, ?_, ?_, ?_, legalCells_length_le b hs⟩
  · intro m color hleg
    exact Settled_write b hs m ((isLegalMove_spec b m).mp hleg).1 hleg color
  · intro oob column player
    exact playMove_column_Settled oob b column player hlen hs
  · intro fuel iters s player maxDepth time_limit c s1 hb hfuel hret
    subst hb
    exact solve_Settled fuel iters s player maxDepth time_limit hlen hs hfuel c s1 hret
  · intro c r hc hr
    exact isLegalMove_settled_iff b hs c r hc hr
  · intro c hc hex
    obtain ⟨r0, hr0, hE0⟩ := hex
    obtain ⟨r, hr, hE, hmax⟩ := exists_top_empty b c b.height (le_refl _) ⟨r0, hr0, hE0⟩
      (fun r2 h1 h2 => by omega)
    have hleg := isLegalMove_of_top_free b c r hc hr hE hmax
    exact ⟨r, hr, hleg, fun r2 hr2 h2 => legal_row_unique b hs c r r2 hc hr hr2 hleg h2⟩
  · intro c _ hfull r hr
    have : ¬ (b.isLegalMove (b.width * r + c) = true) := by
      intro h
      exact hfull r hr ((isLegalMove_spec b _).mp h).1
    simpa using this

/-- C36, instance: the settled board `redThreatBoard`, where cells 35, 36, 37 and 28, 29,
30 are filled; its legal cells are 21, 22, 23 and 38, 39, 40, 41, one in each column. -/
theorem settled_boards_one_legal_cell_per_column_witness :
    redThreatBoard.board.length = redThreatBoard.width * redThreatBoard.height ∧
    redThreatBoard.legalCells = [21, 22, 23, 38, 39, 40, 41] ∧
    (∀ oob column player, (redThreatBoard.playMove oob column player).2.Settled) ∧
    (∀ c r, c < redThreatBoard.width → r < redThreatBoard.height →
      (redThreatBoard.isLegalMove (redThreatBoard.width * r + c) = true ↔
        redThreatBoard.cell (redThreatBoard.width * r + c) = SlotStatus.Empty ∧
          ∀ r2, r < r2 → r2 < redThreatBoard.height →
            redThreatBoard.cell (redThreatBoard.width * r2 + c) ≠ SlotStatus.Empty)) ∧
    redThreatBoard.legalCells.length ≤ redThreatBoard.width :=
  ⟨by decide, by decide,
    (settled_boards_one_legal_cell_per_column redThreatBoard (by decide)
      redThreatBoard_Settled).2.2.1,
    (settled_boards_one_legal_cell_per_column redThreatBoard (by decide)
      redThreatBoard_Settled).2.2.2.2.1,
    (settled_boards_one_legal_cell_per_column redThreatBoard (by decide)
      redThreatBoard_Settled).2.2.2.2.2.2.2⟩

/-! ### Nodes of `minimax` that are not cut off -/

theorem minimax_node (fuel : Nat) (s : SequentialSolver) (depth : Int) (player : Player)
    (maximizer : Bool)
    (hlen : s._boardSeq.board.length = s._boardSeq.width * s._boardSeq.height)
    (hfuel : s._boardSeq.emptyCount ≤ fuel)
    (hs : ¬ (s._boardSeq.EvaluateBoard player = INT_MAX ∨
      s._boardSeq.EvaluateBoard player = INT_MIN))
    (hfull : s._boardSeq.IsFull = false) (hd0 : depth ≠ 0) (color : SlotStatus)
    (hcolor : color = if maximizer = true then
        (if player = Player.Red then SlotStatus.Red else SlotStatus.Yellow)
      else (if player = Player.Red then SlotStatus.Yellow else SlotStatus.Red)) :
    ∀ n, ∃ n1, minimax (fuel + 1) (s.withNodes n) depth player maximizer
      = some (
          (if maximizer = true then
            maximumOf (s._boardSeq.legalCells.map
              (childValue fuel s color (depth - 1) player (!maximizer)))
          else
            minimumOf (s._boardSeq.legalCells.map
              (childValue fuel s color (depth - 1) player (!maximizer)))),
          s.withNodes n1) := by
  have hb : ∀ n, (s.withNodes n)._boardSeq = s._boardSeq := fun _ => rfl
  have hfull2 : ¬ (s._boardSeq.IsFull = true) := by simp [hfull]
  obtain ⟨i0, hi0, hl0⟩ := exists_legal_of_not_full _ hfull
  have hne : color ≠ SlotStatus.Empty := by
    rw [hcolor]; split <;> split <;> simp
  have hchild : ∀ i,
      i < s._boardSeq.width * s._boardSeq.height → s._boardSeq.legalEmpty i = true →
      INT_MIN ≤ childValue fuel s color (depth - 1) player (!maximizer) i ∧
      childValue fuel s color (depth - 1) player (!maximizer) i ≤ INT_MAX ∧
      (∀ n, ∃ n1, minimax fuel ((s.writeCell i color).withNodes n) (depth - 1) player
          (!maximizer)
        = some (childValue fuel s color (depth - 1) player (!maximizer) i,
            (s.writeCell i color).withNodes n1)) := by
    intro i hi hle
    have hcell : s._boardSeq.cell i = SlotStatus.Empty := by
      unfold legalEmpty at hle
      simp only [Bool.and_eq_true, decide_eq_true_eq] at hle
      exact hle.1
    have := child_spec fuel s color (depth - 1) player (!maximizer) i
      (minimax_spec fuel (s.writeCell i color) (depth - 1) player (!maximizer)
        (by show (s._boardSeq.board.set i color).length = _
            rw [List.length_set]; exact hlen)
        (by
          have := emptyCount_writeCell s._boardSeq i color hcell (by rw [hlen]; exact hi) hne
          have e : (s.writeCell i color)._boardSeq = s._boardSeq.playMoveIndex i color := rfl
          rw [e]; omega))
    exact ⟨this.1, this.2.1, this.2.2.1⟩
  intro n
  cases maximizer with
  | true =>
    simp only [if_true] at hcolor
    obtain ⟨n1, h1⟩ := minimaxLoop_spec
      (fun s1 => minimax fuel s1 (depth - 1) player (!true)) color true s
      (childValue fuel s color (depth - 1) player (!true))
      (s._boardSeq.width * s._boardSeq.height)
      (fun i hi hl n => (hchild i hi hl).2.2 n) (cellsDescending s._boardSeq)
      (fun i hi => (mem_cellsDescending _ i).mp hi) n INT_MIN
    refine ⟨n1, ?_⟩
    simp only [minimax, hb]
    rw [if_neg hs, if_neg hfull2, if_neg hd0]
    simp only [if_true]
    rw [← hcolor, h1]
    congr 2
    unfold legalCells
    apply loopValue_eq_maximumOf
    · intro i
      rw [mem_cellsDescending, List.mem_range]
    · intro i _ _; rfl
    · intro i hi hl
      exact (hchild i ((mem_cellsDescending _ i).mp hi) hl).1
    · exact ⟨i0, (mem_cellsDescending _ i0).mpr hi0, hl0⟩
  | false =>
    simp only [Bool.false_eq_true, if_false] at hcolor
    obtain ⟨n1, h1⟩ := minimaxLoop_spec
      (fun s1 => minimax fuel s1 (depth - 1) player (!false)) color false s
      (childValue fuel s color (depth - 1) player (!false))
      (s._boardSeq.width * s._boardSeq.height)
      (fun i hi hl n => (hchild i hi hl).2.2 n) (cellsDescending s._boardSeq)
      (fun i hi => (mem_cellsDescending _ i).mp hi) n INT_MAX
    refine ⟨n1, ?_⟩
    simp only [minimax, hb]
    rw [if_neg hs, if_neg hfull2, if_neg hd0]
    simp only [Bool.false_eq_true, if_false]
    rw [← hcolor, h1]
    congr 2
    unfold legalCells
    apply loopValue_eq_minimumOf
    · intro i
      rw [mem_cellsDescending, List.mem_range]
    · intro i _ _; rfl
    · intro i hi hl
      exact (hchild i ((mem_cellsDescending _ i).mp hi) hl).2.1
    · exact ⟨i0, (mem_cellsDescending _ i0).mpr hi0, hl0⟩

theorem legalCells_ne_nil (b : Board) (h : b.IsFull = false) : b.legalCells ≠ [] := by
  obtain ⟨i, hi, hl⟩ := exists_legal_of_not_full b h
  intro hnil
  have := (mem_legalCells b i).mpr ⟨hi, hl⟩
  rw [hnil] at this
  exact absurd this (List.not_mem_nil _)

/-- C37: a board that is not full (`IsFull()` false), settled or not, has an `Empty` cell
accepted by `isLegalMove`; hence a `minimax` node that is not cut off (score not a
sentinel, board not full, `depth` not 0, any other integer depth included) has a
non-empty list of children and returns the greatest (maximizer) or least (minimizer) of
the values `minimax` returns for them. -/
theorem minimax_node_has_child (b : Board) (hfull : b.IsFull = false) :
    (∃ i, i < b.width * b.height ∧ b.cell i = SlotStatus.Empty ∧ b.isLegalMove i = true) ∧
    b.legalCells ≠ [] ∧
    ∀ (fuel : Nat) (s : SequentialSolver) (depth : Int) (player : Player) (maximizer : Bool)
      (color : SlotStatus),
      s._boardSeq = b → b.board.length = b.width * b.height → b.emptyCount ≤ fuel →
      ¬ (b.EvaluateBoard player = INT_MAX ∨ b.EvaluateBoard player = INT_MIN) →
      depth ≠ 0 →
      color = (if maximizer = true then
          (if player = Player.Red then SlotStatus.Red else SlotStatus.Yellow)
        else (if player = Player.Red then SlotStatus.Yellow else SlotStatus.Red)) →
      ∃ v s1, minimax (fuel + 1) s depth player maximizer = some (v, s1) ∧
        v ∈ b.legalCells.map (childValue fuel s color (depth - 1) player (!maximizer)) ∧
        (maximizer = true →
          ∀ x ∈ b.legalCells.map (childValue fuel s color (depth - 1) player (!maximizer)),
            x ≤ v) ∧
        (maximizer = false →
          ∀ x ∈ b.legalCells.map (childValue fuel s color (depth - 1) player (!maximizer)),
            v ≤ x) := by
  refine ⟨?_, legalCells_ne_nil b hfull, ?_⟩
  · obtain ⟨i, hi, hl⟩ := exists_legal_of_not_full b hfull
    unfold legalEmpty at hl
    simp only [Bool.and_eq_true, decide_eq_true_eq] at hl
    exact ⟨i, hi, hl.1, hl.2⟩
  · intro fuel s depth player maximizer color hb hlen hfuel hs hd0 hcolor
    subst hb
    have hne : s._boardSeq.legalCells.map
        (childValue fuel s color (depth - 1) player (!maximizer)) ≠ [] := by
      intro h
      exact legalCells_ne_nil _ hfull (List.map_eq_nil_iff.mp h)
    obtain ⟨n1, h1⟩ := minimax_node fuel s depth player maximizer hlen hfuel hs hfull hd0
      color hcolor s._nodesTraversed
    have e0 : s.withNodes s._nodesTraversed = s := rfl
    rw [e0] at h1
    refine ⟨_, _, h1, ?_, ?_, ?_⟩
    · cases maximizer with
      | true => simp only [if_true]; exact (maximumOf_spec _ hne).1
      | false =>
        simp only [Bool.false_eq_true, if_false]; exact (minimumOf_spec _ hne).1
    · intro hm x hx
      rw [if_pos hm]
      exact (maximumOf_spec _ hne).2 x hx
    · intro hm x hx
      rw [if_neg (by rw [hm]; simp)]
      exact (minimumOf_spec _ hne).2 x hx

/-- C37, instance: the board `boardWithRawWrite`, whose only piece floats in cell 0 of
row 0 above five `Empty` cells; its legal cells are the cells 35 .. 41 of row 5. -/
theorem minimax_node_has_child_witness :
    boardWithRawWrite.IsFull = false ∧
    boardWithRawWrite.legalCells = [35, 36, 37, 38, 39, 40, 41] ∧
    (∃ i, i < boardWithRawWrite.width * boardWithRawWrite.height ∧
      boardWithRawWrite.cell i = SlotStatus.Empty ∧
      boardWithRawWrite.isLegalMove i = true) ∧
    boardWithRawWrite.legalCells ≠ [] :=
  ⟨by decide, by decide, (minimax_node_has_child boardWithRawWrite (by decide)).1,
    (minimax_node_has_child boardWithRawWrite (by decide)).2.1⟩

/-- C38: `minimax` returns for every board, every integer depth (negative ones
included), player and flag, with a nesting of calls one more than the number of `Empty`
cells (the outermost call and at most one nested call per `Empty` cell), and so with any
larger allowance; every recursive call is made on a board with one `Empty` cell fewer;
and on a full board the outermost call returns the score without recursing. -/
theorem minimax_terminates (s : SequentialSolver) (depth : Int) (player : Player)
    (maximizer : Bool)
    (hlen : s._boardSeq.board.length = s._boardSeq.width * s._boardSeq.height) :
    (∃ v s1, minimax (s._boardSeq.emptyCount + 1) s depth player maximizer = some (v, s1)) ∧
    (∀ fuel, s._boardSeq.emptyCount < fuel →
      ∃ v s1, minimax fuel s depth player maximizer = some (v, s1)) ∧
    (∀ i color, i < s._boardSeq.width * s._boardSeq.height →
      s._boardSeq.cell i = SlotStatus.Empty → color ≠ SlotStatus.Empty →
      (s.writeCell i color)._boardSeq.emptyCount + 1 = s._boardSeq.emptyCount) ∧
    (s._boardSeq.IsFull = true →
      minimax 1 s depth player maximizer = some (s._boardSeq.EvaluateBoard player, s)) := by
  have e0 : s.withNodes s._nodesTraversed = s := rfl
  have hret : ∀ fuel, s._boardSeq.emptyCount < fuel →
      ∃ v s1, minimax fuel s depth player maximizer = some (v, s1) := by
    intro fuel hfuel
    obtain ⟨v, -, -, h, -⟩ := minimax_spec fuel s depth player maximizer hlen hfuel
    obtain ⟨n1, h1⟩ := h s._nodesTraversed
    rw [e0] at h1
    exact ⟨v, _, h1⟩
  refine ⟨hret _ (Nat.lt_succ_self _), hret, ?_, ?_⟩
  · intro i color hi hE hc
    exact emptyCount_writeCell s._boardSeq i color hE (by rw [hlen]; exact hi) hc
  · intro hfull
    simp only [minimax]
    by_cases h1 : s._boardSeq.EvaluateBoard player = INT_MAX ∨
        s._boardSeq.EvaluateBoard player = INT_MIN
    · rw [if_pos h1]
    · rw [if_neg h1, if_pos hfull]

/-- C38, instance: the fresh 7x6 solver at depth -3, where `depth == 0` is never met. -/
theorem minimax_terminates_witness :
    freshSolver._boardSeq.board.length
      = freshSolver._boardSeq.width * freshSolver._boardSeq.height ∧
    freshSolver._boardSeq.emptyCount = 42 ∧
    ∃ v s1, minimax 43 freshSolver (-3) Player.Red true = some (v, s1) :=
  ⟨by decide, by decide,
    (minimax_terminates freshSolver (-3) Player.Red true (by decide)).2.1 43 (by decide)⟩

/-! ### What one walk of `checkDiagStreak` adds -/

theorem count_mul_le_sum (t : Nat) : ∀ (l : List Nat), t * l.count t ≤ l.sum := by
  intro l
  induction l with
  | nil => simp
  | cons x l ih =>
    rw [List.sum_cons, List.count_cons]
    by_cases h : x = t
    · subst h
      simp only [beq_self_eq_true, if_true]
      rw [Nat.mul_add, Nat.mul_one]; omega
    · have : (x == t) = false := by simpa using h
      simp only [this, Bool.false_eq_true, if_false, Nat.add_zero]
      omega

theorem closed_walk_count (t : Nat) (ev : List Bool) :
    (streakClose t (ev.foldl (streakStep t) (0, 0))).2
      = (closedRuns (ev ++ [false]) 0).count t := by
  rw [foldl_streakStep, (closedRuns_append ev [false] 0).1]
  simp only [streakClose, closedRuns, List.count_append, Nat.zero_add]
  by_cases h : openRun ev 0 = t
  · rw [if_pos h, h]; simp
  · rw [if_neg h]
    have : (openRun ev 0 == t) = false := by simpa using h
    simp [List.count_cons, this]

theorem closed_walk_bound (t : Nat) (ev : List Bool) :
    t * (closedRuns (ev ++ [false]) 0).count t ≤ ev.count true := by
  have h1 := count_mul_le_sum t (closedRuns (ev ++ [false]) 0)
  have h2 := closedRuns_sum (ev ++ [false]) 0
  rw [openRun_closed] at h2
  have h3 : (ev ++ [false]).count true = ev.count true := by simp
  omega

theorem walkUpCount_eq (b : Board) (color : SlotStatus) (t i j : Nat) :
    b.walkUpCount color t i j = (closedRuns (upEvents b color i j ++ [false]) 0).count t := by
  unfold walkUpCount
  rw [diagWalkUp_eq, closed_walk_count]

theorem walkDownCount_eq (b : Board) (color : SlotStatus) (t i j : Nat) :
    b.walkDownCount color t i j
      = (closedRuns (downEvents b color i j ++ [false]) 0).count t := by
  unfold walkDownCount
  rw [diagWalkDown_eq, closed_walk_count]

theorem originEvents_count (b : Board) (color : SlotStatus) (t i j : Nat) :
    (closedRuns (originEvents b color i j) 0).count t
      = if b.cell (b.width * i + j) = color then
          b.walkUpCount color t i j + b.walkDownCount color t i j
        else 0 := by
  unfold originEvents
  by_cases hc : b.cell (b.width * i + j) = color
  · rw [if_pos hc, if_pos hc, (closedRuns_append _ _ 0).1, openRun_closed, List.count_append,
      walkUpCount_eq, walkDownCount_eq]
  · rw [if_neg hc, if_neg hc]; rfl

theorem originEvents_closed (b : Board) (color : SlotStatus) (i j : Nat) :
    openRun (originEvents b color i j) 0 = 0 := by
  unfold originEvents
  by_cases hc : b.cell (b.width * i + j) = color
  · rw [if_pos hc, ← List.append_assoc, openRun_closed]
  · rw [if_neg hc]; rfl

theorem allEvents_closed {α : Type} (ev : α → List Bool)
    (hclosed : ∀ a, openRun (ev a) 0 = 0) :
    ∀ (l : List α), openRun (allEvents ev l) 0 = 0 := by
  intro l
  induction l with
  | nil => rfl
  | cons a l ih =>
    simp only [allEvents]
    rw [(closedRuns_append (ev a) (allEvents ev l) 0).2, hclosed a, ih]

theorem checkDiagStreak_eq_sum (b : Board) (color : SlotStatus) (streak : Int) :
    b.checkDiagStreak color streak
      = ((List.range b.height).map (fun i =>
          ((List.range b.width).map (fun j =>
            if b.cell (b.width * i + j) = color then
              b.walkUpCount color (toUInt32 streak) i j
                + b.walkDownCount color (toUInt32 streak) i j
            else 0)).sum)).sum := by
  rw [checkDiagStreak_eq, count_allEvents_lines _ _
    (fun i => allEvents_closed _ (originEvents_closed b color i) _)]
  congr 1
  apply List.map_congr_left
  intro i _
  rw [count_allEvents_lines _ _ (originEvents_closed b color i)]
  congr 1
  apply List.map_congr_left
  intro j _
  exact originEvents_count b color _ i j

/-- C31, what the code does: a walk of `checkDiagStreak` adds one streak for each maximal
run of exactly `streak` colour cells among the cells it visits, the last one closed by
the statement after the loop, so `streak` times what a walk adds is at most the number
of colour cells the walk visits; and `checkDiagStreak(colour, streak)` is the sum, over
the origin cells holding the colour, of what the two walks add. -/
theorem checkDiagStreak_sum_of_walks (b : Board) (color : SlotStatus) (streak : Int) :
    b.checkDiagStreak color streak
      = ((List.range b.height).map (fun i =>
          ((List.range b.width).map (fun j =>
            if b.cell (b.width * i + j) = color then
              b.walkUpCount color (toUInt32 streak) i j
                + b.walkDownCount color (toUInt32 streak) i j
            else 0)).sum)).sum ∧
    ∀ i j,
      toUInt32 streak * b.walkUpCount color (toUInt32 streak) i j
        ≤ (upEvents b color i j).count true ∧
      toUInt32 streak * b.walkDownCount color (toUInt32 streak) i j
        ≤ (downEvents b color i j).count true := by
  refine ⟨checkDiagStreak_eq_sum b color streak, ?_⟩
  intro i j
  rw [walkUpCount_eq, walkDownCount_eq]
  exact ⟨closed_walk_bound _ _, closed_walk_bound _ _⟩

/-- C31, counterexample: on the 7x7 board `diagStepsBoard` Red holds the four cells 0, 16,
32, 48 of one diagonal, separated by `Empty` cells.  For `streak = 1` the first walk from
the origin `(0, 0)` adds 3 and the second walk from `(6, 6)` adds 3, and
`checkDiagStreak(Red, 1)` is 12, more than twice the number of Red cells. -/
theorem checkDiagStreak_walk_adds_three :
    diagStepsBoard.cell 0 = SlotStatus.Red ∧
    diagStepsBoard.walkUpCount SlotStatus.Red 1 0 0 = 3 ∧
    diagStepsBoard.walkDownCount SlotStatus.Red 1 6 6 = 3 ∧
    diagStepsBoard.board.count SlotStatus.Red = 4 ∧
    diagStepsBoard.checkDiagStreak SlotStatus.Red 1 = 12 ∧
    ¬ (diagStepsBoard.checkDiagStreak SlotStatus.Red 1
        ≤ 2 * diagStepsBoard.board.count SlotStatus.Red) := by
  decide

/-! ### Invariants of the states reached by `AddPiece` and `Reset` -/

theorem AddPiece_Filled (b : Board) (hwf : b.WF) (hfl : b.Filled) (player : Player)
    (column : Nat) : (b.AddPiece player column).2.Filled := by
  by_cases h : (b.AddPiece player column).1 = 0
  · obtain ⟨hb, hn, hw, hh, hs, -, -⟩ := AddPiece_fields b player column h
    obtain ⟨h1, h2, h3⟩ := AddPiece_ok b player column h
    intro c r hc hr
    rw [hw] at hc ⊢
    have hlen : column < b.next_row.length := by rw [hwf.2.2.2.2.2.1]; exact h2
    have hmod : (b.nextRow column + 1) % 256 = b.nextRow column + 1 :=
      Nat.mod_eq_of_lt (by have := hwf.2.1; omega)
    have hnr : (b.AddPiece player column).2.nextRow c =
        if column = c then b.nextRow column + 1 else b.nextRow c := by
      rw [nextRow_of_set b _ _ _ hn, hmod]
      by_cases hcc : column = c
      · subst hcc; simp [hlen]
      · simp [hcc]
    rw [hnr] at hr
    have hblen : b.width * b.nextRow column + column < b.board.length := by
      rw [hwf.2.2.2.2.1]; exact rowMajor_lt _ _ _ _ h3 h2
    rw [cell_of_set b _ _ _ hb]
    by_cases he : b.width * b.nextRow column + column = b.width * r + c
    · rw [if_pos ⟨he, hblen⟩]
      split <;> simp
    · rw [if_neg (fun hx => he hx.1)]
      apply hfl c r hc
      by_cases hcc : column = c
      · rw [if_pos hcc] at hr
        subst hcc
        have : r ≠ b.nextRow column := fun e => he (by rw [e])
        omega
      · rw [if_neg hcc] at hr; exact hr
  · rw [AddPiece_refused b player column h]; exact hfl

theorem Filled_create (w h k : Nat) : (create w h k).Filled := by
  intro c r _ hr
  rw [nextRow_create] at hr
  omega

theorem Stacked_create (w h k : Nat) : (create w h k).Stacked :=
  fun _ _ _ _ _ => cell_create w h k _

theorem DropReachable_inv (b : Board) (h : b.DropReachable) :
    b.WF ∧ b.Stacked ∧ b.Filled := by
  induction h with
  | fresh w h k hwf => exact ⟨hwf, Stacked_create w h k, Filled_create w h k⟩
  | afterAddPiece b player column _ ih =>
    exact ⟨AddPiece_WF b ih.1 player column, AddPiece_Stacked b ih.1 ih.2.1 player column,
      AddPiece_Filled b ih.1 ih.2.2 player column⟩
  | afterReset b _ ih =>
    rw [Reset_eq_create b ih.1]
    have hwf : (create b.width b.height b.winningStreakSize).WF := by
      rw [← Reset_eq_create b ih.1]
      obtain ⟨w1, w2, w3, w4, w5, w6, w7⟩ := ih.1
      have e := Reset_eq_create b ih.1
      rw [e]
      refine ⟨w1, w2, w3, w4, ?_, ?_, ?_⟩
      · simp [create]
      · simp [create]
      · intro x hx
        simp only [create, List.mem_replicate] at hx
        rw [hx.2]; exact Nat.zero_le _
    exact ⟨hwf, Stacked_create _ _ _, Filled_create _ _ _⟩

theorem DropReachable_of_AddPieceReachable (b : Board) (h : b.AddPieceReachable) :
    b.DropReachable := by
  induction h with
  | fresh w h k hwf => exact DropReachable.fresh w h k hwf
  | step b player column _ ih => exact DropReachable.afterAddPiece b player column ih

theorem DropReachable_of_GameReachable (b : Board) (h : b.GameReachable) :
    b.DropReachable := by
  induction h with
  | fresh w h k hwf => exact DropReachable.fresh w h k hwf
  | afterAddPiece b player column _ _ ih =>
    exact DropReachable.afterAddPiece b player column ih
  | afterReset b _ ih => exact DropReachable.afterReset b ih

theorem filter_lt_length (n : Nat) : ∀ (h : Nat), n ≤ h →
    ((List.range h).filter (fun r => decide (r < n))).length = n := by
  intro h
  induction h with
  | zero => intro hn; simp; omega
  | succ h ih =>
    intro hn
    rw [List.range_succ, List.filter_append, List.length_append]
    rcases Nat.eq_or_lt_of_le hn with e | e
    · have hall : (List.range h).filter (fun r => decide (r < n)) = List.range h := by
        rw [List.filter_eq_self]
        intro r hr
        rw [List.mem_range] at hr
        simp; omega
      rw [hall, List.length_range]
      have : decide (h < n) = true := by simp; omega
      simp [List.filter_cons, this]; omega
    · rw [ih (by omega)]
      have : decide (h < n) = false := by simp; omega
      simp [List.filter_cons, this]

theorem columnCount_eq_nextRow (b : Board) (hwf : b.WF) (hst : b.Stacked) (hfl : b.Filled)
    (c : Nat) (hc : c < b.width) : b.columnCount c = b.nextRow c := by
  unfold columnCount
  have hf : (List.range b.height).filter
        (fun r => b.cell (b.width * r + c) != SlotStatus.Empty)
      = (List.range b.height).filter (fun r => decide (r < b.nextRow c)) := by
    apply List.filter_congr
    intro r hr
    rw [List.mem_range] at hr
    by_cases h : r < b.nextRow c
    · have := hfl c r hc h
      simp [h, this]
    · have := hst c r hc (by omega) hr
      simp [h, this]
  rw [hf, filter_lt_length _ _ (nextRow_le b hwf c)]

theorem IsFull_iff_columns (b : Board) (hwf : b.WF) (hst : b.Stacked) (hfl : b.Filled) :
    b.IsFull = true ↔ ∀ c, c < b.width → b.nextRow c = b.height := by
  have hmod : (b.width * b.height) % 256 = b.width * b.height :=
    Nat.mod_eq_of_lt (by have := hwf.2.2.2.1; omega)
  rw [IsFull_iff, hmod]
  constructor
  · intro hfull c hc
    by_contra hne
    have hle := nextRow_le b hwf c
    have hlt : b.nextRow c < b.height := by omega
    exact hfull _ (rowMajor_lt _ _ _ _ hlt hc) (hst c _ hc (le_refl _) hlt)
  · intro hall i hi
    have hw : 0 < b.width := by
      rcases Nat.eq_zero_or_pos b.width with h | h
      · rw [h, Nat.zero_mul] at hi; omega
      · exact h
    have hcm : i % b.width < b.width := Nat.mod_lt _ hw
    have hr : i / b.width < b.height := Nat.div_lt_of_lt_mul hi
    have := hfl (i % b.width) (i / b.width) hcm (by rw [hall _ hcm]; exact hr)
    rwa [Nat.div_add_mod] at this

/-- C32, what the code does: in every state reached from a fresh board by `AddPiece` and
`Reset`, `next_row[c]` (the column height) equals the number of non-`Empty` cells of
column `c` for every column `c`, and `IsFull()` holds if and only if every `next_row[c]`
equals `height`. -/
theorem next_row_counts_AddPiece_drops (b : Board) (h : b.DropReachable) :
    (∀ c, c < b.width → b.nextRow c = b.columnCount c) ∧
    (b.IsFull = true ↔ ∀ c, c < b.width → b.nextRow c = b.height) := by
  obtain ⟨hwf, hst, hfl⟩ := DropReachable_inv b h
  exact ⟨fun c hc => (columnCount_eq_nextRow b hwf hst hfl c hc).symm,
    IsFull_iff_columns b hwf hst hfl⟩

/-- C32, instance: the 7x6 board after Red dropped into columns 0 and 0 and Yellow into
column 3. -/
theorem next_row_counts_AddPiece_drops_witness :
    (((((create 7 6 4).AddPiece Player.Red 0).2.AddPiece Player.Yellow 3).2.AddPiece
      Player.Red 0).2).DropReachable ∧
    (((((create 7 6 4).AddPiece Player.Red 0).2.AddPiece Player.Yellow 3).2.AddPiece
      Player.Red 0).2).nextRow 0 = 2 ∧
    (∀ c, c < (((((create 7 6 4).AddPiece Player.Red 0).2.AddPiece Player.Yellow 3).2.AddPiece
        Player.Red 0).2).width →
      (((((create 7 6 4).AddPiece Player.Red 0).2.AddPiece Player.Yellow 3).2.AddPiece
        Player.Red 0).2).nextRow c
      = (((((create 7 6 4).AddPiece Player.Red 0).2.AddPiece Player.Yellow 3).2.AddPiece
        Player.Red 0).2).columnCount c) :=
  ⟨DropReachable.afterAddPiece _ _ _ (DropReachable.afterAddPiece _ _ _
      (DropReachable.afterAddPiece _ _ _ (DropReachable.fresh 7 6 4 (by decide)))),
    by decide,
    (next_row_counts_AddPiece_drops _
      (DropReachable.afterAddPiece _ _ _ (DropReachable.afterAddPiece _ _ _
        (DropReachable.afterAddPiece _ _ _ (DropReachable.fresh 7 6 4 (by decide)))))).1⟩

/-- C32, counterexample: `playMove(1, Red)` on the fresh 7x6 board returns 0 and fills
cell 35 of column 0, but `next_row[0]` stays 0 while column 0 now holds one piece; and
`solve` for Red at depth 0 on the fresh 7x6 board fills cell 41 of column 6 and returns 6,
with `next_row[6]` still 0. -/
theorem playMove_leaves_next_row :
    ((create 7 6 4).playMove (fun _ => SlotStatus.Empty) 1 Player.Red).1 = 0 ∧
    ((create 7 6 4).playMove (fun _ => SlotStatus.Empty) 1 Player.Red).2.cell 35
      = SlotStatus.Red ∧
    ((create 7 6 4).playMove (fun _ => SlotStatus.Empty) 1 Player.Red).2.nextRow 0 = 0 ∧
    ((create 7 6 4).playMove (fun _ => SlotStatus.Empty) 1 Player.Red).2.columnCount 0 = 1 ∧
    solve 42 0 freshSolver Player.Red 0 (-1) = Outcome.returned (6, freshSolved) ∧
    freshSolved._boardSeq.cell 41 = SlotStatus.Red ∧
    freshSolved._boardSeq.nextRow 6 = 0 ∧
    freshSolved._boardSeq.columnCount 6 = 1 :=
  ⟨by decide, by decide, by decide, by decide, solve_fresh_depth_zero, by decide, by decide,
    by decide⟩

/-! ### `isLegalMove` on the states reached by `AddPiece` -/

theorem isLegalMove_stacked_iff (b : Board) (hst : b.Stacked) (hfl : b.Filled)
    (i : Nat) (hi : i < b.width * b.height) :
    (b.isLegalMove i = true ↔
      ∃ c, c < b.width ∧ b.nextRow c < b.height ∧ i = b.width * (b.height - 1) + c) := by
  have hw : 0 < b.width := by
    rcases Nat.eq_zero_or_pos b.width with h | h
    · rw [h, Nat.zero_mul] at hi; omega
    · exact h
  have hc : i % b.width < b.width := Nat.mod_lt _ hw
  have hr : i / b.width < b.height := Nat.div_lt_of_lt_mul hi
  have hi2 : b.width * (i / b.width) + i % b.width = i := Nat.div_add_mod i b.width
  rw [isLegalMove_spec]
  constructor
  · rintro ⟨hE, hbelow⟩
    have hnr : b.nextRow (i % b.width) ≤ i / b.width := by
      by_contra hlt
      have := hfl (i % b.width) (i / b.width) hc (by omega)
      rw [hi2] at this
      exact this hE
    rcases hbelow with hlast | hne
    · refine ⟨i % b.width, hc, by omega, ?_⟩
      have : b.height - 1 = i / b.width := by omega
      rw [this, hi2]
    · by_cases hlast : i / b.width + 1 = b.height
      · refine ⟨i % b.width, hc, by omega, ?_⟩
        have : b.height - 1 = i / b.width := by omega
        rw [this, hi2]
      · exfalso
        have e : i + b.width = b.width * (i / b.width + 1) + i % b.width := by
          rw [Nat.mul_add, Nat.mul_one]; omega
        apply hne
        rw [e]
        exact hst (i % b.width) (i / b.width + 1) hc (by omega) (by omega)
  · rintro ⟨c, hcw, hn, rfl⟩
    have hd : (b.width * (b.height - 1) + c) / b.width = b.height - 1 :=
      rowMajor_div _ _ _ hcw
    refine ⟨hst c (b.height - 1) hcw (by omega) (by omega), Or.inl ?_⟩
    rw [hd]; omega

/-- C35, what the code does: in every state reached from a fresh board by `AddPiece`,
`isLegalMove(i)` is true exactly for the cells `i = width*(height-1) + c` of the columns
`c` that are not full (`next_row[c] < height`), whereas the next `AddPiece` into such a
column fills the cell `width*next_row[c] + c`; `isLegalMove` accepts that cell only when
`next_row[c] = height - 1`. -/
theorem isLegalMove_last_row_of_open_columns (b : Board) (h : b.AddPieceReachable) :
    (∀ i, i < b.width * b.height →
      (b.isLegalMove i = true ↔
        ∃ c, c < b.width ∧ b.nextRow c < b.height ∧ i = b.width * (b.height - 1) + c)) ∧
    (∀ c player, (b.AddPiece player c).1 = 0 →
      (b.AddPiece player c).2.board
        = b.board.set (b.width * b.nextRow c + c)
            (if player = Player.Red then SlotStatus.Red else SlotStatus.Yellow) ∧
      (b.isLegalMove (b.width * b.nextRow c + c) = true ↔ b.nextRow c + 1 = b.height)) := by
  obtain ⟨-, hst, hfl⟩ := DropReachable_inv b (DropReachable_of_AddPieceReachable b h)
  refine ⟨fun i hi => isLegalMove_stacked_iff b hst hfl i hi, ?_⟩
  intro c player hok
  obtain ⟨-, hc, hn⟩ := AddPiece_ok b player c hok
  refine ⟨(AddPiece_fields b player c hok).1, ?_⟩
  rw [isLegalMove_stacked_iff b hst hfl _ (rowMajor_lt _ _ _ _ hn hc)]
  constructor
  · rintro ⟨c2, hc2, -, he⟩
    have := (rowMajor_inj _ _ _ _ _ hc hc2 he).1
    omega
  · intro he
    refine ⟨c, hc, hn, ?_⟩
    have : b.height - 1 = b.nextRow c := by omega
    rw [this]

/-- C35, instance: the 7x6 board after one Red drop into column 2, where `isLegalMove`
accepts the cells 35 .. 41 of row 5 and no other. -/
theorem isLegalMove_last_row_of_open_columns_witness :
    ((create 7 6 4).AddPiece Player.Red 2).2.AddPieceReachable ∧
    ((create 7 6 4).AddPiece Player.Red 2).2.legalCells = [35, 36, 37, 38, 39, 40, 41] ∧
    (∀ i, i < ((create 7 6 4).AddPiece Player.Red 2).2.width
          * ((create 7 6 4).AddPiece Player.Red 2).2.height →
      (((create 7 6 4).AddPiece Player.Red 2).2.isLegalMove i = true ↔
        ∃ c, c < ((create 7 6 4).AddPiece Player.Red 2).2.width ∧
          ((create 7 6 4).AddPiece Player.Red 2).2.nextRow c
            < ((create 7 6 4).AddPiece Player.Red 2).2.height ∧
          i = ((create 7 6 4).AddPiece Player.Red 2).2.width
            * (((create 7 6 4).AddPiece Player.Red 2).2.height - 1) + c)) :=
  ⟨AddPieceReachable.step _ _ _ (AddPieceReachable.fresh 7 6 4 (by decide)), by decide,
    (isLegalMove_last_row_of_open_columns _
      (AddPieceReachable.step _ _ _ (AddPieceReachable.fresh 7 6 4 (by decide)))).1⟩

/-- C35, counterexample: on the fresh 7x6 board column 0 is not full and the next
`AddPiece` into it fills cell `7*next_row[0] + 0 = 0`, yet `isLegalMove(0)` is false; and
`isLegalMove(35)` is true although no `AddPiece` call fills cell 35 next. -/
theorem isLegalMove_disagrees_with_AddPiece :
    (create 7 6 4).AddPieceReachable ∧
    (create 7 6 4).nextRow 0 = 0 ∧
    ((create 7 6 4).AddPiece Player.Red 0).1 = 0 ∧
    ((create 7 6 4).AddPiece Player.Red 0).2.cell 0 = SlotStatus.Red ∧
    (create 7 6 4).isLegalMove 0 = false ∧
    (create 7 6 4).isLegalMove 35 = true ∧
    (∀ c, c < 7 → 7 * (create 7 6 4).nextRow c + c ≠ 35) :=
  ⟨AddPieceReachable.fresh 7 6 4 (by decide), by decide, by decide, by decide, by decide,
    by decide, by decide⟩

/-! ### The win predicate only looks at the cells of the player's colour -/

theorem streakLoop_slot_congr (b c : Board) (slot : SlotStatus) (idx : Nat → Nat)
    (h4 : b.winningStreakSize = c.winningStreakSize)
    (hcells : ∀ i, b.cell i = slot ↔ c.cell i = slot) :
    ∀ (l : List Nat) (rv : Bool),
      streakLoop b slot idx l rv = streakLoop c slot idx l rv := by
  intro l
  induction l with
  | nil => intro rv; rfl
  | cons i rest ih =>
    intro rv
    simp only [streakLoop, h4]
    by_cases hb : b.cell (idx i) = slot
    · have hc := (hcells _).mp hb
      simp only [hb, hc, and_true, ne_eq, not_true_eq_false, if_false]
      exact ih _
    · have hc : ¬ (c.cell (idx i) = slot) := fun h => hb ((hcells _).mpr h)
      simp only [hb, hc, and_false, if_false, ne_eq, not_false_eq_true, if_true]

theorem winnerCell_slot_congr (b c : Board) (slot : SlotStatus) (r k : Nat) (rv : Bool)
    (h2 : b.width = c.width) (h3 : b.height = c.height)
    (h4 : b.winningStreakSize = c.winningStreakSize)
    (hcells : ∀ i, b.cell i = slot ↔ c.cell i = slot) :
    winnerCell b slot r k rv = winnerCell c slot r k rv := by
  simp only [winnerCell, h2, h3, h4]
  by_cases hb : b.cell (c.width * r + k) = slot
  · have hc := (hcells _).mp hb
    simp only [hb, hc, if_true, streakLoop_slot_congr b c slot _ h4 hcells]
  · have hc : ¬ (c.cell (c.width * r + k) = slot) := fun h => hb ((hcells _).mpr h)
    simp only [hb, hc, if_false]

theorem determineIfPlayerIsWinner_slot_congr (b c : Board) (p : Player)
    (h2 : b.width = c.width) (h3 : b.height = c.height)
    (h4 : b.winningStreakSize = c.winningStreakSize)
    (hcells : ∀ i, b.cell i = (if p = Player.Red then SlotStatus.Red else SlotStatus.Yellow)
      ↔ c.cell i = (if p = Player.Red then SlotStatus.Red else SlotStatus.Yellow)) :
    b.determineIfPlayerIsWinner p = c.determineIfPlayerIsWinner p := by
  simp only [determineIfPlayerIsWinner, h2, h3,
    winnerCell_slot_congr b c _ _ _ _ h2 h3 h4 hcells]

theorem foldl_fixed {α β : Type} (f : β → α → β) (init : β) (hf : ∀ x, f init x = init) :
    ∀ (l : List α), l.foldl f init = init := by
  intro l
  induction l with
  | nil => rfl
  | cons x l ih => rw [List.foldl_cons, hf, ih]

theorem determineIfPlayerIsWinner_create (w h k : Nat) (p : Player) :
    (create w h k).determineIfPlayerIsWinner p = false := by
  unfold determineIfPlayerIsWinner
  by_cases hp : p = Player.None
  · rw [if_pos hp]
  · rw [if_neg hp]
    apply foldl_fixed
    intro r
    apply foldl_fixed
    intro c
    unfold winnerCell
    have : ¬ ((create w h k).cell ((create w h k).width * r + c)
        = (if p = Player.Red then SlotStatus.Red else SlotStatus.Yellow)) := by
      rw [cell_create]; split <;> simp
    simp only [this, if_false]

theorem AddPiece_cell (b : Board) (hwf : b.WF) (player : Player) (column : Nat)
    (hok : (b.AddPiece player column).1 = 0) (j : Nat) :
    (b.AddPiece player column).2.cell j
      = if b.width * b.nextRow column + column = j then
          (if player = Player.Red then SlotStatus.Red else SlotStatus.Yellow)
        else b.cell j := by
  obtain ⟨-, hc, hn⟩ := AddPiece_ok b player column hok
  have hlt : b.width * b.nextRow column + column < b.board.length := by
    rw [hwf.2.2.2.2.1]; exact rowMajor_lt _ _ _ _ hn hc
  rw [cell_of_set b _ _ _ (AddPiece_fields b player column hok).1]
  by_cases he : b.width * b.nextRow column + column = j
  · rw [if_pos ⟨he, hlt⟩, if_pos he]
  · rw [if_neg (fun hx => he hx.1), if_neg he]

theorem AddPiece_target_empty (b : Board) (hst : b.Stacked) (player : Player) (column : Nat)
    (hok : (b.AddPiece player column).1 = 0) :
    b.cell (b.width * b.nextRow column + column) = SlotStatus.Empty := by
  obtain ⟨-, hc, hn⟩ := AddPiece_ok b player column hok
  exact hst column _ hc (le_refl _) hn

theorem AddPiece_other_player (b : Board) (hwf : b.WF) (hst : b.Stacked) (player : Player)
    (column : Nat) (q : Player) (hq : q ≠ placedBy player) :
    (b.AddPiece player column).2.determineIfPlayerIsWinner q
      = b.determineIfPlayerIsWinner q := by
  by_cases hok : (b.AddPiece player column).1 = 0
  · by_cases hn : q = Player.None
    · subst hn; simp [determineIfPlayerIsWinner]
    · obtain ⟨-, -, hw, hh, hs, -, -⟩ := AddPiece_fields b player column hok
      apply determineIfPlayerIsWinner_slot_congr _ _ _ hw hh hs
      intro i
      rw [AddPiece_cell b hwf player column hok i]
      by_cases he : b.width * b.nextRow column + column = i
      · rw [if_pos he, ← he, AddPiece_target_empty b hst player column hok]
        unfold placedBy at hq
        cases q <;> cases player <;> simp at hq hn ⊢
      · rw [if_neg he]
  · rw [AddPiece_refused b player column hok]

/-! ### The winner and game-over flags after `AddPiece` and `Reset` -/

theorem IsFull_create_false (w h k : Nat) (hwf : (create w h k).WF) (hw : 0 < w) (hh : 0 < h) :
    (create w h k).IsFull = false := by
  have hne : ¬ ((create w h k).IsFull = true) := by
    rw [IsFull_iff]
    intro hall
    have h255 : w * h ≤ 255 := hwf.2.2.2.1
    have hpos : 0 < w * h := Nat.mul_pos hw hh
    have : (create w h k).width * (create w h k).height = w * h := rfl
    exact hall 0 (by rw [this, Nat.mod_eq_of_lt (by omega)]; exact hpos) (cell_create w h k 0)
  simpa using hne

theorem GameReachable_flags (b : Board) (h : b.GameReachable) :
    0 < b.width → 0 < b.height →
    b.determineIfPlayerIsWinner Player.Red = decide (b.winner = Player.Red) ∧
    b.determineIfPlayerIsWinner Player.Yellow = decide (b.winner = Player.Yellow) ∧
    b.isGameOver = (b.IsFull || decide (b.winner ≠ Player.None)) := by
  induction h with
  | fresh w h k hwf =>
    intro hw hh
    rw [determineIfPlayerIsWinner_create, determineIfPlayerIsWinner_create,
      IsFull_create_false w h k hwf hw hh]
    exact ⟨rfl, rfl, rfl⟩
  | afterReset b hb _ =>
    intro hw hh
    have hwf := (DropReachable_inv b (DropReachable_of_GameReachable b hb)).1
    have hw2 : 0 < b.width := hw
    have hh2 : 0 < b.height := hh
    have hwfc : (create b.width b.height b.winningStreakSize).WF := by
      have := (DropReachable_inv _ (DropReachable.afterReset b
        (DropReachable_of_GameReachable b hb))).1
      rwa [Reset_eq_create b hwf] at this
    rw [Reset_eq_create b hwf, determineIfPlayerIsWinner_create,
      determineIfPlayerIsWinner_create, IsFull_create_false _ _ _ hwfc hw2 hh2]
    exact ⟨rfl, rfl, rfl⟩
  | afterAddPiece b player column hb hp ih =>
    intro hw hh
    obtain ⟨hwf, hst, -⟩ := DropReachable_inv b (DropReachable_of_GameReachable b hb)
    by_cases hok : (b.AddPiece player column).1 = 0
    · obtain ⟨-, -, hw1, hh1, -, hwin, hover⟩ := AddPiece_fields b player column hok
      rw [hw1] at hw
      rw [hh1] at hh
      obtain ⟨i1, i2, i3⟩ := ih hw hh
      obtain ⟨hgo, -, -⟩ := AddPiece_ok b player column hok
      rw [hgo] at i3
      have hnone : b.winner = Player.None := by
        have : (b.IsFull || decide (b.winner ≠ Player.None)) = false := i3.symm
        rw [Bool.or_eq_false_iff] at this
        simpa using this.2
      rw [hnone] at i1 i2 hwin
      rcases hp with rfl | rfl
      · have hy := AddPiece_other_player b hwf hst Player.Red column Player.Yellow
          (by decide)
        rw [i2] at hy
        rw [hover, hwin, hy]
        cases hd : (b.AddPiece Player.Red column).2.determineIfPlayerIsWinner Player.Red <;>
          simp
      · have hr := AddPiece_other_player b hwf hst Player.Yellow column Player.Red
          (by decide)
        rw [i1] at hr
        rw [hover, hwin, hr]
        cases hd : (b.AddPiece Player.Yellow column).2.determineIfPlayerIsWinner
          Player.Yellow <;> simp
    · rw [AddPiece_refused b player column hok] at hw hh ⊢
      exact ih hw hh

theorem DetermineWinner_of_flags (b : Board)
    (h1 : b.determineIfPlayerIsWinner Player.Red = decide (b.winner = Player.Red))
    (h2 : b.determineIfPlayerIsWinner Player.Yellow = decide (b.winner = Player.Yellow)) :
    b.DetermineWinner = b.winner := by
  unfold DetermineWinner
  rw [h1, h2]
  cases b.winner <;> simp

/-- C33, what the code does: in every state reached from a fresh board with at least one
cell (`width ≥ 1`, `height ≥ 1`) by `AddPiece` with player Red or Yellow and by `Reset`,
at most one of the two players satisfies the win predicate, `Winner()` equals
`DetermineWinner()`, and `IsGameOver()` holds if and only if the board is full or
`Winner()` is not `None`. -/
theorem winner_and_game_over_flags (b : Board) (h : b.GameReachable) (hw : 0 < b.width)
    (hh : 0 < b.height) :
    ¬ (b.determineIfPlayerIsWinner Player.Red = true ∧
        b.determineIfPlayerIsWinner Player.Yellow = true) ∧
    b.winner = b.DetermineWinner ∧
    (b.isGameOver = true ↔ b.IsFull = true ∨ b.winner ≠ Player.None) := by
  obtain ⟨h1, h2, h3⟩ := GameReachable_flags b h hw hh
  refine ⟨?_, (DetermineWinner_of_flags b h1 h2).symm, ?_⟩
  · rw [h1, h2]
    cases b.winner <;> simp
  · rw [h3]
    simp

theorem GameReachable_addPieces :
    ∀ (moves : List (Player × Nat)) (b : Board), b.GameReachable →
      (∀ m ∈ moves, m.1 = Player.Red ∨ m.1 = Player.Yellow) →
      (b.addPieces moves).GameReachable := by
  intro moves
  induction moves with
  | nil => intro b hb _; exact hb
  | cons m rest ih =>
    intro b hb hp
    exact ih _ (GameReachable.afterAddPiece b m.1 m.2 hb (hp m (List.mem_cons_self _ _)))
      (fun x hx => hp x (List.mem_cons_of_mem _ hx))

/-- C33, instance: the board `redRowGame`, on which Red completed a run of four in row 0
with the seventh drop. -/
theorem winner_and_game_over_flags_witness :
    redRowGame.GameReachable ∧ (0 < redRowGame.width ∧ 0 < redRowGame.height) ∧
    redRowGame.winner = Player.Red ∧ redRowGame.IsFull = false ∧
    (¬ (redRowGame.determineIfPlayerIsWinner Player.Red = true ∧
        redRowGame.determineIfPlayerIsWinner Player.Yellow = true) ∧
      redRowGame.winner = redRowGame.DetermineWinner ∧
      (redRowGame.isGameOver = true ↔
        redRowGame.IsFull = true ∨ redRowGame.winner ≠ Player.None)) :=
  ⟨GameReachable_addPieces _ _ (GameReachable.fresh 7 6 4 (by decide)) (by decide),
    ⟨by decide, by decide⟩, by decide, by decide,
    winner_and_game_over_flags redRowGame
      (GameReachable_addPieces _ _ (GameReachable.fresh 7 6 4 (by decide)) (by decide))
      (by decide) (by decide)⟩

/-- C33, counterexample: the fresh board of width 7 and height 0 has no cell, so
`IsFull()` is true, while `IsGameOver()` is false and `Winner()` is `None`. -/
theorem fresh_board_without_cells_not_over :
    (create 7 0 4).GameReachable ∧
    (create 7 0 4).IsFull = true ∧
    (create 7 0 4).winner = Player.None ∧
    (create 7 0 4).isGameOver = false :=
  ⟨GameReachable.fresh 7 0 4 (by decide), by decide, by decide, by decide⟩

/-! ### Sequences of `AddPiece` calls -/

theorem pieceCount_add_emptyCount (b : Board) :
    b.pieceCount + b.emptyCount = b.board.length := by
  unfold pieceCount emptyCount
  induction b.board with
  | nil => rfl
  | cons x l ih =>
    cases x <;> simp [List.filter_cons, List.count_cons] at ih ⊢ <;> omega

theorem AddPieceReachable_addPieces :
    ∀ (moves : List (Player × Nat)) (b : Board), b.AddPieceReachable →
      (b.addPieces moves).AddPieceReachable := by
  intro moves
  induction moves with
  | nil => intro b hb; exact hb
  | cons m rest ih =>
    intro b hb
    exact ih _ (AddPieceReachable.step b m.1 m.2 hb)

theorem AddPiece_pieceCount (b : Board) (hwf : b.WF) (hst : b.Stacked) (player : Player)
    (column : Nat) :
    (b.AddPiece player column).2.pieceCount
      = b.pieceCount + (if (b.AddPiece player column).1 = 0 then 1 else 0) := by
  by_cases hok : (b.AddPiece player column).1 = 0
  · rw [if_pos hok]
    obtain ⟨-, hc, hn⟩ := AddPiece_ok b player column hok
    have hlt : b.width * b.nextRow column + column < b.board.length := by
      rw [hwf.2.2.2.2.1]; exact rowMajor_lt _ _ _ _ hn hc
    have hE := AddPiece_target_empty b hst player column hok
    have hb := (AddPiece_fields b player column hok).1
    have hcol : (if player = Player.Red then SlotStatus.Red else SlotStatus.Yellow)
        ≠ SlotStatus.Empty := by split <;> simp
    have h1 := emptyCount_writeCell b _ _ hE hlt hcol
    have h2 : (b.AddPiece player column).2.emptyCount
        = (b.playMoveIndex (b.width * b.nextRow column + column)
            (if player = Player.Red then SlotStatus.Red else SlotStatus.Yellow)).emptyCount := by
      unfold emptyCount
      rw [hb]; rfl
    have h3 := pieceCount_add_emptyCount (b.AddPiece player column).2
    have h4 := pieceCount_add_emptyCount b
    have h5 : (b.AddPiece player column).2.board.length = b.board.length := by
      rw [hb, List.length_set]
    omega
  · rw [if_neg hok, AddPiece_refused b player column hok]; rfl

theorem addPieces_pieceCount :
    ∀ (moves : List (Player × Nat)) (b : Board), b.AddPieceReachable →
      (b.addPieces moves).pieceCount = b.pieceCount + b.successCount moves := by
  intro moves
  induction moves with
  | nil => intro b _; rfl
  | cons m rest ih =>
    intro b hb
    obtain ⟨hwf, hst⟩ := AddPieceReachable_inv b hb
    simp only [addPieces, successCount]
    rw [ih _ (AddPieceReachable.step b m.1 m.2 hb), AddPiece_pieceCount b hwf hst]
    omega

theorem AddPiece_keeps_pieces (b : Board) (hwf : b.WF) (hst : b.Stacked) (player : Player)
    (column : Nat) (i : Nat) (hi : b.cell i ≠ SlotStatus.Empty) :
    (b.AddPiece player column).2.cell i = b.cell i := by
  by_cases hok : (b.AddPiece player column).1 = 0
  · rw [AddPiece_cell b hwf player column hok i]
    by_cases he : b.width * b.nextRow column + column = i
    · exact absurd (he ▸ AddPiece_target_empty b hst player column hok) hi
    · rw [if_neg he]
  · rw [AddPiece_refused b player column hok]

theorem AddPiece_full_over (b : Board) (hinv : b.IsFull = true → b.isGameOver = true)
    (player : Player) (column : Nat) :
    (b.AddPiece player column).2.IsFull = true →
      (b.AddPiece player column).2.isGameOver = true := by
  by_cases hok : (b.AddPiece player column).1 = 0
  · intro hfull
    rw [(AddPiece_fields b player column hok).2.2.2.2.2.2, hfull]
    rfl
  · rw [AddPiece_refused b player column hok]; exact hinv

theorem addPieces_full_over :
    ∀ (moves : List (Player × Nat)) (b : Board),
      (b.IsFull = true → b.isGameOver = true) →
      (b.addPieces moves).IsFull = true → (b.addPieces moves).isGameOver = true := by
  intro moves
  induction moves with
  | nil => intro b hb; exact hb
  | cons m rest ih =>
    intro b hb
    exact ih _ (AddPiece_full_over b hb m.1 m.2)

theorem addPieces_no_winner :
    ∀ (moves : List (Player × Nat)) (b : Board), b.AddPieceReachable →
      b.determineIfPlayerIsWinner Player.Red = false →
      b.determineIfPlayerIsWinner Player.Yellow = false →
      b.noRunCompleted moves = true →
      (b.addPieces moves).determineIfPlayerIsWinner Player.Red = false ∧
      (b.addPieces moves).determineIfPlayerIsWinner Player.Yellow = false := by
  intro moves
  induction moves with
  | nil => intro b _ h1 h2 _; exact ⟨h1, h2⟩
  | cons m rest ih =>
    intro b hb h1 h2 hno
    obtain ⟨hwf, hst⟩ := AddPieceReachable_inv b hb
    simp only [noRunCompleted, Bool.and_eq_true, Bool.or_eq_true, decide_eq_true_eq,
      Bool.not_eq_true'] at hno
    obtain ⟨hstep, hrest⟩ := hno
    have hnew : (b.AddPiece m.1 m.2).2.determineIfPlayerIsWinner Player.Red = false ∧
        (b.AddPiece m.1 m.2).2.determineIfPlayerIsWinner Player.Yellow = false := by
      rcases hstep with hrefused | hnone
      · rw [AddPiece_refused b m.1 m.2 hrefused]; exact ⟨h1, h2⟩
      · by_cases hp : placedBy m.1 = Player.Red
        · rw [hp] at hnone
          refine ⟨hnone, ?_⟩
          rw [AddPiece_other_player b hwf hst m.1 m.2 Player.Yellow (by rw [hp]; decide)]
          exact h2
        · have hy : placedBy m.1 = Player.Yellow := by
            unfold placedBy at hp ⊢
            by_cases hm : m.1 = Player.Red
            · rw [if_pos hm] at hp; exact absurd rfl hp
            · rw [if_neg hm]
          rw [hy] at hnone
          refine ⟨?_, hnone⟩
          rw [AddPiece_other_player b hwf hst m.1 m.2 Player.Red (by rw [hy]; decide)]
          exact h1
    exact ih _ (AddPieceReachable.step b m.1 m.2 hb) hnew.1 hnew.2 hrest

theorem pieceCount_create (w h k : Nat) : (create w h k).pieceCount = 0 := by
  simp [pieceCount, create]

/-- C34, what the code does: starting from a fresh board, after any sequence of `AddPiece`
calls the number of non-`Empty` cells equals the number of calls that returned 0, and no
call changes a non-`Empty` cell; once `width*height` calls have succeeded `IsFull()` is
true and, on a board with at least one cell, `IsGameOver()` is true; and
`DetermineWinner()` is `None` if no successful call completed a winning run of the colour
it placed. -/
theorem AddPiece_sequence_counts (w h k : Nat) (hwf : (create w h k).WF)
    (moves : List (Player × Nat)) :
    ((create w h k).addPieces moves).pieceCount = (create w h k).successCount moves ∧
    (∀ pre m post, moves = pre ++ m :: post → ∀ i,
      ((create w h k).addPieces pre).cell i ≠ SlotStatus.Empty →
      (((create w h k).addPieces pre).AddPiece m.1 m.2).2.cell i
        = ((create w h k).addPieces pre).cell i) ∧
    ((create w h k).successCount moves = w * h →
      ((create w h k).addPieces moves).IsFull = true ∧
      (0 < w * h → ((create w h k).addPieces moves).isGameOver = true)) ∧
    ((create w h k).noRunCompleted moves = true →
      ((create w h k).addPieces moves).DetermineWinner = Player.None) := by
  have hfresh := AddPieceReachable.fresh w h k hwf
  have hcount : ((create w h k).addPieces moves).pieceCount
      = (create w h k).successCount moves := by
    rw [addPieces_pieceCount moves _ hfresh, pieceCount_create, Nat.zero_add]
  refine ⟨hcount, ?_, ?_, ?_⟩
  · intro pre m post _ i hi
    obtain ⟨hwf1, hst1⟩ := AddPieceReachable_inv _ (AddPieceReachable_addPieces pre _ hfresh)
    exact AddPiece_keeps_pieces _ hwf1 hst1 m.1 m.2 i hi
  · intro hall
    obtain ⟨hwf1, -⟩ := AddPieceReachable_inv _ (AddPieceReachable_addPieces moves _ hfresh)
    have hlen := hwf1.2.2.2.2.1
    have hdim : ((create w h k).addPieces moves).board.length = w * h := by
      have h1 := pieceCount_add_emptyCount ((create w h k).addPieces moves)
      have h2 : ((create w h k).addPieces moves).emptyCount
          ≤ ((create w h k).addPieces moves).board.length := by omega
      have h3 : ((create w h k).addPieces moves).pieceCount
          ≤ ((create w h k).addPieces moves).board.length := by omega
      have h4 : ((create w h k).addPieces moves).board.length ≤ w * h := by
        have hb : ((create w h k).addPieces moves).board.length
            ≤ (create w h k).board.length := by
          clear hcount hall h1 h2 h3 hlen hwf1
          have key : ∀ (ms : List (Player × Nat)) (b : Board), b.WF →
              (b.addPieces ms).board.length = b.board.length := by
            intro ms
            induction ms with
            | nil => intro b _; rfl
            | cons m rest ih =>
              intro b hb
              simp only [addPieces]
              rw [ih _ (AddPiece_WF b hb m.1 m.2)]
              by_cases hok : (b.AddPiece m.1 m.2).1 = 0
              · rw [(AddPiece_fields b m.1 m.2 hok).1, List.length_set]
              · rw [AddPiece_refused b m.1 m.2 hok]
          rw [key moves _ hwf]
        have : (create w h k).board.length = w * h := by simp [create]
        omega
      omega
    have hfull : ((create w h k).addPieces moves).IsFull = true := by
      apply emptyCount_zero_IsFull _ hlen
      have h1 := pieceCount_add_emptyCount ((create w h k).addPieces moves)
      omega
    refine ⟨hfull, ?_⟩
    intro hpos
    apply addPieces_full_over moves (create w h k) _ hfull
    intro hf
    have hw : 0 < w := Nat.pos_of_mul_pos_right hpos
    have hh : 0 < h := Nat.pos_of_mul_pos_left hpos
    rw [IsFull_create_false w h k hwf hw hh] at hf
    exact absurd hf (by decide)
  · intro hno
    obtain ⟨h1, h2⟩ := addPieces_no_winner moves _ hfresh
      (determineIfPlayerIsWinner_create w h k _) (determineIfPlayerIsWinner_create w h k _) hno
    unfold DetermineWinner
    rw [h1, h2]
    rfl

theorem drawMoves_all_succeed : (create 7 6 4).successCount drawMoves = 7 * 6 := by
  set_option maxRecDepth 100000 in decide

theorem drawMoves_no_run : (create 7 6 4).noRunCompleted drawMoves = true := by
  set_option maxRecDepth 100000 in decide

/-- C34, instance: the forty-two alternating drops `drawMoves` on the 7x6 board all
succeed and form no run of four; the board is then full, the game over, and there is no
winner. -/
theorem AddPiece_sequence_counts_witness :
    (create 7 6 4).WF ∧
    (create 7 6 4).successCount drawMoves = 7 * 6 ∧
    (create 7 6 4).noRunCompleted drawMoves = true ∧
    ((create 7 6 4).addPieces drawMoves).pieceCount = (create 7 6 4).successCount drawMoves ∧
    ((create 7 6 4).addPieces drawMoves).IsFull = true ∧
    ((create 7 6 4).addPieces drawMoves).isGameOver = true ∧
    ((create 7 6 4).addPieces drawMoves).DetermineWinner = Player.None :=
  ⟨by decide, drawMoves_all_succeed, drawMoves_no_run,
    (AddPiece_sequence_counts 7 6 4 (by decide) drawMoves).1,
    ((AddPiece_sequence_counts 7 6 4 (by decide) drawMoves).2.2.1 drawMoves_all_succeed).1,
    ((AddPiece_sequence_counts 7 6 4 (by decide) drawMoves).2.2.1 drawMoves_all_succeed).2
      (by decide),
    (AddPiece_sequence_counts 7 6 4 (by decide) drawMoves).2.2.2 drawMoves_no_run⟩

/-- C34, counterexample: on the fresh board of width 7 and height 0 the `width*height = 0`
successful calls have been made from the start, and a call `AddPiece(Red, 0)` is refused;
`IsFull()` is true but `IsGameOver()` is false. -/
theorem no_cells_full_but_not_over :
    (create 7 0 4).WF ∧
    (create 7 0 4).successCount [(Player.Red, 0)] = 7 * 0 ∧
    ((create 7 0 4).addPieces [(Player.Red, 0)]).IsFull = true ∧
    ((create 7 0 4).addPieces [(Player.Red, 0)]).isGameOver = false := by
  decide

/-! ### Every read of `determineIfPlayerIsWinner` stays in its line of the grid -/

theorem loopReads_prefix (oob : Int → SlotStatus) (b : Board) (slot : SlotStatus)
    (idx : Nat → Int) :
    ∀ (m s : Nat), ∃ n, n ≤ m ∧
      loopReads oob b slot idx (List.range' s m) = (List.range' s n).map idx := by
  intro m
  induction m with
  | zero => intro s; exact ⟨0, le_refl _, rfl⟩
  | succ m ih =>
    intro s
    rw [List.range'_succ]
    simp only [loopReads]
    by_cases hne : b.cellAt oob (idx s) ≠ slot
    · rw [if_pos hne]
      exact ⟨1, by omega, rfl⟩
    · rw [if_neg hne]
      obtain ⟨n, hn, he⟩ := ih (s + 1)
      refine ⟨n + 1, by omega, ?_⟩
      rw [he, List.range'_succ, List.map_cons]

theorem index_in_grid (w h r c : Nat) (hr : r < h) (hc : c < w) :
    (0 : Int) ≤ (w : Int) * (r : Int) + (c : Int) ∧
      (w : Int) * (r : Int) + (c : Int) < (w : Int) * (h : Int) := by
  have := rowMajor_lt w h r c hr hc
  constructor
  · positivity
  · exact_mod_cast this

theorem horzReads_row (oob : Int → SlotStatus) (b : Board) (slot : SlotStatus) (r c : Nat)
    (hc : c < b.width) :
    ∃ n, c + n < b.width ∧
      b.horzReads oob slot r c
        = (List.range' 1 n).map
            (fun (i : Nat) => (b.width : Int) * (r : Int) + ((c + i : Nat) : Int)) := by
  unfold horzReads
  by_cases h1 : b.cellAt oob ((b.width : Int) * (r : Int) + (c : Int)) = slot
  · rw [if_pos h1]
    by_cases h2 : (c : Int) ≤ (b.width : Int) - (b.winningStreakSize : Int)
    · rw [if_pos h2]
      obtain ⟨n, hn, he⟩ := loopReads_prefix oob b slot
        (fun (i : Nat) => (b.width : Int) * (r : Int) + (c : Int) + (i : Int))
        (b.winningStreakSize - 1) 1
      refine ⟨n, by omega, ?_⟩
      rw [he]
      apply List.map_congr_left
      intro i _
      push_cast; ring
    · rw [if_neg h2]; exact ⟨0, by omega, rfl⟩
  · rw [if_neg h1]; exact ⟨0, by omega, rfl⟩

theorem vertReads_column (oob : Int → SlotStatus) (b : Board) (slot : SlotStatus) (r c : Nat)
    (hr : r < b.height) :
    ∃ n, r + n < b.height ∧
      b.vertReads oob slot r c
        = (List.range' 1 n).map
            (fun (i : Nat) => (b.width : Int) * ((r + i : Nat) : Int) + (c : Int)) := by
  unfold vertReads
  by_cases h1 : b.cellAt oob ((b.width : Int) * (r : Int) + (c : Int)) = slot
  · rw [if_pos h1]
    by_cases h2 : (r : Int) ≤ (b.height : Int) - (b.winningStreakSize : Int)
    · rw [if_pos h2]
      obtain ⟨n, hn, he⟩ := loopReads_prefix oob b slot
        (fun (i : Nat) => (b.width : Int) * ((r : Int) + (i : Int)) + (c : Int))
        (b.winningStreakSize - 1) 1
      refine ⟨n, by omega, ?_⟩
      rw [he]
      apply List.map_congr_left
      intro i _
      push_cast; ring
    · rw [if_neg h2]; exact ⟨0, by omega, rfl⟩
  · rw [if_neg h1]; exact ⟨0, by omega, rfl⟩

theorem rightDiagReads_diagonal (oob : Int → SlotStatus) (b : Board) (slot : SlotStatus)
    (r c : Nat) (hr : r < b.height) (hc : c < b.width) :
    ∃ n, r + n < b.height ∧ c + n < b.width ∧
      b.rightDiagReads oob slot r c
        = (List.range' 1 n).map
            (fun (i : Nat) => (b.width : Int) * ((r + i : Nat) : Int) + ((c + i : Nat) : Int)) := by
  unfold rightDiagReads
  by_cases h1 : b.cellAt oob ((b.width : Int) * (r : Int) + (c : Int)) = slot
  · rw [if_pos h1]
    by_cases h2 : (r : Int) ≤ (b.height : Int) - (b.winningStreakSize : Int)
    · rw [if_pos h2]
      by_cases h3 : (c : Int) ≤ (b.width : Int) - (b.winningStreakSize : Int)
      · rw [if_pos h3]
        obtain ⟨n, hn, he⟩ := loopReads_prefix oob b slot
          (fun (i : Nat) => (b.width : Int) * ((r : Int) + (i : Int)) + ((c : Int) + (i : Int)))
          (b.winningStreakSize - 1) 1
        refine ⟨n, by omega, by omega, ?_⟩
        rw [he]
        apply List.map_congr_left
        intro i _
        push_cast; ring
      · rw [if_neg h3]; exact ⟨0, by omega, by omega, rfl⟩
    · rw [if_neg h2]; exact ⟨0, by omega, by omega, rfl⟩
  · rw [if_neg h1]; exact ⟨0, by omega, by omega, rfl⟩

theorem leftDiagReads_diagonal (oob : Int → SlotStatus) (b : Board) (slot : SlotStatus)
    (r c : Nat) (hr : r < b.height) :
    ∃ n, r + n < b.height ∧ n ≤ c ∧
      b.leftDiagReads oob slot r c
        = (List.range' 1 n).map
            (fun (i : Nat) => (b.width : Int) * ((r + i : Nat) : Int) + ((c - i : Nat) : Int)) := by
  unfold leftDiagReads
  by_cases h1 : b.cellAt oob ((b.width : Int) * (r : Int) + (c : Int)) = slot
  · rw [if_pos h1]
    by_cases h2 : (r : Int) ≤ (b.height : Int) - (b.winningStreakSize : Int)
    · rw [if_pos h2]
      by_cases h3 : (c : Int) ≥ (b.winningStreakSize : Int) - 1
      · rw [if_pos h3]
        obtain ⟨n, hn, he⟩ := loopReads_prefix oob b slot
          (fun (i : Nat) => (b.width : Int) * ((r : Int) + (i : Int)) + ((c : Int) - (i : Int)))
          (b.winningStreakSize - 1) 1
        refine ⟨n, by omega, by omega, ?_⟩
        rw [he]
        apply List.map_congr_left
        intro i hi
        rw [List.mem_range'_1] at hi
        have hic : i ≤ c := by omega
        push_cast [Nat.cast_sub hic]; ring
      · rw [if_neg h3]; exact ⟨0, by omega, by omega, rfl⟩
    · rw [if_neg h2]; exact ⟨0, by omega, by omega, rfl⟩
  · rw [if_neg h1]; exact ⟨0, by omega, by omega, rfl⟩

theorem cellReads_in_grid (oob : Int → SlotStatus) (b : Board) (slot : SlotStatus) (r c : Nat)
    (hr : r < b.height) (hc : c < b.width) :
    ∀ x ∈ b.cellReads oob slot r c,
      0 ≤ x ∧ x < (b.width : Int) * (b.height : Int) := by
  intro x hx
  unfold cellReads at hx
  rw [List.mem_cons, List.mem_append, List.mem_append, List.mem_append] at hx
  rcases hx with rfl | ((hx | hx) | hx) | hx
  · exact index_in_grid _ _ _ _ hr hc
  · obtain ⟨n, hn, he⟩ := horzReads_row oob b slot r c hc
    rw [he, List.mem_map] at hx
    obtain ⟨i, hi, rfl⟩ := hx
    rw [List.mem_range'_1] at hi
    exact index_in_grid _ _ _ _ hr (by omega)
  · obtain ⟨n, hn, he⟩ := vertReads_column oob b slot r c hr
    rw [he, List.mem_map] at hx
    obtain ⟨i, hi, rfl⟩ := hx
    rw [List.mem_range'_1] at hi
    exact index_in_grid _ _ _ _ (by omega) hc
  · obtain ⟨n, hn1, hn2, he⟩ := rightDiagReads_diagonal oob b slot r c hr hc
    rw [he, List.mem_map] at hx
    obtain ⟨i, hi, rfl⟩ := hx
    rw [List.mem_range'_1] at hi
    exact index_in_grid _ _ _ _ (by omega) (by omega)
  · obtain ⟨n, hn1, hn2, he⟩ := leftDiagReads_diagonal oob b slot r c hr
    rw [he, List.mem_map] at hx
    obtain ⟨i, hi, rfl⟩ := hx
    rw [List.mem_range'_1] at hi
    exact index_in_grid _ _ _ _ (by omega) (by omega)

theorem winnerReads_in_grid (oob : Int → SlotStatus) (b : Board) (player : Player) :
    ∀ x ∈ b.winnerReads oob player,
      0 ≤ x ∧ x < (b.width : Int) * (b.height : Int) := by
  intro x hx
  unfold winnerReads at hx
  by_cases hp : player = Player.None
  · rw [if_pos hp] at hx; exact absurd hx (List.not_mem_nil _)
  · rw [if_neg hp] at hx
    simp only [List.mem_flatten, List.mem_map, List.mem_range] at hx
    obtain ⟨l, ⟨r, hr, rfl⟩, hx⟩ := hx
    simp only [List.mem_flatten, List.mem_map, List.mem_range] at hx
    obtain ⟨l2, ⟨c, hc, rfl⟩, hx⟩ := hx
    exact cellReads_in_grid oob b _ r c hr hc x hx

/-- C39: for every board and every `winningStreakSize` (larger than `width` or `height`
included), every index read by `determineIfPlayerIsWinner` lies in `[0, width*height)`;
and from a cell `(r, c)` of the grid the horizontal check reads the cells `(r, c+1)`, ...,
`(r, c+n)` with `c + n < width` (no wrap into the next row), the vertical check the cells
`(r+i, c)` with `r + n < height`, the right diagonal check the cells `(r+i, c+i)` with
`r + n < height` and `c + n < width`, and the left diagonal check the cells `(r+i, c-i)`
with `r + n < height` and `n ≤ c`, whatever a read outside the array would yield. -/
theorem winner_reads_stay_in_line (oob : Int → SlotStatus) (b : Board)
    (slotStatusToCheck : SlotStatus) (r c : Nat) (hr : r < b.height) (hc : c < b.width) :
    (∀ player, ∀ x ∈ b.winnerReads oob player,
      0 ≤ x ∧ x < (b.width : Int) * (b.height : Int)) ∧
    (∀ x ∈ b.cellReads oob slotStatusToCheck r c,
      0 ≤ x ∧ x < (b.width : Int) * (b.height : Int)) ∧
    (∃ n, c + n < b.width ∧
      b.horzReads oob slotStatusToCheck r c
        = (List.range' 1 n).map
            (fun (i : Nat) => (b.width : Int) * (r : Int) + ((c + i : Nat) : Int))) ∧
    (∃ n, r + n < b.height ∧
      b.vertReads oob slotStatusToCheck r c
        = (List.range' 1 n).map
            (fun (i : Nat) => (b.width : Int) * ((r + i : Nat) : Int) + (c : Int))) ∧
    (∃ n, r + n < b.height ∧ c + n < b.width ∧
      b.rightDiagReads oob slotStatusToCheck r c
        = (List.range' 1 n).map
            (fun (i : Nat) =>
              (b.width : Int) * ((r + i : Nat) : Int) + ((c + i : Nat) : Int))) ∧
    (∃ n, r + n < b.height ∧ n ≤ c ∧
      b.leftDiagReads oob slotStatusToCheck r c
        = (List.range' 1 n).map
            (fun (i : Nat) =>
              (b.width : Int) * ((r + i : Nat) : Int) + ((c - i : Nat) : Int))) :=
  ⟨fun player => winnerReads_in_grid oob b player,
    cellReads_in_grid oob b slotStatusToCheck r c hr hc,
    horzReads_row oob b slotStatusToCheck r c hc,
    vertReads_column oob b slotStatusToCheck r c hr,
    rightDiagReads_diagonal oob b slotStatusToCheck r c hr hc,
    leftDiagReads_diagonal oob b slotStatusToCheck r c hr⟩

/-- C39, instance: the cell at row 5, column 0 of the board `redWonBoard`, where Red holds
the cells 35 to 38: the horizontal check reads the cells 36, 37, 38 and no other check has
room. -/
theorem winner_reads_stay_in_line_witness :
    (5 < redWonBoard.height ∧ 0 < redWonBoard.width) ∧
    redWonBoard.cellReads (fun _ => SlotStatus.Empty) SlotStatus.Red 5 0 = [35, 36, 37, 38] ∧
    (∀ x ∈ redWonBoard.cellReads (fun _ => SlotStatus.Empty) SlotStatus.Red 5 0,
      0 ≤ x ∧ x < (redWonBoard.width : Int) * (redWonBoard.height : Int)) :=
  ⟨⟨by decide, by decide⟩, by decide,
    (winner_reads_stay_in_line (fun _ => SlotStatus.Empty) redWonBoard SlotStatus.Red 5 0
      (by decide) (by decide)).2.1⟩

/-! ### The parallel win detector -/

/-- With 7, 6 and 4 in the members `width`, `height` and `winningStreakSize` of `BoardMp`
the detector finds the run of Red on the cells of `redWonBoard`, as the loops of `Board` do;
with 0 in them the loop nest has no iteration and the flag stays false. -/
theorem determineIfPlayerIsWinner_mp_members :
    (BoardMp.redWonMp 0 0 0).base.board = redWonBoard.board ∧
    redWonBoard.determineIfPlayerIsWinner Player.Red = true ∧
    (BoardMp.redWonMp 7 6 4).determineIfPlayerIsWinner
      (BoardMp.redWonMp 7 6 4).iterations Player.Red = true ∧
    (BoardMp.redWonMp 0 0 0).iterations = [] ∧
    (BoardMp.redWonMp 0 0 0).determineIfPlayerIsWinner
      (BoardMp.redWonMp 0 0 0).iterations Player.Red = false := by
  decide

end Connect4
